import Mathlib

/-!
Buddy page-frame allocator of the microkernel (`kernel/mm/buddy.c`, `kernel/include/mm.h`)

A shallow embedding of the allocator.  Conventions of the embedding:

* `unsigned long` / `size_t` values are natural numbers; wherever the C arithmetic can
  wrap, the model reduces modulo `WORD = 2^64` explicitly.
* A `struct page *` is represented by the page-frame number it points to
  (`pfn_to_page` / `page_to_pfn` are pointer arithmetic on `mem_map`); a pointer that may
  be `NULL` is an `Option Nat`.
* A `struct zone *` is represented by the zone's index in `node_data.zones`.
* The intrusive circular list `free_area.free_list` is represented by the list of the
  PFNs of the descriptors linked on it, in `head->next` order: `list_add` is `cons`,
  `list_first_entry` is the head, `list_del` removes the entry.
* The descriptor table `mem_map` is a total map from PFNs to descriptors.
* Spin locks and `printk` have no effect on the allocator state and are left out.
-/

namespace MiniKernel

/-! ## Constants (`mm.h`, `types.h`) -/

/-- Modulus of `unsigned long` arithmetic. -/
def WORD : Nat := 2 ^ 64

def PAGE_SIZE : Nat := 4096
def PAGE_SHIFT : Nat := 12
def MAX_ORDER : Nat := 11
def MAX_NR_ZONES : Nat := 3

def ZONE_DMA : Nat := 0
def ZONE_NORMAL : Nat := 1
def ZONE_HIGHMEM : Nat := 2

def GFP_KERNEL : Nat := 0x01
def GFP_ATOMIC : Nat := 0x02
def GFP_USER : Nat := 0x04
def GFP_DMA : Nat := 0x08
def GFP_HIGHMEM : Nat := 0x10
def GFP_ZERO : Nat := 0x20
def GFP_NOWAIT : Nat := 0x40

def PG_buddy : Nat := 9

def KERNEL_VIRTUAL_BASE : Nat := 0xFFFF800000000000

/-- Number of page frames whose physical address `pfn << PAGE_SHIFT` fits in 64 bits. -/
def MAX_PFN : Nat := 2 ^ (64 - PAGE_SHIFT)

/-! ## Data model -/

/-- Page descriptor `struct page`.  The list linkage (`lru` / `buddy_list`) is carried by
the free lists.  In the C union `order` occupies the low half of the storage of `mapping`,
so the assignment `mapping = NULL` also clears `order`. -/
structure Page where
  flags : Nat
  refcount : Int
  mapcount : Int
  order : Nat
  index : Nat
  priv : Nat
deriving DecidableEq

/-- Free area `struct free_area`: the PFNs linked on `free_list` and the counter. -/
structure FreeArea where
  free_list : List Nat
  nr_free : Nat
deriving DecidableEq

/-- Memory zone `struct zone` (without its lock). -/
structure Zone where
  zone_start_pfn : Nat
  spanned_pages : Nat
  present_pages : Nat
  managed_pages : Nat
  name : String
  zone_type : Nat
  free_area : Nat → FreeArea
  nr_free_pages : Nat
  nr_alloc : Nat
  nr_free : Nat

/-- Memory node `struct pglist_data`. -/
structure PglistData where
  zones : Nat → Zone
  nr_zones : Nat
  node_start_pfn : Nat
  node_present_pages : Nat
  node_spanned_pages : Nat
  node_id : Nat

/-- The globals of `buddy.c`: the node, the descriptor table, the statistics, and the
bytes of memory addressed by virtual address. -/
structure State where
  node_data : PglistData
  mem_map_present : Bool
  mem_map : Nat → Page
  total_pages : Nat
  free_page_count : Nat
  alloc_count : Nat
  free_count : Nat
  memory : Nat → Nat

/-- Zone `i` of the node: `node_data.zones[i]`. -/
def State.zone (st : State) (i : Nat) : Zone := st.node_data.zones i

/-- Store to `node_data.zones[i]`. -/
def State.setZone (st : State) (i : Nat) (z : Zone) : State :=
  { st with node_data :=
      { st.node_data with zones := fun j => if j = i then z else st.node_data.zones j } }

/-- Store to the descriptor `mem_map[pfn]`. -/
def State.setPage (st : State) (pfn : Nat) (p : Page) : State :=
  { st with mem_map := fun q => if q = pfn then p else st.mem_map q }

/-- Store to `zone->free_area[order]`. -/
def Zone.setArea (z : Zone) (order : Nat) (a : FreeArea) : Zone :=
  { z with free_area := fun j => if j = order then a else z.free_area j }

/-! ## Bit operations and page flags (`mm.h`) -/

def test_bit (nr : Nat) (addr : Nat) : Nat := (addr >>> nr) &&& 1

def set_bit (nr : Nat) (addr : Nat) : Nat := addr ||| (1 <<< nr)

def clear_bit (nr : Nat) (addr : Nat) : Nat := addr &&& (WORD - 1 - (1 <<< nr))

def PageBuddy (p : Page) : Bool := test_bit PG_buddy p.flags != 0

def SetPageBuddy (p : Page) : Page := { p with flags := set_bit PG_buddy p.flags }

def ClearPageBuddy (p : Page) : Page := { p with flags := clear_bit PG_buddy p.flags }

def page_count (p : Page) : Int := p.refcount

/-! ## Address translation (`mm.h`) -/

def page_to_phys (pfn : Nat) : Nat := (pfn <<< PAGE_SHIFT) % WORD

def phys_to_page (phys : Nat) : Nat := phys >>> PAGE_SHIFT

def __pa (x : Nat) : Nat := (x + WORD - KERNEL_VIRTUAL_BASE) % WORD

def __va (x : Nat) : Nat := (x + KERNEL_VIRTUAL_BASE) % WORD

def virt_to_page (addr : Nat) : Nat := phys_to_page (__pa addr)

def page_to_virt (pfn : Nat) : Nat := __va (page_to_phys pfn)

/-- Loop of `memset`: the first `n` bytes from address `s` are set to `(unsigned char)c`. -/
def memset (mem : Nat → Nat) (s : Nat) (c : Nat) : Nat → Nat → Nat
  | 0 => mem
  | n + 1 => fun a => if a = (s + n) % WORD then c % 256 else memset mem s c n a

/-! ## Buddy engine (`buddy.c`) -/

def __find_buddy_pfn (page_pfn : Nat) (order : Nat) : Nat := page_pfn ^^^ (1 <<< order)

def page_is_buddy (_page : Page) (buddy : Page) (order : Nat) : Bool :=
  if !PageBuddy buddy then false
  else if buddy.order != order then false
  else if page_count buddy != 0 then false
  else true

def del_page_from_free_list (st : State) (pfn : Nat) (zone : Nat) (order : Nat) : State :=
  let st1 := st.setPage pfn { ClearPageBuddy (st.mem_map pfn) with order := 0 }
  let z := st1.zone zone
  let a := z.free_area order
  st1.setZone zone
    { z.setArea order
        { free_list := a.free_list.erase pfn, nr_free := (a.nr_free + WORD - 1) % WORD } with
      nr_free_pages := (z.nr_free_pages + WORD - (1 <<< order)) % WORD }

def add_page_to_free_list (st : State) (pfn : Nat) (zone : Nat) (order : Nat) : State :=
  let st1 := st.setPage pfn { SetPageBuddy (st.mem_map pfn) with order := order }
  let z := st1.zone zone
  let a := z.free_area order
  st1.setZone zone
    { z.setArea order
        { free_list := pfn :: a.free_list, nr_free := (a.nr_free + 1) % WORD } with
      nr_free_pages := (z.nr_free_pages + (1 <<< order)) % WORD }

/-- Loop of `expand`: the arguments are the loop variables `high` and `size`. -/
def expand_loop (zone : Nat) (pfn : Nat) (low : Nat) : Nat → Nat → State → State
  | 0, _, st => st
  | high + 1, size, st =>
    if high + 1 > low then
      expand_loop zone pfn low high (size >>> 1)
        (add_page_to_free_list st (pfn + (size >>> 1)) zone high)
    else st

def expand (st : State) (zone : Nat) (pfn : Nat) (low : Nat) (high : Nat) : State :=
  expand_loop zone pfn low high (1 <<< high) st

/-- Loop of `__rmqueue_smallest` over `current_order`; the first argument bounds the
number of iterations left (`MAX_ORDER - current_order`). -/
def rmqueue_loop (zone : Nat) (order : Nat) : Nat → Nat → State → Option Nat × State
  | 0, _, st => (none, st)
  | fuel + 1, current_order, st =>
    if current_order < MAX_ORDER then
      match ((st.zone zone).free_area current_order).free_list with
      | [] => rmqueue_loop zone order fuel (current_order + 1) st
      | pfn :: _ =>
        (some pfn,
          expand (del_page_from_free_list st pfn zone current_order) zone pfn order
            current_order)
    else (none, st)

def __rmqueue_smallest (st : State) (zone : Nat) (order : Nat) : Option Nat × State :=
  rmqueue_loop zone order (MAX_ORDER - order) order st

/-- Loop of `__free_one_page` over `(pfn, order)`; the first argument bounds the number
of iterations left (`MAX_ORDER - 1 - order`). -/
def free_one_loop (zone : Nat) : Nat → Nat → Nat → State → State
  | 0, pfn, order, st => add_page_to_free_list st pfn zone order
  | fuel + 1, pfn, order, st =>
    if order < MAX_ORDER - 1 then
      let buddy_pfn := __find_buddy_pfn pfn order
      if !page_is_buddy (st.mem_map pfn) (st.mem_map buddy_pfn) order then
        add_page_to_free_list st pfn zone order
      else
        free_one_loop zone fuel (if buddy_pfn < pfn then buddy_pfn else pfn) (order + 1)
          (del_page_from_free_list st buddy_pfn zone order)
    else add_page_to_free_list st pfn zone order

def __free_one_page (st : State) (pfn : Nat) (zone : Nat) (order : Nat) : State :=
  free_one_loop zone (MAX_ORDER - 1 - order) pfn order st

/-- Descriptor loop of `prep_new_page`: descriptors `page[0] .. page[n-1]`. -/
def prep_loop (pfn : Nat) : Nat → State → State
  | 0, st => st
  | n + 1, st =>
    (prep_loop pfn n st).setPage (pfn + n)
      { flags := 0, refcount := 1, mapcount := -1, order := 0, index := 0, priv := 0 }

def prep_new_page (st : State) (pfn : Nat) (order : Nat) (gfp_flags : Nat) : State :=
  let nr_pages := (1 <<< order) % WORD
  let st1 := prep_loop pfn nr_pages st
  if gfp_flags &&& GFP_ZERO ≠ 0 then
    { st1 with memory := memset st1.memory (page_to_virt pfn) 0 ((nr_pages * PAGE_SIZE) % WORD) }
  else st1

def zone_name (i : Nat) : String :=
  if i = ZONE_DMA then "DMA"
  else if i = ZONE_NORMAL then "Normal"
  else if i = ZONE_HIGHMEM then "HighMem"
  else "Unknown"

def buddy_init (st : State) : State :=
  { st with node_data :=
      { zones := fun i =>
          if i < MAX_NR_ZONES then
            { zone_start_pfn := 0, spanned_pages := 0, present_pages := 0, managed_pages := 0,
              name := zone_name i, zone_type := i,
              free_area := fun j =>
                if j < MAX_ORDER then { free_list := [], nr_free := 0 }
                else (st.node_data.zones i).free_area j,
              nr_free_pages := 0, nr_alloc := 0, nr_free := 0 }
          else st.node_data.zones i,
        nr_zones := 0, node_start_pfn := 0, node_present_pages := 0,
        node_spanned_pages := 0, node_id := 0 } }

/-- Inner loop of `free_area_init`: the largest order at which `pfn` is aligned and the
block ends inside the range, searched downward from the argument. -/
def seed_order (pfn : Nat) (end_pfn : Nat) : Nat → Nat
  | 0 => 0
  | order + 1 =>
    if pfn &&& ((1 <<< (order + 1)) - 1) ≠ 0 then seed_order pfn end_pfn order
    else if (pfn + (1 <<< (order + 1))) % WORD > end_pfn then seed_order pfn end_pfn order
    else order + 1

/-- Outer loop of `free_area_init` over `pfn`.  The first argument bounds the number of
iterations; `none` means that the bound was reached with the loop still running. -/
def seed_loop (end_pfn : Nat) : Nat → Nat → State → Option State
  | 0, pfn, st => if pfn < end_pfn then none else some st
  | fuel + 1, pfn, st =>
    if pfn < end_pfn then
      let order := seed_order pfn end_pfn (MAX_ORDER - 1)
      let st1 := st.setPage pfn { st.mem_map pfn with flags := 0, refcount := 0, mapcount := -1 }
      let st2 := add_page_to_free_list st1 pfn ZONE_NORMAL order
      let st3 := { st2 with
        total_pages := (st2.total_pages + (1 <<< order)) % WORD,
        free_page_count := (st2.free_page_count + (1 <<< order)) % WORD }
      seed_loop end_pfn fuel ((pfn + (1 <<< order)) % WORD) st3
    else some st

/-- Seeding `free_area_init(start_pfn, end_pfn)`.  Every iteration of the outer loop
advances `pfn` by at least one frame, so `nr_pages` iterations are enough unless `pfn`
wraps around. -/
def free_area_init (st : State) (start_pfn : Nat) (end_pfn : Nat) : Option State :=
  let nr_pages := (end_pfn + WORD - start_pfn) % WORD
  if nr_pages = 0 then some st
  else if !st.mem_map_present then some st
  else
    let z := st.zone ZONE_NORMAL
    let z1 := { z with
      zone_start_pfn :=
        if z.zone_start_pfn = 0 ∨ start_pfn < z.zone_start_pfn then start_pfn
        else z.zone_start_pfn,
      spanned_pages := (z.spanned_pages + nr_pages) % WORD,
      present_pages := (z.present_pages + nr_pages) % WORD,
      managed_pages := (z.managed_pages + nr_pages) % WORD }
    let st1 := st.setZone ZONE_NORMAL z1
    let nd := st1.node_data
    let st2 := { st1 with node_data := { nd with
      node_start_pfn :=
        if nd.node_start_pfn = 0 ∨ start_pfn < nd.node_start_pfn then start_pfn
        else nd.node_start_pfn,
      node_spanned_pages := (nd.node_spanned_pages + nr_pages) % WORD,
      node_present_pages := (nd.node_present_pages + nr_pages) % WORD,
      nr_zones := ZONE_NORMAL + 1 } }
    seed_loop end_pfn nr_pages start_pfn st2

/-- Zone loop of `alloc_pages`: the argument `n` is `i + 1` for the loop variable `i`,
which runs from `zone_type` down to `0`. -/
def alloc_zones (order : Nat) : Nat → State → Option Nat × State
  | 0, st => (none, st)
  | i + 1, st =>
    if (st.zone i).nr_free_pages < (1 <<< order) then alloc_zones order i st
    else
      match __rmqueue_smallest st i order with
      | (some pfn, st1) =>
        let z := st1.zone i
        let st2 := st1.setZone i { z with nr_alloc := (z.nr_alloc + 1) % WORD }
        (some pfn, { st2 with
          alloc_count := (st2.alloc_count + 1) % WORD,
          free_page_count := (st2.free_page_count + WORD - (1 <<< order)) % WORD })
      | (none, st1) => alloc_zones order i st1

/-- Starting zone selected by the GFP flags in `alloc_pages`. -/
def gfp_zone (gfp_mask : Nat) : Nat :=
  if gfp_mask &&& GFP_DMA ≠ 0 then ZONE_DMA
  else if gfp_mask &&& GFP_HIGHMEM ≠ 0 then ZONE_HIGHMEM
  else ZONE_NORMAL

def alloc_pages (st : State) (gfp_mask : Nat) (order : Nat) : Option Nat × State :=
  if order ≥ MAX_ORDER then (none, st)
  else
    match alloc_zones order (gfp_zone gfp_mask + 1) st with
    | (some pfn, st1) => (some pfn, prep_new_page st1 pfn order gfp_mask)
    | (none, st1) => (none, st1)

def free_pages (st : State) (page : Option Nat) (order : Nat) : State :=
  match page with
  | none => st
  | some pfn =>
    if order ≥ MAX_ORDER then st
    else
      let st1 := st.setPage pfn { st.mem_map pfn with refcount := 0 }
      let st2 := __free_one_page st1 pfn ZONE_NORMAL order
      let z := st2.zone ZONE_NORMAL
      let st3 := st2.setZone ZONE_NORMAL { z with nr_free := (z.nr_free + 1) % WORD }
      { st3 with
        free_count := (st3.free_count + 1) % WORD,
        free_page_count := (st3.free_page_count + (1 <<< order)) % WORD }

def nr_free_pages (st : State) : Nat := st.free_page_count

/-! ## Byte allocator (`buddy.c`) -/

/-- `ALIGN_UP(x, align)` of `types.h` on `unsigned long`. -/
def ALIGN_UP (x : Nat) (align : Nat) : Nat :=
  ((x + align + WORD - 1) % WORD) &&& (WORD - 1 - ((align + WORD - 1) % WORD))

/-- Order loop of `kmalloc`; the first argument bounds the number of iterations. -/
def kmalloc_order (size : Nat) : Nat → Nat → Nat
  | 0, order => order
  | fuel + 1, order =>
    if (PAGE_SIZE <<< order) % WORD < size ∧ order < MAX_ORDER then
      kmalloc_order size fuel (order + 1)
    else order

/-- Byte allocation `kmalloc(size, flags)`; the result is the returned address, `0` for `NULL`. -/
def kmalloc (st : State) (size : Nat) (flags : Nat) : Nat × State :=
  if size = 0 then (0, st)
  else
    let size1 := ALIGN_UP size PAGE_SIZE
    let order := kmalloc_order size1 MAX_ORDER 0
    if order ≥ MAX_ORDER then (0, st)
    else
      match alloc_pages st flags order with
      | (none, st1) => (0, st1)
      | (some pfn, st1) => (page_to_virt pfn, st1)

/-! ## Histories of allocator calls -/

def zero_page : Page :=
  { flags := 0, refcount := 0, mapcount := 0, order := 0, index := 0, priv := 0 }

def zero_zone : Zone :=
  { zone_start_pfn := 0, spanned_pages := 0, present_pages := 0, managed_pages := 0,
    name := "", zone_type := 0, free_area := fun _ => { free_list := [], nr_free := 0 },
    nr_free_pages := 0, nr_alloc := 0, nr_free := 0 }

/-- The globals at program start: everything is zero, and `mem_map` points to a
zero-initialised descriptor table. -/
def boot : State :=
  { node_data :=
      { zones := fun _ => zero_zone, nr_zones := 0, node_start_pfn := 0,
        node_present_pages := 0, node_spanned_pages := 0, node_id := 0 },
    mem_map_present := true, mem_map := fun _ => zero_page,
    total_pages := 0, free_page_count := 0, alloc_count := 0, free_count := 0,
    memory := fun _ => 0 }

/-- A block of `2 ^ order` frames starting at frame `pfn`. -/
structure Block where
  pfn : Nat
  order : Nat
deriving DecidableEq

/-- A call of the public interface. -/
inductive Op where
  | seed (start_pfn : Nat) (end_pfn : Nat)
  | alloc (gfp_mask : Nat) (order : Nat)
  | free (pfn : Nat) (order : Nat)
deriving DecidableEq

/-- The allocator state together with the bookkeeping of a history: the blocks that
are currently allocated, and the ranges `(start, end)` seeded so far. -/
structure Sys where
  st : State
  live : List Block
  seeded : List (Nat × Nat)

/-- State after `buddy_init` at boot. -/
def Sys.init : Sys := { st := buddy_init boot, live := [], seeded := [] }

/-- One call of a history.  A seeding call must pass a range of page frames
(`start ≤ end ≤ MAX_PFN`) disjoint from the ranges seeded before and must return; a
release must pass a currently allocated block together with the order it was allocated
at.  Other calls are not part of a history (`none`). -/
def Sys.step (s : Sys) : Op → Option Sys
  | .seed a b =>
    if a ≤ b ∧ b ≤ MAX_PFN ∧ ∀ r ∈ s.seeded, b ≤ r.1 ∨ r.2 ≤ a then
      match free_area_init s.st a b with
      | some st1 => some { st := st1, live := s.live, seeded := (a, b) :: s.seeded }
      | none => none
    else none
  | .alloc gfp_mask order =>
    match alloc_pages s.st gfp_mask order with
    | (some pfn, st1) => some { st := st1, live := ⟨pfn, order⟩ :: s.live, seeded := s.seeded }
    | (none, st1) => some { st := st1, live := s.live, seeded := s.seeded }
  | .free pfn order =>
    if (⟨pfn, order⟩ : Block) ∈ s.live then
      some { st := free_pages s.st (some pfn) order, live := s.live.erase ⟨pfn, order⟩,
             seeded := s.seeded }
    else none

/-- A history: the calls are made one after the other. -/
def Sys.run : Sys → List Op → Option Sys
  | s, [] => some s
  | s, op :: ops =>
    match s.step op with
    | some s1 => s1.run ops
    | none => none

/-- The state at the end of a history from boot (the boot state if a call of the
history is not admissible). -/
def Sys.runD (ops : List Op) : Sys := (Sys.init.run ops).getD Sys.init

/-- A sequence of calls `alloc_pages(gfp, order)`, one per entry of the list of flags:
the returned descriptors in call order, and the final state. -/
def alloc_many (order : Nat) : State → List Nat → List (Option Nat) × State
  | st, [] => ([], st)
  | st, g :: gs =>
    ((alloc_pages st g order).1 :: (alloc_many order (alloc_pages st g order).2 gs).1,
      (alloc_many order (alloc_pages st g order).2 gs).2)

/-- A sequence of calls `free_pages(page, order)`, one per entry of the list. -/
def free_many (order : Nat) : State → List (Option Nat) → State
  | st, [] => st
  | st, p :: ps => free_many order (free_pages st p order) ps

/-- States reached by a history that starts with `buddy_init` at boot. -/
def Reachable (s : Sys) : Prop := ∃ ops, Sys.init.run ops = some s

/-! ## Blocks and frames -/

/-- Frame `f` lies in the block `b`. -/
def inBlock (f : Nat) (b : Block) : Prop := b.pfn ≤ f ∧ f < b.pfn + 2 ^ b.order

/-- The free list of order `o` of the Normal zone. -/
def State.flist (st : State) (o : Nat) : List Nat :=
  ((st.zone ZONE_NORMAL).free_area o).free_list

/-- Block `b` is linked on the free list of its order in the Normal zone. -/
def State.isFree (st : State) (b : Block) : Prop :=
  b.order < MAX_ORDER ∧ b.pfn ∈ st.flist b.order

/-- Block `b` is a free block or an allocated block. -/
def Sys.isBlock (s : Sys) (b : Block) : Prop := s.st.isFree b ∨ b ∈ s.live

/-- Frame `f` lies in a seeded range. -/
def Sys.isSeeded (s : Sys) (f : Nat) : Prop := ∃ r ∈ s.seeded, r.1 ≤ f ∧ f < r.2

/-- Number of frames in the free blocks of the Normal zone. -/
def State.freeSum (st : State) : Nat :=
  ∑ o ∈ Finset.range MAX_ORDER, (st.flist o).length * 2 ^ o

/-- Number of frames in the blocks linked on the free lists of a zone. -/
def Zone.frames (z : Zone) : Nat :=
  ∑ o ∈ Finset.range MAX_ORDER, (z.free_area o).free_list.length * 2 ^ o

/-- Number of frames in a list of blocks. -/
def blockSum (l : List Block) : Nat := (l.map fun b => 2 ^ b.order).sum

/-- Number of frames in a list of ranges. -/
def rangeSum (l : List (Nat × Nat)) : Nat := (l.map fun r => r.2 - r.1).sum

/-- Structural invariant of the allocator along a history. -/
structure Inv (s : Sys) : Prop where
  present : s.st.mem_map_present = true
  others : ∀ zi, zi < MAX_NR_ZONES → zi ≠ ZONE_NORMAL →
    (s.st.zone zi).nr_free_pages = 0 ∧
      ∀ o, o < MAX_ORDER → ((s.st.zone zi).free_area o).free_list = []
  nodup : ∀ o, o < MAX_ORDER → (s.st.flist o).Nodup
  live_nodup : s.live.Nodup
  excl : ∀ b, b ∈ s.live → ¬ s.st.isFree b
  wf : ∀ b, s.isBlock b → b.order < MAX_ORDER ∧ 2 ^ b.order ∣ b.pfn
  uniq : ∀ f b b', s.isBlock b → s.isBlock b' → inBlock f b → inBlock f b' → b = b'
  cover : ∀ f, s.isSeeded f ↔ ∃ b, s.isBlock b ∧ inBlock f b
  seeded_ok : ∀ r, r ∈ s.seeded → r.1 ≤ r.2 ∧ r.2 ≤ MAX_PFN
  seeded_disj : s.seeded.Pairwise fun r r' => r.2 ≤ r'.1 ∨ r'.2 ≤ r.1
  flags : ∀ q, PageBuddy (s.st.mem_map q) = true ↔ ∃ o, s.st.isFree ⟨q, o⟩
  order : ∀ q o, s.st.isFree ⟨q, o⟩ → (s.st.mem_map q).order = o
  count_area : ∀ o, o < MAX_ORDER →
    ((s.st.zone ZONE_NORMAL).free_area o).nr_free = (s.st.flist o).length
  count_zone : (s.st.zone ZONE_NORMAL).nr_free_pages = s.st.freeSum
  count_total : s.st.freeSum + blockSum s.live = rangeSum s.seeded
  total_ok : rangeSum s.seeded ≤ MAX_PFN

/-- Invariant between two calls: the structural invariant, and the global statistics
agree with the free lists and the seeded ranges. -/
def Good (s : Sys) : Prop :=
  Inv s ∧ s.st.free_page_count = s.st.freeSum ∧ s.st.total_pages = rangeSum s.seeded

/-- Coalescing closure up to mergeability: no free list of an order below
`MAX_ORDER - 1` holds two buddies whose head descriptors both have reference count `0`. -/
def MergeClosed (st : State) : Prop :=
  ∀ p o, o + 1 < MAX_ORDER → st.isFree ⟨p, o⟩ → st.isFree ⟨__find_buddy_pfn p o, o⟩ →
    (st.mem_map p).refcount ≠ 0 ∨ (st.mem_map (__find_buddy_pfn p o)).refcount ≠ 0

/-- Only heads of allocated order-0 blocks have a non-zero reference count. -/
def NoStaleRef (s : Sys) : Prop :=
  ∀ q, (s.st.mem_map q).refcount ≠ 0 → (⟨q, 0⟩ : Block) ∈ s.live

/-- The macro `pfn_to_page(pfn)`, that is `mem_map + pfn`.  A descriptor pointer is
represented by the index of the descriptor in `mem_map`. -/
def pfn_to_page (pfn : Nat) : Nat := pfn

/-- The macro `page_to_pfn(page)`, that is `page - mem_map`. -/
def page_to_pfn (page : Nat) : Nat := page

/-- Page allocation by address `__get_free_pages(gfp_mask, order)`; `0` when `alloc_pages`
returns `NULL`. -/
def __get_free_pages (st : State) (gfp_mask : Nat) (order : Nat) : Nat × State :=
  match alloc_pages st gfp_mask order with
  | (none, st1) => (0, st1)
  | (some pfn, st1) => (page_to_virt pfn, st1)

def get_zeroed_page (st : State) (gfp_mask : Nat) : Nat × State :=
  __get_free_pages st (gfp_mask ||| GFP_ZERO) 0

def free_pages_virt (st : State) (addr : Nat) (order : Nat) : State :=
  if addr = 0 then st
  else free_pages st (some (virt_to_page addr)) order

/-! ## Byte allocator wrappers (`buddy.c`) -/

/-- Byte release `kfree(ptr)`: the descriptor found from the address is released at
order `0`. -/
def kfree (st : State) (ptr : Nat) : State :=
  if ptr = 0 then st
  else free_pages st (some (virt_to_page ptr)) 0

def kzalloc (st : State) (size : Nat) (flags : Nat) : Nat × State :=
  kmalloc st size (flags ||| GFP_ZERO)

/-- Array allocation `kcalloc(n, size, flags)`; the product is a `size_t`. -/
def kcalloc (st : State) (n : Nat) (size : Nat) (flags : Nat) : Nat × State :=
  kzalloc st ((n * size) % WORD) flags

/-! ## Statistics (`buddy.c`) -/

/-- The record `struct sysinfo` of `mm.h`. -/
structure Sysinfo where
  uptime : Int
  loads : Nat → Nat
  totalram : Nat
  freeram : Nat
  sharedram : Nat
  bufferram : Nat
  totalswap : Nat
  freeswap : Nat
  procs : Nat
  pad : Nat
  totalhigh : Nat
  freehigh : Nat
  mem_unit : Nat

/-- Memory statistics `si_meminfo(info)`: the record after the call. -/
def si_meminfo (st : State) (info : Sysinfo) : Sysinfo :=
  { info with
    totalram := st.total_pages, freeram := st.free_page_count, sharedram := 0,
    bufferram := 0, totalhigh := 0, freehigh := 0, mem_unit := PAGE_SIZE % 2 ^ 32 }

/-! ## Traces of lock operations and data accesses

Every call is given the sequence of its lock operations and of its accesses to the
allocator data, in program order.  One event stands for the accesses that one statement
of the source makes to one object.  The list node `buddy_list` of a block is a field of
its descriptor, so `list_add` and `list_del` also write into the descriptors of the list
neighbours of the entry. -/

/-- A lock operation or an access to allocator data. -/
inductive Ev where
  /-- The call `local_irq_save()` inside `spin_lock_irqsave`. -/
  | irq_save
  /-- The call `spin_lock(&buddy_lock)` inside `spin_lock_irqsave`. -/
  | spin_lock
  /-- The call `spin_unlock(&buddy_lock)` inside `spin_unlock_irqrestore`. -/
  | spin_unlock
  /-- The call `local_irq_restore(flags)` inside `spin_unlock_irqrestore`. -/
  | irq_restore
  /-- A read or write of a field of the descriptor `mem_map[pfn]`. -/
  | desc (pfn : Nat)
  /-- A read or write of `zones[zone].free_area[order]`: its list or its `nr_free`. -/
  | area (zone : Nat) (order : Nat)
  /-- A read or write of a counter of `zones[zone]`. -/
  | zstat (zone : Nat)
  /-- A read or write of a global statistics counter. -/
  | stat
  /-- A `memset` of `len` bytes from address `addr`. -/
  | mem (addr : Nat) (len : Nat)
deriving DecidableEq

/-- The entry that follows the entry `x` on a list (`entry->next`); `none` when the list
head follows it. -/
def list_next (x : Nat) : List Nat → Option Nat
  | [] => none
  | a :: l => if a = x then l.head? else list_next x l

/-- The entry that precedes the entry `x` on a list (`entry->prev`); `none` when the list
head precedes it. -/
def list_prev (x : Nat) : List Nat → Option Nat
  | [] => none
  | a :: l => if a = x then none else if l.head? = some x then some a else list_prev x l

/-- Accesses of `list_del(&page->buddy_list)` outside the descriptor of the entry itself:
`__list_del` writes `next->prev`, then `prev->next`; each of the two neighbours is the
descriptor of a list entry or the list head inside the free area. -/
def list_del_trace (l : List Nat) (pfn : Nat) (zone : Nat) (order : Nat) : List Ev :=
  match list_next pfn l, list_prev pfn l with
  | none, none => [.area zone order]
  | none, some p => [.area zone order, .desc p]
  | some n, none => [.desc n, .area zone order]
  | some n, some p => [.desc n, .desc p]

/-- Accesses of `list_add(&page->buddy_list, &area->free_list)` outside the descriptor of
the new entry: `head->next` is read and written in the free area, and `__list_add` writes
`next->prev` inside the descriptor of the former first entry, if there is one. -/
def list_add_trace (l : List Nat) (zone : Nat) (order : Nat) : List Ev :=
  match l.head? with
  | none => [.area zone order]
  | some f => [.area zone order, .desc f]

/-- Accesses of `del_page_from_free_list` called in state `st`, statement by statement;
the accesses of `list_del` to the links of the entry itself are inside the descriptor
`pfn`, which the next two statements access too. -/
def del_page_from_free_list_trace (st : State) (pfn : Nat) (zone : Nat) (order : Nat) :
    List Ev :=
  list_del_trace ((st.zone zone).free_area order).free_list pfn zone order ++
    [.desc pfn, .desc pfn, .area zone order, .zstat zone]

/-- Accesses of `add_page_to_free_list` called in state `st`, statement by statement;
the accesses of `list_add` to the links of the entry itself are inside the descriptor
`pfn`, which the next two statements access too. -/
def add_page_to_free_list_trace (st : State) (pfn : Nat) (zone : Nat) (order : Nat) :
    List Ev :=
  list_add_trace ((st.zone zone).free_area order).free_list zone order ++
    [.desc pfn, .desc pfn, .area zone order, .zstat zone]

/-- Accesses of the loop of `expand`; arguments as for `expand_loop`. -/
def expand_trace (zone : Nat) (pfn : Nat) (low : Nat) : Nat → Nat → State → List Ev
  | 0, _, _ => []
  | high + 1, size, st =>
    if high + 1 > low then
      add_page_to_free_list_trace st (pfn + (size >>> 1)) zone high ++
        expand_trace zone pfn low high (size >>> 1)
          (add_page_to_free_list st (pfn + (size >>> 1)) zone high)
    else []

/-- Accesses of `__rmqueue_smallest`; arguments as for `rmqueue_loop`.  Every iteration
tests `list_empty`; the iteration that finds a block reads the first entry, unlinks it and
splits it. -/
def rmqueue_trace (zone : Nat) (order : Nat) : Nat → Nat → State → List Ev
  | 0, _, _ => []
  | fuel + 1, current_order, st =>
    if current_order < MAX_ORDER then
      .area zone current_order ::
        match ((st.zone zone).free_area current_order).free_list with
        | [] => rmqueue_trace zone order fuel (current_order + 1) st
        | pfn :: _ =>
          .area zone current_order ::
            (del_page_from_free_list_trace st pfn zone current_order ++
              expand_trace zone pfn order current_order (1 <<< current_order)
                (del_page_from_free_list st pfn zone current_order))
    else []

/-- Accesses of the zone loop of `alloc_pages`; arguments as for `alloc_zones`. -/
def alloc_zones_trace (order : Nat) : Nat → State → List Ev
  | 0, _ => []
  | i + 1, st =>
    .zstat i ::
      if (st.zone i).nr_free_pages < (1 <<< order) then alloc_zones_trace order i st
      else
        rmqueue_trace i order (MAX_ORDER - order) order st ++
          match __rmqueue_smallest st i order with
          | (some _, _) => [.zstat i, .stat, .stat]
          | (none, st1) => alloc_zones_trace order i st1

/-- Accesses of the descriptor loop of `prep_new_page`. -/
def prep_trace (pfn : Nat) : Nat → List Ev
  | 0 => []
  | n + 1 => prep_trace pfn n ++ [.desc (pfn + n)]

/-- Accesses of `prep_new_page`. -/
def prep_new_page_trace (pfn : Nat) (order : Nat) (gfp_flags : Nat) : List Ev :=
  let nr_pages := (1 <<< order) % WORD
  prep_trace pfn nr_pages ++
    if gfp_flags &&& GFP_ZERO ≠ 0 then [.mem (page_to_virt pfn) ((nr_pages * PAGE_SIZE) % WORD)]
    else []

/-- Lock operations and accesses of `alloc_pages(gfp_mask, order)` called in state `st`. -/
def alloc_pages_trace (st : State) (gfp_mask : Nat) (order : Nat) : List Ev :=
  if order ≥ MAX_ORDER then []
  else
    [.irq_save, .spin_lock] ++ alloc_zones_trace order (gfp_zone gfp_mask + 1) st ++
      [.spin_unlock, .irq_restore] ++
      match (alloc_zones order (gfp_zone gfp_mask + 1) st).1 with
      | some pfn => prep_new_page_trace pfn order gfp_mask
      | none => []

/-- Accesses of `__free_one_page`; arguments as for `free_one_loop`.  Every iteration
reads the descriptor of the buddy in `page_is_buddy`. -/
def free_one_trace (zone : Nat) : Nat → Nat → Nat → State → List Ev
  | 0, pfn, order, st => add_page_to_free_list_trace st pfn zone order
  | fuel + 1, pfn, order, st =>
    if order < MAX_ORDER - 1 then
      let buddy_pfn := __find_buddy_pfn pfn order
      .desc buddy_pfn ::
        if !page_is_buddy (st.mem_map pfn) (st.mem_map buddy_pfn) order then
          add_page_to_free_list_trace st pfn zone order
        else
          del_page_from_free_list_trace st buddy_pfn zone order ++
            free_one_trace zone fuel (if buddy_pfn < pfn then buddy_pfn else pfn) (order + 1)
              (del_page_from_free_list st buddy_pfn zone order)
    else add_page_to_free_list_trace st pfn zone order

/-- Lock operations and accesses of `free_pages(page, order)` called in state `st`. -/
def free_pages_trace (st : State) (page : Option Nat) (order : Nat) : List Ev :=
  match page with
  | none => []
  | some pfn =>
    if order ≥ MAX_ORDER then []
    else
      [.irq_save, .spin_lock, .desc pfn] ++
        free_one_trace ZONE_NORMAL (MAX_ORDER - 1 - order) pfn order
          (st.setPage pfn { st.mem_map pfn with refcount := 0 }) ++
        [.zstat ZONE_NORMAL, .stat, .stat, .spin_unlock, .irq_restore]

/-- Lock operations and accesses of `kmalloc(size, flags)`. -/
def kmalloc_trace (st : State) (size : Nat) (flags : Nat) : List Ev :=
  if size = 0 then []
  else
    let size1 := ALIGN_UP size PAGE_SIZE
    let order := kmalloc_order size1 MAX_ORDER 0
    if order ≥ MAX_ORDER then []
    else alloc_pages_trace st flags order

/-- Lock operations and accesses of `kfree(ptr)`. -/
def kfree_trace (st : State) (ptr : Nat) : List Ev :=
  if ptr = 0 then []
  else free_pages_trace st (some (virt_to_page ptr)) 0

/-- The event is an access to allocator data (not a lock operation). -/
def Ev.isAccess : Ev → Bool
  | .irq_save => false
  | .spin_lock => false
  | .spin_unlock => false
  | .irq_restore => false
  | _ => true

/-- The accesses of a trace that are made while interrupts are not disabled or the
allocator lock is not held.  The two flags say whether interrupts are disabled and
whether the lock is held before the first event. -/
def unguarded : Bool → Bool → List Ev → List Ev
  | _, _, [] => []
  | _, l, .irq_save :: t => unguarded true l t
  | _, l, .irq_restore :: t => unguarded false l t
  | i, _, .spin_lock :: t => unguarded i true t
  | i, _, .spin_unlock :: t => unguarded i false t
  | i, l, e :: t => if i && l then unguarded i l t else e :: unguarded i l t

/-! ## Further properties along a history -/

/-- The zones other than Normal are as `buddy_init` left them. -/
def OtherZones (st : State) : Prop :=
  ∀ zi, zi ≠ ZONE_NORMAL → st.zone zi = (buddy_init boot).zone zi

/-- Every frame of an allocated block has reference count `1`. -/
def LiveOne (s : Sys) : Prop :=
  ∀ b f, b ∈ s.live → inBlock f b → (s.st.mem_map f).refcount = 1

/-! ## Reallocation (`buddy.c`, `mm.h`) -/

/-- Loop of `memcpy`: the first `n` bytes are copied one after the other, from the
lowest address upward. -/
def memcpy (mem : Nat → Nat) (dest : Nat) (src : Nat) : Nat → Nat → Nat
  | 0 => mem
  | n + 1 => fun a =>
    if a = (dest + n) % WORD then memcpy mem dest src n ((src + n) % WORD)
    else memcpy mem dest src n a

/-- Reallocation `krealloc(ptr, new_size, flags)`; the result is the returned address. -/
def krealloc (st : State) (ptr : Nat) (new_size : Nat) (flags : Nat) : Nat × State :=
  if ptr = 0 then kmalloc st new_size flags
  else if new_size = 0 then (0, kfree st ptr)
  else
    match kmalloc st new_size flags with
    | (new_ptr, st1) =>
      if new_ptr = 0 then (0, st1)
      else
        (new_ptr, kfree { st1 with memory := memcpy st1.memory new_ptr ptr PAGE_SIZE } ptr)

/-! ## Arbitrary sequences of calls -/

/-- A call of an entry point of the allocator, with any arguments. -/
inductive Call where
  | free_area_init (start_pfn : Nat) (end_pfn : Nat)
  | alloc_pages (gfp_mask : Nat) (order : Nat)
  | free_pages (page : Option Nat) (order : Nat)
  | get_free_pages (gfp_mask : Nat) (order : Nat)
  | get_zeroed_page (gfp_mask : Nat)
  | free_pages_virt (addr : Nat) (order : Nat)
  | kmalloc (size : Nat) (flags : Nat)
  | kfree (ptr : Nat)
  | kzalloc (size : Nat) (flags : Nat)
  | kcalloc (n : Nat) (size : Nat) (flags : Nat)
  | krealloc (ptr : Nat) (new_size : Nat) (flags : Nat)

/-- The state after a call; `none` when the call does not return. -/
def State.call (st : State) : Call → Option State
  | .free_area_init a b => MiniKernel.free_area_init st a b
  | .alloc_pages g o => some (MiniKernel.alloc_pages st g o).2
  | .free_pages p o => some (MiniKernel.free_pages st p o)
  | .get_free_pages g o => some (__get_free_pages st g o).2
  | .get_zeroed_page g => some (MiniKernel.get_zeroed_page st g).2
  | .free_pages_virt a o => some (MiniKernel.free_pages_virt st a o)
  | .kmalloc n g => some (MiniKernel.kmalloc st n g).2
  | .kfree p => some (MiniKernel.kfree st p)
  | .kzalloc n g => some (MiniKernel.kzalloc st n g).2
  | .kcalloc n m g => some (MiniKernel.kcalloc st n m g).2
  | .krealloc p n g => some (MiniKernel.krealloc st p n g).2

/-- The state after a sequence of calls. -/
def State.calls : State → List Call → Option State
  | st, [] => some st
  | st, c :: cs =>
    match st.call c with
    | some st1 => st1.calls cs
    | none => none

/-! ## The buddy chain of a release -/

/-- The buddy `b` is mergeable at order `j` in state `st`: its free flag is set, its
recorded order is `j` and its reference count is `0`. -/
def mergeable (st : State) (b : Nat) (j : Nat) : Bool :=
  PageBuddy (st.mem_map b) && decide ((st.mem_map b).order = j) &&
    decide ((st.mem_map b).refcount = 0)

/-- Head `h_(o+n)` of the chain that starts with the block `h` of order `o`: the next
head is the lower of the head and its buddy. -/
def chain_head (h : Nat) (o : Nat) : Nat → Nat
  | 0 => h
  | n + 1 => min (chain_head h o n) (chain_head h o n ^^^ 2 ^ (o + n))

/-- Number of merges of the chain from its `n`-th head on, added to `n`: the chain goes
on while the order is below `MAX_ORDER - 1` and the buddy of the head is mergeable.  The
first argument bounds the number of steps. -/
def chain_len (st : State) (h : Nat) (o : Nat) : Nat → Nat → Nat
  | 0, n => n
  | fuel + 1, n =>
    if o + n < MAX_ORDER - 1 ∧ mergeable st (chain_head h o n ^^^ 2 ^ (o + n)) (o + n) = true
    then chain_len st h o fuel (n + 1)
    else n

/-! ## The greedy decomposition of a range -/

/-- The largest order `o ≤ n` such that `p` is a multiple of `2^o` and `p + 2^o ≤ e`
(order `0` if there is none). -/
def greedy_order (p : Nat) (e : Nat) : Nat → Nat
  | 0 => 0
  | n + 1 => if 2 ^ (n + 1) ∣ p ∧ p + 2 ^ (n + 1) ≤ e then n + 1 else greedy_order p e n

/-- The blocks of the greedy decomposition of `[p, e)`, lowest first: each block has the
largest order up to `MAX_ORDER - 1` that is aligned and fits, and the next block starts
where it ends.  The first argument bounds the number of blocks. -/
def greedy_blocks (e : Nat) : Nat → Nat → List Block
  | 0, _ => []
  | fuel + 1, p =>
    if p < e then
      ⟨p, greedy_order p e (MAX_ORDER - 1)⟩ ::
        greedy_blocks e fuel (p + 2 ^ greedy_order p e (MAX_ORDER - 1))
    else []

/-- The blocks tile `[p, e)`: the first starts at `p`, each next one starts where the
previous one ends, and the last ends at `e`. -/
def tiles : Nat → List Block → Nat → Prop
  | p, [], e => p = e
  | p, b :: t, e => b.pfn = p ∧ tiles (p + 2 ^ b.order) t e

/-- Heads of the blocks of order `o` in the greedy decomposition of `[a, b)`, highest
first (the order in which `list_add` leaves them on a free list). -/
def seeded_heads (a : Nat) (b : Nat) (o : Nat) : List Nat :=
  (((greedy_blocks b (b - a) a).filter (fun x => decide (x.order = o))).map
    (fun x => x.pfn)).reverse

theorem xor_pow_of_dvd_succ (q o : Nat) (h : 2 ^ (o + 1) ∣ q) : q ^^^ 2 ^ o = q + 2 ^ o := by
  obtain ⟨n, rfl⟩ := h
  have hlt : 2 ^ o < 2 ^ (o + 1) := Nat.pow_lt_pow_right (by decide) (Nat.lt_succ_self o)
  rw [Nat.mul_add_lt_is_or hlt n]
  apply Nat.eq_of_testBit_eq
  intro i
  rw [Nat.testBit_xor, Nat.testBit_or, Nat.testBit_two_pow]
  by_cases hi : o = i
  · subst hi
    have : (2 ^ (o + 1) * n).testBit o = false := by
      rw [Nat.testBit_mul_pow_two]
      simp
    simp [this]
  · simp [hi]

theorem buddy_cases (p o : Nat) (h : 2 ^ o ∣ p) :
    (2 ^ (o + 1) ∣ p ∧ p ^^^ 2 ^ o = p + 2 ^ o) ∨
    (2 ^ (o + 1) ∣ (p ^^^ 2 ^ o) ∧ p = (p ^^^ 2 ^ o) + 2 ^ o) := by
  obtain ⟨m, rfl⟩ := h
  rcases Nat.even_or_odd' m with ⟨n, hn | hn⟩
  · left
    have hd : 2 ^ (o + 1) ∣ 2 ^ o * m := ⟨n, by rw [hn, pow_succ]; ring⟩
    exact ⟨hd, xor_pow_of_dvd_succ _ _ hd⟩
  · right
    have hq : 2 ^ (o + 1) ∣ 2 ^ (o + 1) * n := ⟨n, rfl⟩
    have e : 2 ^ o * m = 2 ^ (o + 1) * n + 2 ^ o := by rw [hn, pow_succ]; ring
    have hx := xor_pow_of_dvd_succ _ _ hq
    have e2 : (2 ^ o * m) ^^^ 2 ^ o = 2 ^ (o + 1) * n := by
      rw [e, ← hx, Nat.xor_cancel_right]
    rw [e2]
    exact ⟨hq, e⟩

/-! ### Bits and flags -/

theorem test_bit_ne_zero (nr a : Nat) : (test_bit nr a != 0) = a.testBit nr := by
  unfold test_bit Nat.testBit
  rw [Nat.and_comm]

theorem PageBuddy_eq (p : Page) : PageBuddy p = p.flags.testBit 9 := by
  unfold PageBuddy
  rw [test_bit_ne_zero]; rfl

theorem PageBuddy_set (p : Page) (o : Nat) :
    PageBuddy { SetPageBuddy p with order := o } = true := by
  rw [PageBuddy_eq]
  show (set_bit PG_buddy p.flags).testBit 9 = true
  unfold set_bit PG_buddy
  rw [Nat.testBit_or, Nat.one_shiftLeft, Nat.testBit_two_pow_self]
  simp

theorem PageBuddy_clear (p : Page) (o : Nat) :
    PageBuddy { ClearPageBuddy p with order := o } = false := by
  rw [PageBuddy_eq]
  show (clear_bit PG_buddy p.flags).testBit 9 = false
  unfold clear_bit PG_buddy WORD
  rw [Nat.testBit_and]
  have : (2 ^ 64 - 1 - 1 <<< 9).testBit 9 = false := by decide
  rw [this]; simp

theorem PageBuddy_zero_flags (p : Page) (h : p.flags = 0) : PageBuddy p = false := by
  rw [PageBuddy_eq, h]; simp

/-! ### Projections of the elementary stores -/

@[simp] theorem zone_setZone (st : State) (i j : Nat) (z : Zone) :
    (st.setZone i z).zone j = if j = i then z else st.zone j := rfl

@[simp] theorem mem_map_setZone (st : State) (i : Nat) (z : Zone) :
    (st.setZone i z).mem_map = st.mem_map := rfl

@[simp] theorem present_setZone (st : State) (i : Nat) (z : Zone) :
    (st.setZone i z).mem_map_present = st.mem_map_present := rfl

@[simp] theorem zone_setPage (st : State) (q j : Nat) (p : Page) :
    (st.setPage q p).zone j = st.zone j := rfl

@[simp] theorem mem_map_setPage (st : State) (q r : Nat) (p : Page) :
    (st.setPage q p).mem_map r = if r = q then p else st.mem_map r := rfl

@[simp] theorem present_setPage (st : State) (q : Nat) (p : Page) :
    (st.setPage q p).mem_map_present = st.mem_map_present := rfl

@[simp] theorem free_area_setArea (z : Zone) (o j : Nat) (a : FreeArea) :
    (z.setArea o a).free_area j = if j = o then a else z.free_area j := rfl

@[simp] theorem nr_free_pages_setArea (z : Zone) (o : Nat) (a : FreeArea) :
    (z.setArea o a).nr_free_pages = z.nr_free_pages := rfl

/-! ### `add_page_to_free_list` -/

theorem add_zone (st : State) (p z o zi : Nat) :
    (add_page_to_free_list st p z o).zone zi =
      if zi = z then
        { (st.zone z).setArea o
            { free_list := p :: ((st.zone z).free_area o).free_list,
              nr_free := (((st.zone z).free_area o).nr_free + 1) % WORD } with
          nr_free_pages := ((st.zone z).nr_free_pages + (1 <<< o)) % WORD }
      else st.zone zi := rfl

theorem add_mem_map (st : State) (p z o q : Nat) :
    (add_page_to_free_list st p z o).mem_map q =
      if q = p then { SetPageBuddy (st.mem_map p) with order := o } else st.mem_map q := rfl

theorem add_present (st : State) (p z o : Nat) :
    (add_page_to_free_list st p z o).mem_map_present = st.mem_map_present := rfl

theorem add_flist (st : State) (p o j : Nat) :
    (add_page_to_free_list st p ZONE_NORMAL o).flist j =
      if j = o then p :: st.flist o else st.flist j := by
  unfold State.flist
  rw [add_zone]
  simp only [if_true]
  show (if j = o then _ else _ : FreeArea).free_list = _
  split <;> simp_all

theorem add_list_other (st : State) (p z o zi j : Nat) (h : zi ≠ z) :
    ((add_page_to_free_list st p z o).zone zi).free_area j = (st.zone zi).free_area j := by
  rw [add_zone, if_neg h]

/-! ### `del_page_from_free_list` -/

theorem del_zone (st : State) (p z o zi : Nat) :
    (del_page_from_free_list st p z o).zone zi =
      if zi = z then
        { (st.zone z).setArea o
            { free_list := ((st.zone z).free_area o).free_list.erase p,
              nr_free := (((st.zone z).free_area o).nr_free + WORD - 1) % WORD } with
          nr_free_pages := ((st.zone z).nr_free_pages + WORD - (1 <<< o)) % WORD }
      else st.zone zi := rfl

theorem del_mem_map (st : State) (p z o q : Nat) :
    (del_page_from_free_list st p z o).mem_map q =
      if q = p then { ClearPageBuddy (st.mem_map p) with order := 0 } else st.mem_map q := rfl

theorem del_present (st : State) (p z o : Nat) :
    (del_page_from_free_list st p z o).mem_map_present = st.mem_map_present := rfl

theorem del_flist (st : State) (p o j : Nat) :
    (del_page_from_free_list st p ZONE_NORMAL o).flist j =
      if j = o then (st.flist o).erase p else st.flist j := by
  unfold State.flist
  rw [del_zone]
  simp only [if_true]
  show (if j = o then _ else _ : FreeArea).free_list = _
  split <;> simp_all

/-! ### Frames of blocks -/

theorem inBlock_split (f p o : Nat) :
    inBlock f ⟨p, o + 1⟩ ↔ inBlock f ⟨p, o⟩ ∨ inBlock f ⟨p + 2 ^ o, o⟩ := by
  unfold inBlock
  simp only [pow_succ]
  omega

theorem inBlock_head (p o : Nat) : inBlock p ⟨p, o⟩ := by
  unfold inBlock
  have := Nat.two_pow_pos o
  constructor
  · exact Nat.le_refl _
  · show p < p + 2 ^ o
    omega

/-! ### Frame counts -/

theorem blockSum_cons (b : Block) (l : List Block) :
    blockSum (b :: l) = 2 ^ b.order + blockSum l := by
  simp [blockSum]

theorem blockSum_erase (l : List Block) (b : Block) (h : b ∈ l) :
    blockSum (l.erase b) + 2 ^ b.order = blockSum l := by
  have hp := List.perm_cons_erase h
  unfold blockSum
  rw [(hp.map _).sum_eq, List.map_cons, List.sum_cons, Nat.add_comm]

theorem freeSum_eq_of_flist (st st' : State) (h : ∀ o, o < MAX_ORDER → st'.flist o = st.flist o) :
    st'.freeSum = st.freeSum := by
  unfold State.freeSum
  apply Finset.sum_congr rfl
  intro o ho
  rw [h o (Finset.mem_range.mp ho)]

theorem freeSum_update (st st' : State) (o : Nat) (ho : o < MAX_ORDER)
    (h : ∀ j, j < MAX_ORDER → j ≠ o → st'.flist j = st.flist j) :
    st'.freeSum + (st.flist o).length * 2 ^ o = st.freeSum + (st'.flist o).length * 2 ^ o := by
  unfold State.freeSum
  have hm : o ∈ Finset.range MAX_ORDER := Finset.mem_range.mpr ho
  rw [← Finset.add_sum_erase _ _ hm, ← Finset.add_sum_erase (Finset.range MAX_ORDER) (fun o => (st.flist o).length * 2 ^ o) hm]
  have : ∑ x ∈ (Finset.range MAX_ORDER).erase o, (st'.flist x).length * 2 ^ x
       = ∑ x ∈ (Finset.range MAX_ORDER).erase o, (st.flist x).length * 2 ^ x := by
    apply Finset.sum_congr rfl
    intro j hj
    rw [Finset.mem_erase, Finset.mem_range] at hj
    rw [h j hj.2 hj.1]
  rw [this]
  omega

theorem length_le_freeSum (st : State) (o : Nat) (ho : o < MAX_ORDER) :
    (st.flist o).length * 2 ^ o ≤ st.freeSum := by
  unfold State.freeSum
  exact Finset.single_le_sum (f := fun o => (st.flist o).length * 2 ^ o)
    (fun _ _ => Nat.zero_le _) (Finset.mem_range.mpr ho)

theorem MAX_PFN_lt_WORD : MAX_PFN + 2048 < WORD := by decide

theorem isFree_add (st : State) (p o : Nat) (ho : o < MAX_ORDER) (b : Block) :
    (add_page_to_free_list st p ZONE_NORMAL o).isFree b ↔ b = ⟨p, o⟩ ∨ st.isFree b := by
  unfold State.isFree
  rw [add_flist]
  obtain ⟨q, j⟩ := b
  simp only [Block.mk.injEq]
  by_cases hj : j = o
  · subst hj
    simp only [if_true, List.mem_cons, and_true]
    constructor
    · rintro ⟨h1, h2 | h2⟩
      · exact Or.inl h2
      · exact Or.inr ⟨h1, h2⟩
    · rintro (h | ⟨h1, h2⟩)
      · exact ⟨ho, Or.inl h⟩
      · exact ⟨h1, Or.inr h2⟩
  · simp only [if_neg hj]
    constructor
    · intro h; exact Or.inr h
    · rintro (⟨_, h⟩ | h)
      · exact absurd h hj
      · exact h

theorem isFree_del (st : State) (p o : Nat) (hn : (st.flist o).Nodup) (b : Block) :
    (del_page_from_free_list st p ZONE_NORMAL o).isFree b ↔ b ≠ ⟨p, o⟩ ∧ st.isFree b := by
  unfold State.isFree
  rw [del_flist]
  obtain ⟨q, j⟩ := b
  simp only [ne_eq, Block.mk.injEq]
  by_cases hj : j = o
  · subst hj
    simp only [if_true, and_true, hn.mem_erase_iff]
    tauto
  · simp only [if_neg hj]
    tauto

theorem Inv.not_free_of_live {s : Sys} (h : Inv s) {b : Block} (hb : b ∈ s.live) (o : Nat) :
    ¬ s.st.isFree ⟨b.pfn, o⟩ := by
  intro hf
  have e := h.uniq b.pfn ⟨b.pfn, o⟩ b (Or.inl hf) (Or.inr hb) (inBlock_head _ _)
    (by obtain ⟨p, j⟩ := b; exact inBlock_head p j)
  rw [e] at hf
  exact h.excl b hb hf

theorem Inv.blockSum_le {s : Sys} (h : Inv s) : s.st.freeSum + blockSum s.live ≤ MAX_PFN :=
  h.count_total ▸ h.total_ok

/-- An allocated block is put on the free list of its order. -/
theorem Inv.add {s : Sys} (h : Inv s) {p o : Nat} (hb : (⟨p, o⟩ : Block) ∈ s.live) :
    Inv ⟨add_page_to_free_list s.st p ZONE_NORMAL o, s.live.erase ⟨p, o⟩, s.seeded⟩ := by
  have hwf := h.wf ⟨p, o⟩ (Or.inr hb)
  have ho : o < MAX_ORDER := hwf.1
  have hnf : ∀ o', ¬ s.st.isFree ⟨p, o'⟩ := fun o' => h.not_free_of_live hb o'
  have hfree := isFree_add s.st p o ho
  have hlive : ∀ b, b ∈ s.live.erase ⟨p, o⟩ ↔ b ≠ ⟨p, o⟩ ∧ b ∈ s.live :=
    fun b => h.live_nodup.mem_erase_iff
  have hblk : ∀ b, Sys.isBlock ⟨add_page_to_free_list s.st p ZONE_NORMAL o,
      s.live.erase ⟨p, o⟩, s.seeded⟩ b ↔ s.isBlock b := by
    intro b
    unfold Sys.isBlock
    simp only [hfree, hlive]
    constructor
    · rintro ((h1 | h1) | h1)
      · exact Or.inr (h1 ▸ hb)
      · exact Or.inl h1
      · exact Or.inr h1.2
    · rintro (h1 | h1)
      · exact Or.inl (Or.inr h1)
      · by_cases e : b = ⟨p, o⟩
        · exact Or.inl (Or.inl e)
        · exact Or.inr ⟨e, h1⟩
  have hsum := blockSum_erase s.live ⟨p, o⟩ hb
  have hle := h.blockSum_le
  have hW := MAX_PFN_lt_WORD
  have hfs := freeSum_update s.st (add_page_to_free_list s.st p ZONE_NORMAL o) o ho
    (fun j _ hj => by rw [add_flist, if_neg hj])
  rw [add_flist, if_pos rfl, List.length_cons, Nat.add_mul, Nat.one_mul] at hfs
  have hlen := length_le_freeSum s.st o ho
  have hpos := Nat.two_pow_pos o
  dsimp only at hsum
  have hfs' : (add_page_to_free_list s.st p ZONE_NORMAL o).freeSum = s.st.freeSum + 2 ^ o := by
    omega
  have hlen1 : (s.st.flist o).length ≤ (s.st.flist o).length * 2 ^ o :=
    Nat.le_mul_of_pos_right _ hpos
  have hlen2 : (s.st.flist o).length + 1 < WORD := by omega
  constructor
  · exact h.present
  · intro zi hz hne
    show ((add_page_to_free_list s.st p ZONE_NORMAL o).zone zi).nr_free_pages = 0 ∧ _
    rw [add_zone, if_neg hne]
    exact h.others zi hz hne
  · intro j hj
    show ((add_page_to_free_list s.st p ZONE_NORMAL o).flist j).Nodup
    rw [add_flist]
    split
    · refine List.nodup_cons.mpr ⟨?_, h.nodup o ho⟩
      intro hm
      exact hnf o ⟨ho, hm⟩
    · exact h.nodup j hj
  · exact h.live_nodup.erase _
  · intro b hbl hf
    rw [hlive] at hbl
    rcases (hfree b).mp hf with e | hf'
    · exact hbl.1 e
    · exact h.excl b hbl.2 hf'
  · intro b hb'
    exact h.wf b ((hblk b).mp hb')
  · intro f b b' h1 h2
    exact h.uniq f b b' ((hblk b).mp h1) ((hblk b').mp h2)
  · intro f
    rw [show Sys.isSeeded ⟨add_page_to_free_list s.st p ZONE_NORMAL o,
      s.live.erase ⟨p, o⟩, s.seeded⟩ f ↔ s.isSeeded f from Iff.rfl, h.cover f]
    constructor
    · rintro ⟨b, h1, h2⟩; exact ⟨b, (hblk b).mpr h1, h2⟩
    · rintro ⟨b, h1, h2⟩; exact ⟨b, (hblk b).mp h1, h2⟩
  · exact h.seeded_ok
  · exact h.seeded_disj
  · intro q
    show PageBuddy ((add_page_to_free_list s.st p ZONE_NORMAL o).mem_map q) = true ↔
      ∃ o', (add_page_to_free_list s.st p ZONE_NORMAL o).isFree ⟨q, o'⟩
    rw [add_mem_map]
    by_cases hq : q = p
    · subst hq
      simp only [if_true, PageBuddy_set, true_iff]
      exact ⟨o, (hfree _).mpr (Or.inl rfl)⟩
    · simp only [if_neg hq, hfree, Block.mk.injEq, hq, false_and, false_or]
      exact h.flags q
  · intro q o' hf
    show ((add_page_to_free_list s.st p ZONE_NORMAL o).mem_map q).order = o'
    rw [add_mem_map]
    rcases (hfree _).mp hf with e | hf'
    · simp only [Block.mk.injEq] at e
      rw [if_pos e.1, e.2]
    · have hq : q ≠ p := fun e => hnf o' (e ▸ hf')
      rw [if_neg hq]
      exact h.order q o' hf'
  · intro j hj
    show (((add_page_to_free_list s.st p ZONE_NORMAL o).zone ZONE_NORMAL).free_area j).nr_free =
      ((add_page_to_free_list s.st p ZONE_NORMAL o).flist j).length
    rw [add_flist, add_zone, if_pos rfl]
    show (if j = o then _ else _ : FreeArea).nr_free = _
    by_cases e : j = o
    · subst e
      simp only [if_true, List.length_cons]
      rw [h.count_area j hj, Nat.mod_eq_of_lt hlen2]
    · simp only [if_neg e]
      exact h.count_area j hj
  · show ((add_page_to_free_list s.st p ZONE_NORMAL o).zone ZONE_NORMAL).nr_free_pages = _
    rw [add_zone, if_pos rfl, hfs']
    show ((s.st.zone ZONE_NORMAL).nr_free_pages + 1 <<< o) % WORD = _
    rw [h.count_zone, Nat.one_shiftLeft, Nat.mod_eq_of_lt]
    omega
  · show (add_page_to_free_list s.st p ZONE_NORMAL o).freeSum + blockSum (s.live.erase ⟨p, o⟩) = _
    rw [hfs', ← h.count_total]
    omega
  · exact h.total_ok

theorem sub_mod_word (a b : Nat) (hb : b ≤ a) (ha : a < WORD) :
    (a + WORD - b) % WORD = a - b := by
  have : a + WORD - b = (a - b) + WORD := by omega
  rw [this, Nat.add_mod_right, Nat.mod_eq_of_lt]
  omega

/-- A free block is taken off its free list and becomes an allocated block. -/
theorem Inv.del {s : Sys} (h : Inv s) {p o : Nat} (hf : s.st.isFree ⟨p, o⟩) :
    Inv ⟨del_page_from_free_list s.st p ZONE_NORMAL o, ⟨p, o⟩ :: s.live, s.seeded⟩ := by
  have ho : o < MAX_ORDER := hf.1
  have hmem : p ∈ s.st.flist o := hf.2
  have hnl : (⟨p, o⟩ : Block) ∉ s.live := fun hl => h.excl _ hl hf
  have hfree := isFree_del s.st p o (h.nodup o ho)
  have hnf : ∀ o', ¬ (del_page_from_free_list s.st p ZONE_NORMAL o).isFree ⟨p, o'⟩ := by
    intro o' hf'
    rw [hfree] at hf'
    have e := h.uniq p ⟨p, o'⟩ ⟨p, o⟩ (Or.inl hf'.2) (Or.inl hf) (inBlock_head _ _)
      (inBlock_head _ _)
    exact hf'.1 e
  have hblk : ∀ b, Sys.isBlock ⟨del_page_from_free_list s.st p ZONE_NORMAL o,
      ⟨p, o⟩ :: s.live, s.seeded⟩ b ↔ s.isBlock b := by
    intro b
    unfold Sys.isBlock
    simp only [hfree, List.mem_cons]
    constructor
    · rintro (h1 | h1 | h1)
      · exact Or.inl h1.2
      · exact Or.inl (h1 ▸ hf)
      · exact Or.inr h1
    · rintro (h1 | h1)
      · by_cases e : b = ⟨p, o⟩
        · exact Or.inr (Or.inl e)
        · exact Or.inl ⟨e, h1⟩
      · exact Or.inr (Or.inr h1)
  have hle := h.blockSum_le
  have hW := MAX_PFN_lt_WORD
  have hlenpos : 0 < (s.st.flist o).length := List.length_pos_of_mem hmem
  obtain ⟨n, hn⟩ : ∃ n, (s.st.flist o).length = n + 1 := ⟨_, (Nat.succ_pred_eq_of_pos hlenpos).symm⟩
  have hfs := freeSum_update s.st (del_page_from_free_list s.st p ZONE_NORMAL o) o ho
    (fun j _ hj => by rw [del_flist, if_neg hj])
  rw [del_flist, if_pos rfl, List.length_erase_of_mem hmem, hn, Nat.add_sub_cancel,
    Nat.add_mul, Nat.one_mul] at hfs
  have hlen := length_le_freeSum s.st o ho
  rw [hn, Nat.add_mul, Nat.one_mul] at hlen
  have hpos := Nat.two_pow_pos o
  have hfs' : (del_page_from_free_list s.st p ZONE_NORMAL o).freeSum + 2 ^ o = s.st.freeSum := by
    omega
  have hlen1 : n ≤ n * 2 ^ o := Nat.le_mul_of_pos_right _ hpos
  constructor
  · exact h.present
  · intro zi hz hne
    show ((del_page_from_free_list s.st p ZONE_NORMAL o).zone zi).nr_free_pages = 0 ∧ _
    rw [del_zone, if_neg hne]
    exact h.others zi hz hne
  · intro j hj
    show ((del_page_from_free_list s.st p ZONE_NORMAL o).flist j).Nodup
    rw [del_flist]
    split
    · exact (h.nodup o ho).erase _
    · exact h.nodup j hj
  · exact List.nodup_cons.mpr ⟨hnl, h.live_nodup⟩
  · intro b hbl hf'
    rw [hfree] at hf'
    rcases List.mem_cons.mp hbl with e | hbl
    · exact hf'.1 e
    · exact h.excl b hbl hf'.2
  · intro b hb'
    exact h.wf b ((hblk b).mp hb')
  · intro f b b' h1 h2
    exact h.uniq f b b' ((hblk b).mp h1) ((hblk b').mp h2)
  · intro f
    rw [show Sys.isSeeded ⟨del_page_from_free_list s.st p ZONE_NORMAL o,
      ⟨p, o⟩ :: s.live, s.seeded⟩ f ↔ s.isSeeded f from Iff.rfl, h.cover f]
    constructor
    · rintro ⟨b, h1, h2⟩; exact ⟨b, (hblk b).mpr h1, h2⟩
    · rintro ⟨b, h1, h2⟩; exact ⟨b, (hblk b).mp h1, h2⟩
  · exact h.seeded_ok
  · exact h.seeded_disj
  · intro q
    show PageBuddy ((del_page_from_free_list s.st p ZONE_NORMAL o).mem_map q) = true ↔
      ∃ o', (del_page_from_free_list s.st p ZONE_NORMAL o).isFree ⟨q, o'⟩
    rw [del_mem_map]
    by_cases hq : q = p
    · subst hq
      simp only [if_true, PageBuddy_clear, Bool.false_eq_true, false_iff, not_exists]
      exact hnf
    · simp only [if_neg hq, hfree, ne_eq, Block.mk.injEq, hq, false_and, not_false_eq_true,
        true_and]
      exact h.flags q
  · intro q o' hf'
    show ((del_page_from_free_list s.st p ZONE_NORMAL o).mem_map q).order = o'
    rw [del_mem_map]
    have hq : q ≠ p := fun e => hnf o' (e ▸ hf')
    rw [if_neg hq]
    exact h.order q o' ((hfree _).mp hf').2
  · intro j hj
    show (((del_page_from_free_list s.st p ZONE_NORMAL o).zone ZONE_NORMAL).free_area j).nr_free =
      ((del_page_from_free_list s.st p ZONE_NORMAL o).flist j).length
    rw [del_flist, del_zone, if_pos rfl]
    show (if j = o then _ else _ : FreeArea).nr_free = _
    by_cases e : j = o
    · subst e
      simp only [if_true]
      rw [h.count_area j hj, List.length_erase_of_mem hmem, sub_mod_word]
      · omega
      · omega
    · simp only [if_neg e]
      exact h.count_area j hj
  · show ((del_page_from_free_list s.st p ZONE_NORMAL o).zone ZONE_NORMAL).nr_free_pages = _
    rw [del_zone, if_pos rfl]
    show ((s.st.zone ZONE_NORMAL).nr_free_pages + WORD - 1 <<< o) % WORD =
      (del_page_from_free_list s.st p ZONE_NORMAL o).freeSum
    rw [h.count_zone, Nat.one_shiftLeft, sub_mod_word]
    · omega
    · omega
    · omega
  · show (del_page_from_free_list s.st p ZONE_NORMAL o).freeSum + blockSum (⟨p, o⟩ :: s.live) = _
    rw [blockSum_cons, ← h.count_total]
    dsimp only
    omega
  · exact h.total_ok

theorem Inv.perm {s : Sys} (h : Inv s) {l : List Block} (hp : s.live.Perm l) :
    Inv ⟨s.st, l, s.seeded⟩ := by
  have hm : ∀ b, b ∈ l ↔ b ∈ s.live := fun b => hp.mem_iff.symm
  have hblk : ∀ b, Sys.isBlock ⟨s.st, l, s.seeded⟩ b ↔ s.isBlock b := by
    intro b; unfold Sys.isBlock; simp only [hm]
  constructor
  · exact h.present
  · exact h.others
  · exact h.nodup
  · exact hp.nodup_iff.mp h.live_nodup
  · intro b hb; exact h.excl b ((hm b).mp hb)
  · intro b hb; exact h.wf b ((hblk b).mp hb)
  · intro f b b' h1 h2; exact h.uniq f b b' ((hblk b).mp h1) ((hblk b').mp h2)
  · intro f
    rw [show Sys.isSeeded ⟨s.st, l, s.seeded⟩ f ↔ s.isSeeded f from Iff.rfl, h.cover f]
    constructor
    · rintro ⟨b, h1, h2⟩; exact ⟨b, (hblk b).mpr h1, h2⟩
    · rintro ⟨b, h1, h2⟩; exact ⟨b, (hblk b).mp h1, h2⟩
  · exact h.seeded_ok
  · exact h.seeded_disj
  · exact h.flags
  · exact h.order
  · exact h.count_area
  · exact h.count_zone
  · show s.st.freeSum + blockSum l = _
    rw [← h.count_total]
    unfold blockSum
    rw [(hp.map _).sum_eq]
  · exact h.total_ok

theorem Inv.add_head {st : State} {p o : Nat} {l : List Block} {sd : List (Nat × Nat)}
    (h : Inv ⟨st, ⟨p, o⟩ :: l, sd⟩) : Inv ⟨add_page_to_free_list st p ZONE_NORMAL o, l, sd⟩ := by
  have := h.add (p := p) (o := o) (List.mem_cons_self _ _)
  simpa using this

/-- Bookkeeping only: an allocated block of order `o + 1` is regarded as its two halves. -/
theorem Inv.split {st : State} {p o : Nat} {l : List Block} {sd : List (Nat × Nat)}
    (h : Inv ⟨st, ⟨p, o + 1⟩ :: l, sd⟩) : Inv ⟨st, ⟨p, o⟩ :: ⟨p + 2 ^ o, o⟩ :: l, sd⟩ := by
  have hpos := Nat.two_pow_pos o
  have hB : Sys.isBlock ⟨st, ⟨p, o + 1⟩ :: l, sd⟩ ⟨p, o + 1⟩ := Or.inr (List.mem_cons_self _ _)
  have hwf := h.wf _ hB
  dsimp only at hwf
  have hin1 : ∀ f, inBlock f ⟨p, o⟩ → inBlock f ⟨p, o + 1⟩ :=
    fun f hf => (inBlock_split f p o).mpr (Or.inl hf)
  have hin2 : ∀ f, inBlock f ⟨p + 2 ^ o, o⟩ → inBlock f ⟨p, o + 1⟩ :=
    fun f hf => (inBlock_split f p o).mpr (Or.inr hf)
  have hne1 : (⟨p, o⟩ : Block) ≠ ⟨p, o + 1⟩ := by simp
  have hne2 : (⟨p + 2 ^ o, o⟩ : Block) ≠ ⟨p, o + 1⟩ := by simp
  have hne12 : (⟨p, o⟩ : Block) ≠ ⟨p + 2 ^ o, o⟩ := by
    simp only [ne_eq, Block.mk.injEq, and_true]; omega
  -- an old block that shares a frame with the split block is the split block
  have hold : ∀ f b, Sys.isBlock ⟨st, ⟨p, o + 1⟩ :: l, sd⟩ b → inBlock f b →
      inBlock f ⟨p, o + 1⟩ → b = ⟨p, o + 1⟩ := fun f b hb hf hf' => h.uniq f b _ hb hB hf hf'
  have hnl : (⟨p, o + 1⟩ : Block) ∉ l := (List.nodup_cons.mp h.live_nodup).1
  have hnb1 : ¬ Sys.isBlock ⟨st, ⟨p, o + 1⟩ :: l, sd⟩ ⟨p, o⟩ := fun hb =>
    hne1 (hold p _ hb (inBlock_head _ _) (inBlock_head _ _))
  have hnb2 : ¬ Sys.isBlock ⟨st, ⟨p, o + 1⟩ :: l, sd⟩ ⟨p + 2 ^ o, o⟩ := fun hb =>
    hne2 (hold (p + 2 ^ o) _ hb (inBlock_head _ _) (hin2 _ (inBlock_head _ _)))
  have hblk : ∀ b, Sys.isBlock ⟨st, ⟨p, o⟩ :: ⟨p + 2 ^ o, o⟩ :: l, sd⟩ b ↔
      b = ⟨p, o⟩ ∨ b = ⟨p + 2 ^ o, o⟩ ∨
        (Sys.isBlock ⟨st, ⟨p, o + 1⟩ :: l, sd⟩ b ∧ b ≠ ⟨p, o + 1⟩) := by
    intro b
    unfold Sys.isBlock
    simp only [List.mem_cons]
    constructor
    · rintro (h1 | h1 | h1 | h1)
      · refine Or.inr (Or.inr ⟨Or.inl h1, ?_⟩)
        intro e
        exact h.excl _ (List.mem_cons_self _ _) (e ▸ h1)
      · exact Or.inl h1
      · exact Or.inr (Or.inl h1)
      · refine Or.inr (Or.inr ⟨Or.inr (Or.inr h1), ?_⟩)
        intro e
        exact hnl (e ▸ h1)
    · rintro (h1 | h1 | ⟨h1 | h1 | h1, h2⟩)
      · exact Or.inr (Or.inl h1)
      · exact Or.inr (Or.inr (Or.inl h1))
      · exact Or.inl h1
      · exact absurd h1 h2
      · exact Or.inr (Or.inr (Or.inr h1))
  constructor
  · exact h.present
  · exact h.others
  · exact h.nodup
  · have hl := (List.nodup_cons.mp h.live_nodup).2
    refine List.nodup_cons.mpr ⟨?_, List.nodup_cons.mpr ⟨?_, hl⟩⟩
    · intro hm
      rcases List.mem_cons.mp hm with e | hm
      · exact hne12 e
      · exact hnb1 (Or.inr (List.mem_cons_of_mem _ hm))
    · intro hm
      exact hnb2 (Or.inr (List.mem_cons_of_mem _ hm))
  · intro b hb hf
    rcases List.mem_cons.mp hb with e | hb
    · exact hnb1 (Or.inl (e ▸ hf))
    · rcases List.mem_cons.mp hb with e | hb
      · exact hnb2 (Or.inl (e ▸ hf))
      · exact h.excl b (List.mem_cons_of_mem _ hb) hf
  · intro b hb
    rcases (hblk b).mp hb with e | e | ⟨hb', _⟩
    · subst e
      exact ⟨by show o < MAX_ORDER; omega, Dvd.dvd.trans ⟨2, pow_succ 2 o⟩ hwf.2⟩
    · subst e
      exact ⟨by show o < MAX_ORDER; omega,
        Dvd.dvd.add (Dvd.dvd.trans ⟨2, pow_succ 2 o⟩ hwf.2) (dvd_refl _)⟩
    · exact h.wf b hb'
  · intro f b b' hb hb' hf hf'
    rcases (hblk b).mp hb with e | e | ⟨hb1, hn1⟩ <;>
    rcases (hblk b').mp hb' with e' | e' | ⟨hb2, hn2⟩
    · rw [e, e']
    · subst e; subst e'
      unfold inBlock at hf hf'; dsimp only at hf hf'; omega
    · subst e
      exact absurd (hold f b' hb2 hf' (hin1 f hf)) hn2
    · subst e; subst e'
      unfold inBlock at hf hf'; dsimp only at hf hf'; omega
    · rw [e, e']
    · subst e
      exact absurd (hold f b' hb2 hf' (hin2 f hf)) hn2
    · subst e'
      exact absurd (hold f b hb1 hf (hin1 f hf')) hn1
    · subst e'
      exact absurd (hold f b hb1 hf (hin2 f hf')) hn1
    · exact h.uniq f b b' hb1 hb2 hf hf'
  · intro f
    rw [show Sys.isSeeded ⟨st, ⟨p, o⟩ :: ⟨p + 2 ^ o, o⟩ :: l, sd⟩ f ↔
      Sys.isSeeded ⟨st, ⟨p, o + 1⟩ :: l, sd⟩ f from Iff.rfl, h.cover f]
    constructor
    · rintro ⟨b, h1, h2⟩
      by_cases e : b = ⟨p, o + 1⟩
      · subst e
        rcases (inBlock_split f p o).mp h2 with h3 | h3
        · exact ⟨_, (hblk _).mpr (Or.inl rfl), h3⟩
        · exact ⟨_, (hblk _).mpr (Or.inr (Or.inl rfl)), h3⟩
      · exact ⟨b, (hblk b).mpr (Or.inr (Or.inr ⟨h1, e⟩)), h2⟩
    · rintro ⟨b, h1, h2⟩
      rcases (hblk b).mp h1 with e | e | ⟨hb', _⟩
      · subst e; exact ⟨_, hB, hin1 f h2⟩
      · subst e; exact ⟨_, hB, hin2 f h2⟩
      · exact ⟨b, hb', h2⟩
  · exact h.seeded_ok
  · exact h.seeded_disj
  · exact h.flags
  · exact h.order
  · exact h.count_area
  · exact h.count_zone
  · show st.freeSum + blockSum (⟨p, o⟩ :: ⟨p + 2 ^ o, o⟩ :: l) = _
    have := h.count_total
    change st.freeSum + blockSum (⟨p, o + 1⟩ :: l) = _ at this
    rw [← this]
    simp only [blockSum_cons, pow_succ]
    omega
  · exact h.total_ok

/-- Bookkeeping only: two allocated halves are regarded as one block of order `o + 1`. -/
theorem Inv.join {st : State} {q o : Nat} {l : List Block} {sd : List (Nat × Nat)}
    (h : Inv ⟨st, ⟨q, o⟩ :: ⟨q + 2 ^ o, o⟩ :: l, sd⟩) (hq : 2 ^ (o + 1) ∣ q)
    (ho : o + 1 < MAX_ORDER) : Inv ⟨st, ⟨q, o + 1⟩ :: l, sd⟩ := by
  have hpos := Nat.two_pow_pos o
  have hb1 : Sys.isBlock ⟨st, ⟨q, o⟩ :: ⟨q + 2 ^ o, o⟩ :: l, sd⟩ ⟨q, o⟩ :=
    Or.inr (List.mem_cons_self _ _)
  have hb2 : Sys.isBlock ⟨st, ⟨q, o⟩ :: ⟨q + 2 ^ o, o⟩ :: l, sd⟩ ⟨q + 2 ^ o, o⟩ :=
    Or.inr (List.mem_cons_of_mem _ (List.mem_cons_self _ _))
  have hne1 : (⟨q, o + 1⟩ : Block) ≠ ⟨q, o⟩ := by simp
  have hnd := List.nodup_cons.mp h.live_nodup
  have hnd2 := List.nodup_cons.mp hnd.2
  have hnB : ¬ Sys.isBlock ⟨st, ⟨q, o⟩ :: ⟨q + 2 ^ o, o⟩ :: l, sd⟩ ⟨q, o + 1⟩ := fun hb =>
    hne1 (h.uniq q _ _ hb hb1 (inBlock_head _ _) (inBlock_head _ _))
  have hblk : ∀ b, Sys.isBlock ⟨st, ⟨q, o + 1⟩ :: l, sd⟩ b ↔
      b = ⟨q, o + 1⟩ ∨ (Sys.isBlock ⟨st, ⟨q, o⟩ :: ⟨q + 2 ^ o, o⟩ :: l, sd⟩ b ∧
        b ≠ ⟨q, o⟩ ∧ b ≠ ⟨q + 2 ^ o, o⟩) := by
    intro b
    unfold Sys.isBlock
    simp only [List.mem_cons]
    constructor
    · rintro (h1 | h1 | h1)
      · refine Or.inr ⟨Or.inl h1, ?_, ?_⟩
        · intro e; exact h.excl _ (List.mem_cons_self _ _) (e ▸ h1)
        · intro e
          exact h.excl _ (List.mem_cons_of_mem _ (List.mem_cons_self _ _)) (e ▸ h1)
      · exact Or.inl h1
      · refine Or.inr ⟨Or.inr (Or.inr (Or.inr h1)), ?_, ?_⟩
        · intro e; exact hnd.1 (List.mem_cons_of_mem _ (e ▸ h1))
        · intro e; exact hnd2.1 (e ▸ h1)
    · rintro (h1 | ⟨h1 | h1 | h1 | h1, h2, h3⟩)
      · exact Or.inr (Or.inl h1)
      · exact Or.inl h1
      · exact absurd h1 h2
      · exact absurd h1 h3
      · exact Or.inr (Or.inr h1)
  have hold : ∀ f b, Sys.isBlock ⟨st, ⟨q, o⟩ :: ⟨q + 2 ^ o, o⟩ :: l, sd⟩ b → inBlock f b →
      inBlock f ⟨q, o + 1⟩ → b = ⟨q, o⟩ ∨ b = ⟨q + 2 ^ o, o⟩ := by
    intro f b hb hf hf'
    rcases (inBlock_split f q o).mp hf' with h3 | h3
    · exact Or.inl (h.uniq f b _ hb hb1 hf h3)
    · exact Or.inr (h.uniq f b _ hb hb2 hf h3)
  constructor
  · exact h.present
  · exact h.others
  · exact h.nodup
  · refine List.nodup_cons.mpr ⟨?_, hnd2.2⟩
    intro hm
    exact hnB (Or.inr (List.mem_cons_of_mem _ (List.mem_cons_of_mem _ hm)))
  · intro b hb hf
    rcases List.mem_cons.mp hb with e | hb
    · exact hnB (Or.inl (e ▸ hf))
    · exact h.excl b (List.mem_cons_of_mem _ (List.mem_cons_of_mem _ hb)) hf
  · intro b hb
    rcases (hblk b).mp hb with e | ⟨hb', _⟩
    · subst e; exact ⟨ho, hq⟩
    · exact h.wf b hb'
  · intro f b b' hb hb' hf hf'
    rcases (hblk b).mp hb with e | ⟨hb1', hn1, hn1'⟩ <;>
    rcases (hblk b').mp hb' with e' | ⟨hb2', hn2, hn2'⟩
    · rw [e, e']
    · subst e
      rcases hold f b' hb2' hf' hf with e | e
      · exact absurd e hn2
      · exact absurd e hn2'
    · subst e'
      rcases hold f b hb1' hf hf' with e | e
      · exact absurd e hn1
      · exact absurd e hn1'
    · exact h.uniq f b b' hb1' hb2' hf hf'
  · intro f
    rw [show Sys.isSeeded ⟨st, ⟨q, o + 1⟩ :: l, sd⟩ f ↔
      Sys.isSeeded ⟨st, ⟨q, o⟩ :: ⟨q + 2 ^ o, o⟩ :: l, sd⟩ f from Iff.rfl, h.cover f]
    constructor
    · rintro ⟨b, h1, h2⟩
      by_cases e : b = ⟨q, o⟩
      · subst e
        exact ⟨_, (hblk _).mpr (Or.inl rfl), (inBlock_split f q o).mpr (Or.inl h2)⟩
      · by_cases e' : b = ⟨q + 2 ^ o, o⟩
        · subst e'
          exact ⟨_, (hblk _).mpr (Or.inl rfl), (inBlock_split f q o).mpr (Or.inr h2)⟩
        · exact ⟨b, (hblk b).mpr (Or.inr ⟨h1, e, e'⟩), h2⟩
    · rintro ⟨b, h1, h2⟩
      rcases (hblk b).mp h1 with e | ⟨hb', _⟩
      · subst e
        rcases (inBlock_split f q o).mp h2 with h3 | h3
        · exact ⟨_, hb1, h3⟩
        · exact ⟨_, hb2, h3⟩
      · exact ⟨b, hb', h2⟩
  · exact h.seeded_ok
  · exact h.seeded_disj
  · exact h.flags
  · exact h.order
  · exact h.count_area
  · exact h.count_zone
  · show st.freeSum + blockSum (⟨q, o + 1⟩ :: l) = _
    have := h.count_total
    change st.freeSum + blockSum (⟨q, o⟩ :: ⟨q + 2 ^ o, o⟩ :: l) = _ at this
    rw [← this]
    simp only [blockSum_cons, pow_succ]
    omega
  · exact h.total_ok

/-- Stores to a descriptor that keep its free flag, and its order when the flag is set,
do not affect the invariant. -/
theorem Inv.setPage {s : Sys} (h : Inv s) (q : Nat) (pg : Page)
    (h1 : PageBuddy pg = PageBuddy (s.st.mem_map q))
    (h2 : PageBuddy pg = true → pg.order = (s.st.mem_map q).order) :
    Inv ⟨s.st.setPage q pg, s.live, s.seeded⟩ := by
  constructor
  · exact h.present
  · exact h.others
  · exact h.nodup
  · exact h.live_nodup
  · exact h.excl
  · exact h.wf
  · exact h.uniq
  · exact h.cover
  · exact h.seeded_ok
  · exact h.seeded_disj
  · intro r
    show PageBuddy ((s.st.setPage q pg).mem_map r) = true ↔ ∃ o, s.st.isFree ⟨r, o⟩
    rw [mem_map_setPage]
    split
    · next e => rw [h1, e]; exact h.flags q
    · exact h.flags r
  · intro r o hf
    show ((s.st.setPage q pg).mem_map r).order = o
    rw [mem_map_setPage]
    split
    · next e =>
      subst e
      have := (h.flags r).mpr ⟨o, hf⟩
      rw [h2 (h1.trans this)]
      exact h.order r o hf
    · exact h.order r o hf
  · exact h.count_area
  · exact h.count_zone
  · exact h.count_total
  · exact h.total_ok

/-- The invariant only reads the free areas and `nr_free_pages` of the zones, the
descriptor table and `mem_map_present`. -/
theorem Inv.congr {s : Sys} (h : Inv s) (st' : State)
    (hz : ∀ zi o, (st'.zone zi).free_area o = (s.st.zone zi).free_area o)
    (hn : ∀ zi, (st'.zone zi).nr_free_pages = (s.st.zone zi).nr_free_pages)
    (hm : st'.mem_map = s.st.mem_map) (hp : st'.mem_map_present = s.st.mem_map_present) :
    Inv ⟨st', s.live, s.seeded⟩ := by
  have hfl : ∀ o, st'.flist o = s.st.flist o := by
    intro o; unfold State.flist; rw [hz]
  have hfree : ∀ b, st'.isFree b ↔ s.st.isFree b := by
    intro b; unfold State.isFree; rw [hfl]
  have hblk : ∀ b, Sys.isBlock ⟨st', s.live, s.seeded⟩ b ↔ s.isBlock b := by
    intro b; unfold Sys.isBlock; simp only [hfree]
  have hfs : st'.freeSum = s.st.freeSum := freeSum_eq_of_flist _ _ (fun o _ => hfl o)
  constructor
  · show st'.mem_map_present = true
    rw [hp]; exact h.present
  · intro zi h1 h2
    show (st'.zone zi).nr_free_pages = 0 ∧ ∀ o, o < MAX_ORDER → ((st'.zone zi).free_area o).free_list = []
    rw [hn]
    refine ⟨(h.others zi h1 h2).1, fun o ho => ?_⟩
    rw [hz]; exact (h.others zi h1 h2).2 o ho
  · intro o ho
    show (st'.flist o).Nodup
    rw [hfl]; exact h.nodup o ho
  · exact h.live_nodup
  · intro b hb hf; exact h.excl b hb ((hfree b).mp hf)
  · intro b hb; exact h.wf b ((hblk b).mp hb)
  · intro f b b' h1 h2; exact h.uniq f b b' ((hblk b).mp h1) ((hblk b').mp h2)
  · intro f
    rw [show Sys.isSeeded ⟨st', s.live, s.seeded⟩ f ↔ s.isSeeded f from Iff.rfl, h.cover f]
    constructor
    · rintro ⟨b, h1, h2⟩; exact ⟨b, (hblk b).mpr h1, h2⟩
    · rintro ⟨b, h1, h2⟩; exact ⟨b, (hblk b).mp h1, h2⟩
  · exact h.seeded_ok
  · exact h.seeded_disj
  · intro q
    show PageBuddy (st'.mem_map q) = true ↔ ∃ o, st'.isFree ⟨q, o⟩
    rw [hm]; simp only [hfree]; exact h.flags q
  · intro q o hf
    show (st'.mem_map q).order = o
    rw [hm]; exact h.order q o ((hfree _).mp hf)
  · intro o ho
    show ((st'.zone ZONE_NORMAL).free_area o).nr_free = (st'.flist o).length
    rw [hz, hfl]; exact h.count_area o ho
  · show (st'.zone ZONE_NORMAL).nr_free_pages = st'.freeSum
    rw [hn, hfs]; exact h.count_zone
  · show st'.freeSum + blockSum s.live = _
    rw [hfs]; exact h.count_total
  · exact h.total_ok

theorem Inv.expand_loop {p low : Nat} {l : List Block} {sd : List (Nat × Nat)} :
    ∀ (high size : Nat) (st : State), low ≤ high → size = 2 ^ high →
      Inv ⟨st, ⟨p, high⟩ :: l, sd⟩ →
      Inv ⟨expand_loop ZONE_NORMAL p low high size st, ⟨p, low⟩ :: l, sd⟩ := by
  intro high
  induction high with
  | zero =>
    intro size st hl _ h
    have : low = 0 := by omega
    subst this
    exact h
  | succ n ih =>
    intro size st hl hs h
    unfold MiniKernel.expand_loop
    by_cases hgt : n + 1 > low
    · rw [if_pos hgt]
      have hsz : size >>> 1 = 2 ^ n := by
        rw [hs, Nat.shiftRight_eq_div_pow, pow_succ]; simp
      rw [hsz]
      have h1 := h.split
      have h2 : Inv ⟨st, ⟨p + 2 ^ n, n⟩ :: ⟨p, n⟩ :: l, sd⟩ := h1.perm (List.Perm.swap _ _ _)
      exact ih (2 ^ n) _ (by omega) rfl h2.add_head
    · rw [if_neg hgt]
      have : low = n + 1 := by omega
      subst this
      exact h

theorem Inv.expand {st : State} {p low high : Nat} {l : List Block} {sd : List (Nat × Nat)}
    (hl : low ≤ high) (h : Inv ⟨st, ⟨p, high⟩ :: l, sd⟩) :
    Inv ⟨expand st ZONE_NORMAL p low high, ⟨p, low⟩ :: l, sd⟩ :=
  Inv.expand_loop high _ st hl (Nat.one_shiftLeft high) h

theorem Inv.rmqueue_loop {order : Nat} {l : List Block} {sd : List (Nat × Nat)} :
    ∀ (fuel cur : Nat) (st st' : State) (p : Nat), order ≤ cur → Inv ⟨st, l, sd⟩ →
      rmqueue_loop ZONE_NORMAL order fuel cur st = (some p, st') →
      Inv ⟨st', ⟨p, order⟩ :: l, sd⟩ := by
  intro fuel
  induction fuel with
  | zero =>
    intro cur st st' p _ _ hr
    simp [MiniKernel.rmqueue_loop] at hr
  | succ n ih =>
    intro cur st st' p hc h hr
    unfold MiniKernel.rmqueue_loop at hr
    by_cases hlt : cur < MAX_ORDER
    · rw [if_pos hlt] at hr
      cases hfl : ((st.zone ZONE_NORMAL).free_area cur).free_list with
      | nil =>
        rw [hfl] at hr
        exact ih (cur + 1) st st' p (by omega) h hr
      | cons q t =>
        rw [hfl] at hr
        simp only [Prod.mk.injEq, Option.some.injEq] at hr
        obtain ⟨e1, e2⟩ := hr
        subst e1
        rw [← e2]
        have hf : st.isFree ⟨q, cur⟩ := by
          refine ⟨hlt, ?_⟩
          show q ∈ ((st.zone ZONE_NORMAL).free_area cur).free_list
          rw [hfl]; exact List.mem_cons_self _ _
        exact (h.del hf).expand hc
    · rw [if_neg hlt] at hr
      simp at hr

theorem rmqueue_loop_none {zone order : Nat} :
    ∀ (fuel cur : Nat) (st st' : State),
      rmqueue_loop zone order fuel cur st = (none, st') → st' = st := by
  intro fuel
  induction fuel with
  | zero =>
    intro cur st st' hr
    simp only [MiniKernel.rmqueue_loop, Prod.mk.injEq, true_and] at hr
    exact hr.symm
  | succ n ih =>
    intro cur st st' hr
    unfold MiniKernel.rmqueue_loop at hr
    by_cases hlt : cur < MAX_ORDER
    · rw [if_pos hlt] at hr
      cases hfl : ((st.zone zone).free_area cur).free_list with
      | nil => rw [hfl] at hr; exact ih _ _ _ hr
      | cons q t => rw [hfl] at hr; simp at hr
    · rw [if_neg hlt] at hr
      simp only [Prod.mk.injEq, true_and] at hr
      exact hr.symm

/-- Frames of allocated blocks do not carry the free flag. -/
theorem Inv.live_not_buddy {s : Sys} (h : Inv s) {b : Block} (hb : b ∈ s.live) {f : Nat}
    (hf : inBlock f b) : PageBuddy (s.st.mem_map f) = false := by
  by_contra hne
  have ht : PageBuddy (s.st.mem_map f) = true := by
    cases hh : PageBuddy (s.st.mem_map f)
    · exact absurd hh hne
    · rfl
  obtain ⟨o, hfr⟩ := (h.flags f).mp ht
  have e := h.uniq f ⟨f, o⟩ b (Or.inl hfr) (Or.inr hb) (inBlock_head _ _) hf
  exact h.excl b hb (e ▸ hfr)

theorem Inv.prep_loop {p o : Nat} {l : List Block} {sd : List (Nat × Nat)} :
    ∀ (n : Nat) (st : State), n ≤ 2 ^ o → Inv ⟨st, ⟨p, o⟩ :: l, sd⟩ →
      Inv ⟨prep_loop p n st, ⟨p, o⟩ :: l, sd⟩ := by
  intro n
  induction n with
  | zero => intro st _ h; exact h
  | succ n ih =>
    intro st hn h
    unfold MiniKernel.prep_loop
    have h1 := ih st (by omega) h
    have hin : inBlock (p + n) ⟨p, o⟩ := by
      unfold inBlock; dsimp only; omega
    have hnb := h1.live_not_buddy (List.mem_cons_self _ _) hin
    refine h1.setPage (p + n) _ ?_ ?_
    · rw [hnb]; exact PageBuddy_zero_flags _ rfl
    · intro ht
      rw [PageBuddy_zero_flags _ rfl] at ht
      exact absurd ht (by simp)

theorem Inv.prep_new_page {st : State} {p o : Nat} {l : List Block} {sd : List (Nat × Nat)}
    (g : Nat) (h : Inv ⟨st, ⟨p, o⟩ :: l, sd⟩) :
    Inv ⟨prep_new_page st p o g, ⟨p, o⟩ :: l, sd⟩ := by
  have ho : o < MAX_ORDER := (h.wf ⟨p, o⟩ (Or.inr (List.mem_cons_self _ _))).1
  have hlt : 2 ^ o < WORD := by
    have : 2 ^ o ≤ 2 ^ 11 := Nat.pow_le_pow_right (by decide) (by unfold MAX_ORDER at ho; omega)
    unfold WORD; omega
  have h1 := Inv.prep_loop (2 ^ o) st (Nat.le_refl _) h
  unfold MiniKernel.prep_new_page
  rw [Nat.one_shiftLeft, Nat.mod_eq_of_lt hlt]
  dsimp only
  split
  · exact h1.congr _ (fun _ _ => rfl) (fun _ => rfl) rfl rfl
  · exact h1

theorem gfp_zone_le (g : Nat) : gfp_zone g ≤ 2 := by
  unfold gfp_zone ZONE_DMA ZONE_HIGHMEM ZONE_NORMAL
  split
  · omega
  · split <;> omega

theorem one_shiftLeft_pos (o : Nat) : 0 < 1 <<< o := by
  rw [Nat.one_shiftLeft]; exact Nat.two_pow_pos o

/-- Zones other than Normal are skipped when they hold no free page. -/
theorem alloc_zones_skip (order i : Nat) (st : State) (h : (st.zone i).nr_free_pages = 0) :
    alloc_zones order (i + 1) st = alloc_zones order i st := by
  conv_lhs => unfold alloc_zones
  rw [if_pos (by rw [h]; exact one_shiftLeft_pos order)]

theorem Inv.alloc_zones {order : Nat} {l : List Block} {sd : List (Nat × Nat)} :
    ∀ (n : Nat) (st st' : State) (r : Option Nat), n ≤ 3 → Inv ⟨st, l, sd⟩ →
      alloc_zones order n st = (r, st') →
      (r = none ∧ st' = st) ∨ (∃ p, r = some p ∧ Inv ⟨st', ⟨p, order⟩ :: l, sd⟩) := by
  intro n
  induction n with
  | zero =>
    intro st st' r _ _ hr
    simp only [MiniKernel.alloc_zones, Prod.mk.injEq] at hr
    exact Or.inl ⟨hr.1.symm, hr.2.symm⟩
  | succ i ih =>
    intro st st' r hn h hr
    by_cases hi : i = ZONE_NORMAL
    · subst hi
      unfold MiniKernel.alloc_zones at hr
      split at hr
      · exact ih st st' r (by omega) h hr
      · cases hq : __rmqueue_smallest st ZONE_NORMAL order with
        | mk a st1 =>
          rw [hq] at hr
          cases a with
          | none =>
            have := rmqueue_loop_none _ _ _ _ hq
            subst this
            exact ih st1 st' r (by omega) h hr
          | some p =>
            simp only [Prod.mk.injEq] at hr
            obtain ⟨e1, e2⟩ := hr
            refine Or.inr ⟨p, e1.symm, ?_⟩
            have h1 := Inv.rmqueue_loop _ _ _ _ _ (Nat.le_refl _) h hq
            rw [← e2]
            refine h1.congr _ ?_ ?_ rfl rfl
            · intro zi o
              show ((if zi = ZONE_NORMAL then _ else _ : Zone)).free_area o = _
              split
              · next e => rw [e]
              · rfl
            · intro zi
              show ((if zi = ZONE_NORMAL then _ else _ : Zone)).nr_free_pages = _
              split
              · next e => rw [e]
              · rfl
    · have hz : (st.zone i).nr_free_pages = 0 :=
        (h.others i (by unfold MAX_NR_ZONES; omega) hi).1
      rw [alloc_zones_skip order i st hz] at hr
      exact ih st st' r (by omega) h hr

theorem Inv.alloc_pages {s : Sys} (h : Inv s) (g order : Nat) :
    ((alloc_pages s.st g order).1 = none ∧ (alloc_pages s.st g order).2 = s.st) ∨
    (∃ p, (alloc_pages s.st g order).1 = some p ∧
      Inv ⟨(alloc_pages s.st g order).2, ⟨p, order⟩ :: s.live, s.seeded⟩) := by
  unfold MiniKernel.alloc_pages
  by_cases ho : order ≥ MAX_ORDER
  · rw [if_pos ho]; exact Or.inl ⟨rfl, rfl⟩
  · rw [if_neg ho]
    cases hq : MiniKernel.alloc_zones order (gfp_zone g + 1) s.st with
    | mk r st1 =>
      have hg := gfp_zone_le g
      rcases Inv.alloc_zones _ _ _ _ (by omega) h hq with ⟨e1, e2⟩ | ⟨p, e1, h1⟩
      · subst e1; subst e2
        exact Or.inl ⟨rfl, rfl⟩
      · subst e1
        exact Or.inr ⟨p, rfl, h1.prep_new_page g⟩

theorem find_buddy_eq (p o : Nat) : __find_buddy_pfn p o = p ^^^ 2 ^ o := by
  unfold __find_buddy_pfn; rw [Nat.one_shiftLeft]

theorem page_is_buddy_iff (pg b : Page) (o : Nat) :
    page_is_buddy pg b o = true ↔ PageBuddy b = true ∧ b.order = o ∧ b.refcount = 0 := by
  unfold page_is_buddy page_count
  cases h1 : PageBuddy b
  · simp
  · by_cases h2 : b.order = o
    · by_cases h3 : b.refcount = 0
      · simp [h2, h3]
      · simp [h2, h3]
    · simp [h2]

/-- A buddy that passes `page_is_buddy` is a free block of the same order. -/
theorem Inv.buddy_free {s : Sys} (h : Inv s) {pg : Page} {q o : Nat}
    (hb : page_is_buddy pg (s.st.mem_map q) o = true) : s.st.isFree ⟨q, o⟩ := by
  obtain ⟨h1, h2, _⟩ := (page_is_buddy_iff _ _ _).mp hb
  obtain ⟨o', hfr⟩ := (h.flags q).mp h1
  have := h.order _ _ hfr
  rw [h2] at this
  rw [this]; exact hfr

/-- One iteration of the coalescing loop: the buddy is unlinked and the block being
released becomes the merged block. -/
theorem Inv.merge_step {st : State} {p o : Nat} {l : List Block} {sd : List (Nat × Nat)}
    (h : Inv ⟨st, ⟨p, o⟩ :: l, sd⟩) (hlt : o < MAX_ORDER - 1)
    (hb : page_is_buddy (st.mem_map p) (st.mem_map (__find_buddy_pfn p o)) o = true) :
    Inv ⟨del_page_from_free_list st (__find_buddy_pfn p o) ZONE_NORMAL o,
      ⟨if __find_buddy_pfn p o < p then __find_buddy_pfn p o else p, o + 1⟩ :: l, sd⟩ := by
  have hfr := h.buddy_free hb
  have h1 := h.del hfr
  have hwf := (h.wf ⟨p, o⟩ (Or.inr (List.mem_cons_self _ _))).2
  have hmo : o + 1 < MAX_ORDER := by omega
  dsimp only at hwf
  rw [find_buddy_eq] at h1 ⊢
  rcases buddy_cases p o hwf with ⟨hd, e⟩ | ⟨hd, e⟩
  · rw [e] at h1 ⊢
    have hnlt : ¬ (p + 2 ^ o < p) := by omega
    rw [if_neg hnlt]
    exact (h1.perm (List.Perm.swap _ _ _)).join hd hmo
  · have hpos := Nat.two_pow_pos o
    have hlt' : p ^^^ 2 ^ o < p := by omega
    rw [if_pos hlt']
    have h2 : Inv ⟨del_page_from_free_list st (p ^^^ 2 ^ o) ZONE_NORMAL o,
        ⟨p ^^^ 2 ^ o, o⟩ :: ⟨(p ^^^ 2 ^ o) + 2 ^ o, o⟩ :: l, sd⟩ := by
      rw [← e]; exact h1
    exact h2.join hd hmo

theorem Inv.free_one_loop {l : List Block} {sd : List (Nat × Nat)} :
    ∀ (fuel p o : Nat) (st : State), Inv ⟨st, ⟨p, o⟩ :: l, sd⟩ →
      Inv ⟨free_one_loop ZONE_NORMAL fuel p o st, l, sd⟩ := by
  intro fuel
  induction fuel with
  | zero =>
    intro p o st h
    exact h.add_head
  | succ n ih =>
    intro p o st h
    unfold MiniKernel.free_one_loop
    by_cases hlt : o < MAX_ORDER - 1
    · rw [if_pos hlt]
      dsimp only
      cases hb : page_is_buddy (st.mem_map p) (st.mem_map (__find_buddy_pfn p o)) o with
      | false => simp only [Bool.not_false, if_true]; exact h.add_head
      | true =>
        simp only [Bool.not_true, Bool.false_eq_true, if_false]
        exact ih _ _ _ (h.merge_step hlt hb)
    · rw [if_neg hlt]
      exact h.add_head

theorem Inv.free_pages {s : Sys} (h : Inv s) {p o : Nat} (hb : (⟨p, o⟩ : Block) ∈ s.live) :
    Inv ⟨free_pages s.st (some p) o, s.live.erase ⟨p, o⟩, s.seeded⟩ := by
  have ho : o < MAX_ORDER := (h.wf ⟨p, o⟩ (Or.inr hb)).1
  have hperm : s.live.Perm (⟨p, o⟩ :: s.live.erase ⟨p, o⟩) := List.perm_cons_erase hb
  have h0 : Inv ⟨s.st, ⟨p, o⟩ :: s.live.erase ⟨p, o⟩, s.seeded⟩ := h.perm hperm
  have h1 := h0.setPage p { s.st.mem_map p with refcount := 0 } rfl (fun _ => rfl)
  have h2 := Inv.free_one_loop (MAX_ORDER - 1 - o) p o _ h1
  unfold MiniKernel.free_pages
  dsimp only
  rw [if_neg (by omega)]
  refine h2.congr _ ?_ ?_ rfl rfl
  · intro zi j
    show ((if zi = ZONE_NORMAL then _ else _ : Zone)).free_area j = _
    split
    · next e => rw [e]; rfl
    · rfl
  · intro zi
    show ((if zi = ZONE_NORMAL then _ else _ : Zone)).nr_free_pages = _
    split
    · next e => rw [e]; rfl
    · rfl

/-- Pairwise disjoint ranges below `n` hold at most `n` frames. -/
theorem rangeSum_le_of_disjoint (n : Nat) : ∀ (sd : List (Nat × Nat)),
    sd.Pairwise (fun r r' => r.2 ≤ r'.1 ∨ r'.2 ≤ r.1) → (∀ r, r ∈ sd → r.1 ≤ r.2 ∧ r.2 ≤ n) →
    ∃ S : Finset Nat, S.card = rangeSum sd ∧ (∀ f, f ∈ S ↔ ∃ r ∈ sd, r.1 ≤ f ∧ f < r.2) ∧
      S ⊆ Finset.range n := by
  intro sd
  induction sd with
  | nil =>
    intro _ _
    refine ⟨∅, rfl, ?_, Finset.empty_subset _⟩
    intro f; simp
  | cons r t ih =>
    intro hp hb
    obtain ⟨S, hc, hm, hs⟩ := ih (List.pairwise_cons.mp hp).2
      (fun r' hr' => hb r' (List.mem_cons_of_mem _ hr'))
    have hr := hb r (List.mem_cons_self _ _)
    have hd : Disjoint (Finset.Ico r.1 r.2) S := by
      rw [Finset.disjoint_left]
      intro f hf hfS
      obtain ⟨r', hr', h1, h2⟩ := (hm f).mp hfS
      have := (List.pairwise_cons.mp hp).1 r' hr'
      rw [Finset.mem_Ico] at hf
      omega
    refine ⟨Finset.Ico r.1 r.2 ∪ S, ?_, ?_, ?_⟩
    · rw [Finset.card_union_of_disjoint hd, Nat.card_Ico, hc]
      simp [rangeSum]
    · intro f
      rw [Finset.mem_union, Finset.mem_Ico, hm]
      constructor
      · rintro (h1 | ⟨r', hr', h1⟩)
        · exact ⟨r, List.mem_cons_self _ _, h1⟩
        · exact ⟨r', List.mem_cons_of_mem _ hr', h1⟩
      · rintro ⟨r', hr', h1⟩
        rcases List.mem_cons.mp hr' with e | hr'
        · exact Or.inl (e ▸ h1)
        · exact Or.inr ⟨r', hr', h1⟩
    · apply Finset.union_subset _ hs
      intro f hf
      rw [Finset.mem_Ico] at hf
      rw [Finset.mem_range]
      omega

theorem rangeSum_le (n : Nat) (sd : List (Nat × Nat))
    (hp : sd.Pairwise (fun r r' => r.2 ≤ r'.1 ∨ r'.2 ≤ r.1))
    (hb : ∀ r, r ∈ sd → r.1 ≤ r.2 ∧ r.2 ≤ n) : rangeSum sd ≤ n := by
  obtain ⟨S, hc, _, hs⟩ := rangeSum_le_of_disjoint n sd hp hb
  rw [← hc]
  simpa using Finset.card_le_card hs

theorem rangeSum_cons (r : Nat × Nat) (l : List (Nat × Nat)) :
    rangeSum (r :: l) = (r.2 - r.1) + rangeSum l := by
  simp [rangeSum]

theorem two_pow_le_of_lt_max {o : Nat} (ho : o < MAX_ORDER) : 2 ^ o ≤ 1024 := by
  have : 2 ^ o ≤ 2 ^ 10 := Nat.pow_le_pow_right (by decide) (by unfold MAX_ORDER at ho; omega)
  omega

/-- The inner loop of `free_area_init` returns the largest order, up to the starting
one, at which the frame is aligned and the block ends inside the range. -/
theorem seed_order_spec (pfn e : Nat) (hlt : pfn < e) (he : e ≤ MAX_PFN) :
    ∀ n, n < MAX_ORDER →
      seed_order pfn e n ≤ n ∧ 2 ^ seed_order pfn e n ∣ pfn ∧
      pfn + 2 ^ seed_order pfn e n ≤ e ∧
      ∀ j, seed_order pfn e n < j → j ≤ n → ¬ (2 ^ j ∣ pfn ∧ pfn + 2 ^ j ≤ e) := by
  intro n
  induction n with
  | zero =>
    intro _
    refine ⟨Nat.le_refl _, ?_, ?_, ?_⟩
    · simp [seed_order]
    · simp only [seed_order, pow_zero]; omega
    · intro j h1 h2
      simp only [seed_order] at h1
      omega
  | succ n ih =>
    intro hn
    have hW := MAX_PFN_lt_WORD
    have hp := two_pow_le_of_lt_max hn
    obtain ⟨i1, i2, i3, i4⟩ := ih (by omega)
    unfold seed_order
    rw [Nat.one_shiftLeft, Nat.and_pow_two_sub_one_eq_mod,
      Nat.mod_eq_of_lt (show pfn + 2 ^ (n + 1) < WORD by omega)]
    by_cases h1 : pfn % 2 ^ (n + 1) ≠ 0
    · rw [if_pos h1]
      refine ⟨by omega, i2, i3, ?_⟩
      intro j hj1 hj2
      by_cases e1 : j = n + 1
      · subst e1
        intro hc
        exact h1 (Nat.mod_eq_zero_of_dvd hc.1)
      · exact i4 j hj1 (by omega)
    · rw [if_neg h1]
      by_cases h2 : pfn + 2 ^ (n + 1) > e
      · rw [if_pos h2]
        refine ⟨by omega, i2, i3, ?_⟩
        intro j hj1 hj2
        by_cases e1 : j = n + 1
        · subst e1
          intro hc
          omega
        · exact i4 j hj1 (by omega)
      · rw [if_neg h2]
        refine ⟨Nat.le_refl _, ?_, by omega, ?_⟩
        · exact Nat.dvd_of_mod_eq_zero (by omega)
        · intro j hj1 hj2
          omega

/-- Bookkeeping only: an empty range is recorded as seeded. -/
theorem Inv.seed_empty {st : State} {l : List Block} {sd : List (Nat × Nat)} {a : Nat}
    (h : Inv ⟨st, l, sd⟩) (ha : a ≤ MAX_PFN) (hd : ∀ r, r ∈ sd → a ≤ r.1 ∨ r.2 ≤ a) :
    Inv ⟨st, l, (a, a) :: sd⟩ := by
  have hseed : ∀ f, Sys.isSeeded ⟨st, l, (a, a) :: sd⟩ f ↔ Sys.isSeeded ⟨st, l, sd⟩ f := by
    intro f
    unfold Sys.isSeeded
    simp only [List.mem_cons]
    constructor
    · rintro ⟨r, hr | hr, h1, h2⟩
      · subst hr; dsimp only at h1 h2; omega
      · exact ⟨r, hr, h1, h2⟩
    · rintro ⟨r, hr, h1⟩
      exact ⟨r, Or.inr hr, h1⟩
  constructor
  · exact h.present
  · exact h.others
  · exact h.nodup
  · exact h.live_nodup
  · exact h.excl
  · exact h.wf
  · exact h.uniq
  · intro f
    rw [hseed]
    exact h.cover f
  · intro r hr
    rcases List.mem_cons.mp hr with e | hr
    · subst e; exact ⟨Nat.le_refl _, ha⟩
    · exact h.seeded_ok r hr
  · exact List.pairwise_cons.mpr ⟨hd, h.seeded_disj⟩
  · exact h.flags
  · exact h.order
  · exact h.count_area
  · exact h.count_zone
  · show st.freeSum + blockSum l = rangeSum ((a, a) :: sd)
    rw [rangeSum_cons]
    have := h.count_total
    change st.freeSum + blockSum l = rangeSum sd at this
    dsimp only
    omega
  · show rangeSum ((a, a) :: sd) ≤ MAX_PFN
    rw [rangeSum_cons]
    have := h.total_ok
    change rangeSum sd ≤ MAX_PFN at this
    dsimp only
    omega

/-- Bookkeeping only: a fresh aligned block that follows the range being seeded is
recorded as seeded and allocated. -/
theorem Inv.grow {st : State} {l : List Block} {sd : List (Nat × Nat)} {a b o : Nat}
    (h : Inv ⟨st, l, (a, b) :: sd⟩) (hab : a ≤ b) (ho : o < MAX_ORDER) (hal : 2 ^ o ∣ b)
    (hbd : b + 2 ^ o ≤ MAX_PFN) (hd : ∀ r, r ∈ sd → b + 2 ^ o ≤ r.1 ∨ r.2 ≤ a)
    (htot : rangeSum ((a, b + 2 ^ o) :: sd) ≤ MAX_PFN) :
    Inv ⟨st, ⟨b, o⟩ :: l, (a, b + 2 ^ o) :: sd⟩ := by
  have hpos := Nat.two_pow_pos o
  have hns : ∀ f, inBlock f ⟨b, o⟩ → ¬ Sys.isSeeded ⟨st, l, (a, b) :: sd⟩ f := by
    intro f hf hs
    unfold inBlock at hf
    obtain ⟨r, hr, h1, h2⟩ := hs
    dsimp only at hf
    rcases List.mem_cons.mp hr with e | hr
    · subst e; dsimp only at h1 h2; omega
    · have := hd r hr; omega
  have hnew : ∀ f c, Sys.isBlock ⟨st, l, (a, b) :: sd⟩ c → inBlock f c → ¬ inBlock f ⟨b, o⟩ := by
    intro f c hc hf hf'
    exact hns f hf' ((h.cover f).mpr ⟨c, hc, hf⟩)
  have hnB : ¬ Sys.isBlock ⟨st, l, (a, b) :: sd⟩ ⟨b, o⟩ := fun hc =>
    hnew b _ hc (inBlock_head _ _) (inBlock_head _ _)
  have hblk : ∀ c, Sys.isBlock ⟨st, ⟨b, o⟩ :: l, (a, b + 2 ^ o) :: sd⟩ c ↔
      c = ⟨b, o⟩ ∨ Sys.isBlock ⟨st, l, (a, b) :: sd⟩ c := by
    intro c
    unfold Sys.isBlock
    simp only [List.mem_cons]
    tauto
  have hseed : ∀ f, Sys.isSeeded ⟨st, ⟨b, o⟩ :: l, (a, b + 2 ^ o) :: sd⟩ f ↔
      inBlock f ⟨b, o⟩ ∨ Sys.isSeeded ⟨st, l, (a, b) :: sd⟩ f := by
    intro f
    unfold Sys.isSeeded inBlock
    simp only [List.mem_cons]
    constructor
    · rintro ⟨r, hr | hr, h1, h2⟩
      · subst hr
        dsimp only at h1 h2 ⊢
        by_cases hfb : f < b
        · exact Or.inr ⟨(a, b), Or.inl rfl, h1, hfb⟩
        · exact Or.inl ⟨by omega, h2⟩
      · exact Or.inr ⟨r, Or.inr hr, h1, h2⟩
    · rintro (⟨h1, h2⟩ | ⟨r, hr | hr, h1, h2⟩)
      · exact ⟨(a, b + 2 ^ o), Or.inl rfl, by dsimp only; omega, h2⟩
      · subst hr
        dsimp only at h1 h2
        exact ⟨(a, b + 2 ^ o), Or.inl rfl, h1, by dsimp only; omega⟩
      · exact ⟨r, Or.inr hr, h1, h2⟩
  constructor
  · exact h.present
  · exact h.others
  · exact h.nodup
  · exact List.nodup_cons.mpr ⟨fun hm => hnB (Or.inr hm), h.live_nodup⟩
  · intro c hc hf
    rcases List.mem_cons.mp hc with e | hc
    · exact hnB (Or.inl (e ▸ hf))
    · exact h.excl c hc hf
  · intro c hc
    rcases (hblk c).mp hc with e | hc
    · subst e; exact ⟨ho, hal⟩
    · exact h.wf c hc
  · intro f c c' hc hc' hf hf'
    rcases (hblk c).mp hc with e | hc <;> rcases (hblk c').mp hc' with e' | hc'
    · rw [e, e']
    · subst e; exact absurd hf (hnew f c' hc' hf')
    · subst e'; exact absurd hf' (hnew f c hc hf)
    · exact h.uniq f c c' hc hc' hf hf'
  · intro f
    rw [hseed, h.cover f]
    constructor
    · rintro (h1 | ⟨c, hc, hf⟩)
      · exact ⟨_, (hblk _).mpr (Or.inl rfl), h1⟩
      · exact ⟨c, (hblk c).mpr (Or.inr hc), hf⟩
    · rintro ⟨c, hc, hf⟩
      rcases (hblk c).mp hc with e | hc
      · subst e; exact Or.inl hf
      · exact Or.inr ⟨c, hc, hf⟩
  · intro r hr
    rcases List.mem_cons.mp hr with e | hr
    · subst e; dsimp only; exact ⟨by omega, hbd⟩
    · exact h.seeded_ok r (List.mem_cons_of_mem _ hr)
  · exact List.pairwise_cons.mpr ⟨hd, (List.pairwise_cons.mp h.seeded_disj).2⟩
  · exact h.flags
  · exact h.order
  · exact h.count_area
  · exact h.count_zone
  · show st.freeSum + blockSum (⟨b, o⟩ :: l) = rangeSum ((a, b + 2 ^ o) :: sd)
    have := h.count_total
    change st.freeSum + blockSum l = rangeSum ((a, b) :: sd) at this
    rw [rangeSum_cons] at this ⊢
    rw [blockSum_cons]
    dsimp only at this ⊢
    omega
  · exact htot

theorem Inv.seed_loop {l : List Block} {sd : List (Nat × Nat)} {a e : Nat} (he : e ≤ MAX_PFN)
    (hd : ∀ r, r ∈ sd → e ≤ r.1 ∨ r.2 ≤ a) (htot : rangeSum ((a, e) :: sd) ≤ MAX_PFN) :
    ∀ (fuel pfn : Nat) (st : State), a ≤ pfn → pfn ≤ e → e - pfn ≤ fuel →
      Inv ⟨st, l, (a, pfn) :: sd⟩ → st.free_page_count = st.freeSum →
      st.total_pages = rangeSum ((a, pfn) :: sd) →
      (∀ p o, st.isFree ⟨p, o⟩ → a ≤ p → p < e → ∀ j, o < j → j < MAX_ORDER →
        ¬ (2 ^ j ∣ p ∧ p + 2 ^ j ≤ e)) →
      ∃ st', seed_loop e fuel pfn st = some st' ∧ Inv ⟨st', l, (a, e) :: sd⟩ ∧
        st'.free_page_count = st'.freeSum ∧ st'.total_pages = rangeSum ((a, e) :: sd) ∧
        (∀ p o, st'.isFree ⟨p, o⟩ → a ≤ p → p < e → ∀ j, o < j → j < MAX_ORDER →
          ¬ (2 ^ j ∣ p ∧ p + 2 ^ j ≤ e)) := by
  intro fuel
  induction fuel with
  | zero =>
    intro pfn st h1 h2 h3 h hF hT hM
    have : pfn = e := by omega
    subst this
    exact ⟨st, by simp [MiniKernel.seed_loop], h, hF, hT, hM⟩
  | succ n ih =>
    intro pfn st h1 h2 h3 h hF hT hM
    unfold MiniKernel.seed_loop
    by_cases hlt : pfn < e
    · rw [if_pos hlt]
      dsimp only
      obtain ⟨s1, s2, s3, s4⟩ := seed_order_spec pfn e hlt he (MAX_ORDER - 1) (by decide)
      generalize seed_order pfn e (MAX_ORDER - 1) = o at s1 s2 s3 s4 ⊢
      have ho : o < MAX_ORDER := by unfold MAX_ORDER at s1 ⊢; omega
      have hW := MAX_PFN_lt_WORD
      have hp := two_pow_le_of_lt_max ho
      have hold : PageBuddy (st.mem_map pfn) = false := by
        by_contra hne
        have ht : PageBuddy (st.mem_map pfn) = true := by
          cases hh : PageBuddy (st.mem_map pfn)
          · exact absurd hh hne
          · rfl
        obtain ⟨o', hfr⟩ := (h.flags pfn).mp ht
        obtain ⟨r, hr, r1, r2⟩ := (h.cover pfn).mpr ⟨_, Or.inl hfr, inBlock_head _ _⟩
        rcases List.mem_cons.mp hr with e1 | hr
        · subst e1; dsimp only at r1 r2; omega
        · have := hd r hr; omega
      have hs1 : Inv ⟨st.setPage pfn
          { st.mem_map pfn with flags := 0, refcount := 0, mapcount := -1 }, l,
          (a, pfn) :: sd⟩ :=
        h.setPage pfn { st.mem_map pfn with flags := 0, refcount := 0, mapcount := -1 }
          (by rw [hold]; exact PageBuddy_zero_flags _ rfl)
          (fun ht => absurd ((PageBuddy_zero_flags _ rfl).symm.trans ht) (by simp))
      have htot' : rangeSum ((a, pfn + 2 ^ o) :: sd) ≤ MAX_PFN := by
        rw [rangeSum_cons] at htot ⊢
        dsimp only at htot ⊢
        omega
      have hg := hs1.grow h1 ho s2 (by omega)
        (fun r hr => by have := hd r hr; omega) htot'
      have ha := hg.add_head
      have hc0 : st.freeSum + blockSum l = rangeSum ((a, pfn) :: sd) := h.count_total
      have hc1 : (add_page_to_free_list (st.setPage pfn
          { st.mem_map pfn with flags := 0, refcount := 0, mapcount := -1 })
          pfn ZONE_NORMAL o).freeSum + blockSum l =
        rangeSum ((a, pfn + 2 ^ o) :: sd) := ha.count_total
      have hr0 : rangeSum ((a, pfn + 2 ^ o) :: sd) = rangeSum ((a, pfn) :: sd) + 2 ^ o := by
        rw [rangeSum_cons, rangeSum_cons]; dsimp only; omega
      rw [Nat.one_shiftLeft, Nat.mod_eq_of_lt (show pfn + 2 ^ o < WORD by omega)]
      refine ih (pfn + 2 ^ o) _ (by omega) (by omega) (by have := Nat.two_pow_pos o; omega)
        (ha.congr _ (fun _ _ => rfl) (fun _ => rfl) rfl rfl) ?_ ?_ ?_
      · show (st.free_page_count + 2 ^ o) % WORD = (add_page_to_free_list (st.setPage pfn
          { st.mem_map pfn with flags := 0, refcount := 0, mapcount := -1 })
          pfn ZONE_NORMAL o).freeSum
        rw [hF, Nat.mod_eq_of_lt (by omega)]
        omega
      · show (st.total_pages + 2 ^ o) % WORD = _
        rw [hT, Nat.mod_eq_of_lt (by omega)]
        omega
      · intro p o' hfr hp1 hp2 j hj1 hj2
        have hfr' : (add_page_to_free_list (st.setPage pfn
            { st.mem_map pfn with flags := 0, refcount := 0, mapcount := -1 })
            pfn ZONE_NORMAL o).isFree ⟨p, o'⟩ := hfr
        rcases (isFree_add _ pfn o ho _).mp hfr' with e1 | hold'
        · simp only [Block.mk.injEq] at e1
          rw [e1.1]
          exact s4 j (by omega) (by unfold MAX_ORDER at hj2 ⊢; omega)
        · exact hM p o' hold' hp1 hp2 j hj1 hj2
    · have : pfn = e := by omega
      subst this
      rw [if_neg hlt]
      exact ⟨st, rfl, h, hF, hT, hM⟩

theorem Good.free_area_init {s : Sys} (h : Good s) {a b : Nat} (hab : a ≤ b) (hb : b ≤ MAX_PFN)
    (hd : ∀ r, r ∈ s.seeded → b ≤ r.1 ∨ r.2 ≤ a) :
    ∃ st', free_area_init s.st a b = some st' ∧ Good ⟨st', s.live, (a, b) :: s.seeded⟩ ∧
      (∀ p o, st'.isFree ⟨p, o⟩ → a ≤ p → p < b → ∀ j, o < j → j < MAX_ORDER →
        ¬ (2 ^ j ∣ p ∧ p + 2 ^ j ≤ b)) := by
  obtain ⟨hi, hF, hT⟩ := h
  have hW := MAX_PFN_lt_WORD
  unfold MiniKernel.free_area_init
  dsimp only
  rw [sub_mod_word b a hab (by omega)]
  by_cases h0 : b - a = 0
  · rw [if_pos h0]
    have : a = b := by omega
    subst this
    refine ⟨s.st, rfl, ⟨hi.seed_empty hb hd, hF, ?_⟩, ?_⟩
    · show s.st.total_pages = rangeSum ((a, a) :: s.seeded)
      rw [rangeSum_cons, hT]; simp
    · intro p o _ h1 h2
      omega
  · rw [if_neg h0]
    have hpres := hi.present
    rw [hpres]
    simp only [Bool.not_true, Bool.false_eq_true, if_false]
    have htot : rangeSum ((a, b) :: s.seeded) ≤ MAX_PFN := by
      apply rangeSum_le
      · exact List.pairwise_cons.mpr ⟨hd, hi.seeded_disj⟩
      · intro r hr
        rcases List.mem_cons.mp hr with e | hr
        · subst e; exact ⟨hab, hb⟩
        · exact hi.seeded_ok r hr
    have hd' : ∀ r, r ∈ s.seeded → a ≤ r.1 ∨ r.2 ≤ a := by
      intro r hr; have := hd r hr; omega
    have hnone : ∀ p o, s.st.isFree ⟨p, o⟩ → a ≤ p → p < b → False := by
      intro p o hfr h1 h2
      obtain ⟨r, hr, r1, r2⟩ := (hi.cover p).mpr ⟨_, Or.inl hfr, inBlock_head _ _⟩
      have := hd r hr
      omega
    have h1 : Inv ⟨_, s.live, s.seeded⟩ := hi.congr
      ({ s.st.setZone ZONE_NORMAL
          { s.st.zone ZONE_NORMAL with
            zone_start_pfn :=
              if (s.st.zone ZONE_NORMAL).zone_start_pfn = 0 ∨
                  a < (s.st.zone ZONE_NORMAL).zone_start_pfn then a
              else (s.st.zone ZONE_NORMAL).zone_start_pfn,
            spanned_pages := ((s.st.zone ZONE_NORMAL).spanned_pages + (b - a)) % WORD,
            present_pages := ((s.st.zone ZONE_NORMAL).present_pages + (b - a)) % WORD,
            managed_pages := ((s.st.zone ZONE_NORMAL).managed_pages + (b - a)) % WORD } with
        node_data :=
          { (s.st.setZone ZONE_NORMAL
              { s.st.zone ZONE_NORMAL with
                zone_start_pfn :=
                  if (s.st.zone ZONE_NORMAL).zone_start_pfn = 0 ∨
                      a < (s.st.zone ZONE_NORMAL).zone_start_pfn then a
                  else (s.st.zone ZONE_NORMAL).zone_start_pfn,
                spanned_pages := ((s.st.zone ZONE_NORMAL).spanned_pages + (b - a)) % WORD,
                present_pages := ((s.st.zone ZONE_NORMAL).present_pages + (b - a)) % WORD,
                managed_pages :=
                  ((s.st.zone ZONE_NORMAL).managed_pages + (b - a)) % WORD }).node_data with
            node_start_pfn :=
              if s.st.node_data.node_start_pfn = 0 ∨ a < s.st.node_data.node_start_pfn then a
              else s.st.node_data.node_start_pfn,
            node_spanned_pages := (s.st.node_data.node_spanned_pages + (b - a)) % WORD,
            node_present_pages := (s.st.node_data.node_present_pages + (b - a)) % WORD,
            nr_zones := ZONE_NORMAL + 1 } } : State)
      (by
        intro zi o
        show ((if zi = ZONE_NORMAL then _ else _ : Zone)).free_area o = _
        split
        · next e => rw [e]
        · rfl)
      (by
        intro zi
        show ((if zi = ZONE_NORMAL then _ else _ : Zone)).nr_free_pages = _
        split
        · next e => rw [e]
        · rfl)
      rfl rfl
    have h2 := h1.seed_empty (a := a) (by omega) hd'
    obtain ⟨st', e1, e2, e3, e4, e5⟩ := Inv.seed_loop hb hd htot (b - a) a _ (Nat.le_refl _) hab
      (Nat.le_refl _) h2 (by
        show s.st.free_page_count = State.freeSum _
        rw [hF]
        exact (freeSum_eq_of_flist _ _ (fun o _ => rfl)).symm)
      (by
        show s.st.total_pages = _
        rw [hT, rangeSum_cons]; simp)
      (by
        intro p o hfr h1 h2
        exact absurd (hnone p o hfr h1 h2) id)
    exact ⟨st', e1, ⟨e2, e3, e4⟩, e5⟩

/-! ### The global statistics are only written by the public entry points -/

theorem expand_loop_stats (zone p low : Nat) : ∀ (high size : Nat) (st : State),
    (expand_loop zone p low high size st).free_page_count = st.free_page_count ∧
    (expand_loop zone p low high size st).total_pages = st.total_pages := by
  intro high
  induction high with
  | zero => intro size st; exact ⟨rfl, rfl⟩
  | succ n ih =>
    intro size st
    unfold expand_loop
    split
    · exact ih _ _
    · exact ⟨rfl, rfl⟩

theorem rmqueue_loop_stats (zone order : Nat) : ∀ (fuel cur : Nat) (st : State),
    (rmqueue_loop zone order fuel cur st).2.free_page_count = st.free_page_count ∧
    (rmqueue_loop zone order fuel cur st).2.total_pages = st.total_pages := by
  intro fuel
  induction fuel with
  | zero => intro cur st; exact ⟨rfl, rfl⟩
  | succ n ih =>
    intro cur st
    unfold rmqueue_loop
    split
    · split
      · exact ih _ _
      · exact expand_loop_stats _ _ _ _ _ _
    · exact ⟨rfl, rfl⟩

theorem free_one_loop_stats (zone : Nat) : ∀ (fuel p o : Nat) (st : State),
    (free_one_loop zone fuel p o st).free_page_count = st.free_page_count ∧
    (free_one_loop zone fuel p o st).total_pages = st.total_pages := by
  intro fuel
  induction fuel with
  | zero => intro p o st; exact ⟨rfl, rfl⟩
  | succ n ih =>
    intro p o st
    unfold free_one_loop
    split
    · dsimp only
      split
      · exact ⟨rfl, rfl⟩
      · exact ih _ _ _
    · exact ⟨rfl, rfl⟩

theorem prep_loop_stats (p : Nat) : ∀ (n : Nat) (st : State),
    (prep_loop p n st).free_page_count = st.free_page_count ∧
    (prep_loop p n st).total_pages = st.total_pages ∧
    (prep_loop p n st).node_data = st.node_data := by
  intro n
  induction n with
  | zero => intro st; exact ⟨rfl, rfl, rfl⟩
  | succ n ih => intro st; exact ih st

theorem prep_new_page_stats (st : State) (p o g : Nat) :
    (prep_new_page st p o g).free_page_count = st.free_page_count ∧
    (prep_new_page st p o g).total_pages = st.total_pages ∧
    (prep_new_page st p o g).node_data = st.node_data := by
  unfold prep_new_page
  dsimp only
  split
  · exact prep_loop_stats _ _ _
  · exact prep_loop_stats _ _ _

theorem alloc_zones_stats (order : Nat) : ∀ (n : Nat) (st : State),
    (alloc_zones order n st).2.total_pages = st.total_pages ∧
    ((alloc_zones order n st).1 = none →
      (alloc_zones order n st).2.free_page_count = st.free_page_count) ∧
    ((alloc_zones order n st).1 ≠ none →
      (alloc_zones order n st).2.free_page_count =
        (st.free_page_count + WORD - 1 <<< order) % WORD) := by
  intro n
  induction n with
  | zero => intro st; exact ⟨rfl, fun _ => rfl, fun h => absurd rfl h⟩
  | succ i ih =>
    intro st
    unfold alloc_zones
    split
    · exact ih st
    · have hs := rmqueue_loop_stats i order (MAX_ORDER - order) order st
      cases hq : __rmqueue_smallest st i order with
      | mk a st1 =>
        unfold __rmqueue_smallest at hq
        rw [hq] at hs
        cases a with
        | none =>
          dsimp only at hs ⊢
          rw [← hs.1, ← hs.2]
          exact ih st1
        | some p =>
          dsimp only at hs ⊢
          refine ⟨hs.2, fun h => by simp at h, fun _ => ?_⟩
          show (st1.free_page_count + WORD - 1 <<< order) % WORD = _
          rw [hs.1]

theorem alloc_pages_stats (st : State) (g order : Nat) :
    (alloc_pages st g order).2.total_pages = st.total_pages ∧
    ((alloc_pages st g order).1 = none →
      (alloc_pages st g order).2.free_page_count = st.free_page_count) ∧
    ((alloc_pages st g order).1 ≠ none →
      (alloc_pages st g order).2.free_page_count =
        (st.free_page_count + WORD - 1 <<< order) % WORD) := by
  unfold alloc_pages
  split
  · exact ⟨rfl, fun _ => rfl, fun h => absurd rfl h⟩
  · have hs := alloc_zones_stats order (gfp_zone g + 1) st
    cases hq : alloc_zones order (gfp_zone g + 1) st with
    | mk a st1 =>
      rw [hq] at hs
      cases a with
      | none => exact hs
      | some p =>
        dsimp only at hs ⊢
        have hp := prep_new_page_stats st1 p order g
        rw [hp.1, hp.2.1]
        exact hs

theorem free_pages_stats (st : State) (p o : Nat) (ho : o < MAX_ORDER) :
    (free_pages st (some p) o).total_pages = st.total_pages ∧
    (free_pages st (some p) o).free_page_count = (st.free_page_count + 1 <<< o) % WORD := by
  unfold free_pages
  dsimp only
  rw [if_neg (by omega)]
  have hs := free_one_loop_stats ZONE_NORMAL (MAX_ORDER - 1 - o) p o
    (st.setPage p { st.mem_map p with refcount := 0 })
  constructor
  · show (__free_one_page _ p ZONE_NORMAL o).total_pages = _
    unfold __free_one_page
    rw [hs.2]; rfl
  · show ((__free_one_page _ p ZONE_NORMAL o).free_page_count + 1 <<< o) % WORD = _
    unfold __free_one_page
    rw [hs.1]; rfl

theorem init_flist (o : Nat) : (buddy_init boot).flist o = [] := by
  unfold State.flist State.zone buddy_init
  simp only [show ZONE_NORMAL < MAX_NR_ZONES by decide, if_true]
  split <;> rfl

theorem init_not_free (b : Block) : ¬ (buddy_init boot).isFree b := by
  intro h
  have := h.2
  rw [init_flist] at this
  exact List.not_mem_nil _ this

theorem init_freeSum : (buddy_init boot).freeSum = 0 := by
  unfold State.freeSum
  apply Finset.sum_eq_zero
  intro o _
  rw [init_flist]; simp

theorem init_zone_counts (zi : Nat) (hz : zi < MAX_NR_ZONES) :
    ((buddy_init boot).zone zi).nr_free_pages = 0 ∧
    ∀ o, o < MAX_ORDER → ((buddy_init boot).zone zi).free_area o = ⟨[], 0⟩ := by
  unfold State.zone buddy_init
  dsimp only
  rw [if_pos hz]
  refine ⟨rfl, fun o ho => ?_⟩
  dsimp only
  rw [if_pos ho]

theorem init_page (q : Nat) : (buddy_init boot).mem_map q = zero_page := rfl

theorem Good.init : Good Sys.init := by
  refine ⟨?_, ?_, rfl⟩
  · constructor
    · rfl
    · intro zi hz _
      refine ⟨(init_zone_counts zi hz).1, fun o ho => ?_⟩
      show (((buddy_init boot).zone zi).free_area o).free_list = []
      rw [(init_zone_counts zi hz).2 o ho]
    · intro o _
      show ((buddy_init boot).flist o).Nodup
      rw [init_flist]; exact List.nodup_nil
    · exact List.nodup_nil
    · intro b hb; exact absurd hb (List.not_mem_nil _)
    · rintro b (hb | hb)
      · exact absurd hb (init_not_free b)
      · exact absurd hb (List.not_mem_nil _)
    · rintro f b b' (hb | hb)
      · exact absurd hb (init_not_free b)
      · exact absurd hb (List.not_mem_nil _)
    · intro f
      constructor
      · rintro ⟨r, hr, _⟩; exact absurd hr (List.not_mem_nil _)
      · rintro ⟨b, hb | hb, _⟩
        · exact absurd hb (init_not_free b)
        · exact absurd hb (List.not_mem_nil _)
    · intro r hr; exact absurd hr (List.not_mem_nil _)
    · exact List.Pairwise.nil
    · intro q
      constructor
      · intro h
        have h' : PageBuddy ((buddy_init boot).mem_map q) = true := h
        rw [init_page] at h'
        exact absurd h' (by decide)
      · rintro ⟨o, ho⟩; exact absurd ho (init_not_free _)
    · intro q o ho; exact absurd ho (init_not_free _)
    · intro o ho
      show (((buddy_init boot).zone ZONE_NORMAL).free_area o).nr_free =
        ((buddy_init boot).flist o).length
      rw [init_flist, (init_zone_counts ZONE_NORMAL (by decide)).2 o ho]
      rfl
    · show ((buddy_init boot).zone ZONE_NORMAL).nr_free_pages = (buddy_init boot).freeSum
      rw [init_freeSum]; rfl
    · show (buddy_init boot).freeSum + blockSum [] = rangeSum []
      rw [init_freeSum]; rfl
    · show rangeSum [] ≤ MAX_PFN
      exact Nat.zero_le _
  · show (buddy_init boot).free_page_count = (buddy_init boot).freeSum
    rw [init_freeSum]; rfl

theorem Good.alloc {s : Sys} (h : Good s) (g order : Nat) :
    ((alloc_pages s.st g order).1 = none ∧ (alloc_pages s.st g order).2 = s.st) ∨
    (∃ p, (alloc_pages s.st g order).1 = some p ∧
      Good ⟨(alloc_pages s.st g order).2, ⟨p, order⟩ :: s.live, s.seeded⟩) := by
  obtain ⟨hi, hF, hT⟩ := h
  rcases hi.alloc_pages g order with h1 | ⟨p, h1, h2⟩
  · exact Or.inl h1
  · refine Or.inr ⟨p, h1, h2, ?_, ?_⟩
    · have hs := (alloc_pages_stats s.st g order).2.2 (by rw [h1]; simp)
      show (alloc_pages s.st g order).2.free_page_count = (alloc_pages s.st g order).2.freeSum
      have c0 := hi.count_total
      have c1 : (alloc_pages s.st g order).2.freeSum + blockSum (⟨p, order⟩ :: s.live) =
        rangeSum s.seeded := h2.count_total
      have hle := hi.blockSum_le
      have hW := MAX_PFN_lt_WORD
      rw [blockSum_cons] at c1
      dsimp only at c1
      rw [hs, hF, Nat.one_shiftLeft, sub_mod_word _ _ (by omega) (by omega)]
      omega
    · show (alloc_pages s.st g order).2.total_pages = _
      rw [(alloc_pages_stats s.st g order).1]; exact hT

theorem Good.free {s : Sys} (h : Good s) {p o : Nat} (hb : (⟨p, o⟩ : Block) ∈ s.live) :
    Good ⟨free_pages s.st (some p) o, s.live.erase ⟨p, o⟩, s.seeded⟩ := by
  obtain ⟨hi, hF, hT⟩ := h
  have ho : o < MAX_ORDER := (hi.wf ⟨p, o⟩ (Or.inr hb)).1
  have h2 := hi.free_pages hb
  have hs := free_pages_stats s.st p o ho
  refine ⟨h2, ?_, ?_⟩
  · show (free_pages s.st (some p) o).free_page_count = (free_pages s.st (some p) o).freeSum
    have c0 := hi.count_total
    have c1 : (free_pages s.st (some p) o).freeSum + blockSum (s.live.erase ⟨p, o⟩) =
      rangeSum s.seeded := h2.count_total
    have hle := hi.blockSum_le
    have hW := MAX_PFN_lt_WORD
    have he := blockSum_erase s.live ⟨p, o⟩ hb
    dsimp only at he
    rw [hs.2, hF, Nat.one_shiftLeft, Nat.mod_eq_of_lt (by omega)]
    omega
  · show (free_pages s.st (some p) o).total_pages = _
    rw [hs.1]; exact hT

theorem Good.step {s s' : Sys} (h : Good s) (op : Op) (hs : s.step op = some s') : Good s' := by
  cases op with
  | seed a b =>
    unfold Sys.step at hs
    dsimp only at hs
    split at hs
    · next hc =>
      obtain ⟨st', e1, e2, _⟩ := h.free_area_init hc.1 hc.2.1 hc.2.2
      rw [e1] at hs
      simp only [Option.some.injEq] at hs
      rw [← hs]; exact e2
    · exact absurd hs (by simp)
  | alloc g order =>
    unfold Sys.step at hs
    dsimp only at hs
    rcases h.alloc g order with ⟨e1, e2⟩ | ⟨p, e1, e2⟩
    · cases hq : alloc_pages s.st g order with
      | mk a st1 =>
        rw [hq] at hs e1 e2
        dsimp only at e1 e2
        subst e1; subst e2
        simp only [Option.some.injEq] at hs
        rw [← hs]; exact h
    · cases hq : alloc_pages s.st g order with
      | mk a st1 =>
        rw [hq] at hs e1 e2
        dsimp only at e1 e2
        subst e1
        simp only [Option.some.injEq] at hs
        rw [← hs]; exact e2
  | free p o =>
    unfold Sys.step at hs
    dsimp only at hs
    split at hs
    · next hc =>
      simp only [Option.some.injEq] at hs
      rw [← hs]; exact h.free hc
    · exact absurd hs (by simp)

theorem Good.run : ∀ (ops : List Op) {s s' : Sys}, Good s → s.run ops = some s' → Good s' := by
  intro ops
  induction ops with
  | nil =>
    intro s s' h hr
    simp only [Sys.run, Option.some.injEq] at hr
    rw [← hr]; exact h
  | cons op t ih =>
    intro s s' h hr
    unfold Sys.run at hr
    cases hq : s.step op with
    | none => rw [hq] at hr; exact absurd hr (by simp)
    | some s1 =>
      rw [hq] at hr
      exact ih (h.step op hq) hr

theorem Reachable.good {s : Sys} (h : Reachable s) : Good s := by
  obtain ⟨ops, hr⟩ := h
  exact Good.run ops Good.init hr

/-! ### Failure of `alloc_pages` -/

theorem rmqueue_loop_none_iff (zone order : Nat) : ∀ (fuel cur : Nat) (st : State),
    cur + fuel = MAX_ORDER →
    ((rmqueue_loop zone order fuel cur st).1 = none ↔
      ∀ o, cur ≤ o → o < MAX_ORDER → ((st.zone zone).free_area o).free_list = []) := by
  intro fuel
  induction fuel with
  | zero =>
    intro cur st hc
    simp only [rmqueue_loop, true_iff]
    intro o h1 h2
    omega
  | succ n ih =>
    intro cur st hc
    unfold rmqueue_loop
    rw [if_pos (by omega)]
    cases hfl : ((st.zone zone).free_area cur).free_list with
    | nil =>
      dsimp only
      rw [ih (cur + 1) st (by omega)]
      constructor
      · intro h o h1 h2
        by_cases e : o = cur
        · rw [e]; exact hfl
        · exact h o (by omega) h2
      · intro h o h1 h2
        exact h o (by omega) h2
    | cons q t =>
      dsimp only
      constructor
      · intro h; exact absurd h (by simp)
      · intro h
        have := h cur (Nat.le_refl _) (by omega)
        rw [hfl] at this
        exact absurd this (by simp)

theorem rmqueue_none_iff (st : State) (zone order : Nat) (ho : order ≤ MAX_ORDER) :
    ((__rmqueue_smallest st zone order).1 = none ↔
      ∀ o, order ≤ o → o < MAX_ORDER → ((st.zone zone).free_area o).free_list = []) :=
  rmqueue_loop_none_iff zone order (MAX_ORDER - order) order st (by omega)

theorem rmqueue_none_state (st : State) (zone order : Nat)
    (h : (__rmqueue_smallest st zone order).1 = none) : (__rmqueue_smallest st zone order).2 = st := by
  cases hq : __rmqueue_smallest st zone order with
  | mk a st1 =>
    rw [hq] at h
    dsimp only at h
    subst h
    exact rmqueue_loop_none _ _ _ _ hq

/-- A zone whose counter agrees with its lists and is below `2 ^ order` holds no block
of order `order` or more. -/
theorem frames_lt_empty (z : Zone) (order : Nat) (h : z.frames < 2 ^ order) :
    ∀ o, order ≤ o → o < MAX_ORDER → (z.free_area o).free_list = [] := by
  intro o h1 h2
  by_contra hne
  have hlen : 0 < (z.free_area o).free_list.length := List.length_pos.mpr hne
  have hle : (z.free_area o).free_list.length * 2 ^ o ≤ z.frames := by
    unfold Zone.frames
    exact Finset.single_le_sum (f := fun o => (z.free_area o).free_list.length * 2 ^ o)
      (fun _ _ => Nat.zero_le _) (Finset.mem_range.mpr h2)
  have hpw : 2 ^ order ≤ 2 ^ o := Nat.pow_le_pow_right (by decide) h1
  have : 2 ^ o ≤ (z.free_area o).free_list.length * 2 ^ o := Nat.le_mul_of_pos_left _ hlen
  omega

/-- A zone whose counter agrees with its lists and holds a block of order `o ≥ order`
has at least `2 ^ order` free pages. -/
theorem frames_ge_of_block (z : Zone) (order o : Nat) (h1 : order ≤ o) (h2 : o < MAX_ORDER)
    (hne : (z.free_area o).free_list ≠ []) : ¬ z.frames < 2 ^ order := by
  intro hlt
  exact hne (frames_lt_empty z order hlt o h1 h2)

theorem alloc_zones_none_iff (order : Nat) (ho : order < MAX_ORDER) :
    ∀ (n : Nat) (st : State),
      (∀ zi, zi < n → (st.zone zi).nr_free_pages = (st.zone zi).frames) →
      (((alloc_zones order n st).1 = none ↔
        ∀ zi, zi < n → ∀ o, order ≤ o → o < MAX_ORDER →
          ((st.zone zi).free_area o).free_list = []) ∧
       ((alloc_zones order n st).1 = none → (alloc_zones order n st).2 = st)) := by
  intro n
  induction n with
  | zero =>
    intro st _
    simp [alloc_zones]
  | succ i ih =>
    intro st hc
    have ih' := ih st (fun zi hz => hc zi (by omega))
    have hci := hc i (Nat.lt_succ_self i)
    unfold alloc_zones
    rw [Nat.one_shiftLeft]
    by_cases hskip : (st.zone i).nr_free_pages < 2 ^ order
    · rw [if_pos hskip]
      have hempty := frames_lt_empty (st.zone i) order (hci ▸ hskip)
      refine ⟨?_, ih'.2⟩
      rw [ih'.1]
      constructor
      · intro h zi hz o h1 h2
        by_cases e : zi = i
        · rw [e]; exact hempty o h1 h2
        · exact h zi (by omega) o h1 h2
      · intro h zi hz
        exact h zi (by omega)
    · rw [if_neg hskip]
      have hiff := rmqueue_none_iff st i order (by omega)
      have hst := rmqueue_none_state st i order
      cases hq : __rmqueue_smallest st i order with
      | mk a st1 =>
        rw [hq] at hiff hst
        cases a with
        | none =>
          dsimp only at hiff hst ⊢
          have e := hst rfl
          subst e
          refine ⟨?_, ih'.2⟩
          rw [ih'.1]
          have hempty := hiff.mp rfl
          constructor
          · intro h zi hz o h1 h2
            by_cases e : zi = i
            · rw [e]; exact hempty o h1 h2
            · exact h zi (by omega) o h1 h2
          · intro h zi hz
            exact h zi (by omega)
        | some p =>
          dsimp only at hiff ⊢
          refine ⟨?_, fun h => absurd h (by simp)⟩
          constructor
          · intro h; exact absurd h (by simp)
          · intro h
            have := hiff.mpr (h i (Nat.lt_succ_self i))
            exact absurd this (by simp)

theorem alloc_pages_fst (st : State) (g order : Nat) (ho : order < MAX_ORDER) :
    (alloc_pages st g order).1 = (alloc_zones order (gfp_zone g + 1) st).1 := by
  unfold alloc_pages
  rw [if_neg (by omega)]
  cases hq : alloc_zones order (gfp_zone g + 1) st with
  | mk a st1 => cases a <;> rfl

theorem alloc_pages_none_state (st : State) (g order : Nat) (ho : order < MAX_ORDER)
    (h : (alloc_zones order (gfp_zone g + 1) st).1 = none) :
    (alloc_pages st g order).2 = (alloc_zones order (gfp_zone g + 1) st).2 := by
  unfold alloc_pages
  rw [if_neg (by omega)]
  cases hq : alloc_zones order (gfp_zone g + 1) st with
  | mk a st1 =>
    rw [hq] at h
    dsimp only at h
    subst h
    rfl

theorem alloc_pages_none_iff (st : State) (gfp_mask order : Nat) (ho : order < MAX_ORDER)
    (hc : ∀ zi, zi ≤ gfp_zone gfp_mask → (st.zone zi).nr_free_pages = (st.zone zi).frames) :
    ((alloc_pages st gfp_mask order).1 = none ↔
      ∀ zi, zi ≤ gfp_zone gfp_mask → ∀ o, order ≤ o → o < MAX_ORDER →
        ((st.zone zi).free_area o).free_list = []) ∧
    ((alloc_pages st gfp_mask order).1 = none → (alloc_pages st gfp_mask order).2 = st) := by
  have h := alloc_zones_none_iff order ho (gfp_zone gfp_mask + 1) st
    (fun zi hz => hc zi (by omega))
  rw [alloc_pages_fst st gfp_mask order ho]
  constructor
  · rw [h.1]
    constructor
    · intro h1 zi hz; exact h1 zi (by omega)
    · intro h1 zi hz; exact h1 zi (by omega)
  · intro hn
    rw [alloc_pages_none_state st gfp_mask order ho hn]
    exact h.2 hn

/-! ### Zone selection and fallback -/

theorem expand_loop_zone_other (zone p low zi : Nat) (hz : zi ≠ zone) :
    ∀ (high size : Nat) (st : State), (expand_loop zone p low high size st).zone zi = st.zone zi := by
  intro high
  induction high with
  | zero => intro size st; rfl
  | succ n ih =>
    intro size st
    unfold expand_loop
    split
    · rw [ih, add_zone, if_neg hz]
    · rfl

theorem rmqueue_loop_zone_other (zone order zi : Nat) (hz : zi ≠ zone) :
    ∀ (fuel cur : Nat) (st : State), (rmqueue_loop zone order fuel cur st).2.zone zi = st.zone zi := by
  intro fuel
  induction fuel with
  | zero => intro cur st; rfl
  | succ n ih =>
    intro cur st
    unfold rmqueue_loop
    split
    · split
      · exact ih _ _
      · dsimp only
        unfold expand
        rw [expand_loop_zone_other _ _ _ _ hz, del_zone, if_neg hz]
    · rfl

theorem prep_new_page_node (st : State) (p o g : Nat) :
    (prep_new_page st p o g).node_data = st.node_data :=
  (prep_new_page_stats st p o g).2.2

theorem prep_new_page_mem_map (st : State) (p o g g' : Nat) :
    (prep_new_page st p o g).mem_map = (prep_new_page st p o g').mem_map := by
  unfold prep_new_page
  dsimp only
  split <;> split <;> rfl

theorem zone_eq_of_node {st st' : State} (h : st'.node_data = st.node_data) (zi : Nat) :
    st'.zone zi = st.zone zi := by
  unfold State.zone; rw [h]

/-- Zones above the serving zone that hold no block of order `order` or more are passed
over without any change. -/
theorem alloc_zones_pass (order z : Nat) (ho : order < MAX_ORDER) :
    ∀ (n : Nat) (st : State), z < n →
      (∀ zi, zi < n → (st.zone zi).nr_free_pages = (st.zone zi).frames) →
      (∀ z', z < z' → z' < n → ∀ o, order ≤ o → o < MAX_ORDER →
        ((st.zone z').free_area o).free_list = []) →
      alloc_zones order n st = alloc_zones order (z + 1) st := by
  intro n
  induction n with
  | zero => intro st hz; omega
  | succ i ih =>
    intro st hz hc he
    by_cases e : i = z
    · rw [e]
    · have hiz : z < i := by omega
      have hrec := ih st hiz (fun zi h => hc zi (by omega)) (fun z' h1 h2 => he z' h1 (by omega))
      rw [← hrec]
      conv_lhs => unfold alloc_zones
      split
      · rfl
      · have hnone := (rmqueue_none_iff st i order (by omega)).mpr (he i hiz (Nat.lt_succ_self i))
        have hst := rmqueue_none_state st i order hnone
        cases hq : __rmqueue_smallest st i order with
        | mk a st1 =>
          rw [hq] at hnone hst
          dsimp only at hnone hst
          subst hnone; subst hst
          rfl

theorem alloc_zones_serve (order z : Nat) (ho : order < MAX_ORDER) (st : State)
    (hc : (st.zone z).nr_free_pages = (st.zone z).frames)
    (hne : ∃ o, order ≤ o ∧ o < MAX_ORDER ∧ ((st.zone z).free_area o).free_list ≠ []) :
    (alloc_zones order (z + 1) st).1 = (__rmqueue_smallest st z order).1 ∧
    (alloc_zones order (z + 1) st).1 ≠ none ∧
    ∀ zi, zi ≠ z → (alloc_zones order (z + 1) st).2.zone zi = st.zone zi := by
  obtain ⟨o, h1, h2, h3⟩ := hne
  have hns : ¬ (st.zone z).nr_free_pages < 1 <<< order := by
    rw [Nat.one_shiftLeft, hc]
    exact frames_ge_of_block _ order o h1 h2 h3
  have hsome : (__rmqueue_smallest st z order).1 ≠ none := by
    intro hn
    exact h3 ((rmqueue_none_iff st z order (by omega)).mp hn o h1 h2)
  have hzo : ∀ zi, zi ≠ z → (__rmqueue_smallest st z order).2.zone zi = st.zone zi :=
    fun zi hz => rmqueue_loop_zone_other z order zi hz _ _ _
  unfold alloc_zones
  rw [if_neg hns]
  cases hq : __rmqueue_smallest st z order with
  | mk a st1 =>
    rw [hq] at hsome hzo
    cases a with
    | none => exact absurd rfl hsome
    | some p =>
      dsimp only at hzo ⊢
      refine ⟨rfl, by simp, fun zi hz => ?_⟩
      show (if zi = z then _ else st1.zone zi) = _
      rw [if_neg hz]
      exact hzo zi hz

theorem gfp_zone_congr (g g' : Nat) (h1 : g' &&& GFP_DMA = g &&& GFP_DMA)
    (h2 : g' &&& GFP_HIGHMEM = g &&& GFP_HIGHMEM) : gfp_zone g' = gfp_zone g := by
  unfold gfp_zone
  rw [h1, h2]

theorem alloc_pages_congr (st : State) (g g' order : Nat) (h : gfp_zone g' = gfp_zone g) :
    (alloc_pages st g' order).1 = (alloc_pages st g order).1 ∧
    (alloc_pages st g' order).2.node_data = (alloc_pages st g order).2.node_data ∧
    (alloc_pages st g' order).2.mem_map = (alloc_pages st g order).2.mem_map := by
  unfold alloc_pages
  split
  · exact ⟨rfl, rfl, rfl⟩
  · rw [h]
    cases hq : alloc_zones order (gfp_zone g + 1) st with
    | mk a st1 =>
      cases a with
      | none => exact ⟨rfl, rfl, rfl⟩
      | some p =>
        dsimp only
        refine ⟨rfl, ?_, prep_new_page_mem_map _ _ _ _ _⟩
        rw [prep_new_page_node, prep_new_page_node]

theorem alloc_pages_zone (st : State) (g order zi : Nat) (ho : order < MAX_ORDER) :
    (alloc_pages st g order).2.zone zi = (alloc_zones order (gfp_zone g + 1) st).2.zone zi := by
  unfold alloc_pages
  rw [if_neg (by omega)]
  cases hq : alloc_zones order (gfp_zone g + 1) st with
  | mk a st1 =>
    cases a with
    | none => rfl
    | some p =>
      dsimp only
      exact zone_eq_of_node (prep_new_page_node _ _ _ _) zi

/-! ### Reference counts are only written by `prep_new_page`, `free_pages` and seeding -/

theorem add_refcount (st : State) (p z o q : Nat) :
    ((add_page_to_free_list st p z o).mem_map q).refcount = (st.mem_map q).refcount := by
  rw [add_mem_map]
  split
  · next e => rw [e]; rfl
  · rfl

theorem del_refcount (st : State) (p z o q : Nat) :
    ((del_page_from_free_list st p z o).mem_map q).refcount = (st.mem_map q).refcount := by
  rw [del_mem_map]
  split
  · next e => rw [e]; rfl
  · rfl

theorem expand_loop_refcount (zone p low q : Nat) : ∀ (high size : Nat) (st : State),
    ((expand_loop zone p low high size st).mem_map q).refcount = (st.mem_map q).refcount := by
  intro high
  induction high with
  | zero => intro size st; rfl
  | succ n ih =>
    intro size st
    unfold expand_loop
    split
    · rw [ih, add_refcount]
    · rfl

theorem rmqueue_loop_refcount (zone order q : Nat) : ∀ (fuel cur : Nat) (st : State),
    (((rmqueue_loop zone order fuel cur st).2).mem_map q).refcount = (st.mem_map q).refcount := by
  intro fuel
  induction fuel with
  | zero => intro cur st; rfl
  | succ n ih =>
    intro cur st
    unfold rmqueue_loop
    split
    · split
      · exact ih _ _
      · dsimp only
        unfold expand
        rw [expand_loop_refcount, del_refcount]
    · rfl

theorem free_one_loop_refcount (zone q : Nat) : ∀ (fuel p o : Nat) (st : State),
    ((free_one_loop zone fuel p o st).mem_map q).refcount = (st.mem_map q).refcount := by
  intro fuel
  induction fuel with
  | zero => intro p o st; exact add_refcount _ _ _ _ _
  | succ n ih =>
    intro p o st
    unfold free_one_loop
    split
    · dsimp only
      split
      · exact add_refcount _ _ _ _ _
      · rw [ih, del_refcount]
    · exact add_refcount _ _ _ _ _

/-! ### Mergeable buddies -/

theorem xor_pow_ne (p o : Nat) : p ^^^ 2 ^ o ≠ p := by
  intro h
  have := Nat.xor_cancel_left p (2 ^ o)
  rw [h, Nat.xor_self] at this
  have hpos := Nat.two_pow_pos o
  omega

theorem MergeClosed.mc_del {st : State} (h : MergeClosed st) (p o : Nat) :
    MergeClosed (del_page_from_free_list st p ZONE_NORMAL o) := by
  have hsub : ∀ b, (del_page_from_free_list st p ZONE_NORMAL o).isFree b → st.isFree b := by
    intro b hb
    refine ⟨hb.1, ?_⟩
    have := hb.2
    rw [del_flist] at this
    split at this
    · next e => rw [e]; exact List.mem_of_mem_erase this
    · exact this
  intro x j hj h1 h2
  rw [del_refcount, del_refcount]
  exact h x j hj (hsub _ h1) (hsub _ h2)

theorem MergeClosed.mc_add {st : State} (h : MergeClosed st) {p o : Nat} (ho : o < MAX_ORDER)
    (hc : o + 1 < MAX_ORDER → st.isFree ⟨__find_buddy_pfn p o, o⟩ →
      (st.mem_map p).refcount ≠ 0 ∨ (st.mem_map (__find_buddy_pfn p o)).refcount ≠ 0) :
    MergeClosed (add_page_to_free_list st p ZONE_NORMAL o) := by
  intro x j hj h1 h2
  rw [add_refcount, add_refcount]
  rcases (isFree_add st p o ho _).mp h1 with e1 | f1 <;>
  rcases (isFree_add st p o ho _).mp h2 with e2 | f2
  · simp only [Block.mk.injEq] at e1 e2
    rw [find_buddy_eq, e1.1] at e2
    exact absurd e2.1 (by rw [e1.2]; exact xor_pow_ne p o)
  · simp only [Block.mk.injEq] at e1
    rw [e1.1, e1.2] at f2 ⊢
    exact hc (by omega) f2
  · simp only [Block.mk.injEq] at e2
    have hx : x = __find_buddy_pfn p o := by
      rw [find_buddy_eq] at e2 ⊢
      rw [← e2.1, e2.2, Nat.xor_cancel_right]
    rw [e2.1]
    rw [hx, e2.2] at f1
    rw [hx]
    exact (hc (by omega) f1).symm
  · exact h x j hj f1 f2

theorem MergeClosed.mc_setPage {st : State} (h : MergeClosed st) (q : Nat) (pg : Page)
    (hq : ∀ o, ¬ st.isFree ⟨q, o⟩) : MergeClosed (st.setPage q pg) := by
  intro x j hj h1 h2
  have h1' : st.isFree ⟨x, j⟩ := h1
  have h2' : st.isFree ⟨__find_buddy_pfn x j, j⟩ := h2
  have e1 : x ≠ q := fun e => hq j (e ▸ h1')
  have e2 : __find_buddy_pfn x j ≠ q := fun e => hq j (e ▸ h2')
  rw [mem_map_setPage, mem_map_setPage, if_neg e1, if_neg e2]
  exact h x j hj h1' h2'

theorem MergeClosed.mc_congr {st : State} (h : MergeClosed st) (st' : State)
    (hz : ∀ o, st'.flist o = st.flist o) (hm : st'.mem_map = st.mem_map) : MergeClosed st' := by
  intro x j hj h1 h2
  have hfree : ∀ b, st'.isFree b ↔ st.isFree b := by
    intro b; unfold State.isFree; rw [hz]
  rw [hm]
  exact h x j hj ((hfree _).mp h1) ((hfree _).mp h2)

/-- Frames of allocated blocks are not heads of free blocks. -/
theorem Inv.live_not_free {s : Sys} (h : Inv s) {b : Block} (hb : b ∈ s.live) {f : Nat}
    (hf : inBlock f b) (o : Nat) : ¬ s.st.isFree ⟨f, o⟩ := by
  intro hfr
  have e := h.uniq f ⟨f, o⟩ b (Or.inl hfr) (Or.inr hb) (inBlock_head _ _) hf
  exact h.excl b hb (e ▸ hfr)

theorem MergeClosed.mc_expand_loop {p low : Nat} {l : List Block} {sd : List (Nat × Nat)} :
    ∀ (high size : Nat) (st : State), low ≤ high → size = 2 ^ high →
      Inv ⟨st, ⟨p, high⟩ :: l, sd⟩ → MergeClosed st →
      MergeClosed (expand_loop ZONE_NORMAL p low high size st) := by
  intro high
  induction high with
  | zero => intro size st _ _ _ hc; exact hc
  | succ n ih =>
    intro size st hl hs h hc
    unfold MiniKernel.expand_loop
    by_cases hgt : n + 1 > low
    · rw [if_pos hgt]
      have hsz : size >>> 1 = 2 ^ n := by
        rw [hs, Nat.shiftRight_eq_div_pow, pow_succ]; simp
      rw [hsz]
      have hwf := h.wf ⟨p, n + 1⟩ (Or.inr (List.mem_cons_self _ _))
      dsimp only at hwf
      have h1 := h.split
      have h2 : Inv ⟨st, ⟨p + 2 ^ n, n⟩ :: ⟨p, n⟩ :: l, sd⟩ := h1.perm (List.Perm.swap _ _ _)
      have hbud : __find_buddy_pfn (p + 2 ^ n) n = p := by
        rw [find_buddy_eq, ← xor_pow_of_dvd_succ p n hwf.2, Nat.xor_cancel_right]
      refine ih (2 ^ n) _ (by omega) rfl h2.add_head (hc.mc_add (by omega) ?_)
      intro _ hfr
      rw [hbud] at hfr
      exact absurd hfr (h.not_free_of_live (List.mem_cons_self _ _) n)
    · rw [if_neg hgt]
      exact hc

theorem MergeClosed.mc_rmqueue_loop {order : Nat} {l : List Block} {sd : List (Nat × Nat)} :
    ∀ (fuel cur : Nat) (st : State), order ≤ cur → Inv ⟨st, l, sd⟩ → MergeClosed st →
      MergeClosed (rmqueue_loop ZONE_NORMAL order fuel cur st).2 := by
  intro fuel
  induction fuel with
  | zero => intro cur st _ _ hc; exact hc
  | succ n ih =>
    intro cur st ho h hc
    unfold MiniKernel.rmqueue_loop
    by_cases hlt : cur < MAX_ORDER
    · rw [if_pos hlt]
      cases hfl : ((st.zone ZONE_NORMAL).free_area cur).free_list with
      | nil => exact ih (cur + 1) st (by omega) h hc
      | cons q t =>
        dsimp only
        have hf : st.isFree ⟨q, cur⟩ := by
          refine ⟨hlt, ?_⟩
          show q ∈ ((st.zone ZONE_NORMAL).free_area cur).free_list
          rw [hfl]; exact List.mem_cons_self _ _
        exact MergeClosed.mc_expand_loop cur _ _ ho (Nat.one_shiftLeft cur) (h.del hf) (hc.mc_del q cur)
    · rw [if_neg hlt]
      exact hc

theorem MergeClosed.mc_prep_loop {p o : Nat} {l : List Block} {sd : List (Nat × Nat)} :
    ∀ (n : Nat) (st : State), n ≤ 2 ^ o → Inv ⟨st, ⟨p, o⟩ :: l, sd⟩ → MergeClosed st →
      MergeClosed (prep_loop p n st) := by
  intro n
  induction n with
  | zero => intro st _ _ hc; exact hc
  | succ n ih =>
    intro st hn h hc
    unfold MiniKernel.prep_loop
    have h1 := Inv.prep_loop n st (by omega) h
    have hin : inBlock (p + n) ⟨p, o⟩ := by
      unfold inBlock; dsimp only; omega
    exact (ih st (by omega) h hc).mc_setPage _ _
      (fun j => h1.live_not_free (List.mem_cons_self _ _) hin j)

theorem MergeClosed.mc_prep_new_page {st : State} {p o : Nat} {l : List Block}
    {sd : List (Nat × Nat)} (g : Nat) (h : Inv ⟨st, ⟨p, o⟩ :: l, sd⟩) (hc : MergeClosed st) :
    MergeClosed (prep_new_page st p o g) := by
  have ho : o < MAX_ORDER := (h.wf ⟨p, o⟩ (Or.inr (List.mem_cons_self _ _))).1
  have hlt : 2 ^ o < WORD := by
    have := two_pow_le_of_lt_max ho
    unfold WORD; omega
  have h1 := MergeClosed.mc_prep_loop (2 ^ o) st (Nat.le_refl _) h hc
  unfold MiniKernel.prep_new_page
  rw [Nat.one_shiftLeft, Nat.mod_eq_of_lt hlt]
  dsimp only
  split
  · exact h1.mc_congr _ (fun _ => rfl) rfl
  · exact h1

theorem MergeClosed.mc_alloc_zones {order : Nat} {l : List Block} {sd : List (Nat × Nat)} :
    ∀ (n : Nat) (st : State), n ≤ 3 → Inv ⟨st, l, sd⟩ → MergeClosed st →
      MergeClosed (alloc_zones order n st).2 := by
  intro n
  induction n with
  | zero => intro st _ _ hc; exact hc
  | succ i ih =>
    intro st hn h hc
    by_cases hi : i = ZONE_NORMAL
    · subst hi
      unfold MiniKernel.alloc_zones
      split
      · exact ih st (by omega) h hc
      · have hm := MergeClosed.mc_rmqueue_loop (MAX_ORDER - order) order st (Nat.le_refl _) h hc
        cases hq : __rmqueue_smallest st ZONE_NORMAL order with
        | mk a st1 =>
          unfold __rmqueue_smallest at hq
          rw [hq] at hm
          cases a with
          | none =>
            have := rmqueue_loop_none _ _ _ _ hq
            subst this
            exact ih st1 (by omega) h hc
          | some p =>
            dsimp only at hm ⊢
            refine hm.mc_congr _ ?_ rfl
            intro o
            rfl
    · have hz : (st.zone i).nr_free_pages = 0 :=
        (h.others i (by unfold MAX_NR_ZONES; omega) hi).1
      rw [alloc_zones_skip order i st hz]
      exact ih st (by omega) h hc

theorem MergeClosed.mc_alloc_pages {s : Sys} (h : Inv s) (hc : MergeClosed s.st) (g order : Nat) :
    MergeClosed (alloc_pages s.st g order).2 := by
  unfold MiniKernel.alloc_pages
  by_cases ho : order ≥ MAX_ORDER
  · rw [if_pos ho]; exact hc
  · rw [if_neg ho]
    have hg := gfp_zone_le g
    have hm := @MergeClosed.mc_alloc_zones order _ _ (gfp_zone g + 1) s.st (by omega) h hc
    cases hq : MiniKernel.alloc_zones order (gfp_zone g + 1) s.st with
    | mk r st1 =>
      rw [hq] at hm
      rcases Inv.alloc_zones _ _ _ _ (by omega) h hq with ⟨e1, e2⟩ | ⟨p, e1, h1⟩
      · subst e1; subst e2
        exact hc
      · subst e1
        exact MergeClosed.mc_prep_new_page g h1 hm

theorem MergeClosed.mc_free_one_loop {l : List Block} {sd : List (Nat × Nat)} :
    ∀ (fuel p o : Nat) (st : State), MAX_ORDER - 1 ≤ fuel + o → Inv ⟨st, ⟨p, o⟩ :: l, sd⟩ →
      MergeClosed st → MergeClosed (free_one_loop ZONE_NORMAL fuel p o st) := by
  intro fuel
  induction fuel with
  | zero =>
    intro p o st hf h hc
    have ho : o < MAX_ORDER := (h.wf ⟨p, o⟩ (Or.inr (List.mem_cons_self _ _))).1
    exact hc.mc_add ho (fun h1 => by omega)
  | succ n ih =>
    intro p o st hf h hc
    have ho : o < MAX_ORDER := (h.wf ⟨p, o⟩ (Or.inr (List.mem_cons_self _ _))).1
    unfold MiniKernel.free_one_loop
    by_cases hlt : o < MAX_ORDER - 1
    · rw [if_pos hlt]
      dsimp only
      cases hb : page_is_buddy (st.mem_map p) (st.mem_map (__find_buddy_pfn p o)) o with
      | false =>
        simp only [Bool.not_false, if_true]
        refine hc.mc_add ho (fun _ hfr => ?_)
        right
        intro hz
        have : page_is_buddy (st.mem_map p) (st.mem_map (__find_buddy_pfn p o)) o = true :=
          (page_is_buddy_iff _ _ _).mpr
            ⟨(h.flags _).mpr ⟨o, hfr⟩, h.order _ _ hfr, hz⟩
        rw [hb] at this
        exact absurd this (by simp)
      | true =>
        simp only [Bool.not_true, Bool.false_eq_true, if_false]
        exact ih _ _ _ (by omega) (h.merge_step hlt hb) (hc.mc_del _ _)
    · rw [if_neg hlt]
      exact hc.mc_add ho (fun h1 => by omega)

theorem MergeClosed.mc_free_pages {s : Sys} (h : Inv s) (hc : MergeClosed s.st) {p o : Nat}
    (hb : (⟨p, o⟩ : Block) ∈ s.live) : MergeClosed (free_pages s.st (some p) o) := by
  have ho : o < MAX_ORDER := (h.wf ⟨p, o⟩ (Or.inr hb)).1
  have hperm : s.live.Perm (⟨p, o⟩ :: s.live.erase ⟨p, o⟩) := List.perm_cons_erase hb
  have h0 : Inv ⟨s.st, ⟨p, o⟩ :: s.live.erase ⟨p, o⟩, s.seeded⟩ := h.perm hperm
  have h1 := h0.setPage p { s.st.mem_map p with refcount := 0 } rfl (fun _ => rfl)
  have c1 : MergeClosed (s.st.setPage p { s.st.mem_map p with refcount := 0 }) :=
    hc.mc_setPage p _ (fun j => h.not_free_of_live hb j)
  have c2 := MergeClosed.mc_free_one_loop (MAX_ORDER - 1 - o) p o _ (by omega) h1 c1
  unfold MiniKernel.free_pages
  dsimp only
  rw [if_neg (by omega)]
  refine c2.mc_congr _ ?_ rfl
  intro j
  rfl

/-- In a good state every frame of a free block lies in a seeded range. -/
theorem Inv.free_seeded {s : Sys} (h : Inv s) {b : Block} (hb : s.st.isFree b) {f : Nat}
    (hf : inBlock f b) : s.isSeeded f :=
  (h.cover f).mpr ⟨b, Or.inl hb, hf⟩

theorem inBlock_last (p o : Nat) : inBlock (p + 2 ^ o - 1) ⟨p, o⟩ := by
  unfold inBlock
  have := Nat.two_pow_pos o
  dsimp only
  omega

/-- Seeding one range into an allocator that holds no memory leaves no two free buddies
below the top order. -/
theorem seed_first_closed {s : Sys} (he : s.seeded = []) {a b : Nat} {st' : State}
    (hg : Good ⟨st', s.live, (a, b) :: s.seeded⟩)
    (hmax : ∀ p o, st'.isFree ⟨p, o⟩ → a ≤ p → p < b → ∀ j, o < j → j < MAX_ORDER →
        ¬ (2 ^ j ∣ p ∧ p + 2 ^ j ≤ b)) :
    ∀ p o, o + 1 < MAX_ORDER → st'.isFree ⟨p, o⟩ → ¬ st'.isFree ⟨__find_buddy_pfn p o, o⟩ := by
  intro p o ho h1 h2
  rw [find_buddy_eq] at h2
  have hpos := Nat.two_pow_pos o
  have hrange : ∀ q, st'.isFree ⟨q, o⟩ → a ≤ q ∧ q + 2 ^ o ≤ b := by
    intro q hq
    obtain ⟨r, hr, r1, r2⟩ := hg.1.free_seeded hq (inBlock_head q o)
    obtain ⟨r', hr', r1', r2'⟩ := hg.1.free_seeded hq (inBlock_last q o)
    rw [he] at hr hr'
    simp only [List.mem_singleton] at hr hr'
    subst hr; subst hr'
    dsimp only at r1 r2 r1' r2'
    omega
  have hwf := (hg.1.wf ⟨p, o⟩ (Or.inl h1)).2
  dsimp only at hwf
  obtain ⟨p1, p2⟩ := hrange p h1
  obtain ⟨q1, q2⟩ := hrange _ h2
  rcases buddy_cases p o hwf with ⟨hd, e⟩ | ⟨hd, e⟩
  · refine hmax p o h1 p1 (by omega) (o + 1) (by omega) ho ⟨hd, ?_⟩
    rw [e] at q2
    rw [pow_succ]; omega
  · refine hmax _ o h2 q1 (by omega) (o + 1) (by omega) ho ⟨hd, ?_⟩
    rw [pow_succ]; omega

theorem MergeClosed.mc_init : MergeClosed (buddy_init boot) := by
  intro p o _ h1
  exact absurd h1 (init_not_free _)

/-- Invariant of histories: the state is good, and merge-closed as long as at most one
range has been seeded. -/
theorem closed_step {s s' : Sys} (h : Good s) (hc : s.seeded.length ≤ 1 → MergeClosed s.st)
    (op : Op) (hs : s.step op = some s') : s'.seeded.length ≤ 1 → MergeClosed s'.st := by
  cases op with
  | seed a b =>
    unfold Sys.step at hs
    dsimp only at hs
    split at hs
    · next hcnd =>
      obtain ⟨st', e1, e2, e3⟩ := h.free_area_init hcnd.1 hcnd.2.1 hcnd.2.2
      rw [e1] at hs
      simp only [Option.some.injEq] at hs
      rw [← hs]
      intro hlen
      have hnil : s.seeded = [] := by
        have : s.seeded.length = 0 := by
          simp only [List.length_cons] at hlen; omega
        exact List.length_eq_zero.mp this
      intro p o ho h1 h2
      exact absurd h2 (seed_first_closed hnil e2 e3 p o ho h1)
    · exact absurd hs (by simp)
  | alloc g order =>
    unfold Sys.step at hs
    dsimp only at hs
    have hm := fun hl => MergeClosed.mc_alloc_pages h.1 (hc hl) g order
    cases hq : alloc_pages s.st g order with
    | mk a st1 =>
      rw [hq] at hs hm
      cases a with
      | none =>
        simp only [Option.some.injEq] at hs
        rw [← hs]; exact hm
      | some p =>
        simp only [Option.some.injEq] at hs
        rw [← hs]; exact hm
  | free p o =>
    unfold Sys.step at hs
    dsimp only at hs
    split at hs
    · next hcnd =>
      simp only [Option.some.injEq] at hs
      rw [← hs]
      intro hl
      exact MergeClosed.mc_free_pages h.1 (hc hl) hcnd
    · exact absurd hs (by simp)

theorem closed_run : ∀ (ops : List Op) {s s' : Sys}, Good s →
    (s.seeded.length ≤ 1 → MergeClosed s.st) → s.run ops = some s' →
    (s'.seeded.length ≤ 1 → MergeClosed s'.st) := by
  intro ops
  induction ops with
  | nil =>
    intro s s' h hc hr
    simp only [Sys.run, Option.some.injEq] at hr
    rw [← hr]; exact hc
  | cons op t ih =>
    intro s s' h hc hr
    unfold Sys.run at hr
    cases hq : s.step op with
    | none => rw [hq] at hr; exact absurd hr (by simp)
    | some s1 =>
      rw [hq] at hr
      exact ih (h.step op hq) (closed_step h hc op hq) hr

theorem Reachable.closed {s : Sys} (h : Reachable s) (h1 : s.seeded.length ≤ 1) :
    MergeClosed s.st := by
  obtain ⟨ops, hr⟩ := h
  exact closed_run ops Good.init (fun _ => MergeClosed.mc_init) hr h1

theorem run_runD (ops : List Op) (h : (Sys.init.run ops).isSome = true) :
    Sys.init.run ops = some (Sys.runD ops) := by
  unfold Sys.runD
  cases hq : Sys.init.run ops with
  | none => rw [hq] at h; exact absurd h (by simp)
  | some s => rfl

theorem reachable_runD (ops : List Op) (h : (Sys.init.run ops).isSome = true) :
    Reachable (Sys.runD ops) := ⟨ops, run_runD ops h⟩

theorem run_cons (s : Sys) (op : Op) (ops : List Op) :
    s.run (op :: ops) = (s.step op).bind fun s1 => s1.run ops := by
  conv_lhs => unfold Sys.run
  cases s.step op <;> rfl

theorem run_append (ops1 ops2 : List Op) : ∀ (s : Sys),
    s.run (ops1 ++ ops2) = (s.run ops1).bind fun s1 => s1.run ops2 := by
  induction ops1 with
  | nil => intro s; rfl
  | cons op t ih =>
    intro s
    rw [List.cons_append, run_cons, run_cons]
    cases s.step op with
    | none => rfl
    | some s1 => exact ih s1

theorem runD_run (ops1 ops2 : List Op) (h : (Sys.init.run (ops1 ++ ops2)).isSome = true) :
    (Sys.runD ops1).run ops2 = some (Sys.runD (ops1 ++ ops2)) ∧
    (Sys.init.run ops1).isSome = true := by
  have h2 := run_runD _ h
  rw [run_append] at h2
  cases hq : Sys.init.run ops1 with
  | none => rw [hq] at h2; exact absurd h2 (by simp)
  | some s1 =>
    rw [hq] at h2
    refine ⟨?_, rfl⟩
    have e : Sys.runD ops1 = s1 := by unfold Sys.runD; rw [hq]; rfl
    rw [e]
    exact h2

theorem Good.counters {s : Sys} (h : Good s) (zi : Nat) (hz : zi < MAX_NR_ZONES) :
    (s.st.zone zi).nr_free_pages = (s.st.zone zi).frames := by
  by_cases e : zi = ZONE_NORMAL
  · rw [e]; exact h.1.count_zone
  · obtain ⟨h1, h2⟩ := h.1.others zi hz e
    rw [h1]
    unfold Zone.frames
    symm
    apply Finset.sum_eq_zero
    intro o ho
    rw [h2 o (Finset.mem_range.mp ho)]; simp

theorem run_seeded (ops : List Op) : ∀ {s s' : Sys},
    (∀ op, op ∈ ops → ∀ a b, op ≠ Op.seed a b) → s.run ops = some s' → s'.seeded = s.seeded := by
  induction ops with
  | nil =>
    intro s s' _ hr
    simp only [Sys.run, Option.some.injEq] at hr
    rw [← hr]
  | cons op t ih =>
    intro s s' hn hr
    unfold Sys.run at hr
    cases hq : s.step op with
    | none => rw [hq] at hr; exact absurd hr (by simp)
    | some s1 =>
      rw [hq] at hr
      have h1 := ih (fun op' h' => hn op' (List.mem_cons_of_mem _ h')) hr
      rw [h1]
      cases op with
      | seed a b => exact absurd rfl (hn _ (List.mem_cons_self _ _) a b)
      | alloc g order =>
        unfold Sys.step at hq
        dsimp only at hq
        cases hq' : alloc_pages s.st g order with
        | mk r st1 =>
          rw [hq'] at hq
          cases r <;> (simp only [Option.some.injEq] at hq; rw [← hq])
      | free p o =>
        unfold Sys.step at hq
        dsimp only at hq
        split at hq
        · simp only [Option.some.injEq] at hq; rw [← hq]
        · exact absurd hq (by simp)

/-! ### Exhaustion -/

theorem gfp_zone_ge_of_not_dma (g : Nat) (h : g &&& GFP_DMA = 0) : 1 ≤ gfp_zone g := by
  unfold gfp_zone
  rw [if_neg (by rw [h]; simp)]
  unfold ZONE_HIGHMEM ZONE_NORMAL
  split <;> omega

theorem freeSum_eq_frames (st : State) : st.freeSum = (st.zone ZONE_NORMAL).frames := rfl

theorem Good.alloc_succeeds {s : Sys} (h : Good s) (g order : Nat) (ho : order < MAX_ORDER)
    (hne : ∃ o, order ≤ o ∧ o < MAX_ORDER ∧ s.st.flist o ≠ []) (hg : g &&& GFP_DMA = 0) :
    (alloc_pages s.st g order).1 ≠ none := by
  have hz := gfp_zone_le g
  have h1 := gfp_zone_ge_of_not_dma g hg
  have hiff := (alloc_pages_none_iff s.st g order ho
    (fun zi hzi => h.counters zi (by unfold MAX_NR_ZONES; omega))).1
  intro hn
  obtain ⟨o, o1, o2, o3⟩ := hne
  exact o3 (hiff.mp hn ZONE_NORMAL h1 o o1 o2)

theorem freeSum_pos_nonempty (st : State) (h : 0 < st.freeSum) :
    ∃ o, 0 ≤ o ∧ o < MAX_ORDER ∧ st.flist o ≠ [] := by
  by_contra hc
  have : st.freeSum = 0 := by
    unfold State.freeSum
    apply Finset.sum_eq_zero
    intro o ho
    have : st.flist o = [] := by
      by_contra hne
      exact hc ⟨o, Nat.zero_le _, Finset.mem_range.mp ho, hne⟩
    rw [this]; simp
  omega

theorem Good.alloc_fails {s : Sys} (h : Good s) (h0 : s.st.freeSum = 0) (g : Nat) :
    alloc_pages s.st g 0 = (none, s.st) := by
  have hz := gfp_zone_le g
  have hall := alloc_pages_none_iff s.st g 0 (by decide)
    (fun zi hzi => h.counters zi (by unfold MAX_NR_ZONES; omega))
  have hn : (alloc_pages s.st g 0).1 = none := by
    rw [hall.1]
    intro zi hzi o _ ho
    by_cases e : zi = ZONE_NORMAL
    · rw [e]
      exact frames_lt_empty (s.st.zone ZONE_NORMAL) 0
        (by rw [← freeSum_eq_frames, h0]; decide) o (Nat.zero_le _) ho
    · exact (h.1.others zi (by unfold MAX_NR_ZONES; omega) e).2 o ho
  have hs := hall.2 hn
  cases hq : alloc_pages s.st g 0 with
  | mk a st1 =>
    rw [hq] at hn hs
    dsimp only at hn hs
    rw [hn, hs]

theorem Good.alloc_many {order : Nat} : ∀ (gs : List Nat) (s : Sys), Good s →
    ∃ l, Good ⟨(alloc_many order s.st gs).2, l, s.seeded⟩ ∧
      (alloc_many order s.st gs).2.freeSum + blockSum l = s.st.freeSum + blockSum s.live := by
  intro gs
  induction gs with
  | nil => intro s h; exact ⟨s.live, h, rfl⟩
  | cons g t ih =>
    intro s h
    unfold MiniKernel.alloc_many
    dsimp only
    rcases h.alloc g order with ⟨_, e2⟩ | ⟨p, _, e2⟩
    · rw [e2]
      exact ih s h
    · obtain ⟨l, h1, h2⟩ := ih _ e2
      refine ⟨l, h1, ?_⟩
      have h2' : (MiniKernel.alloc_many order (alloc_pages s.st g order).2 t).2.freeSum +
          blockSum l =
        (alloc_pages s.st g order).2.freeSum + blockSum (⟨p, order⟩ :: s.live) := h2
      have c0 := h.1.count_total
      have c1 : (alloc_pages s.st g order).2.freeSum + blockSum (⟨p, order⟩ :: s.live) =
          rangeSum s.seeded := e2.1.count_total
      rw [h2']
      exact c1.trans c0.symm

theorem alloc_many_success : ∀ (gs : List Nat) (s : Sys), Good s →
    gs.length ≤ s.st.freeSum → (∀ g, g ∈ gs → g &&& GFP_DMA = 0) →
    (∀ r, r ∈ (alloc_many 0 s.st gs).1 → r ≠ none) ∧
    (alloc_many 0 s.st gs).2.freeSum + gs.length = s.st.freeSum := by
  intro gs
  induction gs with
  | nil =>
    intro s _ _ _
    exact ⟨fun r hr => absurd hr (List.not_mem_nil _), rfl⟩
  | cons g t ih =>
    intro s h hlen hg
    simp only [List.length_cons] at hlen
    have hne := freeSum_pos_nonempty s.st (by omega)
    have hsucc := h.alloc_succeeds g 0 (by decide) hne (hg g (List.mem_cons_self _ _))
    unfold MiniKernel.alloc_many
    dsimp only
    rcases h.alloc g 0 with ⟨e1, _⟩ | ⟨p, e1, e2⟩
    · exact absurd e1 hsucc
    · have c0 := h.1.count_total
      have c1 : (alloc_pages s.st g 0).2.freeSum + blockSum (⟨p, 0⟩ :: s.live) =
        rangeSum s.seeded := e2.1.count_total
      rw [blockSum_cons] at c1
      dsimp only at c1
      have hfs : (alloc_pages s.st g 0).2.freeSum + 1 = s.st.freeSum := by omega
      obtain ⟨i1, i2⟩ := ih ⟨(alloc_pages s.st g 0).2, ⟨p, 0⟩ :: s.live, s.seeded⟩ e2
        (by show t.length ≤ (alloc_pages s.st g 0).2.freeSum; omega)
        (fun g' hg' => hg g' (List.mem_cons_of_mem _ hg'))
      refine ⟨?_, ?_⟩
      · intro r hr
        rcases List.mem_cons.mp hr with e | hr
        · rw [e]; exact hsucc
        · exact i1 r hr
      · simp only [List.length_cons]
        have i2' : (alloc_many 0 (alloc_pages s.st g 0).2 t).2.freeSum + t.length =
          (alloc_pages s.st g 0).2.freeSum := i2
        omega

/-- Seeding one range into the allocator after `buddy_init` at boot. -/
theorem seed_boot (a b : Nat) (hab : a ≤ b) (hb : b ≤ MAX_PFN) :
    ∃ st1, free_area_init (buddy_init boot) a b = some st1 ∧ Good ⟨st1, [], [(a, b)]⟩ ∧
      st1.freeSum = b - a := by
  obtain ⟨st1, e1, e2, _⟩ := Good.init.free_area_init (a := a) (b := b) hab hb
    (fun r hr => absurd hr (List.not_mem_nil _))
  refine ⟨st1, e1, e2, ?_⟩
  have := e2.1.count_total
  change st1.freeSum + blockSum [] = rangeSum [(a, b)] at this
  simpa [blockSum, rangeSum] using this

/-! ### Descriptors written by the entry points -/

theorem prep_loop_mem_map (p q : Nat) : ∀ (n : Nat) (st : State), (q < p ∨ p + n ≤ q) →
    (prep_loop p n st).mem_map q = st.mem_map q := by
  intro n
  induction n with
  | zero => intro st _; rfl
  | succ n ih =>
    intro st hq
    unfold prep_loop
    rw [mem_map_setPage, if_neg (by omega)]
    exact ih st (by omega)

theorem prep_new_page_mem_map_out (st : State) (p o g q : Nat) (ho : o < MAX_ORDER)
    (hq : q < p ∨ p + 2 ^ o ≤ q) : (prep_new_page st p o g).mem_map q = st.mem_map q := by
  have hlt : 2 ^ o < WORD := by
    have := two_pow_le_of_lt_max ho
    unfold WORD; omega
  unfold prep_new_page
  rw [Nat.one_shiftLeft, Nat.mod_eq_of_lt hlt]
  dsimp only
  split
  · exact prep_loop_mem_map p q _ st hq
  · exact prep_loop_mem_map p q _ st hq

theorem alloc_zones_refcount (order q : Nat) : ∀ (n : Nat) (st : State),
    ((alloc_zones order n st).2.mem_map q).refcount = (st.mem_map q).refcount := by
  intro n
  induction n with
  | zero => intro st; rfl
  | succ i ih =>
    intro st
    unfold alloc_zones
    split
    · exact ih st
    · have hr := rmqueue_loop_refcount i order q (MAX_ORDER - order) order st
      cases hq : __rmqueue_smallest st i order with
      | mk a st1 =>
        unfold __rmqueue_smallest at hq
        rw [hq] at hr
        cases a with
        | none =>
          dsimp only at hr ⊢
          rw [ih st1, hr]
        | some p =>
          dsimp only at hr ⊢
          exact hr

/-- Outside the returned block `alloc_pages` leaves every reference count as it was. -/
theorem alloc_pages_refcount_out (st : State) (g order q : Nat) (ho : order < MAX_ORDER)
    (hq : ∀ p, (alloc_pages st g order).1 = some p → (q < p ∨ p + 2 ^ order ≤ q)) :
    ((alloc_pages st g order).2.mem_map q).refcount = (st.mem_map q).refcount := by
  have hz := alloc_zones_refcount order q (gfp_zone g + 1) st
  unfold alloc_pages at hq ⊢
  rw [if_neg (by omega)] at hq ⊢
  cases hc : alloc_zones order (gfp_zone g + 1) st with
  | mk a st1 =>
    rw [hc] at hz hq
    cases a with
    | none => exact hz
    | some p =>
      dsimp only at hz hq ⊢
      rw [prep_new_page_mem_map_out st1 p order g q ho (hq p rfl)]
      exact hz

theorem free_pages_refcount (st : State) (p o q : Nat) (ho : o < MAX_ORDER) :
    ((free_pages st (some p) o).mem_map q).refcount =
      if q = p then 0 else (st.mem_map q).refcount := by
  unfold free_pages
  dsimp only
  rw [if_neg (by omega)]
  show ((__free_one_page _ p ZONE_NORMAL o).mem_map q).refcount = _
  unfold __free_one_page
  rw [free_one_loop_refcount, mem_map_setPage]
  split <;> rfl

theorem seed_loop_refcount (e q : Nat) : ∀ (fuel pfn : Nat) (st st' : State),
    seed_loop e fuel pfn st = some st' → (st'.mem_map q).refcount ≠ 0 →
    (st.mem_map q).refcount ≠ 0 := by
  intro fuel
  induction fuel with
  | zero =>
    intro pfn st st' hs
    unfold seed_loop at hs
    split at hs
    · exact absurd hs (by simp)
    · simp only [Option.some.injEq] at hs
      rw [hs]; exact id
  | succ n ih =>
    intro pfn st st' hs hne
    unfold seed_loop at hs
    split at hs
    · dsimp only at hs
      have h1 := ih _ _ _ hs hne
      have h2 : ((add_page_to_free_list (st.setPage pfn
          { st.mem_map pfn with flags := 0, refcount := 0, mapcount := -1 }) pfn ZONE_NORMAL
          (seed_order pfn e (MAX_ORDER - 1))).mem_map q).refcount ≠ 0 := h1
      rw [add_refcount, mem_map_setPage] at h2
      split at h2
      · exact absurd rfl h2
      · exact h2
    · simp only [Option.some.injEq] at hs
      rw [← hs] at hne; exact hne

theorem free_area_init_refcount (st st' : State) (a b q : Nat)
    (hs : free_area_init st a b = some st') (hne : (st'.mem_map q).refcount ≠ 0) :
    (st.mem_map q).refcount ≠ 0 := by
  unfold free_area_init at hs
  dsimp only at hs
  split at hs
  · simp only [Option.some.injEq] at hs
    rw [hs]; exact hne
  · split at hs
    · simp only [Option.some.injEq] at hs
      rw [hs]; exact hne
    · have := seed_loop_refcount _ q _ _ _ _ hs hne
      exact this

/-! ### Histories of order-0 calls keep reference counts exact -/

theorem NoStaleRef.ns_alloc {s : Sys} (h : NoStaleRef s) (g : Nat) :
    NoStaleRef ⟨(alloc_pages s.st g 0).2,
      (match (alloc_pages s.st g 0).1 with
        | some p => ⟨p, 0⟩ :: s.live
        | none => s.live), s.seeded⟩ := by
  intro q hq
  have hq' : ((alloc_pages s.st g 0).2.mem_map q).refcount ≠ 0 := hq
  cases hr : (alloc_pages s.st g 0).1 with
  | none =>
    rw [alloc_pages_refcount_out s.st g 0 q (by decide) (fun p hp => by rw [hr] at hp; simp at hp)]
      at hq'
    exact h q hq'
  | some p =>
    show (⟨q, 0⟩ : Block) ∈ ⟨p, 0⟩ :: s.live
    by_cases e : q = p
    · rw [e]; exact List.mem_cons_self _ _
    · rw [alloc_pages_refcount_out s.st g 0 q (by decide) (fun p' hp' => by
        rw [hr] at hp'
        simp only [Option.some.injEq] at hp'
        rw [← hp']; simp only [pow_zero]; omega)] at hq'
      exact List.mem_cons_of_mem _ (h q hq')

theorem NoStaleRef.ns_free {s : Sys} (h : NoStaleRef s) (p : Nat) :
    NoStaleRef ⟨free_pages s.st (some p) 0, s.live.erase ⟨p, 0⟩, s.seeded⟩ := by
  intro q hq
  have hq' : ((free_pages s.st (some p) 0).mem_map q).refcount ≠ 0 := hq
  rw [free_pages_refcount s.st p 0 q (by decide)] at hq'
  split at hq'
  · exact absurd rfl hq'
  · next e =>
    show (⟨q, 0⟩ : Block) ∈ s.live.erase ⟨p, 0⟩
    exact (List.mem_erase_of_ne (by simp [e])).mpr (h q hq')

theorem NoStaleRef.ns_init : NoStaleRef Sys.init := by
  intro q hq
  exact absurd rfl hq

/-! ### Sequences of calls as histories -/

theorem step_alloc (s : Sys) (g order : Nat) :
    s.step (.alloc g order) = some ⟨(alloc_pages s.st g order).2,
      (match (alloc_pages s.st g order).1 with
        | some p => ⟨p, order⟩ :: s.live
        | none => s.live), s.seeded⟩ := by
  unfold Sys.step
  dsimp only
  cases hq : alloc_pages s.st g order with
  | mk a st1 => cases a <;> rfl

theorem alloc_many_run (order : Nat) : ∀ (gs : List Nat) (s : Sys),
    ∃ s', s.run (gs.map fun g => Op.alloc g order) = some s' ∧
      s'.st = (alloc_many order s.st gs).2 ∧ s'.seeded = s.seeded ∧
      s'.live.Perm ((((alloc_many order s.st gs).1.filterMap id).map fun p => Block.mk p order)
        ++ s.live) ∧
      (order = 0 → NoStaleRef s → NoStaleRef s') := by
  intro gs
  induction gs with
  | nil => intro s; exact ⟨s, rfl, rfl, rfl, List.Perm.refl _, fun _ h => h⟩
  | cons g t ih =>
    intro s
    obtain ⟨s', h1, h2, h3, h4, h5⟩ := ih ⟨(alloc_pages s.st g order).2,
      (match (alloc_pages s.st g order).1 with
        | some p => ⟨p, order⟩ :: s.live
        | none => s.live), s.seeded⟩
    refine ⟨s', ?_, ?_, h3, ?_, ?_⟩
    · rw [List.map_cons, run_cons, step_alloc]
      exact h1
    · rw [h2]; rfl
    · refine h4.trans ?_
      show List.Perm _ ((((alloc_pages s.st g order).1 ::
        (alloc_many order (alloc_pages s.st g order).2 t).1).filterMap id).map _ ++ s.live)
      cases hr : (alloc_pages s.st g order).1 with
      | none =>
        simp only [List.filterMap_cons_none, id_eq]
        exact List.Perm.refl _
      | some p =>
        simp only [List.filterMap_cons_some, id_eq, List.map_cons, List.cons_append]
        exact List.perm_middle
    · intro ho hn
      subst ho
      exact h5 rfl (hn.ns_alloc g)

theorem free_many_run (order : Nat) : ∀ (ps : List Nat) (s : Sys),
    (ps.map fun p => Block.mk p order).Perm s.live →
    ∃ s', s.run (ps.map fun p => Op.free p order) = some s' ∧
      s'.st = free_many order s.st (ps.map some) ∧ s'.seeded = s.seeded ∧ s'.live = [] ∧
      (order = 0 → NoStaleRef s → NoStaleRef s') := by
  intro ps
  induction ps with
  | nil =>
    intro s hp
    exact ⟨s, rfl, rfl, rfl, List.Perm.eq_nil hp.symm, fun _ h => h⟩
  | cons p t ih =>
    intro s hp
    have hmem : (⟨p, order⟩ : Block) ∈ s.live :=
      hp.subset (List.mem_cons_self _ _)
    have hp' : (t.map fun p => Block.mk p order).Perm (s.live.erase ⟨p, order⟩) := by
      have := hp.erase ⟨p, order⟩
      simpa using this
    obtain ⟨s', h1, h2, h3, h4, h5⟩ := ih ⟨free_pages s.st (some p) order,
      s.live.erase ⟨p, order⟩, s.seeded⟩ hp'
    refine ⟨s', ?_, ?_, h3, h4, ?_⟩
    · rw [List.map_cons, run_cons]
      unfold Sys.step
      dsimp only
      rw [if_pos hmem]
      exact h1
    · rw [h2]; rfl
    · intro ho hn
      subst ho
      exact h5 rfl (hn.ns_free p)

/-! ### A closed partition of an aligned range is a single block -/

theorem dvd_lt_add {t x y : Nat} (hx : t ∣ x) (hy : t ∣ y) (h : x < y) : x + t ≤ y := by
  obtain ⟨m, rfl⟩ := hx
  obtain ⟨n, rfl⟩ := hy
  have hmn : m < n := Nat.lt_of_mul_lt_mul_left h
  calc t * m + t = t * (m + 1) := by rw [Nat.mul_succ]
    _ ≤ t * n := Nat.mul_le_mul_left t hmn

theorem pow_dvd_pow_two {i j : Nat} (h : i ≤ j) : 2 ^ i ∣ 2 ^ j := Nat.pow_dvd_pow 2 h

theorem list_eq_singleton {l : List Nat} {a : Nat} (hn : l.Nodup) (hall : ∀ x, x ∈ l → x = a)
    (ha : a ∈ l) : l = [a] := by
  cases l with
  | nil => exact absurd ha (List.not_mem_nil _)
  | cons x t =>
    have hx := hall x (List.mem_cons_self _ _)
    subst hx
    have ht : t = [] := by
      apply List.eq_nil_iff_forall_not_mem.mpr
      intro y hy
      have := hall y (List.mem_cons_of_mem _ hy)
      subst this
      exact (List.nodup_cons.mp hn).1 hy
    rw [ht]

theorem single_block_of_closed {s : Sys} (h : Inv s) (hl : s.live = []) {a k : Nat}
    (hsd : s.seeded = [(a, a + 2 ^ k)]) (hk : k < MAX_ORDER) (hal : 2 ^ k ∣ a)
    (hcl : ∀ p o, o + 1 < MAX_ORDER → s.st.isFree ⟨p, o⟩ → ¬ s.st.isFree ⟨p ^^^ 2 ^ o, o⟩) :
    s.st.flist k = [a] ∧ ∀ o, o < MAX_ORDER → o ≠ k → s.st.flist o = [] := by
  have hseed : ∀ f, s.isSeeded f ↔ a ≤ f ∧ f < a + 2 ^ k := by
    intro f
    unfold Sys.isSeeded
    rw [hsd]
    simp
  have hfreeblk : ∀ f, a ≤ f → f < a + 2 ^ k → ∃ b, s.st.isFree b ∧ inBlock f b := by
    intro f h1 h2
    obtain ⟨b, hb | hb, hf⟩ := (h.cover f).mp ((hseed f).mpr ⟨h1, h2⟩)
    · exact ⟨b, hb, hf⟩
    · rw [hl] at hb; exact absurd hb (List.not_mem_nil _)
  have hrange : ∀ p o, s.st.isFree ⟨p, o⟩ → a ≤ p ∧ p + 2 ^ o ≤ a + 2 ^ k := by
    intro p o hf
    have h1 := (hseed _).mp (h.free_seeded hf (inBlock_head p o))
    have h2 := (hseed _).mp (h.free_seeded hf (inBlock_last p o))
    have := Nat.two_pow_pos o
    omega
  have hsmall : ∀ o, o < k → ∀ p, ¬ s.st.isFree ⟨p, o⟩ := by
    intro o
    induction o using Nat.strong_induction_on with
    | _ o ih =>
      intro hok p hf
      have hwf := (h.wf ⟨p, o⟩ (Or.inl hf)).2
      dsimp only at hwf
      obtain ⟨r1, r2⟩ := hrange p o hf
      have hpos := Nat.two_pow_pos o
      have hT : 2 ^ (o + 1) = 2 ^ o + 2 ^ o := by rw [pow_succ]; omega
      have hTa : 2 ^ (o + 1) ∣ a := Dvd.dvd.trans (pow_dvd_pow_two (by omega)) hal
      have hTe : 2 ^ (o + 1) ∣ a + 2 ^ k := Dvd.dvd.add hTa (pow_dvd_pow_two (by omega))
      have hnb := hcl p o (by omega) hf
      -- the buddy frame is seeded, hence covered by a free block `c`
      have hq : a ≤ p ^^^ 2 ^ o ∧ p ^^^ 2 ^ o < a + 2 ^ k ∧ 2 ^ o ∣ p ^^^ 2 ^ o := by
        rcases buddy_cases p o hwf with ⟨hd, e⟩ | ⟨hd, e⟩
        · have := dvd_lt_add hd hTe (by omega)
          rw [e]
          exact ⟨by omega, by omega, Dvd.dvd.add hwf (dvd_refl _)⟩
        · have h3 : a ≤ p ^^^ 2 ^ o := by
            by_contra hlt
            have := dvd_lt_add hd hTa (by omega)
            omega
          exact ⟨h3, by omega, Dvd.dvd.trans (pow_dvd_pow_two (by omega)) hd⟩
      obtain ⟨c, hc, hcin⟩ := hfreeblk _ hq.1 hq.2.1
      obtain ⟨cp, co⟩ := c
      have hcwf := (h.wf ⟨cp, co⟩ (Or.inl hc)).2
      dsimp only at hcwf
      unfold inBlock at hcin
      dsimp only at hcin
      have hco : ¬ co < o := fun hlt => ih co hlt (by omega) cp hc
      by_cases e : co = o
      · subst e
        have hcq : cp = p ^^^ 2 ^ co := by
          by_contra hne
          have := dvd_lt_add hcwf hq.2.2 (by omega)
          omega
        rw [hcq] at hc
        exact hnb hc
      · have hgt : o + 1 ≤ co := by omega
        have hTc : 2 ^ (o + 1) ∣ cp := Dvd.dvd.trans (pow_dvd_pow_two hgt) hcwf
        have hTce : 2 ^ (o + 1) ∣ cp + 2 ^ co := Dvd.dvd.add hTc (pow_dvd_pow_two hgt)
        have hpin : inBlock p ⟨cp, co⟩ := by
          unfold inBlock
          dsimp only
          rcases buddy_cases p o hwf with ⟨hd, e'⟩ | ⟨hd, e'⟩
          · rw [e'] at hcin
            refine ⟨?_, by omega⟩
            by_contra hlt
            have := dvd_lt_add hd hTc (by omega)
            omega
          · have := dvd_lt_add hd hTce hcin.2
            omega
        have := h.uniq p ⟨cp, co⟩ ⟨p, o⟩ (Or.inl hc) (Or.inl hf) hpin (inBlock_head _ _)
        simp only [Block.mk.injEq] at this
        exact e this.2
  have hone : ∀ p o, s.st.isFree ⟨p, o⟩ → p = a ∧ o = k := by
    intro p o hf
    obtain ⟨r1, r2⟩ := hrange p o hf
    have hge : k ≤ o := by
      by_contra hlt
      exact hsmall o (by omega) p hf
    have hpw : 2 ^ k ≤ 2 ^ o := Nat.pow_le_pow_right (by decide) hge
    have hok : o = k := by
      by_contra hne
      have : 2 ^ (k + 1) ≤ 2 ^ o := Nat.pow_le_pow_right (by decide) (by omega)
      have hpk := Nat.two_pow_pos k
      rw [pow_succ] at this
      omega
    subst hok
    exact ⟨by omega, rfl⟩
  have hpk := Nat.two_pow_pos k
  obtain ⟨b, hb, hbin⟩ := hfreeblk a (Nat.le_refl _) (by omega)
  obtain ⟨bp, bo⟩ := b
  obtain ⟨e1, e2⟩ := hone bp bo hb
  subst e1; subst e2
  refine ⟨list_eq_singleton (h.nodup bo hk) (fun x hx => (hone x bo ⟨hk, hx⟩).1) hb.2, ?_⟩
  intro o ho hne
  apply List.eq_nil_iff_forall_not_mem.mpr
  intro x hx
  exact hne (hone x o ⟨ho, hx⟩).2

theorem filterMap_id_map_some : ∀ (ps : List (Option Nat)), (∀ r, r ∈ ps → r ≠ none) →
    (ps.filterMap id).map some = ps := by
  intro ps
  induction ps with
  | nil => intro _; rfl
  | cons r t ih =>
    intro h
    cases r with
    | none => exact absurd rfl (h none (List.mem_cons_self _ _))
    | some p =>
      have e : List.filterMap id (some p :: t) = p :: List.filterMap id t := rfl
      rw [e, List.map_cons, ih (fun r hr => h r (List.mem_cons_of_mem _ hr))]

theorem alloc_many_length (order : Nat) : ∀ (gs : List Nat) (st : State),
    (alloc_many order st gs).1.length = gs.length := by
  intro gs
  induction gs with
  | nil => intro st; rfl
  | cons g t ih =>
    intro st
    unfold alloc_many
    simp only [List.length_cons]
    rw [ih]

/-- Seeding the first range is a history from boot. -/
theorem seed_boot_run (a b : Nat) (hab : a ≤ b) (hb : b ≤ MAX_PFN) (st1 : State)
    (h1 : free_area_init (buddy_init boot) a b = some st1) :
    Sys.init.run [.seed a b] = some ⟨st1, [], [(a, b)]⟩ ∧ NoStaleRef ⟨st1, [], [(a, b)]⟩ := by
  constructor
  · rw [run_cons]
    unfold Sys.step
    dsimp only
    rw [if_pos ⟨hab, hb, fun r hr => absurd hr (List.not_mem_nil _)⟩]
    show (match free_area_init (buddy_init boot) a b with
      | some st1 => some (⟨st1, [], [(a, b)]⟩ : Sys)
      | none => none).bind _ = _
    rw [h1]
    rfl
  · intro q hq
    exact absurd rfl (free_area_init_refcount _ _ a b q h1 hq)

/-- After seeding one aligned block of order `k`, allocating frames one at a time and
releasing every allocated frame, in any order, the free lists hold the seeded block only. -/
theorem coalesce_all (k a : Nat) (hk : k < MAX_ORDER) (hal : 2 ^ k ∣ a) (ha : a + 2 ^ k ≤ MAX_PFN)
    (gs : List Nat) (st1 : State)
    (h1 : free_area_init (buddy_init boot) a (a + 2 ^ k) = some st1)
    (ps : List (Option Nat)) (hok : ∀ r, r ∈ ps → r ≠ none)
    (hperm : ps.Perm (alloc_many 0 st1 gs).1) :
    ∃ s3 : Sys, Reachable s3 ∧ s3.st = free_many 0 (alloc_many 0 st1 gs).2 ps ∧
      s3.st.flist k = [a] ∧ ∀ o, o < MAX_ORDER → o ≠ k → s3.st.flist o = [] := by
  obtain ⟨r1, n1⟩ := seed_boot_run a (a + 2 ^ k) (by omega) ha st1 h1
  obtain ⟨s2, r2, e2, sd2, l2, n2⟩ := alloc_many_run 0 gs ⟨st1, [], [(a, a + 2 ^ k)]⟩
  have hq : ((ps.filterMap id).map fun p => Block.mk p 0).Perm s2.live := by
    refine List.Perm.trans ?_ l2.symm
    rw [List.append_nil]
    exact (hperm.filterMap id).map _
  obtain ⟨s3, r3, e3, sd3, l3, n3⟩ := free_many_run 0 (ps.filterMap id) s2 hq
  rw [filterMap_id_map_some ps hok, e2] at e3
  have hreach : Reachable s3 := by
    refine ⟨[.seed a (a + 2 ^ k)] ++ ((gs.map fun g => Op.alloc g 0) ++
      ((ps.filterMap id).map fun p => Op.free p 0)), ?_⟩
    rw [run_append, r1]
    show Sys.run _ _ = _
    rw [run_append, r2]
    exact r3
  have hsd : s3.seeded = [(a, a + 2 ^ k)] := by rw [sd3, sd2]
  have hn3 := n3 rfl (n2 rfl n1)
  have hzero : ∀ q, (s3.st.mem_map q).refcount = 0 := by
    intro q
    by_contra hne
    have := hn3 q hne
    rw [l3] at this
    exact absurd this (List.not_mem_nil _)
  have hclosed := hreach.closed (by rw [hsd]; simp)
  have hcl : ∀ p o, o + 1 < MAX_ORDER → s3.st.isFree ⟨p, o⟩ →
      ¬ s3.st.isFree ⟨p ^^^ 2 ^ o, o⟩ := by
    intro p o ho hf1 hf2
    rw [← find_buddy_eq] at hf2
    rcases hclosed p o ho hf1 hf2 with h' | h'
    · exact h' (hzero _)
    · exact h' (hzero _)
  obtain ⟨c1, c2⟩ := single_block_of_closed hreach.good.1 l3 hsd hk hal hcl
  exact ⟨s3, hreach, e3, c1, c2⟩

/-! ### The free lists after a successful allocation -/

theorem expand_loop_flist (p low : Nat) : ∀ (high size : Nat) (st : State), size = 2 ^ high →
    ∀ j, (expand_loop ZONE_NORMAL p low high size st).flist j =
      if low ≤ j ∧ j < high then (p + 2 ^ j) :: st.flist j else st.flist j := by
  intro high
  induction high with
  | zero =>
    intro size st _ j
    rw [if_neg (by omega)]
    rfl
  | succ n ih =>
    intro size st hs j
    unfold expand_loop
    by_cases hgt : n + 1 > low
    · rw [if_pos hgt]
      have hsz : size >>> 1 = 2 ^ n := by
        rw [hs, Nat.shiftRight_eq_div_pow, pow_succ]; simp
      rw [hsz, ih (2 ^ n) _ rfl j, add_flist]
      by_cases e : j = n
      · subst e
        rw [if_neg (by omega), if_pos rfl, if_pos (by omega)]
      · rw [if_neg e]
        by_cases h1 : low ≤ j ∧ j < n
        · rw [if_pos h1, if_pos (by omega)]
        · rw [if_neg h1, if_neg (by omega)]
    · rw [if_neg hgt, if_neg (by omega)]

theorem rmqueue_loop_lists (order : Nat) : ∀ (fuel cur : Nat) (st st' : State) (p : Nat),
    rmqueue_loop ZONE_NORMAL order fuel cur st = (some p, st') →
    ∃ c t, cur ≤ c ∧ c < MAX_ORDER ∧ st.flist c = p :: t ∧
      (∀ j, st'.flist j =
        if order ≤ j ∧ j < c then (p + 2 ^ j) :: st.flist j
        else if j = c then t else st.flist j) ∧
      (∀ q, (st'.mem_map q).refcount = (st.mem_map q).refcount) := by
  intro fuel
  induction fuel with
  | zero =>
    intro cur st st' p hr
    simp [rmqueue_loop] at hr
  | succ n ih =>
    intro cur st st' p hr
    have hrc := fun q => rmqueue_loop_refcount ZONE_NORMAL order q (n + 1) cur st
    unfold rmqueue_loop at hr
    by_cases hlt : cur < MAX_ORDER
    · rw [if_pos hlt] at hr
      cases hfl : ((st.zone ZONE_NORMAL).free_area cur).free_list with
      | nil =>
        rw [hfl] at hr
        obtain ⟨c, t, h1, h2⟩ := ih (cur + 1) st st' p hr
        exact ⟨c, t, by omega, h2⟩
      | cons q t =>
        rw [hfl] at hr
        simp only [Prod.mk.injEq, Option.some.injEq] at hr
        obtain ⟨e1, e2⟩ := hr
        subst e1
        refine ⟨cur, t, Nat.le_refl _, hlt, hfl, ?_, ?_⟩
        · intro j
          rw [← e2]
          unfold expand
          rw [expand_loop_flist q order cur _ _ (Nat.one_shiftLeft cur) j, del_flist]
          by_cases h1 : order ≤ j ∧ j < cur
          · rw [if_pos h1, if_pos h1, if_neg (by omega)]
          · rw [if_neg h1, if_neg h1]
            by_cases e : j = cur
            · rw [if_pos e, if_pos e]
              show List.erase ((st.zone ZONE_NORMAL).free_area cur).free_list q = t
              rw [hfl, List.erase_cons_head]
            · rw [if_neg e, if_neg e]
        · intro q'
          rw [← e2]
          unfold expand
          rw [expand_loop_refcount, del_refcount]
    · rw [if_neg hlt] at hr
      simp at hr

theorem alloc_zones_normal {order : Nat} {l : List Block} {sd : List (Nat × Nat)} :
    ∀ (n : Nat) (st st' : State) (p : Nat), n ≤ 3 → Inv ⟨st, l, sd⟩ →
      alloc_zones order n st = (some p, st') →
      ∃ stR, __rmqueue_smallest st ZONE_NORMAL order = (some p, stR) ∧
        (∀ j, st'.flist j = stR.flist j) ∧ st'.mem_map = stR.mem_map := by
  intro n
  induction n with
  | zero =>
    intro st st' p _ _ hr
    simp [alloc_zones] at hr
  | succ i ih =>
    intro st st' p hn h hr
    by_cases hi : i = ZONE_NORMAL
    · subst hi
      unfold alloc_zones at hr
      split at hr
      · exact ih st st' p (by omega) h hr
      · cases hq : __rmqueue_smallest st ZONE_NORMAL order with
        | mk a st1 =>
          rw [hq] at hr
          cases a with
          | none =>
            have := rmqueue_loop_none _ _ _ _ hq
            subst this
            obtain ⟨stR, e, _⟩ := ih st1 st' p (by omega) h hr
            rw [hq] at e
            simp at e
          | some p' =>
            simp only [Prod.mk.injEq, Option.some.injEq] at hr
            obtain ⟨e1, e2⟩ := hr
            subst e1
            refine ⟨st1, rfl, ?_, ?_⟩
            · intro j; rw [← e2]; rfl
            · rw [← e2]; rfl
    · have hz : (st.zone i).nr_free_pages = 0 :=
        (h.others i (by unfold MAX_NR_ZONES; omega) hi).1
      rw [alloc_zones_skip order i st hz] at hr
      exact ih st st' p (by omega) h hr

theorem prep_loop_flist (p : Nat) : ∀ (n : Nat) (st : State) (j : Nat),
    (prep_loop p n st).flist j = st.flist j := by
  intro n
  induction n with
  | zero => intro st j; rfl
  | succ n ih => intro st j; exact ih st j

theorem prep_new_page_flist (st : State) (p o g j : Nat) :
    (prep_new_page st p o g).flist j = st.flist j := by
  unfold prep_new_page
  dsimp only
  split
  · exact prep_loop_flist p _ st j
  · exact prep_loop_flist p _ st j

/-- Shape of a successful allocation in a good state: the block is the head of the free
list of some order `c ≥ order`, it is unlinked, and the upper halves `p + 2^j` for
`order ≤ j < c` are put in front of their lists. -/
theorem alloc_lists {s : Sys} (h : Inv s) {g order p : Nat}
    (ha : (alloc_pages s.st g order).1 = some p) :
    order < MAX_ORDER ∧ ∃ c t, order ≤ c ∧ c < MAX_ORDER ∧ s.st.flist c = p :: t ∧
      ∀ j, (alloc_pages s.st g order).2.flist j =
        if order ≤ j ∧ j < c then (p + 2 ^ j) :: s.st.flist j
        else if j = c then t else s.st.flist j := by
  have ho : order < MAX_ORDER := by
    by_contra hge
    unfold alloc_pages at ha
    rw [if_pos (by omega)] at ha
    exact absurd ha (by simp)
  refine ⟨ho, ?_⟩
  have hg := gfp_zone_le g
  unfold alloc_pages at ha ⊢
  rw [if_neg (by omega)] at ha ⊢
  cases hq : alloc_zones order (gfp_zone g + 1) s.st with
  | mk a st1 =>
    rw [hq] at ha
    cases a with
    | none => exact absurd ha (by simp)
    | some p' =>
      dsimp only at ha ⊢
      simp only [Option.some.injEq] at ha
      subst ha
      obtain ⟨stR, e1, e2, _⟩ := @alloc_zones_normal _ s.live s.seeded _ _ _ _
        (by omega) h hq
      obtain ⟨c, t, c1, c2, c3, c4, _⟩ := rmqueue_loop_lists order _ _ _ _ _ e1
      refine ⟨c, t, c1, c2, c3, fun j => ?_⟩
      rw [prep_new_page_flist, e2, c4]

/-! ### Releasing a block right after its allocation -/

theorem free_one_loop_stop (fuel p c : Nat) (st : State)
    (h : c < MAX_ORDER - 1 →
      page_is_buddy (st.mem_map p) (st.mem_map (__find_buddy_pfn p c)) c = false) :
    free_one_loop ZONE_NORMAL fuel p c st = add_page_to_free_list st p ZONE_NORMAL c := by
  cases fuel with
  | zero => rfl
  | succ n =>
    unfold free_one_loop
    by_cases hlt : c < MAX_ORDER - 1
    · rw [if_pos hlt]
      dsimp only
      rw [h hlt]
      rfl
    · rw [if_neg hlt]

/-- C2 (conservation): from a reachable state with no block allocated, after any sequence
of `alloc_pages` and `free_pages` calls in which every release passes a currently allocated
block with its order and which leaves no block allocated, the Normal zone's
`nr_free_pages` and the value of `nr_free_pages()` are what they were before. -/
theorem conservation (s s' : Sys) (ops : List Op) (hr : Reachable s) (h0 : s.live = [])
    (hns : ∀ op, op ∈ ops → ∀ a b, op ≠ Op.seed a b) (hrun : s.run ops = some s')
    (h1 : s'.live = []) :
    (s'.st.zone ZONE_NORMAL).nr_free_pages = (s.st.zone ZONE_NORMAL).nr_free_pages ∧
    nr_free_pages s'.st = nr_free_pages s.st := by
  have hg := hr.good
  have hg' := Good.run ops hg hrun
  have hsd := run_seeded ops hns hrun
  have c0 := hg.1.count_total
  have c1 := hg'.1.count_total
  rw [h0] at c0
  rw [h1, hsd] at c1
  have e : s'.st.freeSum = s.st.freeSum := by
    simp only [blockSum, List.map_nil, List.sum_nil, Nat.add_zero] at c0 c1
    omega
  refine ⟨?_, ?_⟩
  · rw [hg.1.count_zone, hg'.1.count_zone, e]
  · unfold nr_free_pages
    rw [hg.2.1, hg'.2.1, e]

theorem conservation_witness :
    Reachable (Sys.runD [.seed 0 1024]) ∧ (Sys.runD [.seed 0 1024]).live = [] ∧
    (Sys.runD [.seed 0 1024]).run [.alloc GFP_KERNEL 2, .alloc GFP_KERNEL 0, .free 0 2, .free 4 0]
      = some (Sys.runD ([.seed 0 1024] ++
          [.alloc GFP_KERNEL 2, .alloc GFP_KERNEL 0, .free 0 2, .free 4 0])) ∧
    (Sys.runD ([.seed 0 1024] ++
      [.alloc GFP_KERNEL 2, .alloc GFP_KERNEL 0, .free 0 2, .free 4 0])).live = [] ∧
    ((Sys.runD ([.seed 0 1024] ++ [.alloc GFP_KERNEL 2, .alloc GFP_KERNEL 0, .free 0 2,
        .free 4 0])).st.zone ZONE_NORMAL).nr_free_pages =
      ((Sys.runD [.seed 0 1024]).st.zone ZONE_NORMAL).nr_free_pages ∧
    nr_free_pages (Sys.runD ([.seed 0 1024] ++ [.alloc GFP_KERNEL 2, .alloc GFP_KERNEL 0,
        .free 0 2, .free 4 0])).st = nr_free_pages (Sys.runD [.seed 0 1024]).st :=
  ⟨reachable_runD _ (by decide), by decide, (runD_run _ _ (by decide)).1, by decide,
    conservation _ _ _ (reachable_runD _ (by decide)) (by decide)
      (by
        intro op hop a b
        simp only [List.mem_cons, List.mem_singleton, List.not_mem_nil, or_false] at hop
        rcases hop with e | e | e | e <;> (rw [e]; simp))
      (runD_run _ _ (by decide)).1 (by decide)⟩

/-- C6 (InvalidOrder): for every order `≥ MAX_ORDER`, every flags value and every
allocator state, `alloc_pages` returns `NULL` and leaves the whole state unchanged. -/
theorem alloc_pages_invalid_order (st : State) (gfp_mask order : Nat) (h : MAX_ORDER ≤ order) :
    alloc_pages st gfp_mask order = (none, st) := by
  unfold alloc_pages
  rw [if_pos h]

theorem alloc_pages_invalid_order_witness :
    MAX_ORDER ≤ 11 ∧
    alloc_pages (Sys.runD [.seed 0 4096]).st GFP_KERNEL 11 = (none, (Sys.runD [.seed 0 4096]).st) :=
  ⟨by decide, alloc_pages_invalid_order _ _ _ (by decide)⟩

/-- C7 (out of memory): for an order below `MAX_ORDER`, in a state in which the
`nr_free_pages` counter of every zone at or below the starting zone agrees with its free
lists, `alloc_pages` returns `NULL` exactly when every such zone has empty free areas at all
orders from `order` to `MAX_ORDER - 1`; and whenever it returns `NULL` the state is
unchanged. -/
theorem alloc_pages_null_iff (st : State) (gfp_mask order : Nat) (ho : order < MAX_ORDER)
    (hc : ∀ zi, zi ≤ gfp_zone gfp_mask → (st.zone zi).nr_free_pages = (st.zone zi).frames) :
    ((alloc_pages st gfp_mask order).1 = none ↔
      ∀ zi, zi ≤ gfp_zone gfp_mask → ∀ o, order ≤ o → o < MAX_ORDER →
        ((st.zone zi).free_area o).free_list = []) ∧
    ((alloc_pages st gfp_mask order).1 = none → (alloc_pages st gfp_mask order).2 = st) :=
  alloc_pages_none_iff st gfp_mask order ho hc

theorem alloc_pages_null_iff_witness :
    3 < MAX_ORDER ∧
    (∀ zi, zi ≤ gfp_zone GFP_KERNEL →
      ((Sys.runD [.seed 0 4]).st.zone zi).nr_free_pages =
        ((Sys.runD [.seed 0 4]).st.zone zi).frames) ∧
    (((alloc_pages (Sys.runD [.seed 0 4]).st GFP_KERNEL 3).1 = none ↔
      ∀ zi, zi ≤ gfp_zone GFP_KERNEL → ∀ o, 3 ≤ o → o < MAX_ORDER →
        (((Sys.runD [.seed 0 4]).st.zone zi).free_area o).free_list = []) ∧
    ((alloc_pages (Sys.runD [.seed 0 4]).st GFP_KERNEL 3).1 = none →
      (alloc_pages (Sys.runD [.seed 0 4]).st GFP_KERNEL 3).2 = (Sys.runD [.seed 0 4]).st)) :=
  ⟨by decide,
    fun zi _ => (reachable_runD [.seed 0 4] (by decide)).good.counters zi (by
      have := gfp_zone_le GFP_KERNEL; unfold MAX_NR_ZONES; omega),
    alloc_pages_null_iff _ _ _ (by decide)
      (fun zi _ => (reachable_runD [.seed 0 4] (by decide)).good.counters zi (by
        have := gfp_zone_le GFP_KERNEL; unfold MAX_NR_ZONES; omega))⟩

/-- C8 (zone partition): in every reachable state the free blocks of the Normal zone
are pairwise disjoint as frame ranges, no block is linked twice, a frame lies in a free
block exactly when it is seeded and not inside a currently allocated block, and the other
zones hold no free block. -/
theorem zone_partition (s : Sys) (hr : Reachable s) :
    (∀ b b' f, s.st.isFree b → s.st.isFree b' → inBlock f b → inBlock f b' → b = b') ∧
    (∀ o, o < MAX_ORDER → (s.st.flist o).Nodup) ∧
    (∀ f, (∃ b, s.st.isFree b ∧ inBlock f b) ↔
      (s.isSeeded f ∧ ¬ ∃ b, b ∈ s.live ∧ inBlock f b)) ∧
    (∀ zi, zi < MAX_NR_ZONES → zi ≠ ZONE_NORMAL → ∀ o, o < MAX_ORDER →
      ((s.st.zone zi).free_area o).free_list = []) := by
  have h := hr.good.1
  refine ⟨fun b b' f h1 h2 => h.uniq f b b' (Or.inl h1) (Or.inl h2), h.nodup, ?_,
    fun zi hz hne => (h.others zi hz hne).2⟩
  intro f
  constructor
  · rintro ⟨b, hb, hf⟩
    refine ⟨h.free_seeded hb hf, ?_⟩
    rintro ⟨b', hb', hf'⟩
    have e := h.uniq f b b' (Or.inl hb) (Or.inr hb') hf hf'
    exact h.excl b' hb' (e ▸ hb)
  · rintro ⟨hs, hn⟩
    obtain ⟨b, hb | hb, hf⟩ := (h.cover f).mp hs
    · exact ⟨b, hb, hf⟩
    · exact absurd ⟨b, hb, hf⟩ hn

theorem zone_partition_witness :
    Reachable (Sys.runD [.seed 3 21, .seed 40 64, .alloc GFP_KERNEL 2, .alloc GFP_USER 0,
      .free 16 2]) ∧
    ((∀ b b' f, (Sys.runD [.seed 3 21, .seed 40 64, .alloc GFP_KERNEL 2, .alloc GFP_USER 0,
        .free 16 2]).st.isFree b →
      (Sys.runD [.seed 3 21, .seed 40 64, .alloc GFP_KERNEL 2, .alloc GFP_USER 0,
        .free 16 2]).st.isFree b' → inBlock f b → inBlock f b' → b = b') ∧
    (∀ o, o < MAX_ORDER → ((Sys.runD [.seed 3 21, .seed 40 64, .alloc GFP_KERNEL 2,
      .alloc GFP_USER 0, .free 16 2]).st.flist o).Nodup) ∧
    (∀ f, (∃ b, (Sys.runD [.seed 3 21, .seed 40 64, .alloc GFP_KERNEL 2, .alloc GFP_USER 0,
        .free 16 2]).st.isFree b ∧ inBlock f b) ↔
      ((Sys.runD [.seed 3 21, .seed 40 64, .alloc GFP_KERNEL 2, .alloc GFP_USER 0,
        .free 16 2]).isSeeded f ∧
       ¬ ∃ b, b ∈ (Sys.runD [.seed 3 21, .seed 40 64, .alloc GFP_KERNEL 2, .alloc GFP_USER 0,
        .free 16 2]).live ∧ inBlock f b)) ∧
    (∀ zi, zi < MAX_NR_ZONES → zi ≠ ZONE_NORMAL → ∀ o, o < MAX_ORDER →
      (((Sys.runD [.seed 3 21, .seed 40 64, .alloc GFP_KERNEL 2, .alloc GFP_USER 0,
        .free 16 2]).st.zone zi).free_area o).free_list = [])) :=
  ⟨reachable_runD _ (by decide), zone_partition _ (reachable_runD _ (by decide))⟩

/-- C9 (zone selection and fallback): for an order below `MAX_ORDER`, in a state in
which the `nr_free_pages` counter of every zone at or below the starting zone agrees with
its free lists: the starting zone is DMA if the DMA bit is set, else HighMem if the HIGHMEM
bit is set, else Normal; the request is served by `__rmqueue_smallest` from the highest
zone at or below the start that holds a block of order `order` or more, and no other zone
changes; and the returned block, the node (zones, free lists) and the descriptor table
depend on the flags only through the DMA and HIGHMEM bits. -/
theorem alloc_pages_zone_fallback (st : State) (gfp_mask order : Nat) (ho : order < MAX_ORDER)
    (hc : ∀ zi, zi ≤ gfp_zone gfp_mask → (st.zone zi).nr_free_pages = (st.zone zi).frames) :
    gfp_zone gfp_mask =
      (if gfp_mask &&& GFP_DMA ≠ 0 then 0 else if gfp_mask &&& GFP_HIGHMEM ≠ 0 then 2 else 1) ∧
    (∀ z, z ≤ gfp_zone gfp_mask →
      (∃ o, order ≤ o ∧ o < MAX_ORDER ∧ ((st.zone z).free_area o).free_list ≠ []) →
      (∀ z', z < z' → z' ≤ gfp_zone gfp_mask → ∀ o, order ≤ o → o < MAX_ORDER →
        ((st.zone z').free_area o).free_list = []) →
      (alloc_pages st gfp_mask order).1 = (__rmqueue_smallest st z order).1 ∧
      (alloc_pages st gfp_mask order).1 ≠ none ∧
      ∀ zi, zi ≠ z → (alloc_pages st gfp_mask order).2.zone zi = st.zone zi) ∧
    (∀ g', g' &&& GFP_DMA = gfp_mask &&& GFP_DMA →
      g' &&& GFP_HIGHMEM = gfp_mask &&& GFP_HIGHMEM →
      (alloc_pages st g' order).1 = (alloc_pages st gfp_mask order).1 ∧
      (alloc_pages st g' order).2.node_data = (alloc_pages st gfp_mask order).2.node_data ∧
      (alloc_pages st g' order).2.mem_map = (alloc_pages st gfp_mask order).2.mem_map) := by
  refine ⟨rfl, ?_, ?_⟩
  · intro z hz hne hem
    have hpass := alloc_zones_pass order z ho (gfp_zone gfp_mask + 1) st (by omega)
      (fun zi h => hc zi (by omega)) (fun z' h1 h2 => hem z' h1 (by omega))
    have hserve := alloc_zones_serve order z ho st (hc z hz) hne
    rw [alloc_pages_fst st gfp_mask order ho, hpass]
    refine ⟨hserve.1, hserve.2.1, fun zi hzi => ?_⟩
    rw [alloc_pages_zone st gfp_mask order zi ho, hpass]
    exact hserve.2.2 zi hzi
  · intro g' h1 h2
    exact alloc_pages_congr st gfp_mask g' order (gfp_zone_congr gfp_mask g' h1 h2)

theorem alloc_pages_zone_fallback_witness :
    1 < MAX_ORDER ∧
    (∀ zi, zi ≤ gfp_zone (GFP_HIGHMEM ||| GFP_KERNEL) →
      ((Sys.runD [.seed 0 8]).st.zone zi).nr_free_pages =
        ((Sys.runD [.seed 0 8]).st.zone zi).frames) ∧
    (gfp_zone (GFP_HIGHMEM ||| GFP_KERNEL) =
      (if (GFP_HIGHMEM ||| GFP_KERNEL) &&& GFP_DMA ≠ 0 then 0
       else if (GFP_HIGHMEM ||| GFP_KERNEL) &&& GFP_HIGHMEM ≠ 0 then 2 else 1) ∧
    (∀ z, z ≤ gfp_zone (GFP_HIGHMEM ||| GFP_KERNEL) →
      (∃ o, 1 ≤ o ∧ o < MAX_ORDER ∧
        (((Sys.runD [.seed 0 8]).st.zone z).free_area o).free_list ≠ []) →
      (∀ z', z < z' → z' ≤ gfp_zone (GFP_HIGHMEM ||| GFP_KERNEL) → ∀ o, 1 ≤ o →
        o < MAX_ORDER → (((Sys.runD [.seed 0 8]).st.zone z').free_area o).free_list = []) →
      (alloc_pages (Sys.runD [.seed 0 8]).st (GFP_HIGHMEM ||| GFP_KERNEL) 1).1 =
        (__rmqueue_smallest (Sys.runD [.seed 0 8]).st z 1).1 ∧
      (alloc_pages (Sys.runD [.seed 0 8]).st (GFP_HIGHMEM ||| GFP_KERNEL) 1).1 ≠ none ∧
      ∀ zi, zi ≠ z →
        (alloc_pages (Sys.runD [.seed 0 8]).st (GFP_HIGHMEM ||| GFP_KERNEL) 1).2.zone zi =
          (Sys.runD [.seed 0 8]).st.zone zi) ∧
    (∀ g', g' &&& GFP_DMA = (GFP_HIGHMEM ||| GFP_KERNEL) &&& GFP_DMA →
      g' &&& GFP_HIGHMEM = (GFP_HIGHMEM ||| GFP_KERNEL) &&& GFP_HIGHMEM →
      (alloc_pages (Sys.runD [.seed 0 8]).st g' 1).1 =
        (alloc_pages (Sys.runD [.seed 0 8]).st (GFP_HIGHMEM ||| GFP_KERNEL) 1).1 ∧
      (alloc_pages (Sys.runD [.seed 0 8]).st g' 1).2.node_data =
        (alloc_pages (Sys.runD [.seed 0 8]).st (GFP_HIGHMEM ||| GFP_KERNEL) 1).2.node_data ∧
      (alloc_pages (Sys.runD [.seed 0 8]).st g' 1).2.mem_map =
        (alloc_pages (Sys.runD [.seed 0 8]).st (GFP_HIGHMEM ||| GFP_KERNEL) 1).2.mem_map)) :=
  ⟨by decide,
    fun zi _ => (reachable_runD [.seed 0 8] (by decide)).good.counters zi (by
      have := gfp_zone_le (GFP_HIGHMEM ||| GFP_KERNEL); unfold MAX_NR_ZONES; omega),
    alloc_pages_zone_fallback _ _ _ (by decide)
      (fun zi _ => (reachable_runD [.seed 0 8] (by decide)).good.counters zi (by
        have := gfp_zone_le (GFP_HIGHMEM ||| GFP_KERNEL); unfold MAX_NR_ZONES; omega))⟩

/-- C10 (as stated, violated by the code): `kmalloc(2^64 - 1, GFP_KERNEL)` with one
free frame returns a non-null address; the size rounded by `ALIGN_UP` wraps to `0`, the
block is requested from `alloc_pages` at order `0`, and one page does not cover the
request. -/
theorem kmalloc_size_overflow :
    (kmalloc (Sys.runD [.seed 0 1]).st (2 ^ 64 - 1) GFP_KERNEL).1 = page_to_virt 0 ∧
    page_to_virt 0 ≠ 0 ∧
    ALIGN_UP (2 ^ 64 - 1) PAGE_SIZE = 0 ∧
    kmalloc_order (ALIGN_UP (2 ^ 64 - 1) PAGE_SIZE) MAX_ORDER 0 = 0 ∧
    (alloc_pages (Sys.runD [.seed 0 1]).st GFP_KERNEL 0).1 = some 0 ∧
    ¬ (2 ^ 64 - 1 ≤ PAGE_SIZE * 2 ^ 0) := by
  decide

/-- C3 (full coalescing on total release): for `k < MAX_ORDER` and a start PFN `s` that
is a multiple of `2^k`, after `buddy_init` at boot, one `free_area_init(s, s + 2^k)`,
order-0 `alloc_pages` calls (as many as one likes, in particular `2^k` successful ones) and
then `free_pages(page, 0)` on all returned frames in any permutation, the order-`k` free
list of the Normal zone is exactly `[s]` and every other free list of every zone is
empty. -/
theorem full_coalescing (k s : Nat) (hk : k < MAX_ORDER) (hal : 2 ^ k ∣ s)
    (hs : s + 2 ^ k ≤ MAX_PFN) (gs : List Nat) (st1 : State)
    (h1 : free_area_init (buddy_init boot) s (s + 2 ^ k) = some st1)
    (ps : List (Option Nat)) (hok : ∀ r, r ∈ ps → r ≠ none)
    (hperm : ps.Perm (alloc_many 0 st1 gs).1) :
    (free_many 0 (alloc_many 0 st1 gs).2 ps).flist k = [s] ∧
    (∀ o, o < MAX_ORDER → o ≠ k → (free_many 0 (alloc_many 0 st1 gs).2 ps).flist o = []) ∧
    (∀ zi, zi < MAX_NR_ZONES → zi ≠ ZONE_NORMAL → ∀ o, o < MAX_ORDER →
      (((free_many 0 (alloc_many 0 st1 gs).2 ps).zone zi).free_area o).free_list = []) := by
  obtain ⟨s3, hr, e3, c1, c2⟩ := coalesce_all k s hk hal hs gs st1 h1 ps hok hperm
  rw [← e3]
  exact ⟨c1, c2, fun zi hz hne => (hr.good.1.others zi hz hne).2⟩

theorem full_coalescing_witness :
    2 < MAX_ORDER ∧ 2 ^ 2 ∣ 8 ∧ 8 + 2 ^ 2 ≤ MAX_PFN ∧
    free_area_init (buddy_init boot) 8 (8 + 2 ^ 2) = some (Sys.runD [.seed 8 12]).st ∧
    (∀ r, r ∈ [some 10, some 8, some 11, some 9] → r ≠ none) ∧
    [some 10, some 8, some 11, some 9].Perm
      (alloc_many 0 (Sys.runD [.seed 8 12]).st [GFP_KERNEL, GFP_USER, GFP_ATOMIC, GFP_KERNEL]).1 ∧
    (free_many 0 (alloc_many 0 (Sys.runD [.seed 8 12]).st
        [GFP_KERNEL, GFP_USER, GFP_ATOMIC, GFP_KERNEL]).2
        [some 10, some 8, some 11, some 9]).flist 2 = [8] ∧
    (∀ o, o < MAX_ORDER → o ≠ 2 →
      (free_many 0 (alloc_many 0 (Sys.runD [.seed 8 12]).st
        [GFP_KERNEL, GFP_USER, GFP_ATOMIC, GFP_KERNEL]).2
        [some 10, some 8, some 11, some 9]).flist o = []) ∧
    (∀ zi, zi < MAX_NR_ZONES → zi ≠ ZONE_NORMAL → ∀ o, o < MAX_ORDER →
      (((free_many 0 (alloc_many 0 (Sys.runD [.seed 8 12]).st
        [GFP_KERNEL, GFP_USER, GFP_ATOMIC, GFP_KERNEL]).2
        [some 10, some 8, some 11, some 9]).zone zi).free_area o).free_list = []) :=
  have h1 : free_area_init (buddy_init boot) 8 (8 + 2 ^ 2) = some (Sys.runD [.seed 8 12]).st := by
    obtain ⟨st1, e1, _⟩ := seed_boot 8 (8 + 2 ^ 2) (by decide) (by decide)
    have e2 := (seed_boot_run 8 (8 + 2 ^ 2) (by decide) (by decide) st1 e1).1
    have e3 : Sys.runD [.seed 8 12] = ⟨st1, [], [(8, 8 + 2 ^ 2)]⟩ := by
      unfold Sys.runD
      rw [show (12 : Nat) = 8 + 2 ^ 2 from rfl, e2]
      rfl
    rw [e1, e3]
  have hperm : [some 10, some 8, some 11, some 9].Perm
      (alloc_many 0 (Sys.runD [.seed 8 12]).st
        [GFP_KERNEL, GFP_USER, GFP_ATOMIC, GFP_KERNEL]).1 := by
    have e : (alloc_many 0 (Sys.runD [.seed 8 12]).st
        [GFP_KERNEL, GFP_USER, GFP_ATOMIC, GFP_KERNEL]).1 = [some 8, some 9, some 10, some 11] := by
      decide
    rw [e]
    decide
  ⟨by decide, by decide, by decide, h1, by decide, hperm,
    full_coalescing 2 8 (by decide) (by decide) (by decide)
      [GFP_KERNEL, GFP_USER, GFP_ATOMIC, GFP_KERNEL] _ h1 _ (by decide) hperm⟩

/-- C4 (exhaustion): for every `k` and every start PFN `s` with `s + 2^k ≤ MAX_PFN`,
after `buddy_init` at boot and `free_area_init(s, s + 2^k)`, which returns, each of `2^k`
calls `alloc_pages(flags, 0)` with flags that do not select the DMA zone returns a
descriptor, and the next call returns `NULL` and leaves the state unchanged, whatever its
flags. -/
theorem exhaustion (k s : Nat) (hs : s + 2 ^ k ≤ MAX_PFN) (gs : List Nat)
    (hlen : gs.length = 2 ^ k) (hg : ∀ g, g ∈ gs → g &&& GFP_DMA = 0) :
    ∃ st1, free_area_init (buddy_init boot) s (s + 2 ^ k) = some st1 ∧
      (alloc_many 0 st1 gs).1.length = 2 ^ k ∧
      (∀ r, r ∈ (alloc_many 0 st1 gs).1 → r ≠ none) ∧
      ∀ g, alloc_pages (alloc_many 0 st1 gs).2 g 0 = (none, (alloc_many 0 st1 gs).2) := by
  obtain ⟨st1, e1, hgood, hfs⟩ := seed_boot s (s + 2 ^ k) (by omega) hs
  have hfs' : st1.freeSum = 2 ^ k := by omega
  obtain ⟨a1, a2⟩ := alloc_many_success gs ⟨st1, [], [(s, s + 2 ^ k)]⟩ hgood
    (by show gs.length ≤ st1.freeSum; omega) hg
  obtain ⟨l, hg2, _⟩ := @Good.alloc_many 0 gs ⟨st1, [], [(s, s + 2 ^ k)]⟩ hgood
  refine ⟨st1, e1, ?_, a1, ?_⟩
  · rw [alloc_many_length, hlen]
  · intro g
    have h0 : (alloc_many 0 st1 gs).2.freeSum = 0 := by
      have : (alloc_many 0 st1 gs).2.freeSum + gs.length = st1.freeSum := a2
      omega
    exact hg2.alloc_fails h0 g

theorem exhaustion_witness :
    5 + 2 ^ 2 ≤ MAX_PFN ∧ [GFP_KERNEL, GFP_USER, GFP_HIGHMEM, GFP_ATOMIC].length = 2 ^ 2 ∧
    (∀ g, g ∈ [GFP_KERNEL, GFP_USER, GFP_HIGHMEM, GFP_ATOMIC] → g &&& GFP_DMA = 0) ∧
    ∃ st1, free_area_init (buddy_init boot) 5 (5 + 2 ^ 2) = some st1 ∧
      (alloc_many 0 st1 [GFP_KERNEL, GFP_USER, GFP_HIGHMEM, GFP_ATOMIC]).1.length = 2 ^ 2 ∧
      (∀ r, r ∈ (alloc_many 0 st1 [GFP_KERNEL, GFP_USER, GFP_HIGHMEM, GFP_ATOMIC]).1 →
        r ≠ none) ∧
      ∀ g, alloc_pages (alloc_many 0 st1 [GFP_KERNEL, GFP_USER, GFP_HIGHMEM, GFP_ATOMIC]).2 g 0 =
        (none, (alloc_many 0 st1 [GFP_KERNEL, GFP_USER, GFP_HIGHMEM, GFP_ATOMIC]).2) :=
  ⟨by decide, by decide, by decide, exhaustion 2 5 (by decide) _ (by decide) (by decide)⟩

/-- The round trip on a block whose frames carry stale reference counts: after
`[0, 4)` is seeded and an order-2 block is allocated and released, an order-0 allocation
followed by its release leaves frames `0` and `1` unmerged on the order-0 list. -/
theorem stale_refcount_round_trip :
    (Sys.init.run [.seed 0 4, .alloc GFP_KERNEL 2, .free 0 2]).isSome = true ∧
    (Sys.runD [.seed 0 4, .alloc GFP_KERNEL 2, .free 0 2]).st.flist 2 = [0] ∧
    ((Sys.runD [.seed 0 4, .alloc GFP_KERNEL 2, .free 0 2]).st.mem_map 1).refcount = 1 ∧
    (alloc_pages (Sys.runD [.seed 0 4, .alloc GFP_KERNEL 2, .free 0 2]).st GFP_KERNEL 0).1 =
      some 0 ∧
    (free_pages (alloc_pages (Sys.runD [.seed 0 4, .alloc GFP_KERNEL 2, .free 0 2]).st
      GFP_KERNEL 0).2 (some 0) 0).flist 0 = [0, 1] ∧
    (free_pages (alloc_pages (Sys.runD [.seed 0 4, .alloc GFP_KERNEL 2, .free 0 2]).st
      GFP_KERNEL 0).2 (some 0) 0).flist 2 = [] := by
  decide

theorem pa_va (x : Nat) (hx : x < WORD) : __pa (__va x) = x := by
  unfold __pa __va WORD KERNEL_VIRTUAL_BASE at *
  omega

theorem va_pa (x : Nat) (hx : x < WORD) : __va (__pa x) = x := by
  unfold __pa __va WORD KERNEL_VIRTUAL_BASE at *
  omega

theorem page_to_phys_eq (p : Nat) (hp : p < MAX_PFN) : page_to_phys p = p * PAGE_SIZE := by
  unfold page_to_phys
  rw [Nat.shiftLeft_eq]
  unfold MAX_PFN PAGE_SHIFT at hp
  unfold PAGE_SHIFT PAGE_SIZE WORD
  omega

theorem phys_round_trip (p : Nat) (hp : p < MAX_PFN) : phys_to_page (page_to_phys p) = p := by
  rw [page_to_phys_eq p hp]
  unfold phys_to_page
  rw [Nat.shiftRight_eq_div_pow]
  unfold PAGE_SHIFT PAGE_SIZE
  omega

theorem virt_round_trip (p : Nat) (hp : p < MAX_PFN) : virt_to_page (page_to_virt p) = p := by
  unfold virt_to_page page_to_virt
  rw [pa_va, phys_round_trip p hp]
  rw [page_to_phys_eq p hp]
  unfold MAX_PFN PAGE_SHIFT at hp
  unfold PAGE_SIZE WORD
  omega

/-- C14 (address translation round trip): for every PFN `p < 2^52`, translating the
descriptor of `p` to its virtual address and back gives the descriptor again,
`page_to_pfn` inverts `pfn_to_page`, `phys_to_page` inverts `page_to_phys`, and for every
64-bit value `__pa` inverts `__va` and `__va` inverts `__pa` under wrapping arithmetic. -/
theorem address_round_trip (p : Nat) (hp : p < MAX_PFN) :
    virt_to_page (page_to_virt (pfn_to_page p)) = pfn_to_page p ∧
    page_to_pfn (pfn_to_page p) = p ∧
    phys_to_page (page_to_phys (pfn_to_page p)) = pfn_to_page p ∧
    (∀ x, x < WORD → __pa (__va x) = x ∧ __va (__pa x) = x) ∧
    KERNEL_VIRTUAL_BASE = 0xFFFF800000000000 :=
  ⟨virt_round_trip p hp, rfl, phys_round_trip p hp, fun x hx => ⟨pa_va x hx, va_pa x hx⟩, rfl⟩

theorem address_round_trip_witness :
    2 ^ 35 < MAX_PFN ∧
    (virt_to_page (page_to_virt (pfn_to_page (2 ^ 35))) = pfn_to_page (2 ^ 35) ∧
    page_to_pfn (pfn_to_page (2 ^ 35)) = 2 ^ 35 ∧
    phys_to_page (page_to_phys (pfn_to_page (2 ^ 35))) = pfn_to_page (2 ^ 35) ∧
    (∀ x, x < WORD → __pa (__va x) = x ∧ __va (__pa x) = x) ∧
    KERNEL_VIRTUAL_BASE = 0xFFFF800000000000) :=
  ⟨by decide, address_round_trip (2 ^ 35) (by decide)⟩

theorem find_buddy_xor (p o : Nat) : __find_buddy_pfn p o = p ^^^ 2 ^ o := by
  unfold __find_buddy_pfn
  rw [Nat.shiftLeft_eq, Nat.one_mul]

/-- C15 (buddy involution): for every PFN `p` and every order `o < MAX_ORDER`, the buddy
of the buddy of `p` is `p`, the buddy differs from `p` in bit `o` and in no other bit, and
the buddy of a 64-bit PFN is a 64-bit value. -/
theorem find_buddy_involution (p o : Nat) (ho : o < MAX_ORDER) :
    __find_buddy_pfn (__find_buddy_pfn p o) o = p ∧
    (∀ i, (__find_buddy_pfn p o).testBit i = if i = o then !p.testBit i else p.testBit i) ∧
    (p < WORD → __find_buddy_pfn p o < WORD) := by
  refine ⟨?_, ?_, ?_⟩
  · rw [find_buddy_xor, find_buddy_xor, Nat.xor_assoc, Nat.xor_self, Nat.xor_zero]
  · intro i
    rw [find_buddy_xor, Nat.testBit_xor, Nat.testBit_two_pow]
    by_cases h : i = o
    · subst h
      simp
    · have h' : ¬ o = i := fun e => h e.symm
      simp [h, h']
  · intro hp
    rw [find_buddy_xor]
    unfold WORD at *
    apply Nat.xor_lt_two_pow hp
    apply Nat.pow_lt_pow_right (by decide)
    unfold MAX_ORDER at ho
    omega

theorem find_buddy_involution_witness :
    2 < MAX_ORDER ∧
    (__find_buddy_pfn (__find_buddy_pfn 12 2) 2 = 12 ∧
    (∀ i, (__find_buddy_pfn 12 2).testBit i =
      if i = 2 then !Nat.testBit 12 i else Nat.testBit 12 i) ∧
    (12 < WORD → __find_buddy_pfn 12 2 < WORD)) :=
  ⟨by decide, find_buddy_involution 12 2 (by decide)⟩

/-! ### Finalization of an allocated block -/

theorem alloc_pages_some (st : State) (g order h : Nat)
    (ha : (alloc_pages st g order).1 = some h) :
    order < MAX_ORDER ∧ (alloc_zones order (gfp_zone g + 1) st).1 = some h ∧
    (alloc_pages st g order).2 =
      prep_new_page (alloc_zones order (gfp_zone g + 1) st).2 h order g := by
  unfold alloc_pages at ha ⊢
  by_cases ho : order ≥ MAX_ORDER
  · rw [if_pos ho] at ha
    exact absurd ha (by simp)
  · rw [if_neg ho] at ha ⊢
    cases hq : alloc_zones order (gfp_zone g + 1) st with
    | mk a st1 =>
      rw [hq] at ha
      cases a with
      | none => exact absurd ha (by simp)
      | some p =>
        dsimp only at ha ⊢
        simp only [Option.some.injEq] at ha
        subst ha
        exact ⟨by omega, rfl, rfl⟩

theorem shift_order_mod (o : Nat) (ho : o < MAX_ORDER) : (1 <<< o) % WORD = 2 ^ o := by
  have := two_pow_le_of_lt_max ho
  rw [Nat.one_shiftLeft, Nat.mod_eq_of_lt (by unfold WORD; omega)]

theorem prep_loop_in (p : Nat) : ∀ (n : Nat) (st : State) (i : Nat), i < n →
    (prep_loop p n st).mem_map (p + i) =
      { flags := 0, refcount := 1, mapcount := -1, order := 0, index := 0, priv := 0 } := by
  intro n
  induction n with
  | zero => intro st i hi; omega
  | succ n ih =>
    intro st i hi
    unfold prep_loop
    rw [mem_map_setPage]
    by_cases e : i = n
    · rw [if_pos (by omega)]
    · rw [if_neg (by omega)]
      exact ih st i (by omega)

theorem prep_new_page_in (st : State) (p o g i : Nat) (ho : o < MAX_ORDER) (hi : i < 2 ^ o) :
    (prep_new_page st p o g).mem_map (p + i) =
      { flags := 0, refcount := 1, mapcount := -1, order := 0, index := 0, priv := 0 } := by
  unfold prep_new_page
  rw [shift_order_mod o ho]
  dsimp only
  split
  · exact prep_loop_in p _ st i hi
  · exact prep_loop_in p _ st i hi

/-- Descriptors of the block returned by `alloc_pages`, and reference counts outside
the block. -/
theorem alloc_pages_prepared (st : State) (gfp_mask order h : Nat)
    (ha : (alloc_pages st gfp_mask order).1 = some h) :
    (∀ i, i < 2 ^ order →
      ((alloc_pages st gfp_mask order).2.mem_map (h + i)).refcount = 1 ∧
      ((alloc_pages st gfp_mask order).2.mem_map (h + i)).flags = 0 ∧
      PageBuddy ((alloc_pages st gfp_mask order).2.mem_map (h + i)) = false) ∧
    (∀ q, q < h ∨ h + 2 ^ order ≤ q →
      ((alloc_pages st gfp_mask order).2.mem_map q).refcount = (st.mem_map q).refcount) := by
  obtain ⟨ho, _, hst⟩ := alloc_pages_some st gfp_mask order h ha
  refine ⟨fun i hi => ?_, fun q hq => ?_⟩
  · rw [hst, prep_new_page_in _ h order gfp_mask i ho hi]
    exact ⟨rfl, rfl, rfl⟩
  · apply alloc_pages_refcount_out st gfp_mask order q ho
    intro p hp
    rw [ha] at hp
    simp only [Option.some.injEq] at hp
    subst hp
    exact hq

/-- C17 (finalization): after a successful `alloc_pages(flags, order)` that returns the
head descriptor `h`, each of the `2^order` descriptors `h, ..., h + 2^order - 1` has
reference count `1` and flags word `0` (so its free flag is clear), and no descriptor
outside the block has had its reference count changed by the call. -/
theorem alloc_pages_finalization (st : State) (gfp_mask order h : Nat)
    (ha : (alloc_pages st gfp_mask order).1 = some h) :
    (∀ i, i < 2 ^ order →
      ((alloc_pages st gfp_mask order).2.mem_map (h + i)).refcount = 1 ∧
      ((alloc_pages st gfp_mask order).2.mem_map (h + i)).flags = 0 ∧
      PageBuddy ((alloc_pages st gfp_mask order).2.mem_map (h + i)) = false) ∧
    (∀ q, q < h ∨ h + 2 ^ order ≤ q →
      ((alloc_pages st gfp_mask order).2.mem_map q).refcount = (st.mem_map q).refcount) :=
  alloc_pages_prepared st gfp_mask order h ha

theorem alloc_pages_finalization_witness :
    (alloc_pages (Sys.runD [.seed 0 8]).st GFP_KERNEL 1).1 = some 0 ∧
    ((∀ i, i < 2 ^ 1 →
      ((alloc_pages (Sys.runD [.seed 0 8]).st GFP_KERNEL 1).2.mem_map (0 + i)).refcount = 1 ∧
      ((alloc_pages (Sys.runD [.seed 0 8]).st GFP_KERNEL 1).2.mem_map (0 + i)).flags = 0 ∧
      PageBuddy ((alloc_pages (Sys.runD [.seed 0 8]).st GFP_KERNEL 1).2.mem_map (0 + i))
        = false) ∧
    (∀ q, q < 0 ∨ 0 + 2 ^ 1 ≤ q →
      ((alloc_pages (Sys.runD [.seed 0 8]).st GFP_KERNEL 1).2.mem_map q).refcount =
        ((Sys.runD [.seed 0 8]).st.mem_map q).refcount)) :=
  ⟨by decide, alloc_pages_finalization _ GFP_KERNEL 1 0 (by decide)⟩

/-! ### Zeroing of an allocated block -/

theorem memset_in (mem : Nat → Nat) (s c : Nat) : ∀ (n i : Nat), i < n →
    memset mem s c n ((s + i) % WORD) = c % 256 := by
  intro n
  induction n with
  | zero => intro i hi; omega
  | succ n ih =>
    intro i hi
    unfold memset
    by_cases e : (s + i) % WORD = (s + n) % WORD
    · rw [if_pos e]
    · rw [if_neg e]
      have hne : i ≠ n := fun h => e (by rw [h])
      exact ih i (by omega)

theorem prep_new_page_zero (st : State) (p o g i : Nat) (ho : o < MAX_ORDER)
    (hz : g &&& GFP_ZERO ≠ 0) (hi : i < 2 ^ o * PAGE_SIZE) :
    (prep_new_page st p o g).memory ((page_to_virt p + i) % WORD) = 0 := by
  have hle := two_pow_le_of_lt_max ho
  have hlt : 2 ^ o * PAGE_SIZE < WORD := by
    unfold PAGE_SIZE WORD
    omega
  unfold prep_new_page
  rw [shift_order_mod o ho]
  dsimp only
  rw [if_pos hz, Nat.mod_eq_of_lt hlt]
  exact memset_in _ _ 0 _ i hi

theorem or_zero_bit (g : Nat) : (g ||| GFP_ZERO) &&& GFP_ZERO ≠ 0 := by
  intro h
  have h5 : ((g ||| GFP_ZERO) &&& GFP_ZERO).testBit 5 = true := by
    rw [Nat.testBit_and, Nat.testBit_or]
    have : GFP_ZERO.testBit 5 = true := by decide
    rw [this]
    simp
  rw [h] at h5
  simp at h5

/-- C16 (zero fill): for a flags value with the ZERO bit set, when `alloc_pages`
succeeds every one of the `2^order * PAGE_SIZE` bytes starting at the virtual address of
the returned head reads as zero on return; and `get_zeroed_page` returns `0` or the virtual
address of a page whose `4096` bytes are all zero. -/
theorem alloc_pages_zero_fill (st : State) (gfp_mask order h : Nat)
    (hz : gfp_mask &&& GFP_ZERO ≠ 0) (ha : (alloc_pages st gfp_mask order).1 = some h) :
    (order < MAX_ORDER ∧ ∀ i, i < 2 ^ order * PAGE_SIZE →
      (alloc_pages st gfp_mask order).2.memory ((page_to_virt h + i) % WORD) = 0) ∧
    (∀ g, (get_zeroed_page st g).1 = 0 ∨
      ∀ i, i < 4096 →
        (get_zeroed_page st g).2.memory (((get_zeroed_page st g).1 + i) % WORD) = 0) := by
  obtain ⟨ho, _, hst⟩ := alloc_pages_some st gfp_mask order h ha
  refine ⟨⟨ho, fun i hi => ?_⟩, fun g => ?_⟩
  · rw [hst]
    exact prep_new_page_zero _ h order gfp_mask i ho hz hi
  · unfold get_zeroed_page __get_free_pages
    cases hq : alloc_pages st (g ||| GFP_ZERO) 0 with
    | mk a st1 =>
      cases a with
      | none => exact Or.inl rfl
      | some p =>
        refine Or.inr (fun i hi => ?_)
        dsimp only
        have hp : (alloc_pages st (g ||| GFP_ZERO) 0).1 = some p := by rw [hq]
        obtain ⟨ho0, _, hst0⟩ := alloc_pages_some st (g ||| GFP_ZERO) 0 p hp
        have e : st1 = (alloc_pages st (g ||| GFP_ZERO) 0).2 := by rw [hq]
        rw [e, hst0]
        exact prep_new_page_zero _ p 0 _ i ho0 (or_zero_bit g) (by unfold PAGE_SIZE; omega)

theorem alloc_pages_zero_fill_witness :
    (GFP_KERNEL ||| GFP_ZERO) &&& GFP_ZERO ≠ 0 ∧
    (alloc_pages (Sys.runD [.seed 0 8]).st (GFP_KERNEL ||| GFP_ZERO) 1).1 = some 0 ∧
    ((1 < MAX_ORDER ∧ ∀ i, i < 2 ^ 1 * PAGE_SIZE →
      (alloc_pages (Sys.runD [.seed 0 8]).st (GFP_KERNEL ||| GFP_ZERO) 1).2.memory
        ((page_to_virt 0 + i) % WORD) = 0) ∧
    (∀ g, (get_zeroed_page (Sys.runD [.seed 0 8]).st g).1 = 0 ∨
      ∀ i, i < 4096 →
        (get_zeroed_page (Sys.runD [.seed 0 8]).st g).2.memory
          (((get_zeroed_page (Sys.runD [.seed 0 8]).st g).1 + i) % WORD) = 0)) :=
  ⟨by decide, by decide,
    alloc_pages_zero_fill _ (GFP_KERNEL ||| GFP_ZERO) 1 0 (by decide) (by decide)⟩

/-! ### Size rounding and order search of `kmalloc` -/

theorem and_page_mask (y : Nat) (hy : y < 2 ^ 64) :
    y &&& (2 ^ 64 - (4095 + 1)) = y / 4096 * 4096 := by
  have e : y / 4096 * 4096 = (y >>> 12) <<< 12 := by
    rw [Nat.shiftLeft_eq, Nat.shiftRight_eq_div_pow]
  rw [e]
  apply Nat.eq_of_testBit_eq
  intro i
  rw [Nat.testBit_and, Nat.testBit_two_pow_sub_succ (by decide), Nat.testBit_shiftLeft,
    Nat.testBit_shiftRight]
  have h4095 : Nat.testBit 4095 i = decide (i < 12) := by
    have : (4095 : Nat) = 2 ^ 12 - 1 := by decide
    rw [this, Nat.testBit_two_pow_sub_one]
  rw [h4095]
  by_cases h12 : i < 12
  · simp [h12]
  · have e2 : 12 + (i - 12) = i := by omega
    rw [e2]
    by_cases h64 : i < 64
    · simp [h12, h64]
      intro _
      omega
    · have hf : y.testBit i = false :=
        Nat.testBit_lt_two_pow (Nat.lt_of_lt_of_le hy (Nat.pow_le_pow_right (by decide)
          (by omega)))
      simp [hf]

theorem align_up_eq (x : Nat) (hx : x + 4095 < WORD) :
    ALIGN_UP x PAGE_SIZE = (x + 4095) / 4096 * 4096 := by
  unfold ALIGN_UP
  have e1 : (x + PAGE_SIZE + WORD - 1) % WORD = x + 4095 := by
    unfold PAGE_SIZE WORD at *
    omega
  have e2 : WORD - 1 - (PAGE_SIZE + WORD - 1) % WORD = 2 ^ 64 - (4095 + 1) := by
    unfold PAGE_SIZE WORD
    decide
  rw [e1, e2]
  exact and_page_mask _ hx

/-- The order loop of `kmalloc` stops at the least order whose block covers the size, or
at `MAX_ORDER`. -/
theorem kmalloc_order_spec (sz : Nat) : ∀ (fuel o : Nat), o + fuel = MAX_ORDER →
    (∀ j, j < o → PAGE_SIZE * 2 ^ j < sz) →
    o ≤ kmalloc_order sz fuel o ∧ kmalloc_order sz fuel o ≤ MAX_ORDER ∧
    (∀ j, j < kmalloc_order sz fuel o → PAGE_SIZE * 2 ^ j < sz) ∧
    (kmalloc_order sz fuel o < MAX_ORDER → sz ≤ PAGE_SIZE * 2 ^ kmalloc_order sz fuel o) := by
  intro fuel
  induction fuel with
  | zero =>
    intro o ho hlow
    unfold kmalloc_order
    exact ⟨Nat.le_refl _, by omega, hlow, fun h => by omega⟩
  | succ fuel ih =>
    intro o ho hlow
    unfold kmalloc_order
    have hom : o < MAX_ORDER := by omega
    have hle := two_pow_le_of_lt_max hom
    have hsh : (PAGE_SIZE <<< o) % WORD = PAGE_SIZE * 2 ^ o := by
      rw [Nat.shiftLeft_eq]
      apply Nat.mod_eq_of_lt
      unfold PAGE_SIZE WORD
      omega
    rw [hsh]
    by_cases hc : PAGE_SIZE * 2 ^ o < sz ∧ o < MAX_ORDER
    · rw [if_pos hc]
      have := ih (o + 1) (by omega) (fun j hj => by
        by_cases e : j = o
        · rw [e]; exact hc.1
        · exact hlow j (by omega))
      exact ⟨by omega, this.2.1, this.2.2.1, this.2.2.2⟩
    · rw [if_neg hc]
      exact ⟨Nat.le_refl _, by omega, hlow, fun _ => by
        by_cases h1 : PAGE_SIZE * 2 ^ o < sz
        · exact absurd ⟨h1, hom⟩ hc
        · omega⟩

theorem page_mul_le_iff (sz o : Nat) :
    (sz + 4095) / 4096 * 4096 ≤ PAGE_SIZE * 2 ^ o ↔ sz ≤ PAGE_SIZE * 2 ^ o := by
  unfold PAGE_SIZE
  generalize 2 ^ o = k
  omega

/-- For a size of at most `PAGE_SIZE * 2^(MAX_ORDER-1)` bytes, `kmalloc` requests the
least order whose block covers the size. -/
theorem kmalloc_order_least (size : Nat) (hsz : size ≤ PAGE_SIZE * 2 ^ (MAX_ORDER - 1)) :
    kmalloc_order (ALIGN_UP size PAGE_SIZE) MAX_ORDER 0 < MAX_ORDER ∧
    size ≤ PAGE_SIZE * 2 ^ kmalloc_order (ALIGN_UP size PAGE_SIZE) MAX_ORDER 0 ∧
    ∀ j, size ≤ PAGE_SIZE * 2 ^ j → kmalloc_order (ALIGN_UP size PAGE_SIZE) MAX_ORDER 0 ≤ j := by
  have hs4 : size ≤ 4096 * 1024 := by
    unfold PAGE_SIZE MAX_ORDER at hsz
    simpa using hsz
  rw [align_up_eq size (by unfold WORD; omega)]
  obtain ⟨_, h2, h3, h4⟩ := kmalloc_order_spec ((size + 4095) / 4096 * 4096) MAX_ORDER 0
    (by omega) (fun j hj => by omega)
  have hlt : kmalloc_order ((size + 4095) / 4096 * 4096) MAX_ORDER 0 < MAX_ORDER := by
    by_contra hge
    have e : kmalloc_order ((size + 4095) / 4096 * 4096) MAX_ORDER 0 = MAX_ORDER := by omega
    have h10 := h3 (MAX_ORDER - 1) (by rw [e]; unfold MAX_ORDER; omega)
    have := (page_mul_le_iff size (MAX_ORDER - 1)).mpr hsz
    omega
  refine ⟨hlt, (page_mul_le_iff size _).mp (h4 hlt), fun j hj => ?_⟩
  by_contra hgt
  have := h3 j (by omega)
  have := (page_mul_le_iff size j).mpr hj
  omega

/-! ### `kmalloc` followed by `kfree` -/

theorem kmalloc_eq (st : State) (size flags : Nat) (h0 : size ≠ 0)
    (ho : kmalloc_order (ALIGN_UP size PAGE_SIZE) MAX_ORDER 0 < MAX_ORDER) :
    kmalloc st size flags =
      ((match (alloc_pages st flags
            (kmalloc_order (ALIGN_UP size PAGE_SIZE) MAX_ORDER 0)).1 with
        | none => 0
        | some pfn => page_to_virt pfn),
       (alloc_pages st flags (kmalloc_order (ALIGN_UP size PAGE_SIZE) MAX_ORDER 0)).2) := by
  unfold kmalloc
  rw [if_neg h0]
  dsimp only
  rw [if_neg (by omega)]
  cases hq : alloc_pages st flags (kmalloc_order (ALIGN_UP size PAGE_SIZE) MAX_ORDER 0) with
  | mk a st1 => cases a <;> rfl

theorem Inv.live_lt_max {s : Sys} (h : Inv s) {b : Block} (hb : b ∈ s.live) :
    b.pfn < MAX_PFN := by
  obtain ⟨r, hr, _, h2⟩ := (h.cover b.pfn).mpr ⟨b, Or.inr hb, inBlock_head b.pfn b.order⟩
  have := (h.seeded_ok r hr).2
  omega

theorem two_pow_sub_one_eq_zero (o : Nat) : 2 ^ o - 1 = 0 ↔ o = 0 := by
  constructor
  · intro h
    by_contra hne
    have : 2 ^ 1 ≤ 2 ^ o := Nat.pow_le_pow_right (by decide) (by omega)
    omega
  · intro h
    rw [h]
    rfl

theorem kfree_counter_arith {fp f1 fs1 fs0 f0 bl rs o : Nat}
    (hst : fp = (f1 + 1 <<< 0) % WORD) (c0 : fs0 + bl = rs) (c1 : fs1 + (2 ^ o + bl) = rs)
    (e0 : f0 = fs0) (e1 : f1 = fs1) (ht : rs ≤ MAX_PFN) : fp + (2 ^ o - 1) = f0 := by
  have hw := MAX_PFN_lt_WORD
  have hpos := Nat.two_pow_pos o
  have hs : (1 : Nat) <<< 0 = 1 := rfl
  rw [hs, Nat.mod_eq_of_lt (by omega)] at hst
  omega

/-- C11 (kfree releases at order 0): in a reachable state, for a size with
`0 < size ≤ PAGE_SIZE * 2^(MAX_ORDER-1)` for which `kmalloc` returns a non-null address,
`kmalloc` allocated a block of the least order that covers the size, `kfree` of the
returned address is `free_pages` of the head descriptor at order `0`, and after the pair
`nr_free_pages()` is lower than before by `2^order - 1` frames; it equals its value before
exactly when `size ≤ PAGE_SIZE`. -/
theorem kfree_order_zero (s : Sys) (hr : Reachable s) (size flags : Nat) (h0 : 0 < size)
    (hsz : size ≤ PAGE_SIZE * 2 ^ (MAX_ORDER - 1)) (hk : (kmalloc s.st size flags).1 ≠ 0) :
    ∃ order p,
      (size ≤ PAGE_SIZE * 2 ^ order ∧ ∀ j, size ≤ PAGE_SIZE * 2 ^ j → order ≤ j) ∧
      alloc_pages s.st flags order = (some p, (kmalloc s.st size flags).2) ∧
      (kmalloc s.st size flags).1 = page_to_virt p ∧
      kfree (kmalloc s.st size flags).2 (kmalloc s.st size flags).1 =
        free_pages (kmalloc s.st size flags).2 (some p) 0 ∧
      nr_free_pages (kfree (kmalloc s.st size flags).2 (kmalloc s.st size flags).1) +
        (2 ^ order - 1) = nr_free_pages s.st ∧
      (nr_free_pages (kfree (kmalloc s.st size flags).2 (kmalloc s.st size flags).1) =
        nr_free_pages s.st ↔ size ≤ PAGE_SIZE) := by
  have hg := hr.good
  obtain ⟨hlt, hcov, hleast⟩ := kmalloc_order_least size hsz
  have hke := kmalloc_eq s.st size flags (by omega) hlt
  generalize kmalloc_order (ALIGN_UP size PAGE_SIZE) MAX_ORDER 0 = order at hlt hcov hleast hke
  rcases hg.alloc flags order with ⟨hn, _⟩ | ⟨p, hp, hg1⟩
  · exfalso
    apply hk
    rw [hke, hn]
  · cases hq : alloc_pages s.st flags order with
    | mk a st1 =>
      rw [hq] at hp hg1 hke
      dsimp only at hp hg1
      subst hp
      dsimp only at hke
      rw [hke] at hk ⊢
      dsimp only at hk ⊢
      have hpm : p < MAX_PFN :=
        hg1.1.live_lt_max (List.mem_cons_self (⟨p, order⟩ : Block) s.live)
      have hkf : kfree st1 (page_to_virt p) = free_pages st1 (some p) 0 := by
        unfold kfree
        rw [if_neg hk, virt_round_trip p hpm]
      have hst := (free_pages_stats st1 p 0 (by decide)).2
      have c0 := hg.1.count_total
      have c1 : st1.freeSum + blockSum (⟨p, order⟩ :: s.live) = rangeSum s.seeded :=
        hg1.1.count_total
      rw [blockSum_cons] at c1
      have f0 : s.st.free_page_count = s.st.freeSum := hg.2.1
      have f1 : st1.free_page_count = st1.freeSum := hg1.2.1
      have ht := hg.1.total_ok
      have hfin : (free_pages st1 (some p) 0).free_page_count + (2 ^ order - 1) =
          s.st.free_page_count :=
        kfree_counter_arith hst c0 c1 f0 f1 ht
      refine ⟨order, p, ⟨hcov, hleast⟩, hq, rfl, hkf, ?_, ?_⟩
      · rw [hkf]
        exact hfin
      · rw [hkf]
        unfold nr_free_pages
        rw [← hfin]
        constructor
        · intro he
          have h2 : order = 0 := (two_pow_sub_one_eq_zero order).mp (Nat.add_left_cancel he.symm)
          rw [h2] at hcov
          simpa using hcov
        · intro hs
          have h2 : order = 0 := Nat.le_zero.mp (hleast 0 (by simpa using hs))
          rw [h2]
          rfl

theorem kfree_order_zero_witness :
    Reachable (Sys.runD [.seed 0 8]) ∧ 0 < 5000 ∧ 5000 ≤ PAGE_SIZE * 2 ^ (MAX_ORDER - 1) ∧
    (kmalloc (Sys.runD [.seed 0 8]).st 5000 GFP_KERNEL).1 ≠ 0 ∧
    ∃ order p,
      (5000 ≤ PAGE_SIZE * 2 ^ order ∧ ∀ j, 5000 ≤ PAGE_SIZE * 2 ^ j → order ≤ j) ∧
      alloc_pages (Sys.runD [.seed 0 8]).st GFP_KERNEL order =
        (some p, (kmalloc (Sys.runD [.seed 0 8]).st 5000 GFP_KERNEL).2) ∧
      (kmalloc (Sys.runD [.seed 0 8]).st 5000 GFP_KERNEL).1 = page_to_virt p ∧
      kfree (kmalloc (Sys.runD [.seed 0 8]).st 5000 GFP_KERNEL).2
          (kmalloc (Sys.runD [.seed 0 8]).st 5000 GFP_KERNEL).1 =
        free_pages (kmalloc (Sys.runD [.seed 0 8]).st 5000 GFP_KERNEL).2 (some p) 0 ∧
      nr_free_pages (kfree (kmalloc (Sys.runD [.seed 0 8]).st 5000 GFP_KERNEL).2
          (kmalloc (Sys.runD [.seed 0 8]).st 5000 GFP_KERNEL).1) + (2 ^ order - 1) =
        nr_free_pages (Sys.runD [.seed 0 8]).st ∧
      (nr_free_pages (kfree (kmalloc (Sys.runD [.seed 0 8]).st 5000 GFP_KERNEL).2
          (kmalloc (Sys.runD [.seed 0 8]).st 5000 GFP_KERNEL).1) =
        nr_free_pages (Sys.runD [.seed 0 8]).st ↔ 5000 ≤ PAGE_SIZE) :=
  ⟨reachable_runD _ (by decide), by decide, by decide, by decide,
    kfree_order_zero _ (reachable_runD _ (by decide)) 5000 GFP_KERNEL (by decide) (by decide)
      (by decide)⟩

/-- C12 (as stated, violated by the code): `kcalloc(2^63 + 1, 2, GFP_KERNEL)` with free
memory returns a non-null address.  The product `n * size` is `2^64 + 2`; as a `size_t`
it is `2`, so `kmalloc` is asked for `2` bytes with the ZERO flag, requests order `0`, and
the block of one page does not span `n * size` bytes. -/
theorem kcalloc_product_overflow :
    (kcalloc (Sys.runD [.seed 0 1]).st (2 ^ 63 + 1) 2 GFP_KERNEL).1 = page_to_virt 0 ∧
    page_to_virt 0 ≠ 0 ∧
    kcalloc (Sys.runD [.seed 0 1]).st (2 ^ 63 + 1) 2 GFP_KERNEL =
      kmalloc (Sys.runD [.seed 0 1]).st ((2 ^ 63 + 1) * 2 % WORD) (GFP_KERNEL ||| GFP_ZERO) ∧
    (2 ^ 63 + 1) * 2 % WORD = 2 ∧
    kmalloc_order (ALIGN_UP 2 PAGE_SIZE) MAX_ORDER 0 = 0 ∧
    (alloc_pages (Sys.runD [.seed 0 1]).st (GFP_KERNEL ||| GFP_ZERO) 0).1 = some 0 ∧
    ¬ ((2 ^ 63 + 1) * 2 ≤ PAGE_SIZE * 2 ^ 0) :=
  ⟨by decide, by decide, rfl, by decide, by decide, by decide, by decide⟩

/-! ### The zones other than Normal never change -/

theorem seed_loop_zone_other (e zi : Nat) (hz : zi ≠ ZONE_NORMAL) :
    ∀ (fuel pfn : Nat) (st st' : State), seed_loop e fuel pfn st = some st' →
      st'.zone zi = st.zone zi := by
  intro fuel
  induction fuel with
  | zero =>
    intro pfn st st' h
    unfold seed_loop at h
    split at h
    · exact absurd h (by simp)
    · simp only [Option.some.injEq] at h
      rw [← h]
  | succ n ih =>
    intro pfn st st' h
    unfold seed_loop at h
    split at h
    · dsimp only at h
      rw [ih _ _ _ h]
      show (add_page_to_free_list _ pfn ZONE_NORMAL _).zone zi = st.zone zi
      rw [add_zone, if_neg hz, zone_setPage]
    · simp only [Option.some.injEq] at h
      rw [← h]

theorem free_area_init_zone_other (st st' : State) (a b zi : Nat) (hz : zi ≠ ZONE_NORMAL)
    (h : free_area_init st a b = some st') : st'.zone zi = st.zone zi := by
  unfold free_area_init at h
  dsimp only at h
  split at h
  · simp only [Option.some.injEq] at h
    rw [← h]
  · split at h
    · simp only [Option.some.injEq] at h
      rw [← h]
    · rw [seed_loop_zone_other b zi hz _ _ _ _ h]
      show (st.setZone ZONE_NORMAL _).zone zi = st.zone zi
      rw [zone_setZone, if_neg hz]

theorem free_one_loop_zone_other (zone zi : Nat) (hz : zi ≠ zone) :
    ∀ (fuel p o : Nat) (st : State), (free_one_loop zone fuel p o st).zone zi = st.zone zi := by
  intro fuel
  induction fuel with
  | zero =>
    intro p o st
    unfold free_one_loop
    rw [add_zone, if_neg hz]
  | succ n ih =>
    intro p o st
    unfold free_one_loop
    split
    · dsimp only
      split
      · rw [add_zone, if_neg hz]
      · rw [ih, del_zone, if_neg hz]
    · rw [add_zone, if_neg hz]

theorem free_pages_zone_other (st : State) (page : Option Nat) (o zi : Nat)
    (hz : zi ≠ ZONE_NORMAL) : (free_pages st page o).zone zi = st.zone zi := by
  unfold free_pages
  cases page with
  | none => rfl
  | some p =>
    dsimp only
    split
    · rfl
    · show ((__free_one_page _ p ZONE_NORMAL o).setZone ZONE_NORMAL _).zone zi = st.zone zi
      rw [zone_setZone, if_neg hz]
      unfold __free_one_page
      rw [free_one_loop_zone_other _ _ hz, zone_setPage]

theorem alloc_zones_zone_other (order zi : Nat) (hz : zi ≠ ZONE_NORMAL) :
    ∀ (n : Nat) (st : State),
      (∀ z, z < n → z ≠ ZONE_NORMAL → (st.zone z).nr_free_pages = 0) →
      (alloc_zones order n st).2.zone zi = st.zone zi := by
  intro n
  induction n with
  | zero => intro st _; rfl
  | succ i ih =>
    intro st h0
    unfold alloc_zones
    have hpos := one_shiftLeft_pos order
    by_cases hi : i = ZONE_NORMAL
    · subst hi
      split
      · exact ih st (fun z hz1 hz2 => h0 z (by omega) hz2)
      · have hrz : ∀ z, z ≠ ZONE_NORMAL →
            (__rmqueue_smallest st ZONE_NORMAL order).2.zone z = st.zone z := fun z hzz =>
          rmqueue_loop_zone_other _ _ _ hzz _ _ _
        cases hq : __rmqueue_smallest st ZONE_NORMAL order with
        | mk a st1 =>
          rw [hq] at hrz
          cases a with
          | some p =>
            show (st1.setZone ZONE_NORMAL _).zone zi = st.zone zi
            rw [zone_setZone, if_neg hz]
            exact hrz zi hz
          | none =>
            dsimp only
            rw [ih st1 (fun z hz1 hz2 => by
              rw [hrz z hz2]; exact h0 z (by omega) hz2)]
            exact hrz zi hz
    · rw [if_pos (by rw [h0 i (by omega) hi]; exact hpos)]
      exact ih st (fun z hz1 hz2 => h0 z (by omega) hz2)

theorem alloc_pages_zone_other (st : State) (g order zi : Nat) (hz : zi ≠ ZONE_NORMAL)
    (h0 : ∀ z, z < MAX_NR_ZONES → z ≠ ZONE_NORMAL → (st.zone z).nr_free_pages = 0) :
    (alloc_pages st g order).2.zone zi = st.zone zi := by
  by_cases ho : order < MAX_ORDER
  · rw [alloc_pages_zone st g order zi ho]
    have := gfp_zone_le g
    exact alloc_zones_zone_other order zi hz _ st (fun z hz1 hz2 =>
      h0 z (by unfold MAX_NR_ZONES; omega) hz2)
  · unfold alloc_pages
    rw [if_pos (by omega)]

theorem OtherZones.oz_init : OtherZones (buddy_init boot) := fun _ _ => rfl

theorem OtherZones.oz_step {s s' : Sys} (hg : Good s) (h : OtherZones s.st) (op : Op)
    (hs : s.step op = some s') : OtherZones s'.st := by
  intro zi hz
  rw [← h zi hz]
  cases op with
  | seed a b =>
    unfold Sys.step at hs
    dsimp only at hs
    split at hs
    · cases hq : free_area_init s.st a b with
      | none => rw [hq] at hs; exact absurd hs (by simp)
      | some st1 =>
        rw [hq] at hs
        simp only [Option.some.injEq] at hs
        rw [← hs]
        exact free_area_init_zone_other _ _ a b zi hz hq
    · exact absurd hs (by simp)
  | alloc g order =>
    rw [step_alloc] at hs
    simp only [Option.some.injEq] at hs
    rw [← hs]
    exact alloc_pages_zone_other s.st g order zi hz (fun z hz1 hz2 => (hg.1.others z hz1 hz2).1)
  | free p o =>
    unfold Sys.step at hs
    dsimp only at hs
    split at hs
    · simp only [Option.some.injEq] at hs
      rw [← hs]
      exact free_pages_zone_other _ _ _ _ hz
    · exact absurd hs (by simp)

theorem OtherZones.oz_run : ∀ (ops : List Op) {s s' : Sys}, Good s → OtherZones s.st →
    s.run ops = some s' → OtherZones s'.st := by
  intro ops
  induction ops with
  | nil =>
    intro s s' _ h hr
    unfold Sys.run at hr
    simp only [Option.some.injEq] at hr
    rw [← hr]; exact h
  | cons op t ih =>
    intro s s' hg h hr
    rw [run_cons] at hr
    cases hq : s.step op with
    | none => rw [hq] at hr; exact absurd hr (by simp)
    | some s1 =>
      rw [hq] at hr
      exact ih (Good.step hg op hq) (OtherZones.oz_step hg h op hq) hr

theorem Reachable.other_zones {s : Sys} (h : Reachable s) : OtherZones s.st := by
  obtain ⟨ops, hr⟩ := h
  exact OtherZones.oz_run ops Good.init OtherZones.oz_init hr

/-! ### Counters and free lists -/

theorem init_zone_area (zi o : Nat) (hz : zi < MAX_NR_ZONES) (ho : o < MAX_ORDER) :
    ((buddy_init boot).zone zi).free_area o = { free_list := [], nr_free := 0 } := by
  unfold buddy_init State.zone
  dsimp only
  rw [if_pos hz]
  dsimp only
  rw [if_pos ho]

theorem init_zone_free_pages (zi : Nat) (hz : zi < MAX_NR_ZONES) :
    ((buddy_init boot).zone zi).nr_free_pages = 0 := by
  unfold buddy_init State.zone
  dsimp only
  rw [if_pos hz]

theorem frames_eq_freeSum (st : State) : (st.zone ZONE_NORMAL).frames = st.freeSum := rfl

theorem other_zone_frames {st : State} (h : OtherZones st) (zi : Nat) (hz : zi < MAX_NR_ZONES)
    (hne : zi ≠ ZONE_NORMAL) : (st.zone zi).frames = 0 := by
  unfold Zone.frames
  apply Finset.sum_eq_zero
  intro o ho
  rw [h zi hne, init_zone_area zi o hz (Finset.mem_range.mp ho)]
  simp

/-- C13 (counters agree with the free lists): in every reachable state, `nr_free` of
every free area equals the number of blocks on its list, `nr_free_pages` of every zone is
the sum over the orders `o` of `nr_free[o] * 2^o`, and `nr_free_pages()`, which
`si_meminfo` reports as `freeram`, is the number of frames in the free blocks of all zones
and is at most the number of seeded frames, which `si_meminfo` reports as `totalram`. -/
theorem counters_agree (s : Sys) (hr : Reachable s) (info : Sysinfo) :
    (∀ zi, zi < MAX_NR_ZONES → ∀ o, o < MAX_ORDER →
      ((s.st.zone zi).free_area o).nr_free = ((s.st.zone zi).free_area o).free_list.length) ∧
    (∀ zi, zi < MAX_NR_ZONES →
      (s.st.zone zi).nr_free_pages =
        ∑ o ∈ Finset.range MAX_ORDER, ((s.st.zone zi).free_area o).nr_free * 2 ^ o) ∧
    nr_free_pages s.st = ∑ zi ∈ Finset.range MAX_NR_ZONES, (s.st.zone zi).frames ∧
    (si_meminfo s.st info).freeram = nr_free_pages s.st ∧
    (si_meminfo s.st info).totalram = rangeSum s.seeded ∧
    nr_free_pages s.st ≤ rangeSum s.seeded := by
  have hg := hr.good
  have hz := hr.other_zones
  have harea : ∀ zi, zi < MAX_NR_ZONES → ∀ o, o < MAX_ORDER →
      ((s.st.zone zi).free_area o).nr_free =
        ((s.st.zone zi).free_area o).free_list.length := by
    intro zi hzi o ho
    by_cases e : zi = ZONE_NORMAL
    · rw [e]
      exact hg.1.count_area o ho
    · rw [hz zi e, init_zone_area zi o hzi ho]
      rfl
  refine ⟨harea, ?_, ?_, rfl, hg.2.2, ?_⟩
  · intro zi hzi
    rw [hg.counters zi hzi]
    unfold Zone.frames
    apply Finset.sum_congr rfl
    intro o ho
    rw [harea zi hzi o (Finset.mem_range.mp ho)]
  · have e0 := other_zone_frames hz 0 (by decide) (by decide)
    have e2 := other_zone_frames hz 2 (by decide) (by decide)
    have e1 : (s.st.zone 1).frames = s.st.freeSum := frames_eq_freeSum s.st
    have e3 : MAX_NR_ZONES = 3 := rfl
    rw [e3, Finset.sum_range_succ, Finset.sum_range_succ, Finset.sum_range_succ,
      Finset.sum_range_zero, e0, e1, e2]
    unfold nr_free_pages
    rw [hg.2.1]
    omega
  · unfold nr_free_pages
    rw [hg.2.1]
    have := hg.1.count_total
    omega

theorem counters_agree_witness :
    Reachable (Sys.runD [.seed 3 21, .alloc GFP_KERNEL 2, .alloc GFP_USER 0, .free 16 2]) ∧
    ((∀ zi, zi < MAX_NR_ZONES → ∀ o, o < MAX_ORDER →
      (((Sys.runD [.seed 3 21, .alloc GFP_KERNEL 2, .alloc GFP_USER 0, .free 16 2]).st.zone
        zi).free_area o).nr_free =
      (((Sys.runD [.seed 3 21, .alloc GFP_KERNEL 2, .alloc GFP_USER 0, .free 16 2]).st.zone
        zi).free_area o).free_list.length) ∧
    (∀ zi, zi < MAX_NR_ZONES →
      ((Sys.runD [.seed 3 21, .alloc GFP_KERNEL 2, .alloc GFP_USER 0, .free 16 2]).st.zone
        zi).nr_free_pages =
        ∑ o ∈ Finset.range MAX_ORDER,
          (((Sys.runD [.seed 3 21, .alloc GFP_KERNEL 2, .alloc GFP_USER 0, .free 16 2]).st.zone
            zi).free_area o).nr_free * 2 ^ o) ∧
    nr_free_pages (Sys.runD [.seed 3 21, .alloc GFP_KERNEL 2, .alloc GFP_USER 0, .free 16 2]).st =
      ∑ zi ∈ Finset.range MAX_NR_ZONES,
        ((Sys.runD [.seed 3 21, .alloc GFP_KERNEL 2, .alloc GFP_USER 0, .free 16 2]).st.zone
          zi).frames ∧
    (si_meminfo (Sys.runD [.seed 3 21, .alloc GFP_KERNEL 2, .alloc GFP_USER 0, .free 16 2]).st
      ⟨0, fun _ => 0, 0, 0, 0, 0, 0, 0, 0, 0, 0, 0, 0⟩).freeram =
      nr_free_pages (Sys.runD [.seed 3 21, .alloc GFP_KERNEL 2, .alloc GFP_USER 0,
        .free 16 2]).st ∧
    (si_meminfo (Sys.runD [.seed 3 21, .alloc GFP_KERNEL 2, .alloc GFP_USER 0, .free 16 2]).st
      ⟨0, fun _ => 0, 0, 0, 0, 0, 0, 0, 0, 0, 0, 0, 0⟩).totalram =
      rangeSum (Sys.runD [.seed 3 21, .alloc GFP_KERNEL 2, .alloc GFP_USER 0,
        .free 16 2]).seeded ∧
    nr_free_pages (Sys.runD [.seed 3 21, .alloc GFP_KERNEL 2, .alloc GFP_USER 0, .free 16 2]).st ≤
      rangeSum (Sys.runD [.seed 3 21, .alloc GFP_KERNEL 2, .alloc GFP_USER 0,
        .free 16 2]).seeded) :=
  ⟨reachable_runD _ (by decide), counters_agree _ (reachable_runD _ (by decide)) _⟩

/-! ### Traces: accesses under the lock -/

theorem unguarded_access (i l : Bool) (e : Ev) (t : List Ev) (he : e.isAccess = true) :
    unguarded i l (e :: t) = if (i && l) = true then unguarded i l t else e :: unguarded i l t := by
  cases e <;> first | exact absurd he (by decide) | rfl

/-- Accesses made with interrupts disabled and the lock held are guarded. -/
theorem unguarded_held (t r : List Ev) (ht : ∀ e ∈ t, e.isAccess = true) :
    unguarded true true (t ++ r) = unguarded true true r := by
  induction t with
  | nil => rfl
  | cons e t ih =>
    rw [List.cons_append, unguarded_access _ _ _ _ (ht e (List.mem_cons_self e t)),
      if_pos (by decide)]
    exact ih (fun x hx => ht x (List.mem_cons_of_mem e hx))

/-- Accesses made outside the critical section are all unguarded. -/
theorem unguarded_open (t r : List Ev) (ht : ∀ e ∈ t, e.isAccess = true) :
    unguarded false false (t ++ r) = t ++ unguarded false false r := by
  induction t with
  | nil => rfl
  | cons e t ih =>
    rw [List.cons_append, unguarded_access _ _ _ _ (ht e (List.mem_cons_self e t)),
      if_neg (by decide), ih (fun x hx => ht x (List.mem_cons_of_mem e hx))]
    rfl

theorem list_add_trace_access (l : List Nat) (zone order : Nat) :
    ∀ e ∈ list_add_trace l zone order, e.isAccess = true := by
  intro e he
  unfold list_add_trace at he
  split at he <;>
    (simp only [List.mem_cons, List.mem_singleton, List.not_mem_nil, or_false] at he
     rcases he with h | h <;> (try rw [h]) <;> rfl)

theorem list_del_trace_access (l : List Nat) (pfn zone order : Nat) :
    ∀ e ∈ list_del_trace l pfn zone order, e.isAccess = true := by
  intro e he
  unfold list_del_trace at he
  split at he <;>
    (simp only [List.mem_cons, List.mem_singleton, List.not_mem_nil, or_false] at he
     rcases he with h | h <;> (try rw [h]) <;> rfl)

theorem add_trace_access (st : State) (pfn zone order : Nat) :
    ∀ e ∈ add_page_to_free_list_trace st pfn zone order, e.isAccess = true := by
  intro e he
  unfold add_page_to_free_list_trace at he
  rcases List.mem_append.mp he with h | h
  · exact list_add_trace_access _ _ _ e h
  · simp only [List.mem_cons, List.mem_singleton, List.not_mem_nil, or_false] at h
    rcases h with h | h | h | h <;> (rw [h]; rfl)

theorem del_trace_access (st : State) (pfn zone order : Nat) :
    ∀ e ∈ del_page_from_free_list_trace st pfn zone order, e.isAccess = true := by
  intro e he
  unfold del_page_from_free_list_trace at he
  rcases List.mem_append.mp he with h | h
  · exact list_del_trace_access _ _ _ _ e h
  · simp only [List.mem_cons, List.mem_singleton, List.not_mem_nil, or_false] at h
    rcases h with h | h | h | h <;> (rw [h]; rfl)

theorem expand_trace_access (zone pfn low : Nat) : ∀ (high size : Nat) (st : State),
    ∀ e ∈ expand_trace zone pfn low high size st, e.isAccess = true := by
  intro high
  induction high with
  | zero =>
    intro size st e he
    unfold expand_trace at he
    exact absurd he (List.not_mem_nil e)
  | succ n ih =>
    intro size st e he
    unfold expand_trace at he
    split at he
    · rcases List.mem_append.mp he with h | h
      · exact add_trace_access _ _ _ _ e h
      · exact ih _ _ e h
    · exact absurd he (List.not_mem_nil e)

theorem rmqueue_trace_access (zone order : Nat) : ∀ (fuel cur : Nat) (st : State),
    ∀ e ∈ rmqueue_trace zone order fuel cur st, e.isAccess = true := by
  intro fuel
  induction fuel with
  | zero =>
    intro cur st e he
    unfold rmqueue_trace at he
    exact absurd he (List.not_mem_nil e)
  | succ n ih =>
    intro cur st e he
    unfold rmqueue_trace at he
    split at he
    · rcases List.mem_cons.mp he with h | h
      · rw [h]; rfl
      · split at h
        · exact ih _ _ e h
        · rcases List.mem_cons.mp h with h1 | h1
          · rw [h1]; rfl
          · rcases List.mem_append.mp h1 with h2 | h2
            · exact del_trace_access _ _ _ _ e h2
            · exact expand_trace_access _ _ _ _ _ _ e h2
    · exact absurd he (List.not_mem_nil e)

theorem alloc_zones_trace_access (order : Nat) : ∀ (n : Nat) (st : State),
    ∀ e ∈ alloc_zones_trace order n st, e.isAccess = true := by
  intro n
  induction n with
  | zero =>
    intro st e he
    unfold alloc_zones_trace at he
    exact absurd he (List.not_mem_nil e)
  | succ i ih =>
    intro st e he
    unfold alloc_zones_trace at he
    rcases List.mem_cons.mp he with h | h
    · rw [h]; rfl
    · split at h
      · exact ih st e h
      · rcases List.mem_append.mp h with h1 | h1
        · exact rmqueue_trace_access _ _ _ _ _ e h1
        · split at h1
          · simp only [List.mem_cons, List.mem_singleton, List.not_mem_nil, or_false] at h1
            rcases h1 with h2 | h2 | h2 <;> (rw [h2]; rfl)
          · exact ih _ e h1

theorem free_one_trace_access (zone : Nat) : ∀ (fuel pfn order : Nat) (st : State),
    ∀ e ∈ free_one_trace zone fuel pfn order st, e.isAccess = true := by
  intro fuel
  induction fuel with
  | zero =>
    intro pfn order st e he
    unfold free_one_trace at he
    exact add_trace_access _ _ _ _ e he
  | succ n ih =>
    intro pfn order st e he
    unfold free_one_trace at he
    split at he
    · dsimp only at he
      rcases List.mem_cons.mp he with h | h
      · rw [h]; rfl
      · split at h
        · exact add_trace_access _ _ _ _ e h
        · rcases List.mem_append.mp h with h1 | h1
          · exact del_trace_access _ _ _ _ e h1
          · exact ih _ _ _ e h1
    · exact add_trace_access _ _ _ _ e he

/-- The descriptor loop of `prep_new_page` touches the descriptors of the block only. -/
theorem prep_trace_mem (pfn : Nat) : ∀ (n : Nat) (e : Ev), e ∈ prep_trace pfn n →
    ∃ q, e = .desc q ∧ pfn ≤ q ∧ q < pfn + n := by
  intro n
  induction n with
  | zero =>
    intro e he
    unfold prep_trace at he
    exact absurd he (List.not_mem_nil e)
  | succ n ih =>
    intro e he
    unfold prep_trace at he
    rcases List.mem_append.mp he with h | h
    · obtain ⟨q, h1, h2, h3⟩ := ih e h
      exact ⟨q, h1, h2, by omega⟩
    · rw [List.mem_singleton] at h
      exact ⟨pfn + n, h, by omega, by omega⟩

theorem prep_new_page_trace_mem (pfn order g : Nat) (ho : order < MAX_ORDER) (e : Ev)
    (he : e ∈ prep_new_page_trace pfn order g) :
    (∃ q, e = .desc q ∧ pfn ≤ q ∧ q < pfn + 2 ^ order) ∨
    e = .mem (page_to_virt pfn) (2 ^ order * PAGE_SIZE) := by
  unfold prep_new_page_trace at he
  rw [shift_order_mod order ho] at he
  dsimp only at he
  rcases List.mem_append.mp he with h | h
  · exact Or.inl (prep_trace_mem pfn _ e h)
  · split at h
    · rw [List.mem_singleton] at h
      have hle := two_pow_le_of_lt_max ho
      rw [Nat.mod_eq_of_lt (by unfold PAGE_SIZE WORD; omega)] at h
      exact Or.inr h
    · exact absurd h (List.not_mem_nil e)

theorem prep_new_page_trace_access (pfn order g : Nat) (ho : order < MAX_ORDER) :
    ∀ e ∈ prep_new_page_trace pfn order g, e.isAccess = true := by
  intro e he
  rcases prep_new_page_trace_mem pfn order g ho e he with ⟨q, h, _⟩ | h <;> (rw [h]; rfl)

/-- Outside the critical section `alloc_pages` makes the accesses of `prep_new_page`
and no others. -/
theorem alloc_pages_trace_unguarded (st : State) (g order : Nat) :
    unguarded false false (alloc_pages_trace st g order) =
      match (alloc_pages st g order).1 with
      | some pfn => prep_new_page_trace pfn order g
      | none => [] := by
  by_cases ho : order < MAX_ORDER
  · rw [alloc_pages_fst st g order ho]
    unfold alloc_pages_trace
    rw [if_neg (by omega)]
    have hz := alloc_zones_trace_access order (gfp_zone g + 1) st
    generalize alloc_zones_trace order (gfp_zone g + 1) st = z at hz
    generalize (alloc_zones order (gfp_zone g + 1) st).1 = a
    have key : ∀ P : List Ev, (∀ e ∈ P, e.isAccess = true) →
        unguarded false false
          ([Ev.irq_save, Ev.spin_lock] ++ z ++ [Ev.spin_unlock, Ev.irq_restore] ++ P) = P := by
      intro P hPa
      have e1 : [Ev.irq_save, Ev.spin_lock] ++ z ++ [Ev.spin_unlock, Ev.irq_restore] ++ P =
          Ev.irq_save :: Ev.spin_lock ::
            (z ++ (Ev.spin_unlock :: Ev.irq_restore :: (P ++ []))) := by
        simp
      rw [e1]
      show unguarded true true (z ++ _) = P
      rw [unguarded_held z _ hz]
      show unguarded false false (P ++ []) = P
      rw [unguarded_open P [] hPa]
      simp [unguarded]
    cases a with
    | none => exact key [] (fun e he => absurd he (List.not_mem_nil e))
    | some p => exact key _ (prep_new_page_trace_access p order g ho)
  · unfold alloc_pages_trace alloc_pages
    rw [if_pos (by omega), if_pos (by omega)]
    rfl

/-- All accesses of `free_pages` are made inside the critical section. -/
theorem free_pages_trace_unguarded (st : State) (page : Option Nat) (order : Nat) :
    unguarded false false (free_pages_trace st page order) = [] := by
  unfold free_pages_trace
  cases page with
  | none => rfl
  | some pfn =>
    dsimp only
    split
    · rfl
    · have hz := free_one_trace_access ZONE_NORMAL (MAX_ORDER - 1 - order) pfn order
        (st.setPage pfn { st.mem_map pfn with refcount := 0 })
      generalize free_one_trace ZONE_NORMAL (MAX_ORDER - 1 - order) pfn order
        (st.setPage pfn { st.mem_map pfn with refcount := 0 }) = z at hz
      have e1 : [Ev.irq_save, Ev.spin_lock, Ev.desc pfn] ++ z ++
          [Ev.zstat ZONE_NORMAL, Ev.stat, Ev.stat, Ev.spin_unlock, Ev.irq_restore] =
          Ev.irq_save :: Ev.spin_lock :: (([Ev.desc pfn] ++ z ++
            [Ev.zstat ZONE_NORMAL, Ev.stat, Ev.stat]) ++
              [Ev.spin_unlock, Ev.irq_restore]) := by
        simp
      rw [e1]
      show unguarded true true (_ ++ _) = []
      rw [unguarded_held]
      · rfl
      · intro e he
        simp only [List.mem_append, List.mem_cons, List.mem_singleton, List.not_mem_nil,
          or_false] at he
        rcases he with (h | h) | h | h | h
        · rw [h]; rfl
        · exact hz e h
        · rw [h]; rfl
        · rw [h]; rfl
        · rw [h]; rfl

/-- C18 (as stated, refuted): `alloc_pages(GFP_KERNEL, 0)` after seeding `[0, 1)` writes
the descriptor of the returned frame `0` in `prep_new_page` after the lock has been
released and the interrupt state restored; the same holds for `kmalloc`. -/
theorem lock_discipline_counterexample :
    alloc_pages_trace (Sys.runD [.seed 0 1]).st GFP_KERNEL 0 =
      [.irq_save, .spin_lock, .zstat 1, .area 1 0, .area 1 0, .area 1 0, .desc 0, .desc 0,
        .area 1 0, .zstat 1, .zstat 1, .stat, .stat, .spin_unlock, .irq_restore, .desc 0] ∧
    unguarded false false (alloc_pages_trace (Sys.runD [.seed 0 1]).st GFP_KERNEL 0) =
      [.desc 0] ∧
    unguarded false false (kmalloc_trace (Sys.runD [.seed 0 1]).st 100 GFP_KERNEL) =
      [.desc 0] := by
  decide

theorem count_unlock_access (t : List Ev) (ht : ∀ e ∈ t, e.isAccess = true) :
    List.count Ev.spin_unlock t = 0 := by
  rw [List.count_eq_zero]
  intro h
  exact absurd (ht _ h) (by decide)

theorem alloc_pages_trace_unlock (st : State) (g order : Nat) :
    List.count Ev.spin_unlock (alloc_pages_trace st g order) ≤ 1 := by
  unfold alloc_pages_trace
  split
  · exact Nat.zero_le 1
  · rename_i ho
    have hz := count_unlock_access _ (alloc_zones_trace_access order (gfp_zone g + 1) st)
    generalize (alloc_zones order (gfp_zone g + 1) st).1 = a
    have hp : ∀ P : List Ev, List.count Ev.spin_unlock P = 0 →
        List.count Ev.spin_unlock ([Ev.irq_save, Ev.spin_lock] ++
          alloc_zones_trace order (gfp_zone g + 1) st ++ [Ev.spin_unlock, Ev.irq_restore] ++ P)
          ≤ 1 := by
      intro P hP
      rw [List.count_append, List.count_append, List.count_append, hz, hP]
      decide
    cases a with
    | none => exact hp [] rfl
    | some p =>
      exact hp _ (count_unlock_access _ (prep_new_page_trace_access p order g (by omega)))

theorem free_pages_trace_unlock (st : State) (page : Option Nat) (order : Nat) :
    List.count Ev.spin_unlock (free_pages_trace st page order) ≤ 1 := by
  unfold free_pages_trace
  cases page with
  | none => exact Nat.zero_le 1
  | some pfn =>
    dsimp only
    split
    · exact Nat.zero_le 1
    · have hz := count_unlock_access _ (free_one_trace_access ZONE_NORMAL
        (MAX_ORDER - 1 - order) pfn order (st.setPage pfn { st.mem_map pfn with refcount := 0 }))
      rw [List.count_append, List.count_append, hz]
      simp [List.count_cons]

/-- C18 (amended): `free_pages` and `kfree` make every access to a page descriptor, free
area or counter with interrupts disabled and the allocator lock held.  `alloc_pages`
does so for the zone search, the split and the counters; the accesses it makes outside
the critical section are those of `prep_new_page`: writes to the descriptors of the
returned block and the zeroing of its memory, and likewise for `kmalloc`.  Each call
releases the lock at most once, so the search with its split and the release with its
merges each lie in one critical section. -/
theorem lock_discipline (st : State) (gfp_mask order : Nat) (page : Option Nat)
    (size flags ptr : Nat) :
    unguarded false false (free_pages_trace st page order) = [] ∧
    unguarded false false (kfree_trace st ptr) = [] ∧
    unguarded false false (alloc_pages_trace st gfp_mask order) =
      (match (alloc_pages st gfp_mask order).1 with
        | some pfn => prep_new_page_trace pfn order gfp_mask
        | none => []) ∧
    (∀ e ∈ unguarded false false (alloc_pages_trace st gfp_mask order),
      ∃ h, (alloc_pages st gfp_mask order).1 = some h ∧
        ((∃ q, e = .desc q ∧ h ≤ q ∧ q < h + 2 ^ order) ∨
          e = .mem (page_to_virt h) (2 ^ order * PAGE_SIZE))) ∧
    (∀ e ∈ unguarded false false (kmalloc_trace st size flags),
      (∃ q, e = .desc q) ∨ ∃ a n, e = .mem a n) ∧
    List.count Ev.spin_unlock (alloc_pages_trace st gfp_mask order) ≤ 1 ∧
    List.count Ev.spin_unlock (free_pages_trace st page order) ≤ 1 := by
  have hmem : ∀ (g o : Nat) (e : Ev), e ∈ unguarded false false (alloc_pages_trace st g o) →
      ∃ h, (alloc_pages st g o).1 = some h ∧
        ((∃ q, e = .desc q ∧ h ≤ q ∧ q < h + 2 ^ o) ∨
          e = .mem (page_to_virt h) (2 ^ o * PAGE_SIZE)) := by
    intro g o e he
    rw [alloc_pages_trace_unguarded] at he
    cases ha : (alloc_pages st g o).1 with
    | none =>
      rw [ha] at he
      exact absurd he (List.not_mem_nil e)
    | some h =>
      rw [ha] at he
      exact ⟨h, rfl, prep_new_page_trace_mem h o g (alloc_pages_some st g o h ha).1 e he⟩
  refine ⟨free_pages_trace_unguarded st page order, ?_, alloc_pages_trace_unguarded st _ _,
    hmem gfp_mask order, ?_, alloc_pages_trace_unlock st _ _, free_pages_trace_unlock st _ _⟩
  · unfold kfree_trace
    split
    · rfl
    · exact free_pages_trace_unguarded st _ 0
  · intro e he
    unfold kmalloc_trace at he
    split at he
    · exact absurd he (List.not_mem_nil e)
    · dsimp only at he
      split at he
      · exact absurd he (List.not_mem_nil e)
      · obtain ⟨h, _, h1 | h1⟩ := hmem _ _ e he
        · obtain ⟨q, hq, _⟩ := h1
          exact Or.inl ⟨q, hq⟩
        · exact Or.inr ⟨_, _, h1⟩

/-! ### Reference counts of allocated frames -/

theorem seed_loop_mem_map_out (e q : Nat) (he : e ≤ MAX_PFN) :
    ∀ (fuel pfn : Nat) (st st' : State), seed_loop e fuel pfn st = some st' →
      (q < pfn ∨ e ≤ q) → st'.mem_map q = st.mem_map q := by
  intro fuel
  induction fuel with
  | zero =>
    intro pfn st st' h _
    unfold seed_loop at h
    split at h
    · exact absurd h (by simp)
    · simp only [Option.some.injEq] at h
      rw [← h]
  | succ n ih =>
    intro pfn st st' h hq
    unfold seed_loop at h
    split at h
    · rename_i hlt
      dsimp only at h
      have hW := MAX_PFN_lt_WORD
      have hso := (seed_order_spec pfn e hlt he (MAX_ORDER - 1) (by decide)).1
      have hp := two_pow_le_of_lt_max
        (show seed_order pfn e (MAX_ORDER - 1) < MAX_ORDER by unfold MAX_ORDER at hso ⊢; omega)
      have hnext : (pfn + 1 <<< seed_order pfn e (MAX_ORDER - 1)) % WORD =
          pfn + 2 ^ seed_order pfn e (MAX_ORDER - 1) := by
        rw [Nat.one_shiftLeft]
        exact Nat.mod_eq_of_lt (by omega)
      rw [hnext] at h
      have hpos := Nat.two_pow_pos (seed_order pfn e (MAX_ORDER - 1))
      rw [ih _ _ _ h (by omega)]
      show (add_page_to_free_list _ pfn ZONE_NORMAL _).mem_map q = st.mem_map q
      rw [add_mem_map, if_neg (by omega), mem_map_setPage, if_neg (by omega)]
    · simp only [Option.some.injEq] at h
      rw [← h]

theorem free_area_init_mem_map_out (st st' : State) (a b q : Nat) (hb : b ≤ MAX_PFN)
    (h : free_area_init st a b = some st') (hq : q < a ∨ b ≤ q) :
    st'.mem_map q = st.mem_map q := by
  unfold free_area_init at h
  dsimp only at h
  split at h
  · simp only [Option.some.injEq] at h
    rw [← h]
  · split at h
    · simp only [Option.some.injEq] at h
      rw [← h]
    · rw [seed_loop_mem_map_out b q hb _ _ _ _ h hq]
      rfl

theorem LiveOne.lo_init : LiveOne Sys.init := by
  intro b f hb _
  exact absurd hb (List.not_mem_nil b)

theorem LiveOne.lo_step {s s' : Sys} (hg : Good s) (h : LiveOne s) (op : Op)
    (hs : s.step op = some s') : LiveOne s' := by
  cases op with
  | seed a b =>
    unfold Sys.step at hs
    dsimp only at hs
    split at hs
    · rename_i hc
      cases hq : free_area_init s.st a b with
      | none => rw [hq] at hs; exact absurd hs (by simp)
      | some st1 =>
        rw [hq] at hs
        simp only [Option.some.injEq] at hs
        rw [← hs]
        intro blk f hb hf
        obtain ⟨r, hr, h1, h2⟩ := (hg.1.cover f).mpr ⟨blk, Or.inr hb, hf⟩
        have hd := hc.2.2 r hr
        show (st1.mem_map f).refcount = 1
        rw [free_area_init_mem_map_out _ _ a b f hc.2.1 hq (by omega)]
        exact h blk f hb hf
    · exact absurd hs (by simp)
  | alloc g order =>
    rw [step_alloc] at hs
    simp only [Option.some.injEq] at hs
    rw [← hs]
    intro blk f hb hf
    show ((alloc_pages s.st g order).2.mem_map f).refcount = 1
    cases ha : (alloc_pages s.st g order).1 with
    | none =>
      rcases hg.alloc g order with ⟨_, h2⟩ | ⟨p, hp, _⟩
      · rw [h2]
        rw [ha] at hb
        exact h blk f hb hf
      · rw [ha] at hp
        exact absurd hp (by simp)
    | some p =>
      rw [ha] at hb
      have hfin := alloc_pages_prepared s.st g order p ha
      by_cases hin : p ≤ f ∧ f < p + 2 ^ order
      · have := (hfin.1 (f - p) (by omega)).1
        rw [show p + (f - p) = f by omega] at this
        exact this
      · rw [hfin.2 f (by omega)]
        rcases List.mem_cons.mp hb with e | e
        · rw [e] at hf
          exact absurd hf hin
        · exact h blk f e hf
  | free p o =>
    unfold Sys.step at hs
    dsimp only at hs
    split at hs
    · rename_i hm
      simp only [Option.some.injEq] at hs
      rw [← hs]
      intro blk f hb hf
      have ho : o < MAX_ORDER := (hg.1.wf ⟨p, o⟩ (Or.inr hm)).1
      have hb1 : blk ∈ s.live := List.mem_of_mem_erase hb
      have hne : blk ≠ ⟨p, o⟩ := fun e => by
        rw [e] at hb
        exact (List.Nodup.not_mem_erase hg.1.live_nodup) hb
      show ((free_pages s.st (some p) o).mem_map f).refcount = 1
      rw [free_pages_refcount s.st p o f ho]
      by_cases e : f = p
      · exfalso
        apply hne
        exact hg.1.uniq f blk ⟨p, o⟩ (Or.inr hb1) (Or.inr hm) hf (by rw [e]; exact inBlock_head p o)
      · rw [if_neg e]
        exact h blk f hb1 hf
    · exact absurd hs (by simp)

theorem LiveOne.lo_run : ∀ (ops : List Op) {s s' : Sys}, Good s → LiveOne s →
    s.run ops = some s' → LiveOne s' := by
  intro ops
  induction ops with
  | nil =>
    intro s s' _ h hr
    unfold Sys.run at hr
    simp only [Option.some.injEq] at hr
    rw [← hr]; exact h
  | cons op t ih =>
    intro s s' hg h hr
    rw [run_cons] at hr
    cases hq : s.step op with
    | none => rw [hq] at hr; exact absurd hr (by simp)
    | some s1 =>
      rw [hq] at hr
      exact ih (Good.step hg op hq) (LiveOne.lo_step hg h op hq) hr

/-- In every reachable state every frame of an allocated block has reference count `1`. -/
theorem Reachable.live_one {s : Sys} (h : Reachable s) : LiveOne s := by
  obtain ⟨ops, hr⟩ := h
  exact LiveOne.lo_run ops Good.init LiveOne.lo_init hr

/-- In every reachable state a descriptor on the order-`o` free list of a zone has the
free flag set and the recorded order `o`. -/
theorem Reachable.free_list_order {s : Sys} (h : Reachable s) (zi o q : Nat)
    (hz : zi < MAX_NR_ZONES) (ho : o < MAX_ORDER)
    (hq : q ∈ ((s.st.zone zi).free_area o).free_list) :
    (s.st.mem_map q).order = o ∧ PageBuddy (s.st.mem_map q) = true := by
  have hg := h.good
  by_cases e : zi = ZONE_NORMAL
  · rw [e] at hq
    have hf : s.st.isFree ⟨q, o⟩ := ⟨ho, hq⟩
    exact ⟨hg.1.order q o hf, (hg.1.flags q).mpr ⟨o, hf⟩⟩
  · rw [(hg.1.others zi hz e).2 o ho] at hq
    exact absurd hq (List.not_mem_nil q)

/-- C19 (as stated, violated by the code): after `free_area_init(0, 4)`, an order-2
allocation, its release and an order-0 allocation, all with matching orders, the
descriptor of frame `2` is linked on the order-1 free list with recorded order `1` and
reference count `1`: `prep_new_page` set the count of all four frames to `1`,
`free_pages` reset only the head, and the split of the order-0 allocation linked frame `2`
with its stale count.  Frame `1` is on the order-0 list in the same way. -/
theorem free_list_stale_refcount :
    Reachable (Sys.runD [.seed 0 4, .alloc GFP_KERNEL 2, .free 0 2, .alloc GFP_KERNEL 0]) ∧
    (Sys.runD [.seed 0 4, .alloc GFP_KERNEL 2, .free 0 2, .alloc GFP_KERNEL 0]).st.flist 1
      = [2] ∧
    ((Sys.runD [.seed 0 4, .alloc GFP_KERNEL 2, .free 0 2,
      .alloc GFP_KERNEL 0]).st.mem_map 2).order = 1 ∧
    ((Sys.runD [.seed 0 4, .alloc GFP_KERNEL 2, .free 0 2,
      .alloc GFP_KERNEL 0]).st.mem_map 2).refcount = 1 ∧
    (Sys.runD [.seed 0 4, .alloc GFP_KERNEL 2, .free 0 2, .alloc GFP_KERNEL 0]).st.flist 0
      = [1] ∧
    ((Sys.runD [.seed 0 4, .alloc GFP_KERNEL 2, .free 0 2,
      .alloc GFP_KERNEL 0]).st.mem_map 1).refcount = 1 :=
  ⟨reachable_runD _ (by decide), by decide, by decide, by decide, by decide, by decide⟩

/-- C20 (as stated, violated by the code): after `free_area_init(0, 4)`, an order-2
allocation and its release, no block is allocated and the block of frames `0..3` is free
on the order-2 list, but the frames `1`, `2` and `3` inside it have reference count `1`:
`free_pages` resets the count of the head descriptor only. -/
theorem free_block_stale_refcount :
    Reachable (Sys.runD [.seed 0 4, .alloc GFP_KERNEL 2, .free 0 2]) ∧
    (Sys.runD [.seed 0 4, .alloc GFP_KERNEL 2, .free 0 2]).live = [] ∧
    (Sys.runD [.seed 0 4, .alloc GFP_KERNEL 2, .free 0 2]).st.flist 2 = [0] ∧
    ((Sys.runD [.seed 0 4, .alloc GFP_KERNEL 2, .free 0 2]).st.mem_map 0).refcount = 0 ∧
    ((Sys.runD [.seed 0 4, .alloc GFP_KERNEL 2, .free 0 2]).st.mem_map 1).refcount = 1 ∧
    ((Sys.runD [.seed 0 4, .alloc GFP_KERNEL 2, .free 0 2]).st.mem_map 2).refcount = 1 ∧
    ((Sys.runD [.seed 0 4, .alloc GFP_KERNEL 2, .free 0 2]).st.mem_map 3).refcount = 1 :=
  ⟨reachable_runD _ (by decide), by decide, by decide, by decide, by decide, by decide,
    by decide⟩

/-! ### Search in `__rmqueue_smallest` -/

/-- The search takes the first entry of the first non-empty free area. -/
theorem rmqueue_loop_first (zone order c p : Nat) (t : List Nat) :
    ∀ (fuel cur : Nat) (st : State), cur + fuel = MAX_ORDER → cur ≤ c → c < MAX_ORDER →
      (∀ j, cur ≤ j → j < c → ((st.zone zone).free_area j).free_list = []) →
      ((st.zone zone).free_area c).free_list = p :: t →
      rmqueue_loop zone order fuel cur st =
        (some p, expand (del_page_from_free_list st p zone c) zone p order c) := by
  intro fuel
  induction fuel with
  | zero => intro cur st h1 h2 h3 _ _; omega
  | succ n ih =>
    intro cur st h1 h2 h3 he hc
    unfold rmqueue_loop
    rw [if_pos (by omega)]
    by_cases e : cur = c
    · subst e
      rw [hc]
    · rw [he cur (Nat.le_refl _) (by omega)]
      exact ih (cur + 1) st (by omega) (by omega) h3 (fun j hj1 hj2 => he j (by omega) hj2) hc

theorem expand_loop_area_ge (zone p low j : Nat) : ∀ (high size : Nat) (st : State), high ≤ j →
    ((expand_loop zone p low high size st).zone zone).free_area j =
      (st.zone zone).free_area j := by
  intro high
  induction high with
  | zero => intro size st _; rfl
  | succ n ih =>
    intro size st hj
    unfold expand_loop
    split
    · rw [ih _ _ (by omega), add_zone, if_pos rfl]
      show (if j = n then _ else _ : FreeArea) = _
      rw [if_neg (by omega)]
    · rfl

/-- C23 (first fit by ascending order): when the free area of order `c` is the first
non-empty one among the orders `order .. MAX_ORDER - 1` of the zone and `p` is the first
entry of its list, `__rmqueue_smallest` returns `p`, unlinks it from the area of order `c`
and splits it; `__rmqueue_smallest` returns `NULL` exactly when all those areas are empty,
and then the state is unchanged. -/
theorem first_fit (st : State) (zone order c p : Nat) (t : List Nat) (h1 : order ≤ c)
    (h2 : c < MAX_ORDER)
    (h3 : ∀ j, order ≤ j → j < c → ((st.zone zone).free_area j).free_list = [])
    (h4 : ((st.zone zone).free_area c).free_list = p :: t) :
    (__rmqueue_smallest st zone order).1 = some p ∧
    (__rmqueue_smallest st zone order).2 =
      expand (del_page_from_free_list st p zone c) zone p order c ∧
    (((__rmqueue_smallest st zone order).2.zone zone).free_area c).free_list =
      (p :: t).erase p ∧
    (∀ st1 : State, ∀ zone1 order1 : Nat,
      ((__rmqueue_smallest st1 zone1 order1).1 = none ↔
        ∀ o, order1 ≤ o → o < MAX_ORDER → ((st1.zone zone1).free_area o).free_list = []) ∧
      ((__rmqueue_smallest st1 zone1 order1).1 = none →
        (__rmqueue_smallest st1 zone1 order1).2 = st1)) := by
  have hr : __rmqueue_smallest st zone order =
      (some p, expand (del_page_from_free_list st p zone c) zone p order c) := by
    unfold __rmqueue_smallest
    exact rmqueue_loop_first zone order c p t _ _ st (by omega) h1 h2 h3 h4
  refine ⟨by rw [hr], by rw [hr], ?_, ?_⟩
  · rw [hr]
    show (((expand_loop zone p order c _ _).zone zone).free_area c).free_list = _
    rw [expand_loop_area_ge zone p order c c _ _ (Nat.le_refl _), del_zone, if_pos rfl]
    show (if c = c then _ else _ : FreeArea).free_list = _
    rw [if_pos rfl, h4]
  · intro st1 zone1 order1
    refine ⟨?_, rmqueue_none_state st1 zone1 order1⟩
    by_cases ho : order1 ≤ MAX_ORDER
    · exact rmqueue_none_iff st1 zone1 order1 ho
    · constructor
      · intro _ o ho1 ho2
        omega
      · intro _
        unfold __rmqueue_smallest
        rw [show MAX_ORDER - order1 = 0 by omega]
        rfl

theorem first_fit_witness :
    0 ≤ 2 ∧ 2 < MAX_ORDER ∧
    (∀ j, 0 ≤ j → j < 2 →
      (((Sys.runD [.seed 0 4]).st.zone ZONE_NORMAL).free_area j).free_list = []) ∧
    (((Sys.runD [.seed 0 4]).st.zone ZONE_NORMAL).free_area 2).free_list = 0 :: [] ∧
    ((__rmqueue_smallest (Sys.runD [.seed 0 4]).st ZONE_NORMAL 0).1 = some 0 ∧
    (__rmqueue_smallest (Sys.runD [.seed 0 4]).st ZONE_NORMAL 0).2 =
      expand (del_page_from_free_list (Sys.runD [.seed 0 4]).st 0 ZONE_NORMAL 2)
        ZONE_NORMAL 0 0 2 ∧
    (((__rmqueue_smallest (Sys.runD [.seed 0 4]).st ZONE_NORMAL 0).2.zone
      ZONE_NORMAL).free_area 2).free_list = (0 :: []).erase 0 ∧
    (∀ st1 : State, ∀ zone1 order1 : Nat,
      ((__rmqueue_smallest st1 zone1 order1).1 = none ↔
        ∀ o, order1 ≤ o → o < MAX_ORDER → ((st1.zone zone1).free_area o).free_list = []) ∧
      ((__rmqueue_smallest st1 zone1 order1).1 = none →
        (__rmqueue_smallest st1 zone1 order1).2 = st1))) :=
  ⟨by decide, by decide, by decide, by decide,
    first_fit _ ZONE_NORMAL 0 2 0 [] (by decide) (by decide) (by decide) (by decide)⟩

/-! ### Invariants of the free lists and of the allocated blocks -/

theorem Reachable.mem_list_free {s : Sys} (h : Reachable s) {zi o q : Nat}
    (hz : zi < MAX_NR_ZONES) (ho : o < MAX_ORDER)
    (hq : q ∈ ((s.st.zone zi).free_area o).free_list) : zi = ZONE_NORMAL ∧ s.st.isFree ⟨q, o⟩ := by
  by_cases e : zi = ZONE_NORMAL
  · rw [e] at hq
    exact ⟨e, ho, hq⟩
  · rw [(h.good.1.others zi hz e).2 o ho] at hq
    exact absurd hq (List.not_mem_nil q)

/-- C26 (alignment): in every reachable state the head of every block on an order-`o`
free list is a multiple of `2^o`, and the head of every block returned by
`alloc_pages(flags, o)` is a multiple of `2^o`. -/
theorem alignment (s : Sys) (hr : Reachable s) :
    (∀ zi o q, zi < MAX_NR_ZONES → o < MAX_ORDER →
      q ∈ ((s.st.zone zi).free_area o).free_list → 2 ^ o ∣ q) ∧
    (∀ gfp_mask o p, (alloc_pages s.st gfp_mask o).1 = some p → 2 ^ o ∣ p) := by
  refine ⟨fun zi o q hz ho hq => ?_, fun g o p ha => ?_⟩
  · exact (hr.good.1.wf ⟨q, o⟩ (Or.inl (hr.mem_list_free hz ho hq).2)).2
  · rcases hr.good.alloc g o with ⟨hn, _⟩ | ⟨p', hp, hg⟩
    · rw [hn] at ha
      exact absurd ha (by simp)
    · rw [ha] at hp
      simp only [Option.some.injEq] at hp
      subst hp
      exact (hg.1.wf ⟨p, o⟩ (Or.inr (List.mem_cons_self _ _))).2

theorem alignment_witness :
    Reachable (Sys.runD [.seed 3 21, .alloc GFP_KERNEL 2, .alloc GFP_USER 0, .free 16 2]) ∧
    ((∀ zi o q, zi < MAX_NR_ZONES → o < MAX_ORDER →
      q ∈ (((Sys.runD [.seed 3 21, .alloc GFP_KERNEL 2, .alloc GFP_USER 0,
        .free 16 2]).st.zone zi).free_area o).free_list → 2 ^ o ∣ q) ∧
    (∀ gfp_mask o p,
      (alloc_pages (Sys.runD [.seed 3 21, .alloc GFP_KERNEL 2, .alloc GFP_USER 0,
        .free 16 2]).st gfp_mask o).1 = some p → 2 ^ o ∣ p)) :=
  ⟨reachable_runD _ (by decide), alignment _ (reachable_runD _ (by decide))⟩

/-- C27 (free flag): in every reachable state a descriptor has `PG_buddy` set exactly
when it is linked on a free list; a descriptor on the order-`o` list has recorded order
`o`, is on no other list, and each of the `2^o` frames from it on is seeded, lies in no
allocated block and in no other free block. -/
theorem free_flag (s : Sys) (hr : Reachable s) :
    (∀ q, PageBuddy (s.st.mem_map q) = true ↔
      ∃ zi o, zi < MAX_NR_ZONES ∧ o < MAX_ORDER ∧
        q ∈ ((s.st.zone zi).free_area o).free_list) ∧
    (∀ zi o q, zi < MAX_NR_ZONES → o < MAX_ORDER →
      q ∈ ((s.st.zone zi).free_area o).free_list →
      (s.st.mem_map q).order = o ∧
      (∀ zi1 o1, zi1 < MAX_NR_ZONES → o1 < MAX_ORDER →
        q ∈ ((s.st.zone zi1).free_area o1).free_list → zi1 = zi ∧ o1 = o) ∧
      (∀ f, q ≤ f → f < q + 2 ^ o →
        s.isSeeded f ∧ (∀ b, b ∈ s.live → ¬ inBlock f b) ∧
        (∀ zi1 o1 q1, zi1 < MAX_NR_ZONES → o1 < MAX_ORDER →
          q1 ∈ ((s.st.zone zi1).free_area o1).free_list → inBlock f ⟨q1, o1⟩ →
          q1 = q ∧ o1 = o))) := by
  have hg := hr.good
  refine ⟨fun q => ?_, fun zi o q hz ho hq => ?_⟩
  · rw [hg.1.flags q]
    constructor
    · rintro ⟨o, ho, hq⟩
      exact ⟨ZONE_NORMAL, o, by decide, ho, hq⟩
    · rintro ⟨zi, o, hz, ho, hq⟩
      exact ⟨o, (hr.mem_list_free hz ho hq).2⟩
  · obtain ⟨ez, hf⟩ := hr.mem_list_free hz ho hq
    refine ⟨hg.1.order q o hf, fun zi1 o1 hz1 ho1 hq1 => ?_, fun f hf1 hf2 => ?_⟩
    · obtain ⟨ez1, hf'⟩ := hr.mem_list_free hz1 ho1 hq1
      have := hg.1.uniq q ⟨q, o1⟩ ⟨q, o⟩ (Or.inl hf') (Or.inl hf) (inBlock_head q o1)
        (inBlock_head q o)
      simp only [Block.mk.injEq, true_and] at this
      exact ⟨by rw [ez1, ez], this⟩
    · have hin : inBlock f ⟨q, o⟩ := ⟨hf1, hf2⟩
      refine ⟨hg.1.free_seeded hf hin, fun b hb hfb => ?_, fun zi1 o1 q1 hz1 ho1 hq1 hin1 => ?_⟩
      · have := hg.1.uniq f b ⟨q, o⟩ (Or.inr hb) (Or.inl hf) hfb hin
        rw [this] at hb
        exact hg.1.excl _ hb hf
      · have := hg.1.uniq f ⟨q1, o1⟩ ⟨q, o⟩ (Or.inl (hr.mem_list_free hz1 ho1 hq1).2) (Or.inl hf)
          hin1 hin
        simp only [Block.mk.injEq] at this
        exact this

theorem free_flag_witness :
    Reachable (Sys.runD [.seed 3 21, .alloc GFP_KERNEL 2, .alloc GFP_USER 0, .free 16 2]) ∧
    ((∀ q, PageBuddy ((Sys.runD [.seed 3 21, .alloc GFP_KERNEL 2, .alloc GFP_USER 0,
        .free 16 2]).st.mem_map q) = true ↔
      ∃ zi o, zi < MAX_NR_ZONES ∧ o < MAX_ORDER ∧
        q ∈ (((Sys.runD [.seed 3 21, .alloc GFP_KERNEL 2, .alloc GFP_USER 0,
          .free 16 2]).st.zone zi).free_area o).free_list) ∧
    (∀ zi o q, zi < MAX_NR_ZONES → o < MAX_ORDER →
      q ∈ (((Sys.runD [.seed 3 21, .alloc GFP_KERNEL 2, .alloc GFP_USER 0,
        .free 16 2]).st.zone zi).free_area o).free_list →
      ((Sys.runD [.seed 3 21, .alloc GFP_KERNEL 2, .alloc GFP_USER 0,
        .free 16 2]).st.mem_map q).order = o ∧
      (∀ zi1 o1, zi1 < MAX_NR_ZONES → o1 < MAX_ORDER →
        q ∈ (((Sys.runD [.seed 3 21, .alloc GFP_KERNEL 2, .alloc GFP_USER 0,
          .free 16 2]).st.zone zi1).free_area o1).free_list → zi1 = zi ∧ o1 = o) ∧
      (∀ f, q ≤ f → f < q + 2 ^ o →
        (Sys.runD [.seed 3 21, .alloc GFP_KERNEL 2, .alloc GFP_USER 0,
          .free 16 2]).isSeeded f ∧
        (∀ b, b ∈ (Sys.runD [.seed 3 21, .alloc GFP_KERNEL 2, .alloc GFP_USER 0,
          .free 16 2]).live → ¬ inBlock f b) ∧
        (∀ zi1 o1 q1, zi1 < MAX_NR_ZONES → o1 < MAX_ORDER →
          q1 ∈ (((Sys.runD [.seed 3 21, .alloc GFP_KERNEL 2, .alloc GFP_USER 0,
            .free 16 2]).st.zone zi1).free_area o1).free_list → inBlock f ⟨q1, o1⟩ →
          q1 = q ∧ o1 = o)))) :=
  ⟨reachable_runD _ (by decide), free_flag _ (reachable_runD _ (by decide))⟩

/-- C29 (no frame is handed out twice): in every reachable state the list of allocated
blocks has no repetition, any two allocated blocks have no frame in common, and every
frame of an allocated block is seeded. -/
theorem no_double_allocation (s : Sys) (hr : Reachable s) :
    s.live.Nodup ∧
    s.live.Pairwise (fun b b' => ∀ f, ¬ (inBlock f b ∧ inBlock f b')) ∧
    (∀ b, b ∈ s.live → ∀ f, inBlock f b → s.isSeeded f) := by
  have hg := hr.good
  refine ⟨hg.1.live_nodup, ?_, fun b hb f hf => (hg.1.cover f).mpr ⟨b, Or.inr hb, hf⟩⟩
  have hp : s.live.Pairwise (fun b b' => b ≠ b') := hg.1.live_nodup
  have hall : s.live.Pairwise (fun b b' => b ∈ s.live ∧ b' ∈ s.live) :=
    List.pairwise_of_forall_mem_list (fun a ha b hb => ⟨ha, hb⟩)
  refine (hp.and hall).imp ?_
  rintro b b' ⟨hne, hb, hb'⟩ f ⟨h1, h2⟩
  exact hne (hg.1.uniq f b b' (Or.inr hb) (Or.inr hb') h1 h2)

theorem no_double_allocation_witness :
    Reachable (Sys.runD [.seed 3 21, .alloc GFP_KERNEL 2, .alloc GFP_USER 0, .alloc 0 1]) ∧
    ((Sys.runD [.seed 3 21, .alloc GFP_KERNEL 2, .alloc GFP_USER 0, .alloc 0 1]).live.Nodup ∧
    (Sys.runD [.seed 3 21, .alloc GFP_KERNEL 2, .alloc GFP_USER 0, .alloc 0 1]).live.Pairwise
      (fun b b' => ∀ f, ¬ (inBlock f b ∧ inBlock f b')) ∧
    (∀ b, b ∈ (Sys.runD [.seed 3 21, .alloc GFP_KERNEL 2, .alloc GFP_USER 0,
        .alloc 0 1]).live → ∀ f, inBlock f b →
      (Sys.runD [.seed 3 21, .alloc GFP_KERNEL 2, .alloc GFP_USER 0, .alloc 0 1]).isSeeded f)) :=
  ⟨reachable_runD _ (by decide), no_double_allocation _ (reachable_runD _ (by decide))⟩

/-- C22 (splitting): in a reachable state, when `alloc_pages(flags, o)` returns the head
`h`, the block `h` was the first entry of the free list of some order `c ≥ o`; it is
removed from that list, for every `j` with `o ≤ j < c` the block with head `h + 2^j` is
put in front of the order-`j` list with recorded order `j` and the free flag set, no other
list entry of any zone changes, and the free-page count of the zone drops by `2^o`. -/
theorem splitting (s : Sys) (hr : Reachable s) (gfp_mask o h : Nat)
    (ha : (alloc_pages s.st gfp_mask o).1 = some h) :
    ∃ c t, o ≤ c ∧ c < MAX_ORDER ∧ s.st.flist c = h :: t ∧
      (∀ j, (alloc_pages s.st gfp_mask o).2.flist j =
        if o ≤ j ∧ j < c then (h + 2 ^ j) :: s.st.flist j
        else if j = c then t else s.st.flist j) ∧
      (∀ j, o ≤ j → j < c →
        ((alloc_pages s.st gfp_mask o).2.mem_map (h + 2 ^ j)).order = j ∧
        PageBuddy ((alloc_pages s.st gfp_mask o).2.mem_map (h + 2 ^ j)) = true) ∧
      (∀ zi, zi ≠ ZONE_NORMAL → (alloc_pages s.st gfp_mask o).2.zone zi = s.st.zone zi) ∧
      ((alloc_pages s.st gfp_mask o).2.zone ZONE_NORMAL).nr_free_pages + 2 ^ o =
        (s.st.zone ZONE_NORMAL).nr_free_pages := by
  have hg := hr.good
  obtain ⟨ho, c, t, h1, h2, h3, h4⟩ := alloc_lists hg.1 ha
  rcases hg.alloc gfp_mask o with ⟨hn, _⟩ | ⟨p, hp, hg1⟩
  · rw [hn] at ha
    exact absurd ha (by simp)
  · rw [ha] at hp
    simp only [Option.some.injEq] at hp
    subst hp
    refine ⟨c, t, h1, h2, h3, h4, fun j hj1 hj2 => ?_, fun zi hz => ?_, ?_⟩
    · have hf : (alloc_pages s.st gfp_mask o).2.isFree ⟨h + 2 ^ j, j⟩ := by
        refine ⟨show j < MAX_ORDER by omega, ?_⟩
        show h + 2 ^ j ∈ (alloc_pages s.st gfp_mask o).2.flist j
        rw [h4 j, if_pos ⟨hj1, hj2⟩]
        exact List.mem_cons_self _ _
      exact ⟨hg1.1.order _ _ hf, (hg1.1.flags _).mpr ⟨j, hf⟩⟩
    · exact alloc_pages_zone_other s.st gfp_mask o zi hz
        (fun z hz1 hz2 => (hg.1.others z hz1 hz2).1)
    · have c0 := hg.1.count_total
      have c1 : (alloc_pages s.st gfp_mask o).2.freeSum + blockSum (⟨h, o⟩ :: s.live) =
        rangeSum s.seeded := hg1.1.count_total
      rw [blockSum_cons] at c1
      have z0 := hg.1.count_zone
      have z1 : ((alloc_pages s.st gfp_mask o).2.zone ZONE_NORMAL).nr_free_pages =
        (alloc_pages s.st gfp_mask o).2.freeSum := hg1.1.count_zone
      rw [z0, z1]
      dsimp only at c1
      omega

theorem splitting_witness :
    Reachable (Sys.runD [.seed 0 8]) ∧
    (alloc_pages (Sys.runD [.seed 0 8]).st GFP_KERNEL 1).1 = some 0 ∧
    ∃ c t, 1 ≤ c ∧ c < MAX_ORDER ∧ (Sys.runD [.seed 0 8]).st.flist c = 0 :: t ∧
      (∀ j, (alloc_pages (Sys.runD [.seed 0 8]).st GFP_KERNEL 1).2.flist j =
        if 1 ≤ j ∧ j < c then (0 + 2 ^ j) :: (Sys.runD [.seed 0 8]).st.flist j
        else if j = c then t else (Sys.runD [.seed 0 8]).st.flist j) ∧
      (∀ j, 1 ≤ j → j < c →
        ((alloc_pages (Sys.runD [.seed 0 8]).st GFP_KERNEL 1).2.mem_map (0 + 2 ^ j)).order = j ∧
        PageBuddy ((alloc_pages (Sys.runD [.seed 0 8]).st GFP_KERNEL 1).2.mem_map (0 + 2 ^ j))
          = true) ∧
      (∀ zi, zi ≠ ZONE_NORMAL →
        (alloc_pages (Sys.runD [.seed 0 8]).st GFP_KERNEL 1).2.zone zi =
          (Sys.runD [.seed 0 8]).st.zone zi) ∧
      ((alloc_pages (Sys.runD [.seed 0 8]).st GFP_KERNEL 1).2.zone ZONE_NORMAL).nr_free_pages +
        2 ^ 1 = ((Sys.runD [.seed 0 8]).st.zone ZONE_NORMAL).nr_free_pages :=
  ⟨reachable_runD _ (by decide), by decide,
    splitting _ (reachable_runD _ (by decide)) GFP_KERNEL 1 0 (by decide)⟩

theorem OtherZones.free_counts {st : State} (h : OtherZones st) (z : Nat)
    (hz1 : z < MAX_NR_ZONES) (hz2 : z ≠ ZONE_NORMAL) : (st.zone z).nr_free_pages = 0 := by
  rw [h z hz2]
  exact init_zone_free_pages z hz1

theorem OtherZones.oz_alloc {st : State} (h : OtherZones st) (g o : Nat) :
    OtherZones (alloc_pages st g o).2 := fun zi hz => by
  rw [alloc_pages_zone_other st g o zi hz h.free_counts]
  exact h zi hz

theorem OtherZones.oz_free {st : State} (h : OtherZones st) (p : Option Nat) (o : Nat) :
    OtherZones (free_pages st p o) := fun zi hz => by
  rw [free_pages_zone_other st p o zi hz]
  exact h zi hz

theorem OtherZones.oz_seed {st st' : State} (h : OtherZones st) (a b : Nat)
    (hs : free_area_init st a b = some st') : OtherZones st' := fun zi hz => by
  rw [free_area_init_zone_other st st' a b zi hz hs]
  exact h zi hz

theorem get_free_pages_snd (st : State) (g o : Nat) :
    (__get_free_pages st g o).2 = (alloc_pages st g o).2 := by
  unfold __get_free_pages
  cases hq : alloc_pages st g o with
  | mk a st1 => cases a <;> rfl

theorem snd_of_eq {α β : Type} {p : α × β} {a : α} {b : β} (h : p = (a, b)) : p.2 = b := by
  subst h
  rfl

theorem kmalloc_zero (st : State) (g : Nat) : kmalloc st 0 g = (0, st) := by
  unfold kmalloc
  rw [if_pos rfl]

theorem kmalloc_too_large (st : State) (n g : Nat) (h0 : n ≠ 0)
    (ho : MAX_ORDER ≤ kmalloc_order (ALIGN_UP n PAGE_SIZE) MAX_ORDER 0) :
    kmalloc st n g = (0, st) := by
  unfold kmalloc
  rw [if_neg h0]
  dsimp only
  rw [if_pos ho]

theorem kmalloc_snd (st : State) (n g : Nat) :
    (kmalloc st n g).2 = st ∨ (kmalloc st n g).2 =
      (alloc_pages st g (kmalloc_order (ALIGN_UP n PAGE_SIZE) MAX_ORDER 0)).2 := by
  by_cases h0 : n = 0
  · subst h0
    exact Or.inl (snd_of_eq (kmalloc_zero st g))
  · by_cases ho : kmalloc_order (ALIGN_UP n PAGE_SIZE) MAX_ORDER 0 < MAX_ORDER
    · exact Or.inr (snd_of_eq (kmalloc_eq st n g h0 ho))
    · exact Or.inl (snd_of_eq (kmalloc_too_large st n g h0 (by omega)))

theorem OtherZones.oz_kmalloc {st : State} (h : OtherZones st) (n g : Nat) :
    OtherZones (kmalloc st n g).2 := by
  rcases kmalloc_snd st n g with e | e
  · rw [e]; exact h
  · rw [e]; exact h.oz_alloc g _

theorem OtherZones.oz_kfree {st : State} (h : OtherZones st) (p : Nat) :
    OtherZones (kfree st p) := by
  unfold kfree
  split
  · exact h
  · exact h.oz_free _ _

theorem OtherZones.oz_krealloc {st : State} (h : OtherZones st) (p n g : Nat) :
    OtherZones (krealloc st p n g).2 := by
  unfold krealloc
  split
  · exact h.oz_kmalloc n g
  · split
    · exact h.oz_kfree p
    · have hk := h.oz_kmalloc n g
      cases hq : kmalloc st n g with
      | mk a st1 =>
        rw [hq] at hk
        dsimp only
        split
        · exact hk
        · exact @OtherZones.oz_kfree { st1 with memory := memcpy st1.memory a p PAGE_SIZE }
            (fun zi hz => hk zi hz) p

theorem OtherZones.oz_call {st st' : State} (h : OtherZones st) (c : Call)
    (hc : st.call c = some st') : OtherZones st' := by
  cases c with
  | free_area_init a b => exact h.oz_seed a b hc
  | alloc_pages g o =>
    simp only [State.call, Option.some.injEq] at hc
    rw [← hc]; exact h.oz_alloc g o
  | free_pages p o =>
    simp only [State.call, Option.some.injEq] at hc
    rw [← hc]; exact h.oz_free p o
  | get_free_pages g o =>
    simp only [State.call, Option.some.injEq] at hc
    rw [← hc, get_free_pages_snd]; exact h.oz_alloc g o
  | get_zeroed_page g =>
    simp only [State.call, Option.some.injEq] at hc
    rw [← hc]; unfold get_zeroed_page
    rw [get_free_pages_snd]; exact h.oz_alloc _ _
  | free_pages_virt a o =>
    simp only [State.call, Option.some.injEq] at hc
    rw [← hc]; unfold free_pages_virt
    split
    · exact h
    · exact h.oz_free _ _
  | kmalloc n g =>
    simp only [State.call, Option.some.injEq] at hc
    rw [← hc]; exact h.oz_kmalloc n g
  | kfree p =>
    simp only [State.call, Option.some.injEq] at hc
    rw [← hc]; exact h.oz_kfree p
  | kzalloc n g =>
    simp only [State.call, Option.some.injEq] at hc
    rw [← hc]; exact h.oz_kmalloc n _
  | kcalloc n m g =>
    simp only [State.call, Option.some.injEq] at hc
    rw [← hc]; exact h.oz_kmalloc _ _
  | krealloc p n g =>
    simp only [State.call, Option.some.injEq] at hc
    rw [← hc]; exact h.oz_krealloc p n g

theorem OtherZones.oz_calls : ∀ (cs : List Call) {st st' : State}, OtherZones st →
    st.calls cs = some st' → OtherZones st' := by
  intro cs
  induction cs with
  | nil =>
    intro st st' h hc
    simp only [State.calls, Option.some.injEq] at hc
    rw [← hc]; exact h
  | cons c cs ih =>
    intro st st' h hc
    unfold State.calls at hc
    cases hq : st.call c with
    | none => rw [hq] at hc; exact absurd hc (by simp)
    | some st1 =>
      rw [hq] at hc
      exact ih (h.oz_call c hq) hc

/-- With the other zones empty, a block returned by the zone loop was taken from the
Normal zone by `__rmqueue_smallest`. -/
theorem alloc_zones_from_normal (order p : Nat) :
    ∀ (n : Nat) (st : State), n ≤ MAX_NR_ZONES → OtherZones st →
      (alloc_zones order n st).1 = some p →
      (__rmqueue_smallest st ZONE_NORMAL order).1 = some p := by
  intro n
  induction n with
  | zero => intro st _ _ h; exact absurd h (by simp [alloc_zones])
  | succ i ih =>
    intro st hn h hs
    by_cases hi : i = ZONE_NORMAL
    · subst hi
      have h0 : ∀ st1 : State, OtherZones st1 → (alloc_zones order ZONE_NORMAL st1).1 = none := by
        intro st1 h1
        show (alloc_zones order (0 + 1) st1).1 = none
        rw [alloc_zones_skip order 0 st1 (h1.free_counts 0 (by decide) (by decide))]
        rfl
      unfold alloc_zones at hs
      split at hs
      · rw [h0 st h] at hs
        exact absurd hs (by simp)
      · cases hq : __rmqueue_smallest st ZONE_NORMAL order with
        | mk a st1 =>
          rw [hq] at hs
          cases a with
          | some q => exact hs
          | none =>
            dsimp only at hs
            have h1 : OtherZones st1 := fun zi hz => by
              have := rmqueue_loop_zone_other ZONE_NORMAL order zi hz (MAX_ORDER - order) order st
              have e : (__rmqueue_smallest st ZONE_NORMAL order).2 = st1 := by rw [hq]
              unfold __rmqueue_smallest at e
              rw [e] at this
              rw [this]; exact h zi hz
            rw [h0 st1 h1] at hs
            exact absurd hs (by simp)
    · rw [alloc_zones_skip order i st (h.free_counts i (by omega) hi)] at hs
      exact ih st (by omega) h hs

theorem alloc_pages_dma_none {st : State} (h : OtherZones st) (g order : Nat)
    (hg : g &&& GFP_DMA ≠ 0) : alloc_pages st g order = (none, st) := by
  unfold alloc_pages
  split
  · rfl
  · have e : gfp_zone g = 0 := by
      unfold gfp_zone
      rw [if_pos hg]; rfl
    rw [e, alloc_zones_skip order 0 st (h.free_counts 0 (by decide) (by decide))]
    rfl

theorem alloc_pages_from_normal {st : State} (h : OtherZones st) (g order p : Nat)
    (ha : (alloc_pages st g order).1 = some p) :
    (__rmqueue_smallest st ZONE_NORMAL order).1 = some p := by
  by_cases ho : order < MAX_ORDER
  · rw [alloc_pages_fst st g order ho] at ha
    have := gfp_zone_le g
    exact alloc_zones_from_normal order p _ st (by unfold MAX_NR_ZONES; omega) h ha
  · unfold alloc_pages at ha
    rw [if_pos (by omega)] at ha
    exact absurd ha (by simp)

/-- C30 (only the Normal zone holds memory): in every state reached from `buddy_init` by
any sequence of calls of `free_area_init`, `alloc_pages`, `free_pages` and their wrappers,
with any arguments, the DMA and HighMem zones are as `buddy_init` left them, so all their
free lists are empty; `alloc_pages` with the DMA flag returns `NULL` for every order and
leaves the state as it is; and the block of every successful `alloc_pages` is the one
`__rmqueue_smallest` takes from the Normal zone, the other zones staying unchanged. -/
theorem only_normal_zone (cs : List Call) (st : State)
    (h : (buddy_init boot).calls cs = some st) :
    (∀ zi o, zi < MAX_NR_ZONES → zi ≠ ZONE_NORMAL → o < MAX_ORDER →
      ((st.zone zi).free_area o).free_list = [] ∧ ((st.zone zi).free_area o).nr_free = 0) ∧
    (∀ zi, zi < MAX_NR_ZONES → zi ≠ ZONE_NORMAL → (st.zone zi).nr_free_pages = 0) ∧
    (∀ g order, g &&& GFP_DMA ≠ 0 → alloc_pages st g order = (none, st)) ∧
    (∀ g order p, (alloc_pages st g order).1 = some p →
      (__rmqueue_smallest st ZONE_NORMAL order).1 = some p ∧
      ∀ zi, zi ≠ ZONE_NORMAL → (alloc_pages st g order).2.zone zi = st.zone zi) := by
  have hz : OtherZones st := OtherZones.oz_calls cs OtherZones.oz_init h
  refine ⟨fun zi o h1 h2 h3 => ?_, fun zi h1 h2 => hz.free_counts zi h1 h2,
    fun g order hg => alloc_pages_dma_none hz g order hg,
    fun g order p ha => ⟨alloc_pages_from_normal hz g order p ha,
      fun zi hzi => alloc_pages_zone_other st g order zi hzi hz.free_counts⟩⟩
  rw [hz zi h2, init_zone_area zi o h1 h3]
  exact ⟨rfl, rfl⟩

theorem only_normal_zone_witness :
    ∃ st, (buddy_init boot).calls [.free_area_init 0 8, .kmalloc 5000 GFP_KERNEL,
        .alloc_pages GFP_DMA 0, .free_pages (some 7) 0, .krealloc 0 1 GFP_KERNEL] = some st ∧
      ((∀ zi o, zi < MAX_NR_ZONES → zi ≠ ZONE_NORMAL → o < MAX_ORDER →
        ((st.zone zi).free_area o).free_list = [] ∧ ((st.zone zi).free_area o).nr_free = 0) ∧
      (∀ zi, zi < MAX_NR_ZONES → zi ≠ ZONE_NORMAL → (st.zone zi).nr_free_pages = 0) ∧
      (∀ g order, g &&& GFP_DMA ≠ 0 → alloc_pages st g order = (none, st)) ∧
      (∀ g order p, (alloc_pages st g order).1 = some p →
        (__rmqueue_smallest st ZONE_NORMAL order).1 = some p ∧
        ∀ zi, zi ≠ ZONE_NORMAL → (alloc_pages st g order).2.zone zi = st.zone zi)) :=
  ⟨_, rfl, only_normal_zone [.free_area_init 0 8, .kmalloc 5000 GFP_KERNEL,
    .alloc_pages GFP_DMA 0, .free_pages (some 7) 0, .krealloc 0 1 GFP_KERNEL] _ rfl⟩

/-! ### The greedy decomposition of a range -/

theorem greedy_order_spec (p e : Nat) :
    ∀ n, greedy_order p e n ≤ n ∧ 2 ^ greedy_order p e n ∣ p ∧
      (p < e → p + 2 ^ greedy_order p e n ≤ e) ∧
      ∀ o, o ≤ n → 2 ^ o ∣ p → p + 2 ^ o ≤ e → o ≤ greedy_order p e n := by
  intro n
  induction n with
  | zero =>
    refine ⟨Nat.le_refl _, ?_, ?_, ?_⟩
    · simp [greedy_order]
    · intro h
      simp only [greedy_order, pow_zero]
      omega
    · intro o ho _ _
      simp only [greedy_order]
      omega
  | succ n ih =>
    obtain ⟨i1, i2, i3, i4⟩ := ih
    unfold greedy_order
    by_cases h : 2 ^ (n + 1) ∣ p ∧ p + 2 ^ (n + 1) ≤ e
    · rw [if_pos h]
      exact ⟨Nat.le_refl _, h.1, fun _ => h.2, fun o ho _ _ => ho⟩
    · rw [if_neg h]
      refine ⟨by omega, i2, i3, ?_⟩
      intro o ho h1 h2
      by_cases e1 : o = n + 1
      · subst e1
        exact absurd ⟨h1, h2⟩ h
      · exact i4 o (by omega) h1 h2

/-- Without wrap-around the inner loop of `free_area_init` computes the greedy order. -/
theorem seed_order_eq_greedy (p e : Nat) (he : e + 2 ^ (MAX_ORDER - 1) ≤ WORD) (hlt : p < e) :
    ∀ n, n ≤ MAX_ORDER - 1 → seed_order p e n = greedy_order p e n := by
  intro n
  induction n with
  | zero => intro _; rfl
  | succ n ih =>
    intro hn
    have hp : 2 ^ (n + 1) ≤ 2 ^ (MAX_ORDER - 1) := Nat.pow_le_pow_right (by decide) hn
    unfold seed_order greedy_order
    rw [Nat.one_shiftLeft, Nat.and_pow_two_sub_one_eq_mod,
      Nat.mod_eq_of_lt (show p + 2 ^ (n + 1) < WORD by omega), ih (by omega)]
    by_cases h1 : p % 2 ^ (n + 1) ≠ 0
    · rw [if_pos h1, if_neg (fun hc => h1 (Nat.mod_eq_zero_of_dvd hc.1))]
    · rw [if_neg h1]
      have hd : 2 ^ (n + 1) ∣ p := Nat.dvd_of_mod_eq_zero (by omega)
      by_cases h2 : p + 2 ^ (n + 1) > e
      · rw [if_pos h2, if_neg (fun hc => by omega)]
      · rw [if_neg h2, if_pos ⟨hd, by omega⟩]

theorem greedy_blocks_tiles (e : Nat) :
    ∀ (fuel p : Nat), p ≤ e → e - p ≤ fuel → tiles p (greedy_blocks e fuel p) e := by
  intro fuel
  induction fuel with
  | zero =>
    intro p h1 h2
    show p = e
    omega
  | succ n ih =>
    intro p h1 h2
    unfold greedy_blocks
    by_cases h : p < e
    · rw [if_pos h]
      have hs := (greedy_order_spec p e (MAX_ORDER - 1)).2.2.1 h
      have := Nat.two_pow_pos (greedy_order p e (MAX_ORDER - 1))
      exact ⟨rfl, ih _ hs (by dsimp only; omega)⟩
    · rw [if_neg h]
      show p = e
      omega

theorem greedy_blocks_mem (e : Nat) :
    ∀ (fuel p : Nat) (x : Block), x ∈ greedy_blocks e fuel p →
      p ≤ x.pfn ∧ x.pfn < e ∧ x.order = greedy_order x.pfn e (MAX_ORDER - 1) := by
  intro fuel
  induction fuel with
  | zero => intro p x h; exact absurd h (by simp [greedy_blocks])
  | succ n ih =>
    intro p x h
    unfold greedy_blocks at h
    by_cases hlt : p < e
    · rw [if_pos hlt] at h
      rcases List.mem_cons.mp h with rfl | h
      · exact ⟨Nat.le_refl _, hlt, rfl⟩
      · obtain ⟨h1, h2, h3⟩ := ih _ x h
        have := Nat.two_pow_pos (greedy_order p e (MAX_ORDER - 1))
        exact ⟨by omega, h2, h3⟩
    · rw [if_neg hlt] at h
      exact absurd h (by simp)

/-- Heads of the greedy blocks of order `o`, the one inserted last first. -/
theorem heads_cons (x : Block) (l : List Block) (o : Nat) (t : List Nat) :
    (((x :: l).filter (fun y => decide (y.order = o))).map (fun y => y.pfn)).reverse ++ t =
      ((l.filter (fun y => decide (y.order = o))).map (fun y => y.pfn)).reverse ++
        (if o = x.order then x.pfn :: t else t) := by
  by_cases h : x.order = o
  · rw [List.filter_cons_of_pos (by simpa using h), List.map_cons, List.reverse_cons,
      List.append_assoc, if_pos h.symm]
    rfl
  · rw [List.filter_cons_of_neg (by simpa using h), if_neg (fun hc => h hc.symm)]

theorem add_mod_step (x d r : Nat) : ((x + d) % WORD + r) % WORD = (x + (d + r)) % WORD := by
  rw [Nat.mod_add_mod, Nat.add_assoc]

/-- The outer loop of `free_area_init`, without wrap-around and with enough iterations,
terminates, puts the greedy blocks on the free lists and adds the remaining range to the
counters. -/
theorem seed_loop_greedy (e : Nat) (he : e + 2 ^ (MAX_ORDER - 1) ≤ WORD) :
    ∀ (fuel p : Nat) (st : State), p ≤ e → e - p ≤ fuel →
      ∃ st', seed_loop e fuel p st = some st' ∧
        (∀ o, st'.flist o =
          (((greedy_blocks e fuel p).filter (fun y => decide (y.order = o))).map
            (fun y => y.pfn)).reverse ++ st.flist o) ∧
        (p = e → st' = st) ∧
        (p < e →
          (st'.zone ZONE_NORMAL).nr_free_pages =
            ((st.zone ZONE_NORMAL).nr_free_pages + (e - p)) % WORD ∧
          st'.total_pages = (st.total_pages + (e - p)) % WORD ∧
          st'.free_page_count = (st.free_page_count + (e - p)) % WORD) := by
  intro fuel
  induction fuel with
  | zero =>
    intro p st h1 h2
    refine ⟨st, ?_, fun o => rfl, fun _ => rfl, fun h => by omega⟩
    unfold seed_loop
    rw [if_neg (by omega)]
  | succ n ih =>
    intro p st h1 h2
    by_cases hlt : p < e
    · have hso := seed_order_eq_greedy p e he hlt (MAX_ORDER - 1) (Nat.le_refl _)
      obtain ⟨g1, _, g3, _⟩ := greedy_order_spec p e (MAX_ORDER - 1)
      have g3 := g3 hlt
      have hpos := Nat.two_pow_pos (greedy_order p e (MAX_ORDER - 1))
      have hp : 2 ^ greedy_order p e (MAX_ORDER - 1) ≤ 2 ^ (MAX_ORDER - 1) :=
        Nat.pow_le_pow_right (by decide) g1
      unfold seed_loop greedy_blocks
      rw [if_pos hlt, if_pos hlt]
      dsimp only
      rw [hso, Nat.one_shiftLeft,
        Nat.mod_eq_of_lt (show p + 2 ^ greedy_order p e (MAX_ORDER - 1) < WORD by omega)]
      obtain ⟨st', i1, i2, i3, i4⟩ := ih (p + 2 ^ greedy_order p e (MAX_ORDER - 1))
        { add_page_to_free_list
            (st.setPage p { st.mem_map p with flags := 0, refcount := 0, mapcount := -1 })
            p ZONE_NORMAL (greedy_order p e (MAX_ORDER - 1)) with
          total_pages := ((add_page_to_free_list
            (st.setPage p { st.mem_map p with flags := 0, refcount := 0, mapcount := -1 })
            p ZONE_NORMAL (greedy_order p e (MAX_ORDER - 1))).total_pages +
              2 ^ greedy_order p e (MAX_ORDER - 1)) % WORD,
          free_page_count := ((add_page_to_free_list
            (st.setPage p { st.mem_map p with flags := 0, refcount := 0, mapcount := -1 })
            p ZONE_NORMAL (greedy_order p e (MAX_ORDER - 1))).free_page_count +
              2 ^ greedy_order p e (MAX_ORDER - 1)) % WORD } g3 (by omega)
      refine ⟨st', i1, fun o => ?_, fun hc => by omega, fun _ => ?_⟩
      · rw [i2 o, heads_cons]
        congr 1
        show (add_page_to_free_list _ p ZONE_NORMAL _).flist o = _
        rw [add_flist]
        by_cases ho : o = greedy_order p e (MAX_ORDER - 1)
        · rw [if_pos ho, if_pos ho, ← ho]
          rfl
        · rw [if_neg ho, if_neg ho]
          rfl
      · have z3 : ∀ st3 : State, st3 = { add_page_to_free_list
            (st.setPage p { st.mem_map p with flags := 0, refcount := 0, mapcount := -1 })
            p ZONE_NORMAL (greedy_order p e (MAX_ORDER - 1)) with
          total_pages := ((add_page_to_free_list
            (st.setPage p { st.mem_map p with flags := 0, refcount := 0, mapcount := -1 })
            p ZONE_NORMAL (greedy_order p e (MAX_ORDER - 1))).total_pages +
              2 ^ greedy_order p e (MAX_ORDER - 1)) % WORD,
          free_page_count := ((add_page_to_free_list
            (st.setPage p { st.mem_map p with flags := 0, refcount := 0, mapcount := -1 })
            p ZONE_NORMAL (greedy_order p e (MAX_ORDER - 1))).free_page_count +
              2 ^ greedy_order p e (MAX_ORDER - 1)) % WORD } →
            (st3.zone ZONE_NORMAL).nr_free_pages = ((st.zone ZONE_NORMAL).nr_free_pages +
              2 ^ greedy_order p e (MAX_ORDER - 1)) % WORD ∧
            st3.total_pages = (st.total_pages + 2 ^ greedy_order p e (MAX_ORDER - 1)) % WORD ∧
            st3.free_page_count =
              (st.free_page_count + 2 ^ greedy_order p e (MAX_ORDER - 1)) % WORD := by
          intro st3 e3
          subst e3
          refine ⟨?_, rfl, rfl⟩
          show ((add_page_to_free_list _ p ZONE_NORMAL _).zone ZONE_NORMAL).nr_free_pages = _
          rw [add_zone, if_pos rfl, Nat.one_shiftLeft]
          rfl
        obtain ⟨z1, z2, z4⟩ := z3 _ rfl
        by_cases hq : p + 2 ^ greedy_order p e (MAX_ORDER - 1) = e
        · rw [i3 hq]
          have ed : e - p = 2 ^ greedy_order p e (MAX_ORDER - 1) := by omega
          rw [ed]
          exact ⟨z1, z2, z4⟩
        · obtain ⟨j1, j2, j3⟩ := i4 (by omega)
          have ed : e - p = 2 ^ greedy_order p e (MAX_ORDER - 1) +
              (e - (p + 2 ^ greedy_order p e (MAX_ORDER - 1))) := by omega
          rw [j1, j2, j3, z1, z2, z4, add_mod_step, add_mod_step, add_mod_step, ← ed]
          exact ⟨rfl, rfl, rfl⟩
    · have hp : p = e := by omega
      subst hp
      refine ⟨st, ?_, fun o => ?_, fun _ => rfl, fun h => by omega⟩
      · unfold seed_loop
        rw [if_neg hlt]
      · unfold greedy_blocks
        rw [if_neg hlt]
        rfl

/-! ### Seeding is the greedy decomposition -/

theorem free_area_init_greedy (st : State) (a b : Nat) (hab : a < b)
    (hb : b + 2 ^ (MAX_ORDER - 1) ≤ WORD) (hm : st.mem_map_present = true) :
    ∃ st', free_area_init st a b = some st' ∧
      (∀ o, st'.flist o = seeded_heads a b o ++ st.flist o) ∧
      (st'.zone ZONE_NORMAL).nr_free_pages =
        ((st.zone ZONE_NORMAL).nr_free_pages + (b - a)) % WORD ∧
      st'.total_pages = (st.total_pages + (b - a)) % WORD ∧
      st'.free_page_count = (st.free_page_count + (b - a)) % WORD := by
  have hpos := Nat.two_pow_pos (MAX_ORDER - 1)
  have hn : (b + WORD - a) % WORD = b - a := by
    rw [show b + WORD - a = (b - a) + WORD by omega, Nat.add_mod_right,
      Nat.mod_eq_of_lt (by omega)]
  have key : ∀ st2 : State, (∀ o, st2.flist o = st.flist o) →
      (st2.zone ZONE_NORMAL).nr_free_pages = (st.zone ZONE_NORMAL).nr_free_pages →
      st2.total_pages = st.total_pages → st2.free_page_count = st.free_page_count →
      ∃ st', seed_loop b (b - a) a st2 = some st' ∧
        (∀ o, st'.flist o = seeded_heads a b o ++ st.flist o) ∧
        (st'.zone ZONE_NORMAL).nr_free_pages =
          ((st.zone ZONE_NORMAL).nr_free_pages + (b - a)) % WORD ∧
        st'.total_pages = (st.total_pages + (b - a)) % WORD ∧
        st'.free_page_count = (st.free_page_count + (b - a)) % WORD := by
    intro st2 e1 e2 e3 e4
    obtain ⟨st', i1, i2, _, i4⟩ := seed_loop_greedy b hb (b - a) a st2 (by omega) (Nat.le_refl _)
    obtain ⟨j1, j2, j3⟩ := i4 hab
    refine ⟨st', i1, fun o => ?_, ?_, ?_, ?_⟩
    · rw [i2 o, e1 o]
      rfl
    · rw [j1, e2]
    · rw [j2, e3]
    · rw [j3, e4]
  unfold free_area_init
  dsimp only
  rw [hn, if_neg (by omega), hm, if_neg (by simp)]
  exact key _ (fun o => rfl) rfl rfl rfl

/-- C24 (seeding is the greedy decomposition): for `start_pfn < end_pfn` with the
descriptor table present and `end_pfn + 2^(MAX_ORDER-1) ≤ 2^64` (true of every frame
number of a 64-bit physical address), `free_area_init` returns; the blocks it puts on the
free lists are the blocks of `greedy_blocks`, each in front of the list of its order, later
blocks first; these blocks tile `[start_pfn, end_pfn)`; the block at `p` has the largest
order `o ≤ MAX_ORDER-1` with `2^o ∣ p` and `p + 2^o ≤ end_pfn`; and the free-page count of
the zone, `total_pages` and `free_page_count` each grow by `end_pfn - start_pfn` modulo
`2^64`. -/
theorem seeding_greedy (st : State) (start_pfn end_pfn : Nat) (hab : start_pfn < end_pfn)
    (hb : end_pfn + 2 ^ (MAX_ORDER - 1) ≤ WORD) (hm : st.mem_map_present = true) :
    ∃ st', free_area_init st start_pfn end_pfn = some st' ∧
      (∀ o, st'.flist o = seeded_heads start_pfn end_pfn o ++ st.flist o) ∧
      tiles start_pfn (greedy_blocks end_pfn (end_pfn - start_pfn) start_pfn) end_pfn ∧
      (∀ x, x ∈ greedy_blocks end_pfn (end_pfn - start_pfn) start_pfn →
        x.order ≤ MAX_ORDER - 1 ∧ 2 ^ x.order ∣ x.pfn ∧ x.pfn + 2 ^ x.order ≤ end_pfn ∧
        ∀ o, o ≤ MAX_ORDER - 1 → 2 ^ o ∣ x.pfn → x.pfn + 2 ^ o ≤ end_pfn → o ≤ x.order) ∧
      (st'.zone ZONE_NORMAL).nr_free_pages =
        ((st.zone ZONE_NORMAL).nr_free_pages + (end_pfn - start_pfn)) % WORD ∧
      st'.total_pages = (st.total_pages + (end_pfn - start_pfn)) % WORD ∧
      st'.free_page_count = (st.free_page_count + (end_pfn - start_pfn)) % WORD := by
  obtain ⟨st', h1, h2, h3, h4, h5⟩ := free_area_init_greedy st start_pfn end_pfn hab hb hm
  refine ⟨st', h1, h2, greedy_blocks_tiles end_pfn _ _ (by omega) (Nat.le_refl _), ?_,
    h3, h4, h5⟩
  intro x hx
  obtain ⟨_, m2, m3⟩ := greedy_blocks_mem end_pfn _ _ x hx
  obtain ⟨g1, g2, g3, g4⟩ := greedy_order_spec x.pfn end_pfn (MAX_ORDER - 1)
  rw [m3]
  exact ⟨g1, g2, g3 m2, g4⟩

theorem seeding_greedy_witness :
    (3 : Nat) < 21 ∧ 21 + 2 ^ (MAX_ORDER - 1) ≤ WORD ∧
    (buddy_init boot).mem_map_present = true ∧
    greedy_blocks 21 (21 - 3) 3 = [⟨3, 0⟩, ⟨4, 2⟩, ⟨8, 3⟩, ⟨16, 2⟩, ⟨20, 0⟩] ∧
    ∃ st', free_area_init (buddy_init boot) 3 21 = some st' ∧
      (∀ o, st'.flist o = seeded_heads 3 21 o ++ (buddy_init boot).flist o) ∧
      tiles 3 (greedy_blocks 21 (21 - 3) 3) 21 ∧
      (∀ x, x ∈ greedy_blocks 21 (21 - 3) 3 →
        x.order ≤ MAX_ORDER - 1 ∧ 2 ^ x.order ∣ x.pfn ∧ x.pfn + 2 ^ x.order ≤ 21 ∧
        ∀ o, o ≤ MAX_ORDER - 1 → 2 ^ o ∣ x.pfn → x.pfn + 2 ^ o ≤ 21 → o ≤ x.order) ∧
      (st'.zone ZONE_NORMAL).nr_free_pages =
        (((buddy_init boot).zone ZONE_NORMAL).nr_free_pages + (21 - 3)) % WORD ∧
      st'.total_pages = ((buddy_init boot).total_pages + (21 - 3)) % WORD ∧
      st'.free_page_count = ((buddy_init boot).free_page_count + (21 - 3)) % WORD :=
  ⟨by decide, by decide, rfl, by decide,
    seeding_greedy (buddy_init boot) 3 21 (by decide) (by decide) rfl⟩

/-- Outside that domain the sum `pfn + (1 << order)` wraps around: for the range
`[2^64 - 2, 2^64 - 1)` the inner loop settles on order `1`, a block that ends past
`end_pfn`, and the outer loop is still running after `nr_pages` iterations. -/
theorem seed_order_wraps :
    seed_order (2 ^ 64 - 2) (2 ^ 64 - 1) (MAX_ORDER - 1) = 1 ∧
    greedy_order (2 ^ 64 - 2) (2 ^ 64 - 1) (MAX_ORDER - 1) = 0 ∧
    free_area_init (buddy_init boot) (2 ^ 64 - 2) (2 ^ 64 - 1) = none := by
  refine ⟨by decide, by decide, rfl⟩

/-! ### Seeded blocks and buddies -/

theorem page_is_buddy_eq_mergeable (pg : Page) (st : State) (b j : Nat) :
    page_is_buddy pg (st.mem_map b) j = mergeable st b j := by
  rw [Bool.eq_iff_iff, page_is_buddy_iff]
  unfold mergeable
  simp only [Bool.and_eq_true, decide_eq_true_eq, and_assoc]

theorem mergeable_iff (st : State) (b j : Nat) :
    mergeable st b j = true ↔
      PageBuddy (st.mem_map b) = true ∧ (st.mem_map b).order = j ∧
        (st.mem_map b).refcount = 0 := by
  rw [← page_is_buddy_eq_mergeable (st.mem_map b), page_is_buddy_iff]

theorem if_lt_eq_min (p b : Nat) : (if b < p then b else p) = min p b := by
  rw [Nat.min_def]
  split <;> split <;> omega

theorem chain_head_succ (h o n : Nat) :
    chain_head h o (n + 1) = min (chain_head h o n) (chain_head h o n ^^^ 2 ^ (o + n)) := rfl

theorem chain_head_dvd (h o : Nat) (hd : 2 ^ o ∣ h) : ∀ n, 2 ^ (o + n) ∣ chain_head h o n := by
  intro n
  induction n with
  | zero => exact hd
  | succ n ih =>
    show 2 ^ (o + n + 1) ∣ min (chain_head h o n) (chain_head h o n ^^^ 2 ^ (o + n))
    have hpos := Nat.two_pow_pos (o + n)
    rcases buddy_cases _ _ ih with ⟨d, e⟩ | ⟨d, e⟩
    · rw [Nat.min_eq_left (by omega)]
      exact d
    · rw [Nat.min_eq_right (by omega)]
      exact d

/-- The buddy of an aligned block lies outside the block, and the merged block is the
union of the block and its buddy. -/
theorem buddy_outside (p j : Nat) (hd : 2 ^ j ∣ p) :
    ¬ (p ≤ p ^^^ 2 ^ j ∧ p ^^^ 2 ^ j < p + 2 ^ j) ∧
    min p (p ^^^ 2 ^ j) ≤ p ∧ p + 2 ^ j ≤ min p (p ^^^ 2 ^ j) + 2 ^ (j + 1) ∧
    min p (p ^^^ 2 ^ j) ≤ p ^^^ 2 ^ j ∧
    (p ^^^ 2 ^ j) + 2 ^ j ≤ min p (p ^^^ 2 ^ j) + 2 ^ (j + 1) := by
  have hpos := Nat.two_pow_pos j
  have hpow : 2 ^ (j + 1) = 2 ^ j + 2 ^ j := by rw [pow_succ]; omega
  rcases buddy_cases p j hd with ⟨_, e⟩ | ⟨_, e⟩
  · rw [Nat.min_eq_left (by omega)]
    omega
  · rw [Nat.min_eq_right (by omega)]
    omega

theorem chain_len_ge (st : State) (h o : Nat) :
    ∀ fuel n, n ≤ chain_len st h o fuel n := by
  intro fuel
  induction fuel with
  | zero => intro n; exact Nat.le_refl _
  | succ k ih =>
    intro n
    unfold chain_len
    split
    · exact Nat.le_trans (Nat.le_succ n) (ih (n + 1))
    · exact Nat.le_refl _

/-- The chain stops after at most `fuel` steps, every step before the stop was a merge
with a mergeable buddy below the top order, and at the stop the steps are used up or the
loop condition fails. -/
theorem chain_len_spec (st : State) (h o : Nat) :
    ∀ fuel n, chain_len st h o fuel n ≤ n + fuel ∧
      (∀ k, n ≤ k → k < chain_len st h o fuel n →
        o + k < MAX_ORDER - 1 ∧ mergeable st (chain_head h o k ^^^ 2 ^ (o + k)) (o + k) = true) ∧
      (chain_len st h o fuel n = n + fuel ∨
        ¬ (o + chain_len st h o fuel n < MAX_ORDER - 1 ∧
          mergeable st (chain_head h o (chain_len st h o fuel n) ^^^
            2 ^ (o + chain_len st h o fuel n)) (o + chain_len st h o fuel n) = true)) := by
  intro fuel
  induction fuel with
  | zero =>
    intro n
    refine ⟨Nat.le_refl _, fun k h1 h2 => ?_, Or.inl rfl⟩
    simp only [chain_len] at h2
    omega
  | succ f ih =>
    intro n
    unfold chain_len
    by_cases hc : o + n < MAX_ORDER - 1 ∧
        mergeable st (chain_head h o n ^^^ 2 ^ (o + n)) (o + n) = true
    · rw [if_pos hc]
      obtain ⟨i1, i2, i3⟩ := ih (n + 1)
      refine ⟨by omega, fun k h1 h2 => ?_, ?_⟩
      · by_cases e : k = n
        · subst e; exact hc
        · exact i2 k (by omega) h2
      · rcases i3 with i3 | i3
        · exact Or.inl (by omega)
        · exact Or.inr i3
    · rw [if_neg hc]
      exact ⟨by omega, fun k h1 h2 => by omega, Or.inr hc⟩

/-- The merge loop of `__free_one_page` follows the buddy chain computed in the state
`st0` of the call: descriptors outside the current block are as in `st0`. -/
theorem free_one_loop_follows_chain (st0 : State) (h o : Nat) (hd : 2 ^ o ∣ h) :
    ∀ (fuel n : Nat) (st : State),
      (∀ q, ¬ (chain_head h o n ≤ q ∧ q < chain_head h o n + 2 ^ (o + n)) →
        st.mem_map q = st0.mem_map q) →
      ∀ i, (free_one_loop ZONE_NORMAL fuel (chain_head h o n) (o + n) st).flist i =
        if i = o + chain_len st0 h o fuel n then
          chain_head h o (chain_len st0 h o fuel n) :: st.flist i
        else if o + n ≤ i ∧ i < o + chain_len st0 h o fuel n then
          (st.flist i).erase (chain_head h o (i - o) ^^^ 2 ^ i)
        else st.flist i := by
  intro fuel
  induction fuel with
  | zero =>
    intro n st _ i
    show (add_page_to_free_list st _ ZONE_NORMAL _).flist i = _
    rw [add_flist]
    simp only [chain_len]
    by_cases e : i = o + n
    · rw [if_pos e, if_pos e, e]
    · rw [if_neg e, if_neg e, if_neg (by omega)]
  | succ f ih =>
    intro n st hfr i
    have hdn := chain_head_dvd h o hd n
    obtain ⟨b1, b2, b3, b4, b5⟩ := buddy_outside _ _ hdn
    have hpb : page_is_buddy (st.mem_map (chain_head h o n))
        (st.mem_map (__find_buddy_pfn (chain_head h o n) (o + n))) (o + n) =
        mergeable st0 (chain_head h o n ^^^ 2 ^ (o + n)) (o + n) := by
      rw [find_buddy_eq, page_is_buddy_eq_mergeable]
      unfold mergeable
      rw [hfr _ b1]
    by_cases hc : o + n < MAX_ORDER - 1 ∧
        mergeable st0 (chain_head h o n ^^^ 2 ^ (o + n)) (o + n) = true
    · have hL : free_one_loop ZONE_NORMAL (f + 1) (chain_head h o n) (o + n) st =
          free_one_loop ZONE_NORMAL f (chain_head h o (n + 1)) (o + (n + 1))
            (del_page_from_free_list st (chain_head h o n ^^^ 2 ^ (o + n)) ZONE_NORMAL
              (o + n)) := by
        conv_lhs => unfold free_one_loop
        rw [if_pos hc.1]
        dsimp only
        rw [hpb, hc.2]
        simp only [Bool.not_true, Bool.false_eq_true, if_false]
        rw [if_lt_eq_min, find_buddy_eq]
        rfl
      have hN : chain_len st0 h o (f + 1) n = chain_len st0 h o f (n + 1) := by
        conv_lhs => unfold chain_len
        rw [if_pos hc]
      have hge := chain_len_ge st0 h o f (n + 1)
      have hfr1 : ∀ q, ¬ (chain_head h o (n + 1) ≤ q ∧
          q < chain_head h o (n + 1) + 2 ^ (o + (n + 1))) →
          (del_page_from_free_list st (chain_head h o n ^^^ 2 ^ (o + n)) ZONE_NORMAL
            (o + n)).mem_map q = st0.mem_map q := by
        intro q hq
        rw [chain_head_succ, show o + (n + 1) = o + n + 1 from rfl] at hq
        have hpos := Nat.two_pow_pos (o + n)
        rw [del_mem_map, if_neg (fun e => hq (by rw [e]; omega))]
        exact hfr q (fun hc2 => hq (by omega))
      rw [hL, hN, ih (n + 1) _ hfr1 i, del_flist]
      by_cases e1 : i = o + chain_len st0 h o f (n + 1)
      · rw [if_pos e1, if_pos e1, if_neg (by omega)]
      · rw [if_neg e1, if_neg e1]
        by_cases e2 : i = o + n
        · subst e2
          rw [if_neg (by omega), if_pos rfl, if_pos (by omega), Nat.add_sub_cancel_left]
        · rw [if_neg e2]
          by_cases e3 : o + (n + 1) ≤ i ∧ i < o + chain_len st0 h o f (n + 1)
          · rw [if_pos e3, if_pos (by omega)]
          · rw [if_neg e3, if_neg (by omega)]
    · have hL : free_one_loop ZONE_NORMAL (f + 1) (chain_head h o n) (o + n) st =
          add_page_to_free_list st (chain_head h o n) ZONE_NORMAL (o + n) := by
        apply free_one_loop_stop
        intro hlt
        rw [hpb]
        cases hm : mergeable st0 (chain_head h o n ^^^ 2 ^ (o + n)) (o + n) with
        | false => rfl
        | true => exact absurd ⟨hlt, hm⟩ hc
      have hN : chain_len st0 h o (f + 1) n = n := by
        conv_lhs => unfold chain_len
        rw [if_neg hc]
      rw [hL, hN, add_flist]
      by_cases e : i = o + n
      · rw [if_pos e, if_pos e, e]
      · rw [if_neg e, if_neg e, if_neg (by omega)]

/-! ### Release follows the buddy chain -/

theorem free_pages_flist_eq (st : State) (h o : Nat) (ho : o < MAX_ORDER) (i : Nat) :
    (free_pages st (some h) o).flist i =
      (free_one_loop ZONE_NORMAL (MAX_ORDER - 1 - o) h o
        (st.setPage h { st.mem_map h with refcount := 0 })).flist i := by
  unfold free_pages
  dsimp only
  rw [if_neg (by omega)]
  rfl

/-- In every state, `free_pages` of an aligned block removes the buddies of the chain
computed in that state and inserts the last head of the chain. -/
theorem free_pages_chain (st : State) (h o : Nat) (hd : 2 ^ o ∣ h) (ho : o < MAX_ORDER)
    (i : Nat) :
    (free_pages st (some h) o).flist i =
      if i = o + chain_len st h o (MAX_ORDER - 1 - o) 0 then
        chain_head h o (chain_len st h o (MAX_ORDER - 1 - o) 0) :: st.flist i
      else if o ≤ i ∧ i < o + chain_len st h o (MAX_ORDER - 1 - o) 0 then
        (st.flist i).erase (chain_head h o (i - o) ^^^ 2 ^ i)
      else st.flist i := by
  rw [free_pages_flist_eq st h o ho i]
  exact free_one_loop_follows_chain st h o hd (MAX_ORDER - 1 - o) 0
    (st.setPage h { st.mem_map h with refcount := 0 })
    (fun q hq => by
      rw [mem_map_setPage, if_neg (fun e => hq (by
        rw [e]
        have := Nat.two_pow_pos (o + 0)
        exact ⟨Nat.le_refl _, by show h < h + 2 ^ (o + 0); omega⟩))]) i

theorem Reachable.mergeable_free {s : Sys} (hr : Reachable s) {b j : Nat}
    (hm : mergeable s.st b j = true) : s.st.isFree ⟨b, j⟩ := by
  obtain ⟨m1, m2, _⟩ := (mergeable_iff s.st b j).mp hm
  obtain ⟨o1, hf⟩ := (hr.good.1.flags b).mp m1
  have := hr.good.1.order b o1 hf
  rw [m2] at this
  subst this
  exact hf

/-- C21 (release merges along the buddy chain): in a reachable state, for a block with
head `h` aligned to `2^o` released at order `o < MAX_ORDER`, let `n` be the number of
steps of the chain (`chain_len`), with heads `chain_head h o k` and buddies
`chain_head h o k xor 2^(o+k)`.  Then `o + n ≤ MAX_ORDER - 1`; every buddy of a step
`k < n` was mergeable at an order below `MAX_ORDER - 1` and linked on the order-`(o+k)`
list; the chain stops at `MAX_ORDER - 1` or at a buddy that is not mergeable; after
`free_pages` the list of order `o + n` has the head `chain_head h o n` in front, the list
of each order `o + k` with `k < n` has lost the buddy of step `k`, every other list of the
Normal zone is unchanged, and the other zones are unchanged. -/
theorem release_merges_chain (s : Sys) (hr : Reachable s) (h o : Nat) (hd : 2 ^ o ∣ h)
    (ho : o < MAX_ORDER) :
    ∃ n, n = chain_len s.st h o (MAX_ORDER - 1 - o) 0 ∧ o + n ≤ MAX_ORDER - 1 ∧
      (∀ k, k < n → o + k < MAX_ORDER - 1 ∧
        mergeable s.st (chain_head h o k ^^^ 2 ^ (o + k)) (o + k) = true ∧
        (chain_head h o k ^^^ 2 ^ (o + k)) ∈ s.st.flist (o + k)) ∧
      (o + n = MAX_ORDER - 1 ∨
        mergeable s.st (chain_head h o n ^^^ 2 ^ (o + n)) (o + n) = false) ∧
      (∀ i, (free_pages s.st (some h) o).flist i =
        if i = o + n then chain_head h o n :: s.st.flist i
        else if o ≤ i ∧ i < o + n then (s.st.flist i).erase (chain_head h o (i - o) ^^^ 2 ^ i)
        else s.st.flist i) ∧
      (∀ zi, zi ≠ ZONE_NORMAL → (free_pages s.st (some h) o).zone zi = s.st.zone zi) := by
  obtain ⟨c1, c2, c3⟩ := chain_len_spec s.st h o (MAX_ORDER - 1 - o) 0
  refine ⟨_, rfl, by omega, fun k hk => ?_, ?_, fun i => free_pages_chain s.st h o hd ho i,
    fun zi hz => free_pages_zone_other s.st (some h) o zi hz⟩
  · obtain ⟨k1, k2⟩ := c2 k (Nat.zero_le _) hk
    exact ⟨k1, k2, (hr.mergeable_free k2).2⟩
  · rcases c3 with c3 | c3
    · exact Or.inl (by omega)
    · by_cases hlt : o + chain_len s.st h o (MAX_ORDER - 1 - o) 0 < MAX_ORDER - 1
      · right
        cases hm : mergeable s.st (chain_head h o (chain_len s.st h o (MAX_ORDER - 1 - o) 0) ^^^
            2 ^ (o + chain_len s.st h o (MAX_ORDER - 1 - o) 0))
            (o + chain_len s.st h o (MAX_ORDER - 1 - o) 0) with
        | false => rfl
        | true => exact absurd ⟨hlt, hm⟩ c3
      · exact Or.inl (by omega)

theorem release_merges_chain_witness :
    Reachable (Sys.runD [.seed 0 8, .alloc GFP_KERNEL 0]) ∧ 2 ^ 0 ∣ 0 ∧ 0 < MAX_ORDER ∧
    chain_len (Sys.runD [.seed 0 8, .alloc GFP_KERNEL 0]).st 0 0 (MAX_ORDER - 1 - 0) 0 = 3 ∧
    ∃ n, n = chain_len (Sys.runD [.seed 0 8, .alloc GFP_KERNEL 0]).st 0 0 (MAX_ORDER - 1 - 0) 0 ∧
      0 + n ≤ MAX_ORDER - 1 ∧
      (∀ k, k < n → 0 + k < MAX_ORDER - 1 ∧
        mergeable (Sys.runD [.seed 0 8, .alloc GFP_KERNEL 0]).st
          (chain_head 0 0 k ^^^ 2 ^ (0 + k)) (0 + k) = true ∧
        (chain_head 0 0 k ^^^ 2 ^ (0 + k)) ∈
          (Sys.runD [.seed 0 8, .alloc GFP_KERNEL 0]).st.flist (0 + k)) ∧
      (0 + n = MAX_ORDER - 1 ∨
        mergeable (Sys.runD [.seed 0 8, .alloc GFP_KERNEL 0]).st
          (chain_head 0 0 n ^^^ 2 ^ (0 + n)) (0 + n) = false) ∧
      (∀ i, (free_pages (Sys.runD [.seed 0 8, .alloc GFP_KERNEL 0]).st (some 0) 0).flist i =
        if i = 0 + n then
          chain_head 0 0 n :: (Sys.runD [.seed 0 8, .alloc GFP_KERNEL 0]).st.flist i
        else if 0 ≤ i ∧ i < 0 + n then
          ((Sys.runD [.seed 0 8, .alloc GFP_KERNEL 0]).st.flist i).erase
            (chain_head 0 0 (i - 0) ^^^ 2 ^ i)
        else (Sys.runD [.seed 0 8, .alloc GFP_KERNEL 0]).st.flist i) ∧
      (∀ zi, zi ≠ ZONE_NORMAL →
        (free_pages (Sys.runD [.seed 0 8, .alloc GFP_KERNEL 0]).st (some 0) 0).zone zi =
          (Sys.runD [.seed 0 8, .alloc GFP_KERNEL 0]).st.zone zi) :=
  ⟨reachable_runD _ (by decide), by decide, by decide, by decide,
    release_merges_chain _ (reachable_runD _ (by decide)) 0 0 (by decide) (by decide)⟩

/-! ### The descriptors accessed by a release -/

theorem list_next_mem (x y : Nat) : ∀ l : List Nat, list_next x l = some y → y ∈ l := by
  intro l
  induction l with
  | nil => intro h; exact absurd h (by simp [list_next])
  | cons a l ih =>
    intro h
    unfold list_next at h
    split at h
    · exact List.mem_cons_of_mem _ (List.mem_of_mem_head? h)
    · exact List.mem_cons_of_mem _ (ih h)

theorem list_prev_mem (x y : Nat) : ∀ l : List Nat, list_prev x l = some y → y ∈ l := by
  intro l
  induction l with
  | nil => intro h; exact absurd h (by simp [list_prev])
  | cons a l ih =>
    intro h
    unfold list_prev at h
    split at h
    · exact absurd h (by simp)
    · split at h
      · simp only [Option.some.injEq] at h
        rw [← h]
        exact List.mem_cons_self _ _
      · exact List.mem_cons_of_mem _ (ih h)

theorem list_del_trace_desc (l : List Nat) (pfn zone order q : Nat)
    (h : Ev.desc q ∈ list_del_trace l pfn zone order) : q ∈ l := by
  unfold list_del_trace at h
  split at h
  · simp only [List.mem_cons, List.not_mem_nil, reduceCtorEq, or_self] at h
  · rename_i hn hp
    simp only [List.mem_cons, Ev.desc.injEq, List.not_mem_nil, reduceCtorEq, false_or,
      or_false] at h
    rw [h]
    exact list_prev_mem _ _ _ hp
  · rename_i hn hp
    simp only [List.mem_cons, Ev.desc.injEq, List.not_mem_nil, reduceCtorEq, or_false] at h
    rw [h]
    exact list_next_mem _ _ _ hn
  · rename_i hn hp
    simp only [List.mem_cons, Ev.desc.injEq, List.not_mem_nil, or_false] at h
    rcases h with h | h
    · rw [h]
      exact list_next_mem _ _ _ hn
    · rw [h]
      exact list_prev_mem _ _ _ hp

theorem list_add_trace_desc (l : List Nat) (zone order q : Nat)
    (h : Ev.desc q ∈ list_add_trace l zone order) : q ∈ l := by
  unfold list_add_trace at h
  split at h
  · simp only [List.mem_cons, List.not_mem_nil, reduceCtorEq, or_self] at h
  · rename_i hf
    simp only [List.mem_cons, Ev.desc.injEq, List.not_mem_nil, reduceCtorEq, false_or,
      or_false] at h
    rw [h]
    exact List.mem_of_mem_head? hf

/-- The descriptors accessed by `add_page_to_free_list`: the new entry and the former
first entry of the list. -/
theorem add_trace_desc (st : State) (p j q : Nat)
    (h : Ev.desc q ∈ add_page_to_free_list_trace st p ZONE_NORMAL j) :
    q = p ∨ q ∈ st.flist j := by
  unfold add_page_to_free_list_trace at h
  rcases List.mem_append.mp h with h | h
  · exact Or.inr (list_add_trace_desc _ _ _ q h)
  · simp only [List.mem_cons, Ev.desc.injEq, List.not_mem_nil, reduceCtorEq, false_or,
      or_false, or_self] at h
    exact Or.inl h

/-- The descriptors accessed by `del_page_from_free_list`: the entry and its list
neighbours. -/
theorem del_trace_desc (st : State) (p j q : Nat)
    (h : Ev.desc q ∈ del_page_from_free_list_trace st p ZONE_NORMAL j) :
    q = p ∨ q ∈ st.flist j := by
  unfold del_page_from_free_list_trace at h
  rcases List.mem_append.mp h with h | h
  · exact Or.inr (list_del_trace_desc _ _ _ _ q h)
  · simp only [List.mem_cons, Ev.desc.injEq, List.not_mem_nil, reduceCtorEq, false_or,
      or_false, or_self] at h
    exact Or.inl h

/-- Flipping a bit below `MAX_ORDER - 1` keeps the frame inside its window of
`2^(MAX_ORDER-1)` frames. -/
theorem xor_pow_window (p j : Nat) (hj : j < MAX_ORDER - 1) :
    (p ^^^ 2 ^ j) / 2 ^ (MAX_ORDER - 1) = p / 2 ^ (MAX_ORDER - 1) := by
  rw [← Nat.shiftRight_eq_div_pow, ← Nat.shiftRight_eq_div_pow]
  apply Nat.eq_of_testBit_eq
  intro i
  rw [Nat.testBit_shiftRight, Nat.testBit_shiftRight, Nat.testBit_xor,
    Nat.testBit_two_pow_of_ne (by omega), Bool.xor_false]

theorem chain_head_window (h o : Nat) :
    ∀ n, o + n ≤ MAX_ORDER - 1 →
      chain_head h o n / 2 ^ (MAX_ORDER - 1) = h / 2 ^ (MAX_ORDER - 1) := by
  intro n
  induction n with
  | zero => intro _; rfl
  | succ n ih =>
    intro hn
    rw [chain_head_succ, Nat.min_def]
    split
    · exact ih (by omega)
    · rw [xor_pow_window _ _ (by omega)]
      exact ih (by omega)

/-- The descriptors accessed by the merge loop of `__free_one_page`, along the buddy chain
computed in the state `st0` of the call: heads of the chain, buddies the loop merges
with, the buddy at which the loop stops, and entries of the free lists of `st0`. -/
theorem free_one_trace_desc (st0 : State) (h o : Nat) (hd : 2 ^ o ∣ h) :
    ∀ (fuel n : Nat) (st : State),
      (∀ q, ¬ (chain_head h o n ≤ q ∧ q < chain_head h o n + 2 ^ (o + n)) →
        st.mem_map q = st0.mem_map q) →
      (∀ i x, x ∈ st.flist i → x ∈ st0.flist i) →
      ∀ q, Ev.desc q ∈ free_one_trace ZONE_NORMAL fuel (chain_head h o n) (o + n) st →
        (∃ k, k ≤ chain_len st0 h o fuel n ∧ q = chain_head h o k) ∨
        (∃ k, k < chain_len st0 h o fuel n ∧ q = chain_head h o k ^^^ 2 ^ (o + k)) ∨
        (o + chain_len st0 h o fuel n < MAX_ORDER - 1 ∧
          q = chain_head h o (chain_len st0 h o fuel n) ^^^
            2 ^ (o + chain_len st0 h o fuel n) ∧
          mergeable st0 q (o + chain_len st0 h o fuel n) = false) ∨
        (∃ i, i ≤ o + chain_len st0 h o fuel n ∧ q ∈ st0.flist i) := by
  intro fuel
  induction fuel with
  | zero =>
    intro n st _ hsub q hq
    simp only [chain_len]
    rcases add_trace_desc st _ _ q hq with e | e
    · exact Or.inl ⟨n, Nat.le_refl _, e⟩
    · exact Or.inr (Or.inr (Or.inr ⟨o + n, Nat.le_refl _, hsub _ _ e⟩))
  | succ f ih =>
    intro n st hfr hsub q hq
    have hdn := chain_head_dvd h o hd n
    obtain ⟨b1, b2, b3, b4, b5⟩ := buddy_outside _ _ hdn
    have hpb : page_is_buddy (st.mem_map (chain_head h o n))
        (st.mem_map (__find_buddy_pfn (chain_head h o n) (o + n))) (o + n) =
        mergeable st0 (chain_head h o n ^^^ 2 ^ (o + n)) (o + n) := by
      rw [find_buddy_eq, page_is_buddy_eq_mergeable]
      unfold mergeable
      rw [hfr _ b1]
    have hstop : chain_len st0 h o (f + 1) n = n →
        Ev.desc q ∈ add_page_to_free_list_trace st (chain_head h o n) ZONE_NORMAL (o + n) →
        (∃ k, k ≤ chain_len st0 h o (f + 1) n ∧ q = chain_head h o k) ∨
        (∃ k, k < chain_len st0 h o (f + 1) n ∧ q = chain_head h o k ^^^ 2 ^ (o + k)) ∨
        (o + chain_len st0 h o (f + 1) n < MAX_ORDER - 1 ∧
          q = chain_head h o (chain_len st0 h o (f + 1) n) ^^^
            2 ^ (o + chain_len st0 h o (f + 1) n) ∧
          mergeable st0 q (o + chain_len st0 h o (f + 1) n) = false) ∨
        (∃ i, i ≤ o + chain_len st0 h o (f + 1) n ∧ q ∈ st0.flist i) := by
      intro hN ha
      rw [hN]
      rcases add_trace_desc st _ _ q ha with e | e
      · exact Or.inl ⟨n, Nat.le_refl _, e⟩
      · exact Or.inr (Or.inr (Or.inr ⟨o + n, Nat.le_refl _, hsub _ _ e⟩))
    unfold free_one_trace at hq
    by_cases hj : o + n < MAX_ORDER - 1
    · rw [if_pos hj] at hq
      dsimp only at hq
      rw [hpb, find_buddy_eq] at hq
      cases hm : mergeable st0 (chain_head h o n ^^^ 2 ^ (o + n)) (o + n) with
      | false =>
        have hN : chain_len st0 h o (f + 1) n = n := by
          conv_lhs => unfold chain_len
          rw [if_neg (fun hc => by rw [hm] at hc; exact absurd hc.2 (by simp))]
        rw [hm] at hq
        simp only [Bool.not_false, if_true] at hq
        rcases List.mem_cons.mp hq with e | hq
        · simp only [Ev.desc.injEq] at e
          rw [hN]
          refine Or.inr (Or.inr (Or.inl ⟨hj, e, ?_⟩))
          rw [e]
          exact hm
        · exact hstop hN hq
      | true =>
        have hN : chain_len st0 h o (f + 1) n = chain_len st0 h o f (n + 1) := by
          conv_lhs => unfold chain_len
          rw [if_pos ⟨hj, hm⟩]
        have hge := chain_len_ge st0 h o f (n + 1)
        rw [hm] at hq
        simp only [Bool.not_true, Bool.false_eq_true, if_false] at hq
        rw [hN]
        rcases List.mem_cons.mp hq with e | hq
        · simp only [Ev.desc.injEq] at e
          exact Or.inr (Or.inl ⟨n, by omega, e⟩)
        · rcases List.mem_append.mp hq with hq | hq
          · rcases del_trace_desc st _ _ q hq with e | e
            · exact Or.inr (Or.inl ⟨n, by omega, e⟩)
            · exact Or.inr (Or.inr (Or.inr ⟨o + n, by omega, hsub _ _ e⟩))
          · rw [if_lt_eq_min, ← chain_head_succ] at hq
            have hfr1 : ∀ x, ¬ (chain_head h o (n + 1) ≤ x ∧
                x < chain_head h o (n + 1) + 2 ^ (o + (n + 1))) →
                (del_page_from_free_list st (chain_head h o n ^^^ 2 ^ (o + n)) ZONE_NORMAL
                  (o + n)).mem_map x = st0.mem_map x := by
              intro x hx
              rw [chain_head_succ, show o + (n + 1) = o + n + 1 from rfl] at hx
              have hpos := Nat.two_pow_pos (o + n)
              rw [del_mem_map, if_neg (fun e => hx (by rw [e]; omega))]
              exact hfr x (fun hc2 => hx (by omega))
            have hsub1 : ∀ i x,
                x ∈ (del_page_from_free_list st (chain_head h o n ^^^ 2 ^ (o + n)) ZONE_NORMAL
                  (o + n)).flist i → x ∈ st0.flist i := by
              intro i x hx
              rw [del_flist] at hx
              split at hx
              · rename_i e
                rw [e]
                exact hsub _ _ (List.mem_of_mem_erase hx)
              · exact hsub _ _ hx
            exact ih (n + 1) _ hfr1 hsub1 q hq
    · rw [if_neg hj] at hq
      have hN : chain_len st0 h o (f + 1) n = n := by
        conv_lhs => unfold chain_len
        rw [if_neg (fun hc => hj hc.1)]
      exact hstop hN hq

/-- Every frame of a head of the chain of a released block is seeded: the block is, and
so is every buddy the chain merges with. -/
theorem Reachable.chain_seeded {s : Sys} (hr : Reachable s) {h o : Nat}
    (hl : (⟨h, o⟩ : Block) ∈ s.live) :
    ∀ n, n ≤ chain_len s.st h o (MAX_ORDER - 1 - o) 0 →
      ∀ f, inBlock f ⟨chain_head h o n, o + n⟩ → s.isSeeded f := by
  have hd : 2 ^ o ∣ h := (hr.good.1.wf ⟨h, o⟩ (Or.inr hl)).2
  obtain ⟨_, c2, _⟩ := chain_len_spec s.st h o (MAX_ORDER - 1 - o) 0
  intro n
  induction n with
  | zero =>
    intro _ f hf
    exact (hr.good.1.cover f).mpr ⟨⟨h, o⟩, Or.inr hl, hf⟩
  | succ n ih =>
    intro hn f hf
    obtain ⟨_, k2⟩ := c2 n (Nat.zero_le _) (by omega)
    have hfree := hr.mergeable_free k2
    obtain ⟨b1, b2, b3, b4, b5⟩ := buddy_outside _ _ (chain_head_dvd h o hd n)
    have hpow : 2 ^ (o + n + 1) = 2 ^ (o + n) + 2 ^ (o + n) := by rw [pow_succ]; omega
    unfold inBlock at hf
    rw [chain_head_succ] at hf
    dsimp only at hf
    rw [show o + (n + 1) = o + n + 1 from rfl] at hf
    by_cases hin : chain_head h o n ≤ f ∧ f < chain_head h o n + 2 ^ (o + n)
    · exact ih (by omega) f hin
    · refine hr.good.1.free_seeded hfree (show _ ∧ _ from ?_)
      dsimp only
      rcases buddy_cases _ _ (chain_head_dvd h o hd n) with ⟨_, e⟩ | ⟨_, e⟩
      · rw [Nat.min_eq_left (by omega)] at hf
        omega
      · rw [Nat.min_eq_right (by omega)] at hf
        omega

/-- The descriptors accessed by `free_pages` of an allocated block in a reachable state
belong to seeded frames, except for the buddy at which the merge loop stops. -/
theorem Reachable.release_desc {s : Sys} (hr : Reachable s) {h o : Nat}
    (hl : (⟨h, o⟩ : Block) ∈ s.live) (q : Nat)
    (hq : Ev.desc q ∈ free_pages_trace s.st (some h) o) :
    s.isSeeded q ∨
    (o + chain_len s.st h o (MAX_ORDER - 1 - o) 0 < MAX_ORDER - 1 ∧
      q = chain_head h o (chain_len s.st h o (MAX_ORDER - 1 - o) 0) ^^^
        2 ^ (o + chain_len s.st h o (MAX_ORDER - 1 - o) 0) ∧
      mergeable s.st q (o + chain_len s.st h o (MAX_ORDER - 1 - o) 0) = false) := by
  obtain ⟨ho, hd⟩ := hr.good.1.wf ⟨h, o⟩ (Or.inr hl)
  dsimp only at ho hd
  obtain ⟨c1, c2, _⟩ := chain_len_spec s.st h o (MAX_ORDER - 1 - o) 0
  have hhead : ∀ k, k ≤ chain_len s.st h o (MAX_ORDER - 1 - o) 0 →
      s.isSeeded (chain_head h o k) := fun k hk =>
    hr.chain_seeded hl k hk _ (inBlock_head _ _)
  unfold free_pages_trace at hq
  dsimp only at hq
  rw [if_neg (by omega)] at hq
  rcases List.mem_append.mp hq with hq | hq
  · rcases List.mem_append.mp hq with hq | hq
    · simp only [List.mem_cons, Ev.desc.injEq, List.not_mem_nil, reduceCtorEq, false_or,
        or_false] at hq
      rw [hq]
      exact Or.inl (hhead 0 (Nat.zero_le _))
    · have hfr : ∀ x, ¬ (chain_head h o 0 ≤ x ∧ x < chain_head h o 0 + 2 ^ (o + 0)) →
          (s.st.setPage h { s.st.mem_map h with refcount := 0 }).mem_map x =
            s.st.mem_map x := by
        intro x hx
        have := Nat.two_pow_pos (o + 0)
        rw [mem_map_setPage, if_neg (fun e => hx (by
          rw [e]
          exact ⟨Nat.le_refl _, by show h < h + 2 ^ (o + 0); omega⟩))]
      rcases free_one_trace_desc s.st h o hd (MAX_ORDER - 1 - o) 0 _ hfr
        (fun i x hx => hx) q hq with ⟨k, hk, e⟩ | ⟨k, hk, e⟩ | e | ⟨i, hi, e⟩
      · rw [e]
        exact Or.inl (hhead k hk)
      · rw [e]
        have hfree := hr.mergeable_free (c2 k (Nat.zero_le _) hk).2
        exact Or.inl (hr.good.1.free_seeded hfree (inBlock_head _ _))
      · exact Or.inr e
      · have hfree : s.st.isFree ⟨q, i⟩ := ⟨show i < MAX_ORDER by omega, e⟩
        exact Or.inl (hr.good.1.free_seeded hfree (inBlock_head _ _))
  · simp only [List.mem_cons, List.not_mem_nil, reduceCtorEq, or_self] at hq

/-- C28, refutation: after seeding `[0, 2)` and allocating frame `0`, the release of frame
`0` merges it with frame `1` and then reads the descriptor of frame `2`, the buddy of
the order-1 block, which lies outside the seeded range. -/
theorem coalescing_span_counterexample :
    (Sys.init.run [.seed 0 2, .alloc GFP_KERNEL 0]).isSome = true ∧
    (Sys.runD [.seed 0 2, .alloc GFP_KERNEL 0]).live = [⟨0, 0⟩] ∧
    (Sys.runD [.seed 0 2, .alloc GFP_KERNEL 0]).seeded = [(0, 2)] ∧
    Ev.desc 2 ∈ free_pages_trace (Sys.runD [.seed 0 2, .alloc GFP_KERNEL 0]).st (some 0) 0 ∧
    free_one_trace ZONE_NORMAL 1 0 1
        (del_page_from_free_list (Sys.runD [.seed 0 2, .alloc GFP_KERNEL 0]).st 1
          ZONE_NORMAL 0) =
      Ev.desc (__find_buddy_pfn 0 1) ::
        add_page_to_free_list_trace
          (del_page_from_free_list (Sys.runD [.seed 0 2, .alloc GFP_KERNEL 0]).st 1
            ZONE_NORMAL 0) 0 ZONE_NORMAL 1 ∧
    __find_buddy_pfn 0 1 = 2 ∧
    ¬ ∃ r, r ∈ (Sys.runD [.seed 0 2, .alloc GFP_KERNEL 0]).seeded ∧ r.1 ≤ 2 ∧ 2 < r.2 := by
  decide

set_option maxRecDepth 8000 in
/-- The list operations of a release write into descriptors far from the block: after
seeding `[0, 4096)` and two order-10 allocations (frames `3072` and `2048`), the release
of frame `3072` links it in front of frame `1024`, and `list_add` writes the descriptor
of frame `1024`, which is seeded and lies in another window of `2^(MAX_ORDER-1)` frames. -/
theorem release_writes_list_neighbour :
    (Sys.init.run [.seed 0 4096, .alloc GFP_KERNEL 10, .alloc GFP_KERNEL 10]).isSome = true ∧
    (Sys.runD [.seed 0 4096, .alloc GFP_KERNEL 10, .alloc GFP_KERNEL 10]).live =
      [⟨2048, 10⟩, ⟨3072, 10⟩] ∧
    (Sys.runD [.seed 0 4096, .alloc GFP_KERNEL 10, .alloc GFP_KERNEL 10]).st.flist 10 =
      [1024, 0] ∧
    free_pages_trace (Sys.runD [.seed 0 4096, .alloc GFP_KERNEL 10, .alloc GFP_KERNEL 10]).st
        (some 3072) 10 =
      [.irq_save, .spin_lock, .desc 3072, .area 1 10, .desc 1024, .desc 3072, .desc 3072,
        .area 1 10, .zstat 1, .zstat 1, .stat, .stat, .spin_unlock, .irq_restore] ∧
    1024 / 2 ^ (MAX_ORDER - 1) ≠ 3072 / 2 ^ (MAX_ORDER - 1) := by
  decide

/-- C28 (amended): for every `free_pages` call on an allocated block in a reachable
state, every descriptor the call accesses belongs to a seeded frame, except for the buddy
at which the merge loop stops below the top order: `page_is_buddy` reads its descriptor
and finds it not mergeable, and it lies in the window of `2^(MAX_ORDER-1)` frames that
holds the block.  Every buddy the loop merges with is a free block whose frames are all
seeded, and every frame of the merged block is seeded. -/
theorem release_accesses (s : Sys) (hr : Reachable s) (h o : Nat)
    (hl : (⟨h, o⟩ : Block) ∈ s.live) :
    (∀ q, Ev.desc q ∈ free_pages_trace s.st (some h) o →
      s.isSeeded q ∨
      (o + chain_len s.st h o (MAX_ORDER - 1 - o) 0 < MAX_ORDER - 1 ∧
        q = chain_head h o (chain_len s.st h o (MAX_ORDER - 1 - o) 0) ^^^
          2 ^ (o + chain_len s.st h o (MAX_ORDER - 1 - o) 0) ∧
        mergeable s.st q (o + chain_len s.st h o (MAX_ORDER - 1 - o) 0) = false ∧
        q / 2 ^ (MAX_ORDER - 1) = h / 2 ^ (MAX_ORDER - 1))) ∧
    (∀ k, k < chain_len s.st h o (MAX_ORDER - 1 - o) 0 →
      s.st.isFree ⟨chain_head h o k ^^^ 2 ^ (o + k), o + k⟩ ∧
      ∀ f, inBlock f ⟨chain_head h o k ^^^ 2 ^ (o + k), o + k⟩ → s.isSeeded f) ∧
    (∀ f, inBlock f ⟨chain_head h o (chain_len s.st h o (MAX_ORDER - 1 - o) 0),
        o + chain_len s.st h o (MAX_ORDER - 1 - o) 0⟩ → s.isSeeded f) := by
  refine ⟨fun q hq => ?_, fun k hk => ?_, hr.chain_seeded hl _ (Nat.le_refl _)⟩
  · rcases hr.release_desc hl q hq with e | ⟨e1, e2, e3⟩
    · exact Or.inl e
    · refine Or.inr ⟨e1, e2, e3, ?_⟩
      rw [e2, xor_pow_window _ _ e1]
      exact chain_head_window h o _ (by omega)
  · obtain ⟨_, c2, _⟩ := chain_len_spec s.st h o (MAX_ORDER - 1 - o) 0
    have hfree := hr.mergeable_free (c2 k (Nat.zero_le _) hk).2
    exact ⟨hfree, fun f hf => hr.good.1.free_seeded hfree hf⟩

theorem release_accesses_witness :
    Reachable (Sys.runD [.seed 0 8, .alloc GFP_KERNEL 0]) ∧
    (⟨0, 0⟩ : Block) ∈ (Sys.runD [.seed 0 8, .alloc GFP_KERNEL 0]).live ∧
    chain_len (Sys.runD [.seed 0 8, .alloc GFP_KERNEL 0]).st 0 0 (MAX_ORDER - 1 - 0) 0 = 3 ∧
    Ev.desc 8 ∈ free_pages_trace (Sys.runD [.seed 0 8, .alloc GFP_KERNEL 0]).st (some 0) 0 ∧
    ((∀ q, Ev.desc q ∈ free_pages_trace (Sys.runD [.seed 0 8, .alloc GFP_KERNEL 0]).st
        (some 0) 0 →
      (Sys.runD [.seed 0 8, .alloc GFP_KERNEL 0]).isSeeded q ∨
      (0 + chain_len (Sys.runD [.seed 0 8, .alloc GFP_KERNEL 0]).st 0 0
          (MAX_ORDER - 1 - 0) 0 < MAX_ORDER - 1 ∧
        q = chain_head 0 0 (chain_len (Sys.runD [.seed 0 8, .alloc GFP_KERNEL 0]).st 0 0
            (MAX_ORDER - 1 - 0) 0) ^^^
          2 ^ (0 + chain_len (Sys.runD [.seed 0 8, .alloc GFP_KERNEL 0]).st 0 0
            (MAX_ORDER - 1 - 0) 0) ∧
        mergeable (Sys.runD [.seed 0 8, .alloc GFP_KERNEL 0]).st q
          (0 + chain_len (Sys.runD [.seed 0 8, .alloc GFP_KERNEL 0]).st 0 0
            (MAX_ORDER - 1 - 0) 0) = false ∧
        q / 2 ^ (MAX_ORDER - 1) = 0 / 2 ^ (MAX_ORDER - 1))) ∧
    (∀ k, k < chain_len (Sys.runD [.seed 0 8, .alloc GFP_KERNEL 0]).st 0 0
        (MAX_ORDER - 1 - 0) 0 →
      (Sys.runD [.seed 0 8, .alloc GFP_KERNEL 0]).st.isFree
        ⟨chain_head 0 0 k ^^^ 2 ^ (0 + k), 0 + k⟩ ∧
      ∀ f, inBlock f ⟨chain_head 0 0 k ^^^ 2 ^ (0 + k), 0 + k⟩ →
        (Sys.runD [.seed 0 8, .alloc GFP_KERNEL 0]).isSeeded f) ∧
    (∀ f, inBlock f ⟨chain_head 0 0
        (chain_len (Sys.runD [.seed 0 8, .alloc GFP_KERNEL 0]).st 0 0 (MAX_ORDER - 1 - 0) 0),
        0 + chain_len (Sys.runD [.seed 0 8, .alloc GFP_KERNEL 0]).st 0 0
          (MAX_ORDER - 1 - 0) 0⟩ →
      (Sys.runD [.seed 0 8, .alloc GFP_KERNEL 0]).isSeeded f)) :=
  ⟨reachable_runD _ (by decide), by decide, by decide, by decide,
    release_accesses _ (reachable_runD _ (by decide)) 0 0 (by decide)⟩

end MiniKernel
